import Mathlib

/-!
# VegaFEM `SparseMatrix` (libraries/sparseMatrix/sparseMatrix.cpp)

A shallow embedding of the row-sparse matrix engine.

* `double` values are modelled by `ℚ` (exact arithmetic; every finite double is rational).
* The two parallel vectors `columnIndices[i]` / `columnEntries[i]` of a row are kept as one
  list of `(columnIndex, value)` pairs: every routine of the source reads and writes the two
  vectors in lockstep, at the same position.
* Stored column indices of the data model (`columnIndex: int ≥0`) and loop counters are
  `Nat`; `int` arguments that a caller may pass with any sign (removal lists, row arguments)
  are `Int`. `SetRows`, `RemoveColumn` (and with it `RemoveColumnsSlow`) and `InsertNewEntry`
  store a column index below zero when their `int` arguments ask for one: the structural
  mutations are therefore given on `SignedMatrix`, whose stored column indices are `Int`.
  On a matrix of the data model and non-negative arguments they do what the models with
  `Nat` columns do.
* Undefined behaviour of the source (reading or writing past the end of a vector or buffer,
  dereferencing the null `superMatrixLinkage`, a failing `assert`) is an explicit `Fault`.
* A `shared_ptr<SparseMatrix>` is a handle, a position in the list of the matrices alive. The
  routines of the linkage graph, whose contract says what a failing call leaves behind,
  return the matrix (or the matrices) as the call leaves them together with the outcome.
* An array of the caller is a list of its length; a pointer that the source tests against
  `NULL` is an `Option`. A routine that fills an array returns the array as it leaves it.
* A division by a stored `0` (the relaxation sweep) has no value in `ℚ`, where the source
  stores an IEEE infinity or NaN: the sweep reports it as an outcome of its own.
-/

namespace VegaFEM

/-! ## Data model -/

/-- Ways in which a call of the source aborts instead of returning. -/
inductive Fault where
  | assertion
  | outOfBounds
  | nullPointer
  deriving DecidableEq, Repr

/-- Modelled from the spec: the index remapper of a linkage (sparseMatrixIndexRemapper.h is
not among the sources; the spec names it an external collaborator that "must support
`removeSuperRowFromSubMatrix(index)`, `removeSuperColumnFromSubMatrix(index)`,
`onEntryWasInsertedIntoSuperMatrix(row, column)`"). Only the calls made on it are recorded. -/
inductive RemapperCall where
  | RemoveSuperRowFromSubMatrix (index : Int)
  | RemoveSuperColumnFromSubMatrix (index : Int)
  | OnEntryWasInsertedIntoSuperMatrix (row : Int) (denseColumn : Int)
  deriving DecidableEq, Repr

/-- Modelled from the spec: a linkage (sparseSubMatrixLinkage.h is not among the sources),
the edge super→sub that "holds shared access to both endpoints, a row/column offset ... and
an index-remapping table". Matrices are named by handles; `indexRemapper` is the log of the
calls its remapper has received, oldest first. -/
structure SparseSubMatrixLinkage where
  superMatrix : Nat
  subMatrix : Nat
  denseRowColumnOffset : Int
  indexRemapper : List RemapperCall
  deriving DecidableEq, Repr

/-- One row: the zipped `columnIndices[i]` and `columnEntries[i]`. -/
abbrev Row := List (Nat × ℚ)

/-- The members of `class SparseMatrix` that sparseMatrix.cpp reads and writes (`Allocate`,
the constructors and the destructor name them; the class itself is declared in
sparseMatrix.h). -/
structure SparseMatrix where
  rows : List Row
  diagonalIndices : List Int := []
  transposedIndices : List (List Int) := []
  subMatrixLinkages : List SparseSubMatrixLinkage := []
  superMatrixLinkage : Option SparseSubMatrixLinkage := none
  deriving DecidableEq, Repr

/-- Modelled from the spec: `GetNumRows()` is declared in sparseMatrix.h, which is not among
the sources; it is the `rowCount` of the data model, the size of the row vectors that
`Allocate` and the removals resize. -/
def SparseMatrix.GetNumRows (m : SparseMatrix) : Nat := m.rows.length

/-- Modelled from the spec: `GetRowLength(i)` is declared in sparseMatrix.h, which is not
among the sources; it is `rowLength(i)` of the spec, the size of the vectors of row `i`
(what `resize`, `erase` and `insert` change). A row that does not exist has no length. -/
def SparseMatrix.GetRowLength (m : SparseMatrix) (i : Nat) : Except Fault Nat :=
  match m.rows[i]? with
  | some row => .ok row.length
  | none => .error .outOfBounds

/-- The inner loop of `GetNumColumns`: `numColumns = max(columnIndices[i][j], numColumns)`,
with `numColumns` kept one higher so that the initial `-1` is `0`. -/
def numColumnsRow : Row → Nat → Nat
  | [], numColumns => numColumns
  | (c, _) :: rest, numColumns => numColumnsRow rest (max (c + 1) numColumns)

/-- Source `GetNumColumns()`: one more than the largest stored column index, `0` without entries. -/
def SparseMatrix.GetNumColumns (m : SparseMatrix) : Nat :=
  m.rows.foldl (fun numColumns row => numColumnsRow row numColumns) 0

/-! ## Products with vectors -/

/-- The inner loop of `MultiplyVector`: `result[i] += vector[columnIndices[i][j]] *
columnEntries[i][j]`. -/
def multiplyRow (vector : List ℚ) : Row → ℚ → Except Fault ℚ
  | [], acc => .ok acc
  | (c, a) :: rest, acc =>
    match vector[c]? with
    | some v => multiplyRow vector rest (acc + v * a)
    | none => .error .outOfBounds

/-- The row loop of `MultiplyVector`. -/
def multiplyRows (vector : List ℚ) : List Row → Except Fault (List ℚ)
  | [] => .ok []
  | row :: rows =>
    match multiplyRow vector row 0 with
    | .ok r =>
      match multiplyRows vector rows with
      | .ok rs => .ok (r :: rs)
      | .error f => .error f
    | .error f => .error f

/-- Source `MultiplyVector(vector, result)`: the returned list is what is written to `result[0..n)`. -/
def SparseMatrix.MultiplyVector (m : SparseMatrix) (vector : List ℚ) : Except Fault (List ℚ) :=
  multiplyRows vector m.rows

/-- The inner loop of `TransposeMultiplyVector` for row `i`:
`result[columnIndices[i][j]] += vector[i] * columnEntries[i][j]`. -/
def transposeMultiplyRow (vector : List ℚ) (i : Nat) : Row → List ℚ → Except Fault (List ℚ)
  | [], result => .ok result
  | (c, a) :: rest, result =>
    match vector[i]?, result[c]? with
    | some v, some old => transposeMultiplyRow vector i rest (result.set c (old + v * a))
    | _, _ => .error .outOfBounds

/-- The row loop of `TransposeMultiplyVector`, `i` being the index of the first row left. -/
def transposeMultiplyRows (vector : List ℚ) : Nat → List Row → List ℚ → Except Fault (List ℚ)
  | _, [], result => .ok result
  | i, row :: rows, result =>
    match transposeMultiplyRow vector i row result with
    | .ok result1 => transposeMultiplyRows vector (i + 1) rows result1
    | .error f => .error f

/-- Source `TransposeMultiplyVector(vector, resultLength, result)`: `result` is a buffer of
`resultLength` entries, zeroed first. -/
def SparseMatrix.TransposeMultiplyVector (m : SparseMatrix) (vector : List ℚ)
    (resultLength : Nat) : Except Fault (List ℚ) :=
  transposeMultiplyRows vector 0 m.rows (List.replicate resultLength 0)

/-- Dot product of two vectors. -/
def dot : List ℚ → List ℚ → ℚ
  | a :: as, b :: bs => a * b + dot as bs
  | _, _ => 0

/-- Every stored column index of the rows is below `n`. -/
def ColumnsBelow (n : Nat) (rows : List Row) : Prop :=
  ∀ row ∈ rows, ∀ e ∈ row, e.1 < n

/-! ## Products with dense matrices -/

/-- Writing `values` to `buffer[offset ..]`, as `MultiplyVector` does through the pointer
`&result[offset]`. -/
def writeAt (buffer : List ℚ) (offset : Nat) (values : List ℚ) : Except Fault (List ℚ) :=
  if offset + values.length ≤ buffer.length then
    .ok (buffer.take offset ++ values ++ buffer.drop (offset + values.length))
  else .error .outOfBounds

/-- The column loop of `MultiplyMatrix`, `count` rounds from `column`:
`MultiplyVector(&denseMatrix[numDenseRows * column], &result[GetNumRows() * column])`. -/
def multiplyMatrixLoop (m : SparseMatrix) (numDenseRows : Nat) (denseMatrix : List ℚ) :
    Nat → Nat → List ℚ → Except Fault (List ℚ)
  | 0, _, result => .ok result
  | count + 1, column, result =>
    match m.MultiplyVector (denseMatrix.drop (numDenseRows * column)) with
    | .ok values =>
      match writeAt result (m.GetNumRows * column) values with
      | .ok result1 => multiplyMatrixLoop m numDenseRows denseMatrix count (column + 1) result1
      | .error f => .error f
    | .error f => .error f

/-- Source `MultiplyMatrix(numDenseRows, numDenseColumns, denseMatrix, result)`. -/
def SparseMatrix.MultiplyMatrix (m : SparseMatrix) (numDenseRows numDenseColumns : Nat)
    (denseMatrix result : List ℚ) : Except Fault (List ℚ) :=
  multiplyMatrixLoop m numDenseRows denseMatrix numDenseColumns 0 result

/-! ## Elimination of rows and columns -/

/-- Source `superMatrixLinkage->GetIndexRemapper().call(...)`: the linkage pointer is dereferenced
without a check. -/
def SparseMatrix.notifySuper (m : SparseMatrix) (call : RemapperCall) :
    Except Fault SparseMatrix :=
  match m.superMatrixLinkage with
  | some l =>
    .ok { m with superMatrixLinkage := some { l with indexRemapper := l.indexRemapper ++ [call] } }
  | none => .error .nullPointer

/-- A sequence of remapper calls on the super-matrix linkage, in order. -/
def SparseMatrix.notifySuperAll (m : SparseMatrix) : List RemapperCall → Except Fault SparseMatrix
  | [] => .ok m
  | call :: calls =>
    match m.notifySuper call with
    | .ok m1 => m1.notifySuperAll calls
    | .error f => .error f

/-- Source `RemoveRow(index)`: `erase(begin()+index)` on the row vectors, then the remapper call. -/
def SparseMatrix.RemoveRow (m : SparseMatrix) (index : Nat) : Except Fault SparseMatrix :=
  if index < m.rows.length then
    ({ m with rows := m.rows.eraseIdx index }).notifySuper (.RemoveSuperRowFromSubMatrix index)
  else .error .outOfBounds

/-- The loop of `RemoveRowsSlow`: `RemoveRow(rows[i]-i-oneIndexed)` for the `i`-th index; a
negative argument erases before `begin()`. -/
def removeRowsSlowLoop (oneIndexed : Int) : Nat → List Int → SparseMatrix → Except Fault SparseMatrix
  | _, [], m => .ok m
  | i, r :: rest, m =>
    match r - i - oneIndexed with
    | Int.ofNat index =>
      match m.RemoveRow index with
      | .ok m1 => removeRowsSlowLoop oneIndexed (i + 1) rest m1
      | .error f => .error f
    | Int.negSucc _ => .error .outOfBounds

/-- Source `RemoveRowsSlow(numRows, rows, oneIndexed)`; the list holds `rows[0..numRows)`. -/
def SparseMatrix.RemoveRowsSlow (m : SparseMatrix) (rows : List Int) (oneIndexed : Int) :
    Except Fault SparseMatrix :=
  removeRowsSlowLoop oneIndexed 0 rows m

/-- The state of the first pass of the batch removals: `(oldToNew, dof, dofCount)`. -/
abbrev TableState := List Int × Nat × Nat

/-- The loop body `oldToNew[dof] = dofCount; dofCount++; dof++`, run `k` times. -/
def fillSurvivors : Nat → TableState → Except Fault TableState
  | 0, s => .ok s
  | k + 1, (oldToNew, dof, dofCount) =>
    if dof < oldToNew.length then
      fillSurvivors k (oldToNew.set dof dofCount, dof + 1, dofCount + 1)
    else .error .outOfBounds

/-- The loop over the removed indices: `while (dof < removed[i] - oneIndexed)` runs
`removed[i] - oneIndexed - dof` times (not at all when that is negative), then
`oldToNew[dof] = -1; dof++`. -/
def markRemoved (oneIndexed : Int) : List Int → TableState → Except Fault TableState
  | [], s => .ok s
  | r :: rest, s =>
    match fillSurvivors (r - oneIndexed - s.2.1).toNat s with
    | .ok (oldToNew, dof, dofCount) =>
      if dof < oldToNew.length then
        markRemoved oneIndexed rest (oldToNew.set dof (-1), dof + 1, dofCount)
      else .error .outOfBounds
    | .error f => .error f

/-- The first pass of `RemoveRows`, `RemoveColumns` and `RemoveRowsColumns`: the table
`oldToNew` of `n` entries (zero-initialised), the last `while (dof < n)` included. -/
def buildOldToNew (n : Nat) (removed : List Int) (oneIndexed : Int) : Except Fault (List Int) :=
  match markRemoved oneIndexed removed (List.replicate n 0, 0, 0) with
  | .ok (oldToNew, dof, dofCount) =>
    match fillSurvivors (n - dof) (oldToNew, dof, dofCount) with
    | .ok s => .ok s.1
    | .error f => .error f
  | .error f => .error f

/-- The entry loop of `RemoveRowsColumns` and `RemoveColumns` on one row, `k` rounds from
`sourceIndex`: entries whose column maps to `-1` are skipped, the others are written at
`targetIndex` with the new column. Returns the row and the final `targetIndex`. -/
def renumberRowLoop (oldToNew : List Int) : Nat → Nat → Nat → Row → Except Fault (Row × Nat)
  | 0, _, targetIndex, row => .ok (row, targetIndex)
  | k + 1, sourceIndex, targetIndex, row =>
    match row[sourceIndex]? with
    | some (oldIndex, value) =>
      match oldToNew[oldIndex]? with
      | some newIndex =>
        if newIndex = -1 then renumberRowLoop oldToNew k (sourceIndex + 1) targetIndex row
        else if targetIndex < row.length then
          renumberRowLoop oldToNew k (sourceIndex + 1) (targetIndex + 1)
            (row.set targetIndex (newIndex.toNat, value))
        else .error .outOfBounds
      | none => .error .outOfBounds
    | none => .error .outOfBounds

/-- The entry loop over a whole row followed by `resize(targetIndex)`. -/
def renumberRow (oldToNew : List Int) (row : Row) : Except Fault Row :=
  match renumberRowLoop oldToNew row.length 0 0 row with
  | .ok (row1, targetIndex) => .ok (row1.take targetIndex)
  | .error f => .error f

/-- The row loop of `RemoveRows`, `k` rounds from `sourceRow`: a row whose index maps to `-1`
is skipped, any other is swapped into position `targetRow`. -/
def compactRowsLoop (oldToNew : List Int) :
    Nat → Nat → Nat → List Row → Except Fault (List Row × Nat)
  | 0, _, targetRow, rows => .ok (rows, targetRow)
  | k + 1, sourceRow, targetRow, rows =>
    match oldToNew[sourceRow]? with
    | some newIndex =>
      if newIndex = -1 then compactRowsLoop oldToNew k (sourceRow + 1) targetRow rows
      else
        match rows[targetRow]?, rows[sourceRow]? with
        | some target, some source =>
          compactRowsLoop oldToNew k (sourceRow + 1) (targetRow + 1)
            ((rows.set targetRow source).set sourceRow target)
        | _, _ => .error .outOfBounds
    | none => .error .outOfBounds

/-- The row loop of `RemoveRowsColumns`: as in `RemoveRows`, the surviving row being
renumbered and shortened before it is swapped into place. -/
def compactRenumberRowsLoop (oldToNew : List Int) :
    Nat → Nat → Nat → List Row → Except Fault (List Row × Nat)
  | 0, _, targetRow, rows => .ok (rows, targetRow)
  | k + 1, sourceRow, targetRow, rows =>
    match oldToNew[sourceRow]? with
    | some newIndex =>
      if newIndex = -1 then compactRenumberRowsLoop oldToNew k (sourceRow + 1) targetRow rows
      else
        match rows[sourceRow]? with
        | some source =>
          match renumberRow oldToNew source with
          | .ok source1 =>
            let rows1 := rows.set sourceRow source1
            match rows1[targetRow]? with
            | some target =>
              compactRenumberRowsLoop oldToNew k (sourceRow + 1) (targetRow + 1)
                ((rows1.set targetRow source1).set sourceRow target)
            | none => .error .outOfBounds
          | .error f => .error f
        | none => .error .outOfBounds
    | none => .error .outOfBounds

/-- The remapper calls at the end of `RemoveRows`: one per removed row, in list order. -/
def removedRowCalls (removedRows : List Int) (oneIndexed : Int) : List RemapperCall :=
  removedRows.map (fun r => .RemoveSuperRowFromSubMatrix (r - oneIndexed))

/-- Source `RemoveRows(numRemovedRows, removedRows, oneIndexed)`. -/
def SparseMatrix.RemoveRows (m : SparseMatrix) (removedRows : List Int) (oneIndexed : Int) :
    Except Fault SparseMatrix :=
  match buildOldToNew m.GetNumRows removedRows oneIndexed with
  | .ok oldToNew =>
    match compactRowsLoop oldToNew m.GetNumRows 0 0 m.rows with
    | .ok (rows, newRowCount) =>
      ({ m with rows := rows.take newRowCount }).notifySuperAll
        (removedRowCalls removedRows oneIndexed)
    | .error f => .error f
  | .error f => .error f

/-- The remapper calls at the end of `RemoveRowsColumns`: for `i` from the last removed index
down to the first, the row call and then the column call. -/
def removedRowColumnCalls (removed : List Int) (oneIndexed : Int) : List RemapperCall :=
  removed.reverse.flatMap (fun r =>
    [.RemoveSuperRowFromSubMatrix (r - oneIndexed),
     .RemoveSuperColumnFromSubMatrix (r - oneIndexed)])

/-- Source `RemoveRowsColumns(numRemovedRowsColumns, removedRowsColumns, oneIndexed)`. -/
def SparseMatrix.RemoveRowsColumns (m : SparseMatrix) (removedRowsColumns : List Int)
    (oneIndexed : Int) : Except Fault SparseMatrix :=
  match buildOldToNew m.GetNumRows removedRowsColumns oneIndexed with
  | .ok oldToNew =>
    match compactRenumberRowsLoop oldToNew m.GetNumRows 0 0 m.rows with
    | .ok (rows, newRowCount) =>
      ({ m with rows := rows.take newRowCount }).notifySuperAll
        (removedRowColumnCalls removedRowsColumns oneIndexed)
    | .error f => .error f
  | .error f => .error f

/-- The seek loop of `RemoveRowColumn` on one row, at most `k` rounds from position `j`:
`if (columnIndices[i][j] == index) { erase position j; --cachedRowLength; }`, then `j++`
in either case. Returns the row and the final `cachedRowLength`. -/
def eraseSeekLoop (index : Nat) : Nat → Nat → Nat → Row → Except Fault (Row × Nat)
  | 0, _, cachedRowLength, row => .ok (row, cachedRowLength)
  | k + 1, j, cachedRowLength, row =>
    if j < cachedRowLength then
      match row[j]? with
      | some (c, _) =>
        if c = index then eraseSeekLoop index k (j + 1) (cachedRowLength - 1) (row.eraseIdx j)
        else eraseSeekLoop index k (j + 1) cachedRowLength row
      | none => .error .outOfBounds
    else .ok (row, cachedRowLength)

/-- The loop `for (j = 0; j < cachedRowLength; j++) if (columnIndices[i][j] > index)
--columnIndices[i][j]` over the first `cachedRowLength` entries of a row. -/
def decrementAbove (index : Nat) : Nat → Row → Except Fault Row
  | 0, row => .ok row
  | _ + 1, [] => .error .outOfBounds
  | k + 1, (c, a) :: rest =>
    match decrementAbove index k rest with
    | .ok rest1 => .ok ((if index < c then (c - 1, a) else (c, a)) :: rest1)
    | .error f => .error f

/-- The body of the row loop of `RemoveRowColumn`. The seek loop runs while
`j < cachedRowLength`, so at most `GetRowLength(i)` times. -/
def removeColumnFromRowErasing (index : Nat) (row : Row) : Except Fault Row :=
  match eraseSeekLoop index row.length 0 row.length row with
  | .ok (row1, cachedRowLength) => decrementAbove index cachedRowLength row1
  | .error f => .error f

/-- A row loop `for (i = 0; i < GetNumRows(); i++)` that rewrites every row. -/
def forEachRow (body : Row → Except Fault Row) : List Row → Except Fault (List Row)
  | [] => .ok []
  | row :: rows =>
    match body row with
    | .ok row1 =>
      match forEachRow body rows with
      | .ok rows1 => .ok (row1 :: rows1)
      | .error f => .error f
    | .error f => .error f

/-- Source `RemoveRowColumn(index)`. -/
def SparseMatrix.RemoveRowColumn (m : SparseMatrix) (index : Nat) : Except Fault SparseMatrix :=
  if index < m.rows.length then
    match forEachRow (removeColumnFromRowErasing index) (m.rows.eraseIdx index) with
    | .ok rows =>
      ({ m with rows := rows }).notifySuperAll
        [.RemoveSuperRowFromSubMatrix index, .RemoveSuperColumnFromSubMatrix index]
    | .error f => .error f
  else .error .outOfBounds

/-- The loop of `RemoveRowsColumnsSlow`: `RemoveRowColumn(removedRowsColumns[i] - i -
oneIndexed)`; a negative argument erases before `begin()`. -/
def removeRowsColumnsSlowLoop (oneIndexed : Int) :
    Nat → List Int → SparseMatrix → Except Fault SparseMatrix
  | _, [], m => .ok m
  | i, r :: rest, m =>
    match r - i - oneIndexed with
    | Int.ofNat index =>
      match m.RemoveRowColumn index with
      | .ok m1 => removeRowsColumnsSlowLoop oneIndexed (i + 1) rest m1
      | .error f => .error f
    | Int.negSucc _ => .error .outOfBounds

/-- Source `RemoveRowsColumnsSlow(numRemovedRowsColumns, removedRowsColumns, oneIndexed)`. -/
def SparseMatrix.RemoveRowsColumnsSlow (m : SparseMatrix) (removedRowsColumns : List Int)
    (oneIndexed : Int) : Except Fault SparseMatrix :=
  removeRowsColumnsSlowLoop oneIndexed 0 removedRowsColumns m

/-- The shift loop of `RemoveColumn`: `for (k = j; k < cachedRowLength-1; k++)` copy entry
`k+1` to position `k`; `n` rounds from position `k`. The vector keeps its size. -/
def shiftBack : Nat → Nat → Row → Except Fault Row
  | 0, _, row => .ok row
  | n + 1, k, row =>
    match row[k + 1]? with
    | some e => if k < row.length then shiftBack n (k + 1) (row.set k e) else .error .outOfBounds
    | none => .error .outOfBounds

/-- The seek loop of `RemoveColumn` on one row, at most `n` rounds from position `j`:
on a match the entries ahead are shifted one step back and `cachedRowLength` is lowered;
the row itself is not resized. -/
def shiftSeekLoop (index : Nat) : Nat → Nat → Nat → Row → Except Fault (Row × Nat)
  | 0, _, cachedRowLength, row => .ok (row, cachedRowLength)
  | n + 1, j, cachedRowLength, row =>
    if j < cachedRowLength then
      match row[j]? with
      | some (c, _) =>
        if c = index then
          match shiftBack (cachedRowLength - 1 - j) j row with
          | .ok row1 => shiftSeekLoop index n (j + 1) (cachedRowLength - 1) row1
          | .error f => .error f
        else shiftSeekLoop index n (j + 1) cachedRowLength row
      | none => .error .outOfBounds
    else .ok (row, cachedRowLength)

/-- The body of the row loop of `RemoveColumn`. -/
def removeColumnFromRowShifting (index : Nat) (row : Row) : Except Fault Row :=
  match shiftSeekLoop index row.length 0 row.length row with
  | .ok (row1, cachedRowLength) => decrementAbove index cachedRowLength row1
  | .error f => .error f

/-- Source `RemoveColumn(index)` for a non-negative index, which keeps the columns
non-negative; `SignedMatrix.RemoveColumn` is the routine for an `int` index of either sign. -/
def SparseMatrix.RemoveColumn (m : SparseMatrix) (index : Nat) : Except Fault SparseMatrix :=
  match forEachRow (removeColumnFromRowShifting index) m.rows with
  | .ok rows =>
    ({ m with rows := rows }).notifySuper (.RemoveSuperColumnFromSubMatrix index)
  | .error f => .error f

/-- The loop of `RemoveColumnsSlow`, `RemoveColumn(columns[i]-i-oneIndexed)`, as far as the
rows stay rows of the data model. With a negative argument the source goes on and lowers
every column, column `0` to `-1`, which no row with non-negative columns holds: here the
loop stops with a fault, and `Signed.removeColumnsSlowLoop` is the loop on rows of `int`
column indices, which follows the source through such a call. -/
def removeColumnsSlowLoop (oneIndexed : Int) :
    Nat → List Int → SparseMatrix → Except Fault SparseMatrix
  | _, [], m => .ok m
  | i, c :: rest, m =>
    match c - i - oneIndexed with
    | Int.ofNat index =>
      match m.RemoveColumn index with
      | .ok m1 => removeColumnsSlowLoop oneIndexed (i + 1) rest m1
      | .error f => .error f
    | Int.negSucc _ => .error .outOfBounds

/-- Source `RemoveColumnsSlow(numColumns, columns, oneIndexed)`. -/
def SparseMatrix.RemoveColumnsSlow (m : SparseMatrix) (columns : List Int) (oneIndexed : Int) :
    Except Fault SparseMatrix :=
  removeColumnsSlowLoop oneIndexed 0 columns m

/-- The first loop of `RemoveColumns`: `numColumns` is raised to `removedColumns[i] -
oneIndexed + 1` whenever that is larger. -/
def neededNumColumns (oneIndexed : Int) : List Int → Int → Int
  | [], numColumns => numColumns
  | c :: rest, numColumns =>
    neededNumColumns oneIndexed rest
      (if c - oneIndexed + 1 > numColumns then c - oneIndexed + 1 else numColumns)

/-- The remapper calls at the end of `RemoveColumns`: one per removed column, in list order. -/
def removedColumnCalls (removedColumns : List Int) (oneIndexed : Int) : List RemapperCall :=
  removedColumns.map (fun c => .RemoveSuperColumnFromSubMatrix (c - oneIndexed))

/-- Source `RemoveColumns(numRemovedColumns, removedColumns, oneIndexed)`. -/
def SparseMatrix.RemoveColumns (m : SparseMatrix) (removedColumns : List Int)
    (oneIndexed : Int) : Except Fault SparseMatrix :=
  let numColumns := (neededNumColumns oneIndexed removedColumns m.GetNumColumns).toNat
  match buildOldToNew numColumns removedColumns oneIndexed with
  | .ok oldToNew =>
    match forEachRow (renumberRow oldToNew) m.rows with
    | .ok rows =>
      ({ m with rows := rows }).notifySuperAll (removedColumnCalls removedColumns oneIndexed)
    | .error f => .error f
  | .error f => .error f

/-! ## Quadratic form -/

/-- The inner loop of `QuadraticForm` for row `i`: entries below the diagonal are skipped
(`continue`), the diagonal entry is added once, an entry above the diagonal twice. -/
def quadraticFormRow (vector : List ℚ) (i : Nat) : Row → ℚ → Except Fault ℚ
  | [], result => .ok result
  | (index, a) :: rest, result =>
    if index < i then quadraticFormRow vector i rest result
    else
      match vector[i]?, vector[index]? with
      | some vi, some vindex =>
        if index = i then quadraticFormRow vector i rest (result + a * vi * vindex)
        else quadraticFormRow vector i rest (result + 2 * a * vi * vindex)
      | _, _ => .error .outOfBounds

/-- The row loop of `QuadraticForm`, `i` being the index of the first row left. -/
def quadraticFormRows (vector : List ℚ) : Nat → List Row → ℚ → Except Fault ℚ
  | _, [], result => .ok result
  | i, row :: rows, result =>
    match quadraticFormRow vector i row result with
    | .ok result1 => quadraticFormRows vector (i + 1) rows result1
    | .error f => .error f

/-- Source `QuadraticForm(vector)`. -/
def SparseMatrix.QuadraticForm (m : SparseMatrix) (vector : List ℚ) : Except Fault ℚ :=
  quadraticFormRows vector 0 m.rows 0

/-! ## Basis projection -/

/-- Modelled from the spec: `SparseMatrixOutline` (declared in sparseMatrix.h, which is not
among the sources). Per row it holds "an ordered mapping from column index to accumulated
value": `columnEntries[i]` is a `std::map<int,double>`, kept here as the list of its
`(column, value)` pairs in key order. -/
structure SparseMatrixOutline where
  columnEntries : List (List (Nat × ℚ))
  deriving DecidableEq, Repr

/-- Modelled from the spec: the outline constructor `SparseMatrixOutline(numRows)`, with
`numRows` empty rows. -/
def SparseMatrixOutline.create (numRows : Nat) : SparseMatrixOutline :=
  { columnEntries := List.replicate numRows [] }

/-- Modelled from the spec: accumulation into one ordered map, `map[j] += value` with a new
key inserted at its place in key order ("accumulating associative structure"). -/
def mapAddEntry : List (Nat × ℚ) → Nat → ℚ → List (Nat × ℚ)
  | [], j, value => [(j, value)]
  | (c, a) :: rest, j, value =>
    if j < c then (j, value) :: (c, a) :: rest
    else if j = c then (c, a + value) :: rest
    else (c, a) :: mapAddEntry rest j value

/-- Modelled from the spec: `SparseMatrixOutline::AddEntry(i, j, value)`, which accumulates
`value` at `(i, j)`; row `i` must exist. -/
def SparseMatrixOutline.AddEntry (o : SparseMatrixOutline) (i j : Nat) (value : ℚ) :
    Except Fault SparseMatrixOutline :=
  match o.columnEntries[i]? with
  | some row => .ok { columnEntries := o.columnEntries.set i (mapAddEntry row j value) }
  | none => .error .outOfBounds

/-- The inner loop of `InitFromOutline` over the map of one row, `prev` being the previous
column (`-1` at the start): the pairs are copied in iteration order; the second component
counts how often the "entries not sorted" warning is printed. -/
def initRowFromOutline : List (Nat × ℚ) → Int → Row × Nat
  | [], _ => ([], 0)
  | (c, a) :: rest, prev =>
    let r := initRowFromOutline rest c
    ((c, a) :: r.1, (if (c : Int) ≤ prev then 1 else 0) + r.2)

/-- Source `InitFromOutline(sparseMatrixOutline)`, as run by the constructors: a matrix without
caches and linkages, with the number of warnings printed. -/
def SparseMatrix.InitFromOutline (o : SparseMatrixOutline) : SparseMatrix × Nat :=
  ({ rows := o.columnEntries.map (fun m => (initRowFromOutline m (-1)).1) },
    (o.columnEntries.map (fun m => (initRowFromOutline m (-1)).2)).sum)

/-- The `l` loop of the outline variant of `ConjugateMatrix` over row `J` of `U`:
`outline.AddEntry(K, L, scalar * U.columnEntries[I][k] * U.columnEntries[J][l])`. -/
def conjugateAddRowJ (scalar u : ℚ) (K : Nat) :
    Row → SparseMatrixOutline → Except Fault SparseMatrixOutline
  | [], o => .ok o
  | (L, w) :: rest, o =>
    match o.AddEntry K L (scalar * u * w) with
    | .ok o1 => conjugateAddRowJ scalar u K rest o1
    | .error f => .error f

/-- The `k` loop over row `I` of `U`; `U.GetRowLength(J)` is read in every round. -/
def conjugateAddRowI (U : SparseMatrix) (scalar : ℚ) (J : Nat) :
    Row → SparseMatrixOutline → Except Fault SparseMatrixOutline
  | [], o => .ok o
  | (K, u) :: rest, o =>
    match U.rows[J]? with
    | some rowJ =>
      match conjugateAddRowJ scalar u K rowJ o with
      | .ok o1 => conjugateAddRowI U scalar J rest o1
      | .error f => .error f
    | none => .error .outOfBounds

/-- The `j` loop over the entries of row `I` of the matrix; `U.GetRowLength(I)` is read for
every entry. -/
def conjugateAddEntries (U : SparseMatrix) (I : Nat) :
    Row → SparseMatrixOutline → Except Fault SparseMatrixOutline
  | [], o => .ok o
  | (J, scalar) :: rest, o =>
    match U.rows[I]? with
    | some rowI =>
      match conjugateAddRowI U scalar J rowI o with
      | .ok o1 => conjugateAddEntries U I rest o1
      | .error f => .error f
    | none => .error .outOfBounds

/-- The `i` loop of the outline variant, `i` being the index of the first row left. -/
def conjugateAddRows (U : SparseMatrix) :
    Nat → List Row → SparseMatrixOutline → Except Fault SparseMatrixOutline
  | _, [], o => .ok o
  | i, row :: rows, o =>
    match conjugateAddEntries U i row o with
    | .ok o1 => conjugateAddRows U (i + 1) rows o1
    | .error f => .error f

/-- Source `ConjugateMatrix(SparseMatrix & U, int verbose)`: the outline variant (`verbose` only
prints progress). -/
def SparseMatrix.ConjugateMatrix (m U : SparseMatrix) : Except Fault SparseMatrix :=
  match conjugateAddRows U 0 m.rows (SparseMatrixOutline.create U.GetNumColumns) with
  | .ok o => .ok (SparseMatrix.InitFromOutline o).1
  | .error f => .error f

/-- A `fourTuple` of `BuildConjugationIndices`: `((i, j), (k, l))`. -/
abbrev FourTuple := (Nat × Nat) × (Nat × Nat)

/-- One `rowMap`: the `std::map<int, listOfFourTuples>` of a row, in key order. -/
abbrev RowMap := List (Nat × List FourTuple)

/-- The table `precomputedIndices[i][j]`: the list of four-tuples of the `j`-th entry of row
`i` (the source stores its length followed by the flattened tuples). -/
abbrev PrecomputedIndices := List (List (List FourTuple))

/-- Source `rowMaps[K].find(L)`, then `push_back` on the list found or insertion of a singleton
list. -/
def rowMapAdd : RowMap → Nat → FourTuple → RowMap
  | [], L, t => [(L, [t])]
  | (c, ts) :: rest, L, t =>
    if L < c then (L, [t]) :: (c, ts) :: rest
    else if L = c then (c, ts ++ [t]) :: rest
    else (c, ts) :: rowMapAdd rest L t

/-- The `l` loop of `BuildConjugationIndices` from position `l` of row `J` of `U`. -/
def buildIndicesRowJ (i j k K : Nat) : Nat → Row → List RowMap → Except Fault (List RowMap)
  | _, [], rowMaps => .ok rowMaps
  | l, (L, _) :: rest, rowMaps =>
    match rowMaps[K]? with
    | some rowMap =>
      buildIndicesRowJ i j k K (l + 1) rest (rowMaps.set K (rowMapAdd rowMap L ((i, j), (k, l))))
    | none => .error .outOfBounds

/-- The `k` loop of `BuildConjugationIndices` from position `k` of row `I` of `U`. -/
def buildIndicesRowI (U : SparseMatrix) (i j J : Nat) :
    Nat → Row → List RowMap → Except Fault (List RowMap)
  | _, [], rowMaps => .ok rowMaps
  | k, (K, _) :: rest, rowMaps =>
    match U.rows[J]? with
    | some rowJ =>
      match buildIndicesRowJ i j k K 0 rowJ rowMaps with
      | .ok rowMaps1 => buildIndicesRowI U i j J (k + 1) rest rowMaps1
      | .error f => .error f
    | none => .error .outOfBounds

/-- The `j` loop of `BuildConjugationIndices` from position `j` of row `i` of the matrix. -/
def buildIndicesEntries (U : SparseMatrix) (i : Nat) :
    Nat → Row → List RowMap → Except Fault (List RowMap)
  | _, [], rowMaps => .ok rowMaps
  | j, (J, _) :: rest, rowMaps =>
    match U.rows[i]? with
    | some rowI =>
      match buildIndicesRowI U i j J 0 rowI rowMaps with
      | .ok rowMaps1 => buildIndicesEntries U i (j + 1) rest rowMaps1
      | .error f => .error f
    | none => .error .outOfBounds

/-- The `i` loop of `BuildConjugationIndices`. -/
def buildIndicesRows (U : SparseMatrix) :
    Nat → List Row → List RowMap → Except Fault (List RowMap)
  | _, [], rowMaps => .ok rowMaps
  | i, row :: rows, rowMaps =>
    match buildIndicesEntries U i 0 row rowMaps with
    | .ok rowMaps1 => buildIndicesRows U (i + 1) rows rowMaps1
    | .error f => .error f

/-- Source `BuildConjugationIndices(U, MTilde, &precomputedIndices)`: one `rowMap` per row of
`MTilde`, filled by the four nested loops, then copied in key order. -/
def SparseMatrix.BuildConjugationIndices (m U MTilde : SparseMatrix) :
    Except Fault PrecomputedIndices :=
  match buildIndicesRows U 0 m.rows (List.replicate MTilde.GetNumRows []) with
  | .ok rowMaps => .ok (rowMaps.map (fun rowMap => rowMap.map (fun p => p.2)))
  | .error f => .error f

/-- Source `ResetToZero()`: every stored value becomes `0`, the structure stays. -/
def SparseMatrix.ResetToZero (m : SparseMatrix) : SparseMatrix :=
  { m with rows := m.rows.map (fun row => row.map (fun e => (e.1, 0))) }

/-- The summation loop of the precomputed variant for entry `j` of row `row` of `MTilde`:
`MTilde[row][j] += columnEntries[rowOfM][columnIndexOfM] * U.columnEntries[row][...] *
U.columnEntries[columnOfM][...]`, the first factor of `U` being read in row `row`. -/
def conjugateReplayTerms (m U : SparseMatrix) (row : Nat) : List FourTuple → ℚ → Except Fault ℚ
  | [], acc => .ok acc
  | ((rowOfM, columnIndexOfM), (kU, lU)) :: rest, acc =>
    match m.rows[rowOfM]? with
    | some mrow =>
      match mrow[columnIndexOfM]? with
      | some (columnOfM, a) =>
        match U.rows[row]?, U.rows[columnOfM]? with
        | some urow, some ucol =>
          match urow[kU]?, ucol[lU]? with
          | some (_, u), some (_, w) => conjugateReplayTerms m U row rest (acc + a * u * w)
          | _, _ => .error .outOfBounds
        | _, _ => .error .outOfBounds
      | none => .error .outOfBounds
    | none => .error .outOfBounds

/-- The `j` loop of the precomputed variant over the entries of row `row` of `MTilde`, from
position `j`. -/
def conjugateReplayRow (m U : SparseMatrix) (row : Nat) (rowIndices : List (List FourTuple)) :
    Nat → Row → Except Fault Row
  | _, [] => .ok []
  | j, (c, v) :: rest =>
    match rowIndices[j]? with
    | some entryIndices =>
      match conjugateReplayTerms m U row entryIndices v with
      | .ok v1 =>
        match conjugateReplayRow m U row rowIndices (j + 1) rest with
        | .ok rest1 => .ok ((c, v1) :: rest1)
        | .error f => .error f
      | .error f => .error f
    | none => .error .outOfBounds

/-- The `row` loop of the precomputed variant, from row `row` of `MTilde`. -/
def conjugateReplayRows (m U : SparseMatrix) (precomputedIndices : PrecomputedIndices) :
    Nat → List Row → Except Fault (List Row)
  | _, [] => .ok []
  | row, mtRow :: rest =>
    match precomputedIndices[row]? with
    | some rowIndices =>
      match conjugateReplayRow m U row rowIndices 0 mtRow with
      | .ok mtRow1 =>
        match conjugateReplayRows m U precomputedIndices (row + 1) rest with
        | .ok rest1 => .ok (mtRow1 :: rest1)
        | .error f => .error f
      | .error f => .error f
    | none => .error .outOfBounds

/-- Source `ConjugateMatrix(precomputedIndices, U, MTilde)`: the precomputed-index variant; the
result is `MTilde` after the call. -/
def SparseMatrix.ConjugateMatrixPrecomputed (m : SparseMatrix)
    (precomputedIndices : PrecomputedIndices) (U MTilde : SparseMatrix) :
    Except Fault SparseMatrix :=
  match conjugateReplayRows m U precomputedIndices 0 MTilde.ResetToZero.rows with
  | .ok rows => .ok { MTilde with rows := rows }
  | .error f => .error f

/-- The innermost loop of the dense `ConjugateMatrix`, `count` rounds from `k`:
`entry += U[i * GetNumRows() + k] * MU[j * GetNumRows() + k]`. -/
def conjugateEntryLoop (U MU : List ℚ) (n i j : Nat) : Nat → Nat → ℚ → Except Fault ℚ
  | 0, _, entry => .ok entry
  | count + 1, k, entry =>
    match U[i * n + k]?, MU[j * n + k]? with
    | some u, some mu => conjugateEntryLoop U MU n i j count (k + 1) (entry + u * mu)
    | _, _ => .error .outOfBounds

/-- The `j` loop of the dense `ConjugateMatrix` for a fixed `i`, `count` rounds from `j`:
`UTilde[j * r + i] = entry`. -/
def conjugateColumnLoop (U MU : List ℚ) (n r i : Nat) :
    Nat → Nat → List ℚ → Except Fault (List ℚ)
  | 0, _, UTilde => .ok UTilde
  | count + 1, j, UTilde =>
    match conjugateEntryLoop U MU n i j n 0 0 with
    | .ok entry =>
      if j * r + i < UTilde.length then
        conjugateColumnLoop U MU n r i count (j + 1) (UTilde.set (j * r + i) entry)
      else .error .outOfBounds
    | .error f => .error f

/-- The `i` loop of the dense `ConjugateMatrix`, `count` rounds from `i`. -/
def conjugateRowLoop (U MU : List ℚ) (n r : Nat) : Nat → Nat → List ℚ → Except Fault (List ℚ)
  | 0, _, UTilde => .ok UTilde
  | count + 1, i, UTilde =>
    match conjugateColumnLoop U MU n r i r 0 UTilde with
    | .ok UTilde1 => conjugateRowLoop U MU n r count (i + 1) UTilde1
    | .error f => .error f

/-- Source `ConjugateMatrix(double * U, int r, double * UTilde)`: the dense variant. `MU` is a fresh
buffer of `GetNumRows() * r` entries, every one of which `MultiplyMatrix` overwrites before it
is read; the returned list is the buffer `UTilde` after the call. -/
def SparseMatrix.ConjugateMatrixDense (m : SparseMatrix) (U : List ℚ) (r : Nat)
    (UTilde : List ℚ) : Except Fault (List ℚ) :=
  match m.MultiplyMatrix m.GetNumRows r U (List.replicate (m.GetNumRows * r) 0) with
  | .ok MU => conjugateRowLoop U MU m.GetNumRows r r 0 UTilde
  | .error f => .error f

/-! ## Insertion of entries -/

/-- The scan of `GetInverseIndex` from position `j`: the first position whose column is
`jDense`, or `-1`. -/
def inverseIndexLoop (jDense : Nat) : Nat → Row → Int
  | _, [] => -1
  | j, (c, _) :: rest => if c = jDense then (j : Int) else inverseIndexLoop jDense (j + 1) rest

/-- Source `GetInverseIndex(row, jDense)`; the row must exist. -/
def SparseMatrix.GetInverseIndex (m : SparseMatrix) (row : Int) (jDense : Nat) :
    Except Fault Int :=
  if row < 0 then .error .outOfBounds
  else
    match m.rows[row.toNat]? with
    | some r => .ok (inverseIndexLoop jDense 0 r)
    | none => .error .outOfBounds

/-- Source `std::lower_bound(rowIndices.begin(), rowIndices.end(), denseColumn) - begin()`: on a row
partitioned with respect to `denseColumn` (as every sorted row is), the number of leading
entries whose column is below `denseColumn`. -/
def lowerBound (denseColumn : Nat) : Row → Nat
  | [] => 0
  | (c, _) :: rest => if c < denseColumn then lowerBound denseColumn rest + 1 else 0

/-- The loop over `subMatrixLinkages` in `InsertNewEntry`: the remapper of every linkage is
told of the insertion, and the sub-matrix must record no child linkage of its own
(`subMatrixLinkageCount` reads `subMatrix->subMatrixLinkages.size()` through the handle). -/
def notifySubMatrices (subMatrixLinkageCount : Nat → Nat) (call : RemapperCall) :
    List SparseSubMatrixLinkage → Except Fault (List SparseSubMatrixLinkage)
  | [] => .ok []
  | l :: rest =>
    if subMatrixLinkageCount l.subMatrix = 0 then
      match notifySubMatrices subMatrixLinkageCount call rest with
      | .ok rest1 => .ok ({ l with indexRemapper := l.indexRemapper ++ [call] } :: rest1)
      | .error f => .error f
    else .error .assertion

/-- Source `InsertNewEntry(row, denseColumn)`: returns the insert position and the matrix after the
call. The asserts abort the call; `subMatrixLinkageCount` gives, for the handle of a matrix,
the number of child linkages that matrix records. `denseColumn` is a column of the data
model; `SignedMatrix.InsertNewEntry` is the routine for an `int` column of either sign. -/
def SparseMatrix.InsertNewEntry (m : SparseMatrix) (subMatrixLinkageCount : Nat → Nat)
    (row : Int) (denseColumn : Nat) : Except Fault (Nat × SparseMatrix) :=
  if row < (m.GetNumRows : Int) then
    match m.GetInverseIndex row denseColumn with
    | .ok inverseIndex =>
      if inverseIndex = -1 then
        match m.rows[row.toNat]? with
        | some r =>
          let insertIndex := lowerBound denseColumn r
          let rows1 := m.rows.set row.toNat
            (r.take insertIndex ++ (denseColumn, 0) :: r.drop insertIndex)
          match notifySubMatrices subMatrixLinkageCount
              (.OnEntryWasInsertedIntoSuperMatrix row denseColumn) m.subMatrixLinkages with
          | .ok subMatrixLinkages1 =>
            if m.superMatrixLinkage = none then
              .ok (insertIndex, { m with rows := rows1, subMatrixLinkages := subMatrixLinkages1 })
            else .error .assertion
          | .error f => .error f
        | none => .error .outOfBounds
      else .error .assertion
    | .error f => .error f
  else .error .assertion

/-! ## Reference descriptions used in the statements -/

/-- A removal list read with the flag: the 0-indexed naturals `R` as the caller passes them. -/
def asRemovalList (R : List Nat) (oneIndexed : Int) : List Int :=
  R.map (fun (k : Nat) => (k : Int) + oneIndexed)

/-- The renumbering of old index `k` when the indices `R` are removed: `-1` for a removed
index, otherwise `k` minus the number of removed indices below `k`. -/
def newIndex (R : List Nat) (k : Nat) : Int :=
  if k ∈ R then -1 else (k : Int) - (R.countP (· < k) : Nat)

/-- The elements of a list whose position, counted from `j`, is not marked as removed. -/
def keepIdx {α : Type} (removed : Nat → Bool) : Nat → List α → List α
  | _, [] => []
  | j, x :: xs => if removed j then keepIdx removed (j + 1) xs else x :: keepIdx removed (j + 1) xs

/-- A row without the entries of the removed columns `R`, every other entry keeping its value
and getting its column lowered by the number of removed columns below it. -/
def renumberEntries (R : List Nat) (row : Row) : Row :=
  row.filterMap (fun e => if e.1 ∈ R then none else some (e.1 - R.countP (· < e.1), e.2))

/-- The column indices of a row are strictly increasing. -/
def RowSorted (row : Row) : Prop := row.Pairwise (fun e1 e2 => e1.1 < e2.1)

/-- Every row of the matrix has strictly increasing column indices. -/
def SortedRows (rows : List Row) : Prop := ∀ row ∈ rows, RowSorted row

/-- The rows left when the rows and the columns `R` are eliminated: the surviving rows in
order, each without the entries of removed columns and with its columns renumbered. -/
def eliminated (R : List Nat) (rows : List Row) : List Row :=
  (keepIdx (fun j => decide (j ∈ R)) 0 rows).map (renumberEntries R)

/-- The rows that survive the removal of the listed row indices (read with the flag), in
their original order. -/
def survivingRows (rows : List Row) (removedRows : List Int) (oneIndexed : Int) : List Row :=
  keepIdx (fun j => decide ((j : Int) + oneIndexed ∈ removedRows)) 0 rows

/-- A removal list is strictly ascending and, read with the flag, within `[0, n)`. -/
def ValidRemovalList (n : Nat) (removed : List Int) (oneIndexed : Int) : Prop :=
  removed.Pairwise (· < ·) ∧ ∀ r ∈ removed, 0 ≤ r - oneIndexed ∧ r - oneIndexed < n

/-- A linkage with an empty call log, for concrete examples. -/
def exampleLinkage : SparseSubMatrixLinkage :=
  { superMatrix := 0, subMatrix := 1, denseRowColumnOffset := 0, indexRemapper := [] }

/-- The 3-row example matrix `(0,0)=2, (0,1)=1, (1,0)=1, (1,1)=3, (2,2)=5`, attached to a
super-matrix. -/
def exampleMatrix : SparseMatrix :=
  { rows := [[(0, 2), (1, 1)], [(0, 1), (1, 3)], [(2, 5)]],
    superMatrixLinkage := some exampleLinkage }

/-- A one-row matrix with the entries `(0,0)=1` and `(0,1)=2`, attached to a super-matrix. -/
def oneRowMatrix : SparseMatrix :=
  { rows := [[(0, 1), (1, 2)]], superMatrixLinkage := some exampleLinkage }

/-- The value a row stores at column `j` (the first such entry), `0` when it stores none. -/
def rowEntry : Row → Nat → ℚ
  | [], _ => 0
  | (c, a) :: rest, j => if c = j then a else rowEntry rest j

/-- The matrix entry `M(i, j)`: the stored value, or `0`. -/
def SparseMatrix.entry (m : SparseMatrix) (i j : Nat) : ℚ :=
  rowEntry (m.rows.getD i []) j

/-- The rows with only the entries `(i, c)` for which `keep i c` holds, `i` being the index
of the first row. -/
def keepTriangle (keep : Nat → Nat → Bool) : Nat → List Row → List Row
  | _, [] => []
  | i, row :: rows => row.filter (fun e => keep i e.1) :: keepTriangle keep (i + 1) rows

/-- The storage that keeps the diagonal and the strictly-upper entries only. -/
def SparseMatrix.upperTriangleStorage (m : SparseMatrix) : SparseMatrix :=
  { m with rows := keepTriangle (fun i c => decide (i ≤ c)) 0 m.rows }

/-- The storage that keeps the diagonal and the strictly-lower entries only. -/
def SparseMatrix.lowerTriangleStorage (m : SparseMatrix) : SparseMatrix :=
  { m with rows := keepTriangle (fun i c => decide (c ≤ i)) 0 m.rows }

/-- The dense value `xᵗSx = Σ_i Σ_j S(i,j)·x_i·x_j` over an `n × n` matrix. -/
def denseQuadraticForm (m : SparseMatrix) (x : List ℚ) : ℚ :=
  ∑ i ∈ Finset.range m.GetNumRows, ∑ j ∈ Finset.range m.GetNumRows,
    m.entry i j * x.getD i 0 * x.getD j 0

/-- The weight with which `QuadraticForm` folds an entry at `(i, c)`. -/
def foldWeight (x : List ℚ) (i c : Nat) : ℚ :=
  if c < i then 0 else if c = i then x.getD i 0 * x.getD c 0 else 2 * (x.getD i 0 * x.getD c 0)

/-- The full storage of the symmetric matrix `[[0, 1], [1, 0]]`. -/
def symmetricExample : SparseMatrix :=
  { rows := [[(1, 1)], [(0, 1)]] }

/-- The sum of `a · foldWeight x i c` over the stored entries `(i, c, a)` of the rows, the
first row having index `i`. -/
def foldSum (x : List ℚ) : Nat → List Row → ℚ
  | _, [] => 0
  | i, row :: rows => (row.map (fun e => e.2 * foldWeight x i e.1)).sum + foldSum x (i + 1) rows

/-- The value a row stores at column `j`, `0` when it stores none (the sum of the stored
values, should the row store the column more than once). -/
def rowEntrySum : Row → Nat → ℚ
  | [], _ => 0
  | (c, a) :: rest, j => (if c = j then a else 0) + rowEntrySum rest j

/-- The matrix entry `M(i, j)` as a number: the stored value, or `0`. -/
def SparseMatrix.entrySum (m : SparseMatrix) (i j : Nat) : ℚ :=
  rowEntrySum (m.rows.getD i []) j

/-- The identity-like 2-row matrix `(0,0)=2, (1,1)=3`. -/
def diagonalExample : SparseMatrix :=
  { rows := [[(0, 2)], [(1, 3)]] }

/-- The inner product `Σ_k U[i·n + k] · MU[j·n + k]` of column `i` of `U` and column `j` of
`MU`. -/
def columnProduct (U MU : List ℚ) (n i j : Nat) : ℚ :=
  ∑ t ∈ Finset.range n, U.getD (i * n + t) 0 * MU.getD (j * n + t) 0

/-- The contribution of the matrix entry `(i, J, a)`, given as `i` and `e = (J, a)`, to the
output position `(K, L)`: the sum of `a·u·w` over the entries `(i, K, u)` and `(J, L, w)` of
`U`. -/
def tripleTerm (U : SparseMatrix) (K L i : Nat) (e : Nat × ℚ) : ℚ :=
  ((U.rows.getD i []).map (fun p =>
    ((U.rows.getD e.1 []).map (fun q =>
      if p.1 = K ∧ q.1 = L then e.2 * p.2 * q.2 else 0)).sum)).sum

/-- The sum of `tripleTerm` over the stored entries of the rows, the first row having
index `i`. -/
def tripleSumRows (U : SparseMatrix) (K L : Nat) : Nat → List Row → ℚ
  | _, [] => 0
  | i, row :: rows => (row.map (tripleTerm U K L i)).sum + tripleSumRows U K L (i + 1) rows

/-- The entry `(UᵗMU)(K, L)`: the sum of `a·u·w` over all stored entries `(i, J, a)` of `M`,
`(i, K, u)` of `U` and `(J, L, w)` of `U`. -/
def SparseMatrix.tripleSum (m U : SparseMatrix) (K L : Nat) : ℚ :=
  tripleSumRows U K L 0 m.rows

/-- At least one triple of stored entries `(i, J, a)` of `M`, `(i, K, u)` and `(J, L, w)` of
`U` exists. -/
def HasTriple (m U : SparseMatrix) (K L : Nat) : Prop :=
  ∃ i J a u w, (J, a) ∈ m.rows.getD i [] ∧ (K, u) ∈ U.rows.getD i [] ∧ (L, w) ∈ U.rows.getD J []

/-- The matrix stores an entry at `(K, L)`. -/
def SparseMatrix.Stored (m : SparseMatrix) (K L : Nat) : Prop :=
  ∃ v, (L, v) ∈ m.rows.getD K []

/-- The accumulated value of the outline at `(K, L)`. -/
def SparseMatrixOutline.value (o : SparseMatrixOutline) (K L : Nat) : ℚ :=
  rowEntrySum (o.columnEntries.getD K []) L

/-- The outline has a key `L` in row `K`. -/
def SparseMatrixOutline.HasKey (o : SparseMatrixOutline) (K L : Nat) : Prop :=
  L ∈ (o.columnEntries.getD K []).map Prod.fst

/-- Outline `o1` is `o` with `f K L` accumulated at every position and with the keys `P`
added; the maps stay ordered. -/
def Accumulates (o o1 : SparseMatrixOutline) (f : Nat → Nat → ℚ) (P : Nat → Nat → Prop) :
    Prop :=
  o1.columnEntries.length = o.columnEntries.length ∧
    (SortedRows o.columnEntries → SortedRows o1.columnEntries) ∧
    ∀ K L, o1.value K L = o.value K L + f K L ∧ (o1.HasKey K L ↔ o.HasKey K L ∨ P K L)

/-- The 2-row identity matrix. -/
def identityExample : SparseMatrix :=
  { rows := [[(0, 1)], [(1, 1)]] }

/-- A sparse 2 × 1 basis with the single column `(2, 3)ᵗ`. -/
def basisExample : SparseMatrix :=
  { rows := [[(0, 2)], [(0, 3)]] }

/-- A 2-row matrix whose only entry is `(1, 0) = 1`. -/
def tallExample : SparseMatrix :=
  { rows := [[], [(0, 1)]] }

/-- A sparse basis with one row, `(0, 0) = 1`. -/
def shortBasisExample : SparseMatrix :=
  { rows := [[(0, 1)]] }

/-- A 1 × 1 matrix with the sparsity pattern of the projection of `identityExample` on
`basisExample`. -/
def projectedExample : SparseMatrix :=
  { rows := [[(0, 13)]] }

/-- The matrix once it has been attached to a super-matrix: what `AttachSuperMatrix` does
to the matrix itself is to store the new linkage in `superMatrixLinkage`. -/
def SparseMatrix.attachedTo (m : SparseMatrix) (L : SparseSubMatrixLinkage) : SparseMatrix :=
  { m with superMatrixLinkage := some L }

/-- Both calls return, and they leave the same rows (column indices and values). -/
def AgreeOnRows (a b : Except Fault SparseMatrix) : Prop :=
  ∃ A B, a = .ok A ∧ b = .ok B ∧ A.rows = B.rows

/-- The 3-row example matrix without any linkage. -/
def unlinkedExample : SparseMatrix :=
  { rows := [[(0, 2), (1, 1)], [(0, 1), (1, 3)], [(2, 5)]] }

/-! ## Reference descriptions for the later statements -/

/-- The weight the fold over every stored entry gives an entry at `(i, c)`: `x_i·x_i` on the
diagonal, `2·x_i·x_c` off the diagonal, on either side of it. -/
def everyEntryWeight (x : List ℚ) (i c : Nat) : ℚ :=
  if c = i then x.getD i 0 * x.getD i 0 else 2 * (x.getD i 0 * x.getD c 0)

/-- The sum of `a · everyEntryWeight x i c` over all the stored entries `(i, c, a)` of the
rows, the first row having index `i`. -/
def everyEntrySum (x : List ℚ) : Nat → List Row → ℚ
  | _, [] => 0
  | i, row :: rows =>
    (row.map (fun e => e.2 * everyEntryWeight x i e.1)).sum + everyEntrySum x (i + 1) rows

/-- No stored entry lies below the diagonal, the first row having index `i`. -/
def NoneBelowDiagonal : Nat → List Row → Prop
  | _, [] => True
  | i, row :: rows => (∀ e ∈ row, i ≤ e.1) ∧ NoneBelowDiagonal (i + 1) rows

/-! ## Insertion: the matrix a stopped call leaves -/

/-- The loop over `subMatrixLinkages` in `InsertNewEntry`, with the linkages as the loop
leaves them also when an assert stops it: the remapper of a linkage is told of the insertion
before the assert on its sub-matrix is evaluated. -/
def notifySubMatricesState (subMatrixLinkageCount : Nat → Nat) (call : RemapperCall) :
    List SparseSubMatrixLinkage → List SparseSubMatrixLinkage × Option Fault
  | [] => ([], none)
  | l :: rest =>
    if subMatrixLinkageCount l.subMatrix = 0 then
      match notifySubMatricesState subMatrixLinkageCount call rest with
      | (rest1, outcome) => ({ l with indexRemapper := l.indexRemapper ++ [call] } :: rest1, outcome)
    else ({ l with indexRemapper := l.indexRemapper ++ [call] } :: rest, some .assertion)

/-- Source `InsertNewEntry(row, denseColumn)` once more, now with the matrix as the call leaves
it whether it returns or is stopped: the asserts on `row` and on `GetInverseIndex` come
before the two `insert` calls, the asserts on the linkages after them. -/
def SparseMatrix.InsertNewEntryState (m : SparseMatrix) (subMatrixLinkageCount : Nat → Nat)
    (row : Int) (denseColumn : Nat) : SparseMatrix × Except Fault Nat :=
  if row < (m.GetNumRows : Int) then
    match m.GetInverseIndex row denseColumn with
    | .ok inverseIndex =>
      if inverseIndex = -1 then
        match m.rows[row.toNat]? with
        | some r =>
          let insertIndex := lowerBound denseColumn r
          let rows1 := m.rows.set row.toNat
            (r.take insertIndex ++ (denseColumn, 0) :: r.drop insertIndex)
          match notifySubMatricesState subMatrixLinkageCount
              (.OnEntryWasInsertedIntoSuperMatrix row denseColumn) m.subMatrixLinkages with
          | (subMatrixLinkages1, none) =>
            if m.superMatrixLinkage = none then
              ({ m with rows := rows1, subMatrixLinkages := subMatrixLinkages1 }, .ok insertIndex)
            else
              ({ m with rows := rows1, subMatrixLinkages := subMatrixLinkages1 },
                .error .assertion)
          | (subMatrixLinkages1, some f) =>
            ({ m with rows := rows1, subMatrixLinkages := subMatrixLinkages1 }, .error f)
        | none => (m, .error .outOfBounds)
      else (m, .error .assertion)
    | .error f => (m, .error f)
  else (m, .error .assertion)

/-- The outcome of a call that leaves a matrix behind, as a result-or-fault value. -/
def outcomeOf {α : Type} : SparseMatrix × Except Fault α → Except Fault (α × SparseMatrix)
  | (m, .ok a) => .ok (a, m)
  | (_, .error f) => .error f

/-- A 2-row matrix without linkages: `(0,0)=2, (1,0)=1, (1,2)=3`. -/
def insertionExample : SparseMatrix :=
  { rows := [[(0, 2)], [(0, 1), (2, 3)]] }

/-! ## Linkage graph -/

/-- The loop of `GetExistingSubMatrixLinkage`: the first linkage whose sub-matrix is
`subMatrix`, `none` (the null pointer) when the loop ends without one. -/
def existingLinkageLoop (subMatrix : Nat) :
    List SparseSubMatrixLinkage → Option SparseSubMatrixLinkage
  | [] => none
  | link :: rest =>
    if link.subMatrix = subMatrix then some link else existingLinkageLoop subMatrix rest

/-- Source `GetExistingSubMatrixLinkage(subMatrix)`; the matrix pointers compared are handles. -/
def SparseMatrix.GetExistingSubMatrixLinkage (m : SparseMatrix) (subMatrix : Nat) :
    Option SparseSubMatrixLinkage :=
  existingLinkageLoop subMatrix m.subMatrixLinkages

/-- Modelled from the spec: the constructor `SparseSubMatrixLinkage(super, subMatrix,
denseRowColumnOffset)` is declared in sparseSubMatrixLinkage.h, which is not among the
sources; a linkage "holds shared access to both endpoints, a row/column offset" and a
remapping table, whose log of calls starts empty. -/
def SparseSubMatrixLinkage.create (superMatrix subMatrix : Nat) (denseRowColumnOffset : Int) :
    SparseSubMatrixLinkage :=
  { superMatrix := superMatrix, subMatrix := subMatrix,
    denseRowColumnOffset := denseRowColumnOffset, indexRemapper := [] }

/-- Source `AttachSubMatrix(subMatrix, denseRowColumnOffset)`, `self` being the handle that
`shared_from_this()` yields. The result is the matrix as the call leaves it and the linkage
returned, or the fault of the assert. -/
def SparseMatrix.AttachSubMatrix (m : SparseMatrix) (self subMatrix : Nat)
    (denseRowColumnOffset : Int) : SparseMatrix × Except Fault SparseSubMatrixLinkage :=
  match m.GetExistingSubMatrixLinkage subMatrix with
  | none =>
    let linkage := SparseSubMatrixLinkage.create self subMatrix denseRowColumnOffset
    ({ m with subMatrixLinkages := m.subMatrixLinkages ++ [linkage] }, .ok linkage)
  | some _ => (m, .error .assertion)

/-- Source `DetachSubMatrix(matrix)`: `erase(std::find(begin, end, link))` takes out the first
element equal to the linkage found (the pointers compared are linkages here). -/
def SparseMatrix.DetachSubMatrix (m : SparseMatrix) (matrix : Nat) :
    SparseMatrix × Except Fault Unit :=
  match m.GetExistingSubMatrixLinkage matrix with
  | some link => ({ m with subMatrixLinkages := m.subMatrixLinkages.erase link }, .ok ())
  | none => (m, .error .assertion)

/-- The assignment `superMatrixLinkage = link` on the matrix with handle `self`. -/
def setSuperMatrixLinkage (matrices : List SparseMatrix) (self : Nat)
    (link : SparseSubMatrixLinkage) : List SparseMatrix :=
  match matrices[self]? with
  | some m => matrices.set self { m with superMatrixLinkage := some link }
  | none => matrices

/-- Source `AttachSuperMatrix(superMatrix)` called on the matrix with handle `self`, over the
matrices alive (a `shared_ptr<SparseMatrix>` is a position in `matrices`; a handle without a
matrix is a null pointer). The call passes no offset to `AttachSubMatrix`: the default
argument is declared in sparseMatrix.h, which is not among the sources, and is the
parameter `denseRowColumnOffset` here. -/
def AttachSuperMatrix (matrices : List SparseMatrix) (self superMatrix : Nat)
    (denseRowColumnOffset : Int) :
    List SparseMatrix × Except Fault SparseSubMatrixLinkage :=
  match matrices[self]? with
  | some m =>
    if m.superMatrixLinkage = none then
      match matrices[superMatrix]? with
      | some s =>
        match s.AttachSubMatrix superMatrix self denseRowColumnOffset with
        | (s1, .ok link) =>
          (setSuperMatrixLinkage (matrices.set superMatrix s1) self link, .ok link)
        | (s1, .error f) => (matrices.set superMatrix s1, .error f)
      | none => (matrices, .error .nullPointer)
    else (matrices, .error .assertion)
  | none => (matrices, .error .nullPointer)

/-- Source `AddFromSubMatrix(factor, link)` called on the matrix with handle `self`. The body
of `link->AddSubMatrixToSuperMatrix(factor)` is declared in sparseSubMatrixLinkage.h, which
is not among the sources: it is the parameter `AddSubMatrixToSuperMatrix`, any function on
the matrices alive. -/
def AddFromSubMatrixLinkage
    (AddSubMatrixToSuperMatrix :
      SparseSubMatrixLinkage → ℚ → List SparseMatrix → List SparseMatrix × Except Fault Unit)
    (matrices : List SparseMatrix) (self : Nat) (factor : ℚ) (link : SparseSubMatrixLinkage) :
    List SparseMatrix × Except Fault Unit :=
  if link.superMatrix = self then AddSubMatrixToSuperMatrix link factor matrices
  else (matrices, .error .assertion)

/-- Source `AddFromSubMatrix(factor, subMatrix)` called on the matrix with handle `self`. -/
def AddFromSubMatrix
    (AddSubMatrixToSuperMatrix :
      SparseSubMatrixLinkage → ℚ → List SparseMatrix → List SparseMatrix × Except Fault Unit)
    (matrices : List SparseMatrix) (self : Nat) (factor : ℚ) (subMatrix : Nat) :
    List SparseMatrix × Except Fault Unit :=
  match matrices[self]? with
  | some m =>
    match m.GetExistingSubMatrixLinkage subMatrix with
    | some linkage =>
      AddFromSubMatrixLinkage AddSubMatrixToSuperMatrix matrices self factor linkage
    | none => (matrices, .error .assertion)
  | none => (matrices, .error .nullPointer)

/-- Source `AssignFromSuperMatrix(superMatrix)` called on the matrix with handle `self`. The
body of `superMatrixLinkage->AssignSubMatrixFromSuperMatrix()` is declared in
sparseSubMatrixLinkage.h, which is not among the sources: it is the parameter
`AssignSubMatrixFromSuperMatrix`, any function on the matrices alive. -/
def AssignFromSuperMatrix
    (AssignSubMatrixFromSuperMatrix :
      SparseSubMatrixLinkage → List SparseMatrix → List SparseMatrix × Except Fault Unit)
    (matrices : List SparseMatrix) (self superMatrix : Nat) :
    List SparseMatrix × Except Fault Unit :=
  match matrices[self]? with
  | some m =>
    match m.superMatrixLinkage with
    | some link =>
      if link.superMatrix = superMatrix then AssignSubMatrixFromSuperMatrix link matrices
      else (matrices, .error .assertion)
    | none => (matrices, .error .assertion)
  | none => (matrices, .error .nullPointer)

/-- A super-matrix that records one child linkage, to the matrix with handle `1`. -/
def superExample : SparseMatrix :=
  { rows := [[(0, 1)], [(1, 1)]], subMatrixLinkages := [exampleLinkage] }

/-- Two matrices alive: the super-matrix `superExample` (handle `0`) and its sub-matrix
(handle `1`), which has `exampleLinkage` as its parent linkage. -/
def linkedPair : List SparseMatrix :=
  [superExample, { rows := [[(0, 1)]], superMatrixLinkage := some exampleLinkage }]

/-- Two matrices alive and not linked: `identityExample` (handle `0`) and
`shortBasisExample` (handle `1`). -/
def unlinkedPair : List SparseMatrix :=
  [identityExample, shortBasisExample]

/-! ## Transposition indices -/

/-- Modelled from the spec: `HasCachedTransposedIndices()` is declared in sparseMatrix.h,
which is not among the sources. The build is "idempotent (no-op if already built)", and
`FreeTranspositionIndices` and `Allocate` leave the vector empty: the cache is there when
the vector is not empty (the copy constructor tests `source.transposedIndices.size()`). -/
def SparseMatrix.HasCachedTransposedIndices (m : SparseMatrix) : Bool :=
  !m.transposedIndices.isEmpty

/-- The inner loop of `BuildTranspositionIndices` on one row: `transposedIndices[i][j] =
buffer[columnIndices[i][j]]; buffer[columnIndices[i][j]]++`. Returns the indices of the row
and the buffer. -/
def transposeRow : Row → List Int → Except Fault (List Int × List Int)
  | [], buffer => .ok ([], buffer)
  | (c, _) :: rest, buffer =>
    match buffer[c]? with
    | some b =>
      match transposeRow rest (buffer.set c (b + 1)) with
      | .ok (indices, buffer1) => .ok (b :: indices, buffer1)
      | .error f => .error f
    | none => .error .outOfBounds

/-- The row loop of `BuildTranspositionIndices`. -/
def transposeRows : List Row → List Int → Except Fault (List (List Int))
  | [], _ => .ok []
  | row :: rows, buffer =>
    match transposeRow row buffer with
    | .ok (indices, buffer1) =>
      match transposeRows rows buffer1 with
      | .ok rest => .ok (indices :: rest)
      | .error f => .error f
    | .error f => .error f

/-- Source `BuildTranspositionIndices()`: nothing is done when the cache is there; otherwise the
buffer has `GetNumColumns()` zeros. -/
def SparseMatrix.BuildTranspositionIndices (m : SparseMatrix) : Except Fault SparseMatrix :=
  if m.HasCachedTransposedIndices then .ok m
  else
    match transposeRows m.rows (List.replicate m.GetNumColumns 0) with
    | .ok transposedIndices => .ok { m with transposedIndices := transposedIndices }
    | .error f => .error f

/-- Source `FreeTranspositionIndices()`: `transposedIndices.clear()`. -/
def SparseMatrix.FreeTranspositionIndices (m : SparseMatrix) : SparseMatrix :=
  { m with transposedIndices := [] }

/-- Modelled from the spec: `GetColumnIndex(row, j)` is declared in sparseMatrix.h, which is
not among the sources; it is `columnAt(i,j)` of the spec, `columnIndices[row][j]`. -/
def SparseMatrix.GetColumnIndex (m : SparseMatrix) (row j : Nat) : Except Fault Nat :=
  match m.rows[row]? with
  | some r =>
    match r[j]? with
    | some e => .ok e.1
    | none => .error .outOfBounds
  | none => .error .outOfBounds

/-- Modelled from the spec: `GetEntry(row, j)` is declared in sparseMatrix.h, which is not
among the sources; it is `valueAt(i,j)` of the spec, `columnEntries[row][j]`. The position
is an `int`. -/
def SparseMatrix.GetEntry (m : SparseMatrix) (row : Nat) (j : Int) : Except Fault ℚ :=
  if j < 0 then .error .outOfBounds
  else
    match m.rows[row]? with
    | some r =>
      match r[j.toNat]? with
      | some e => .ok e.2
      | none => .error .outOfBounds
    | none => .error .outOfBounds

/-- Modelled from the spec: `TransposedIndex(row, j)` is declared in sparseMatrix.h, which is
not among the sources; it reads `transposeIndexCache[i][j]`, `transposedIndices[row][j]`. -/
def SparseMatrix.TransposedIndex (m : SparseMatrix) (row j : Nat) : Except Fault Int :=
  match m.transposedIndices[row]? with
  | some r =>
    match r[j]? with
    | some t => .ok t
    | none => .error .outOfBounds
  | none => .error .outOfBounds

/-- The inner loop of `SkewSymmetricCheck` on row `i`, `n` rounds from position `j`:
`entry1 = GetEntry(i, j)`, `tindex = TransposedIndex(i, j)`, `entry2 =
GetEntry(GetColumnIndex(i, j), tindex)`, and `maxEntry` is raised to `fabs(entry1 + entry2)`
when that is larger. -/
def skewCheckRow (m : SparseMatrix) (i : Nat) : Nat → Nat → ℚ → Except Fault ℚ
  | 0, _, maxEntry => .ok maxEntry
  | n + 1, j, maxEntry =>
    match m.GetEntry i j, m.TransposedIndex i j, m.GetColumnIndex i j with
    | .ok entry1, .ok tindex, .ok column =>
      match m.GetEntry column tindex with
      | .ok entry2 =>
        skewCheckRow m i n (j + 1)
          (if |entry1 + entry2| > maxEntry then |entry1 + entry2| else maxEntry)
      | .error f => .error f
    | _, _, _ => .error .outOfBounds

/-- The row loop of `SkewSymmetricCheck`, `n` rounds from row `i`; the inner loop runs
`GetRowLength(i)` times. -/
def skewCheckRows (m : SparseMatrix) : Nat → Nat → ℚ → Except Fault ℚ
  | 0, _, maxEntry => .ok maxEntry
  | n + 1, i, maxEntry =>
    match m.GetRowLength i with
    | .ok rowLength =>
      match skewCheckRow m i rowLength 0 maxEntry with
      | .ok maxEntry1 => skewCheckRows m n (i + 1) maxEntry1
      | .error f => .error f
    | .error f => .error f

/-- Source `SkewSymmetricCheck()`: the value returned and the matrix as the call leaves it (the
transposition indices built, used and freed). -/
def SparseMatrix.SkewSymmetricCheck (m : SparseMatrix) : Except Fault (ℚ × SparseMatrix) :=
  match m.BuildTranspositionIndices with
  | .ok m1 =>
    match skewCheckRows m1 m1.GetNumRows 0 0 with
    | .ok maxEntry => .ok (maxEntry, m1.FreeTranspositionIndices)
    | .error f => .error f
  | .error f => .error f

/-- The inner loop of `SymmetrizeMatrix` on row `i`, at most `n` rounds from position `j`:
`jAbs = columnIndices[i][j]`; the loop ends at the first `jAbs >= i`; otherwise
`columnEntries[i][j] = columnEntries[jAbs][TransposedIndex(i,j)]`. -/
def symmetrizeRow (i : Nat) : Nat → Nat → SparseMatrix → Except Fault SparseMatrix
  | 0, _, m => .ok m
  | n + 1, j, m =>
    match m.GetColumnIndex i j with
    | .ok jAbs =>
      if jAbs ≥ i then .ok m
      else
        match m.TransposedIndex i j with
        | .ok tindex =>
          match m.GetEntry jAbs tindex with
          | .ok entry =>
            symmetrizeRow i n (j + 1)
              { m with rows := m.rows.set i ((m.rows.getD i []).set j (jAbs, entry)) }
          | .error f => .error f
        | .error f => .error f
    | .error f => .error f

/-- The row loop of `SymmetrizeMatrix`, `n` rounds from row `i`; `rowLength = GetRowLength(i)`
bounds the inner loop. -/
def symmetrizeRows : Nat → Nat → SparseMatrix → Except Fault SparseMatrix
  | 0, _, m => .ok m
  | n + 1, i, m =>
    match m.GetRowLength i with
    | .ok rowLength =>
      match symmetrizeRow i rowLength 0 m with
      | .ok m1 => symmetrizeRows n (i + 1) m1
      | .error f => .error f
    | .error f => .error f

/-- Source `SymmetrizeMatrix()`. -/
def SparseMatrix.SymmetrizeMatrix (m : SparseMatrix) : Except Fault SparseMatrix :=
  symmetrizeRows m.GetNumRows 0 m

/-- The pattern is structurally symmetric: entry `(a, b)` is stored iff `(b, a)` is. -/
def SparseMatrix.SymmetricPattern (m : SparseMatrix) : Prop :=
  ∀ a b, m.Stored a b → m.Stored b a

/-- The transposition indices are absent, or are the ones a build on these rows gives. -/
def SparseMatrix.TranspositionIndicesUpToDate (m : SparseMatrix) : Prop :=
  m.transposedIndices = [] ∨
    transposeRows m.rows (List.replicate m.GetNumColumns 0) = .ok m.transposedIndices

/-- The transposition indices are the ones a build on these rows gives. -/
def SparseMatrix.TranspositionIndicesFresh (m : SparseMatrix) : Prop :=
  transposeRows m.rows (List.replicate m.GetNumColumns 0) = .ok m.transposedIndices

/-- The rows of `A` with the value of each entry `(i, c)` replaced by `A(i,c) − A(c,i)`, the
first row having index `i`. -/
def skewRows (A : SparseMatrix) : Nat → List Row → List Row
  | _, [] => []
  | i, row :: rows =>
    row.map (fun e => (e.1, A.entry i e.1 - A.entry e.1 i)) :: skewRows A (i + 1) rows

/-- The matrix with the pattern of `A` and the values `A(i,c) − A(c,i)`. -/
def SparseMatrix.skewPart (A : SparseMatrix) : SparseMatrix :=
  { rows := skewRows A 0 A.rows }

/-- A 2-row matrix with a symmetric pattern: `(0,0)=1, (0,1)=2, (1,0)=5, (1,1)=4`. -/
def squareExample : SparseMatrix :=
  { rows := [[(0, 1), (1, 2)], [(0, 5), (1, 4)]] }

/-- The number of entries with column `c` in the rows. -/
def countBefore (rows : List Row) (c : Nat) : Nat :=
  (rows.map (fun row => row.countP (fun e => decide (e.1 = c)))).sum

/-- The update `if (t > maxEntry) maxEntry = t`. -/
def raiseTo (maxEntry t : ℚ) : ℚ := if t > maxEntry then t else maxEntry

/-- The skew defects `|M(i,c) + M(c,i)|` of the stored entries `(i, c)` of the rows, in
row-major order, the first row having index `i`. -/
def skewTerms (m : SparseMatrix) : Nat → List Row → List ℚ
  | _, [] => []
  | i, row :: rows =>
    row.map (fun e => |m.entry i e.1 + m.entry e.1 i|) ++ skewTerms m (i + 1) rows

/-- A row of index `i` after symmetrization: the value of each entry `(i, c)` with `c < i`
is `M(c, i)`, every other entry is as it was. -/
def symmetrizedRow (m : SparseMatrix) (i : Nat) (row : Row) : Row :=
  row.map (fun e => if e.1 < i then (e.1, m.entry e.1 i) else e)

/-- The rows with the rows of index below `i` symmetrized, the first row having index `k`. -/
def symmetrizedBelow (m : SparseMatrix) (i : Nat) : Nat → List Row → List Row
  | _, [] => []
  | k, row :: rows =>
    (if k < i then symmetrizedRow m k row else row) :: symmetrizedBelow m i (k + 1) rows

/-- The matrix `squareExample` with its transposition indices built. -/
def squareExampleIndexed : SparseMatrix :=
  { rows := [[(0, 1), (1, 2)], [(0, 5), (1, 4)]], transposedIndices := [[0, 0], [1, 1]] }

/-! ## The outline as a collaborator, reference rows -/

/-- Modelled from the spec: `SparseMatrixOutline::GetNumRows()` (declared in sparseMatrix.h,
which is not among the sources), the `numRows()` of the outline collaborator. -/
def SparseMatrixOutline.GetNumRows (o : SparseMatrixOutline) : Nat := o.columnEntries.length

/-- The row `RemoveColumn` leaves of a sorted row, from the entry of the removed column on:
the entries ahead moved one step back, the last entry of the row still at the end. -/
def shiftOut (index : Nat) : Row → Row
  | [] => []
  | (c, a) :: rest =>
    if c = index then rest ++ ((c, a) :: rest).drop rest.length
    else (c, a) :: shiftOut index rest

/-- A 2-row matrix with the symmetric pattern `(0,1), (1,0)`: `(0,1)=2, (1,0)=5`. -/
def offDiagonalExample : SparseMatrix :=
  { rows := [[(1, 2)], [(0, 5)]] }

/-- The matrix `offDiagonalExample` after `BuildTranspositionIndices()`, `InsertNewEntry(0, 0)`
and `InsertNewEntry(1, 1)`: the transposition indices are those of the old pattern. -/
def staleIndicesExample : SparseMatrix :=
  { rows := [[(0, 0), (1, 2)], [(0, 5), (1, 0)]], transposedIndices := [[0], [0]] }

/-! ## Sequences of linkage calls -/

/-- One call of the linkage interface, made on the matrix with handle `self`. -/
inductive LinkageCall where
  | attachSubMatrix (self subMatrix : Nat) (denseRowColumnOffset : Int)
  | attachSuperMatrix (self superMatrix : Nat) (denseRowColumnOffset : Int)
  | detachSubMatrix (self matrix : Nat)

/-- A linkage call on the matrices alive: the matrices as the call leaves them when it
returns, the fault when it stops at an assert or at a handle without a matrix. -/
def LinkageCall.run (matrices : List SparseMatrix) :
    LinkageCall → Except Fault (List SparseMatrix)
  | .attachSubMatrix self subMatrix denseRowColumnOffset =>
    match matrices[self]? with
    | some m =>
      match m.AttachSubMatrix self subMatrix denseRowColumnOffset with
      | (m1, .ok _) => .ok (matrices.set self m1)
      | (_, .error f) => .error f
    | none => .error .nullPointer
  | .attachSuperMatrix self superMatrix denseRowColumnOffset =>
    match AttachSuperMatrix matrices self superMatrix denseRowColumnOffset with
    | (matrices1, .ok _) => .ok matrices1
    | (_, .error f) => .error f
  | .detachSubMatrix self matrix =>
    match matrices[self]? with
    | some m =>
      match m.DetachSubMatrix matrix with
      | (m1, .ok _) => .ok (matrices.set self m1)
      | (_, .error f) => .error f
    | none => .error .nullPointer

/-- A sequence of linkage calls, each made on the matrices the one before left; the first
fault stops the sequence. -/
def runLinkageCalls : List LinkageCall → List SparseMatrix → Except Fault (List SparseMatrix)
  | [], matrices => .ok matrices
  | call :: rest, matrices =>
    match call.run matrices with
    | .ok matrices1 => runLinkageCalls rest matrices1
    | .error f => .error f

/-- The call is `AttachSubMatrix(sub, offset)` made directly on a super-matrix. -/
def LinkageCall.isDirectAttach : LinkageCall → Bool
  | .attachSubMatrix _ _ _ => true
  | _ => false

/-- No matrix records a child linkage or holds a parent linkage. -/
def Unlinked (matrices : List SparseMatrix) : Prop :=
  ∀ m ∈ matrices, m.subMatrixLinkages = [] ∧ m.superMatrixLinkage = none

/-- The matrix with handle `s` records a linkage whose sub-matrix is the one with handle
`t`. -/
def RecordsSubMatrix (matrices : List SparseMatrix) (s t : Nat) : Prop :=
  ∃ m, matrices[s]? = some m ∧ ∃ l ∈ m.subMatrixLinkages, l.subMatrix = t

/-- Each matrix is the sub-matrix of linkages recorded by at most one super-matrix. -/
def SingleParent (matrices : List SparseMatrix) : Prop :=
  ∀ t s1 s2, RecordsSubMatrix matrices s1 t → RecordsSubMatrix matrices s2 t → s1 = s2

/-- Every linkage a matrix records leads to a sub-matrix whose parent linkage names that
matrix as its super-matrix. -/
def ChildrenKnowParent (matrices : List SparseMatrix) : Prop :=
  ∀ (s : Nat) (m : SparseMatrix), matrices[s]? = some m → ∀ l ∈ m.subMatrixLinkages,
    ∃ t l2, matrices[l.subMatrix]? = some t ∧ t.superMatrixLinkage = some l2 ∧
      l2.superMatrix = s

/-- Three matrices alive and not linked, with handles `0`, `1` and `2`. -/
def unlinkedTriple : List SparseMatrix :=
  [identityExample, identityExample, shortBasisExample]

/-- The matrices of `unlinkedTriple` after the matrices with handles `0` and `1` have each
recorded a linkage to the matrix with handle `2`. -/
def twoSupersExample : List SparseMatrix :=
  [{ identityExample with subMatrixLinkages := [SparseSubMatrixLinkage.create 0 2 0] },
   { identityExample with subMatrixLinkages := [SparseSubMatrixLinkage.create 1 2 0] },
   shortBasisExample]

/-! ## Diagonal indices -/

/-- Modelled from the spec: `HasCachedDiagonalIndices()` is declared in sparseMatrix.h, which
is not among the sources. The build is "idempotent (no-op if already built)", and
`FreeDiagonalIndices` clears the vector: the cache is there when the vector is not empty. -/
def SparseMatrix.HasCachedDiagonalIndices (m : SparseMatrix) : Bool :=
  !m.diagonalIndices.isEmpty

/-- The call `diagonalIndices.resize(n)` of `std::vector<int>`: the first `n` elements, then
zeros up to the size `n`. -/
def resizeIndices (indices : List Int) (n : Nat) : List Int :=
  indices.take n ++ List.replicate (n - indices.length) 0

/-- The loop of `BuildDiagonalIndices`, `n` rounds from row `i`:
`diagonalIndices[i] = GetInverseIndex(i, i)`. -/
def buildDiagonalLoop (m : SparseMatrix) : Nat → Nat → List Int → Except Fault (List Int)
  | 0, _, diagonalIndices => .ok diagonalIndices
  | n + 1, i, diagonalIndices =>
    match m.GetInverseIndex i i with
    | .ok index =>
      if i < diagonalIndices.length then
        buildDiagonalLoop m n (i + 1) (diagonalIndices.set i index)
      else .error .outOfBounds
    | .error f => .error f

/-- Source `BuildDiagonalIndices()`: nothing is done when the cache is there. -/
def SparseMatrix.BuildDiagonalIndices (m : SparseMatrix) : Except Fault SparseMatrix :=
  if m.HasCachedDiagonalIndices then .ok m
  else
    match buildDiagonalLoop m m.GetNumRows 0 (resizeIndices m.diagonalIndices m.GetNumRows) with
    | .ok diagonalIndices => .ok { m with diagonalIndices := diagonalIndices }
    | .error f => .error f

/-- Source `FreeDiagonalIndices()`: `diagonalIndices.clear()`. -/
def SparseMatrix.FreeDiagonalIndices (m : SparseMatrix) : SparseMatrix :=
  { m with diagonalIndices := [] }

/-- The index `t` is what a row has for the column `c`: `-1` when no entry of the row has
column `c`, otherwise the position of the first entry whose column is `c` (the only one when
the columns of the row are strictly increasing). -/
def IsPositionOf (row : Row) (c : Nat) (t : Int) : Prop :=
  (t = -1 ∧ c ∉ row.map Prod.fst) ∨
    (0 ≤ t ∧ (row[t.toNat]?).map Prod.fst = some c ∧
      ∀ j, j < t.toNat → (row[j]?).map Prod.fst ≠ some c)

/-- A 3-row matrix whose row `1` stores no diagonal entry: `(0,0)=2, (0,1)=1, (1,0)=4,
(1,2)=6, (2,2)=5`. -/
def missingDiagonalExample : SparseMatrix :=
  { rows := [[(0, 2), (1, 1)], [(0, 4), (2, 6)], [(2, 5)]] }

/-! ## Norms -/

/-- The loop of `GetRowNorm2`: `el = columnEntries[row][j]; norm2 += el * el`. -/
def rowNorm2Loop : Row → ℚ → ℚ
  | [], norm2 => norm2
  | (_, el) :: rest, norm2 => rowNorm2Loop rest (norm2 + el * el)

/-- Source `GetRowNorm2(row)`: the loop from `norm2 = 0`, and `return norm2`. The row must
exist. -/
def SparseMatrix.GetRowNorm2 (m : SparseMatrix) (row : Nat) : Except Fault ℚ :=
  match m.rows[row]? with
  | some r => .ok (rowNorm2Loop r 0)
  | none => .error .outOfBounds

/-- The sum of the squares of the values a row stores. -/
def sumOfSquares (row : Row) : ℚ := (row.map (fun e => e.2 * e.2)).sum

/-- The number `x` is the Euclidean 2-norm of the values of a row: it is not negative and
its square is the sum of their squares. -/
def IsEuclideanNorm (x : ℚ) (row : Row) : Prop := 0 ≤ x ∧ x * x = sumOfSquares row

/-- A one-row matrix with the values `3` and `4`. -/
def threeFourExample : SparseMatrix :=
  { rows := [[(0, 3), (1, 4)]] }

/-! ## Compressed-row export -/

/-- A write `buffer[index] = value` guarded by `if (buffer != NULL)`: nothing is written
through the null pointer (`none`); a buffer given must hold the position. -/
def writeIfGiven {α : Type} (buffer : Option (List α)) (index : Nat) (value : α) :
    Except Fault (Option (List α)) :=
  match buffer with
  | none => .ok none
  | some b => if index < b.length then .ok (some (b.set index value)) else .error .outOfBounds

/-- The state of the entry loop of the exports: the buffers of values and of columns, and
`count`. -/
abbrev ExportState := Option (List ℚ) × Option (List Int) × Nat

/-- The entry loop of `GenerateCompressedRowMajorFormat` and of its four-array variant on
one row: an entry is emitted when `!upperTriangleOnly` or its column is not below `row`. -/
def compressRowLoop (upperTriangleOnly oneIndexed : Int) (row : Nat) :
    Row → ExportState → Except Fault ExportState
  | [], s => .ok s
  | (column, value) :: rest, (a, ja, count) =>
    if upperTriangleOnly = 0 ∨ row ≤ column then
      match writeIfGiven a count value with
      | .ok a1 =>
        match writeIfGiven ja count ((column : Int) + oneIndexed) with
        | .ok ja1 =>
          compressRowLoop upperTriangleOnly oneIndexed row rest (a1, ja1, count + 1)
        | .error f => .error f
      | .error f => .error f
    else compressRowLoop upperTriangleOnly oneIndexed row rest (a, ja, count)

/-- The row loop of `GenerateCompressedRowMajorFormat`, from row `row`: `ia[row] = count +
oneIndexed`, then the entry loop. -/
def compressRows (upperTriangleOnly oneIndexed : Int) :
    Nat → List Row → Option (List Int) → ExportState →
      Except Fault (Option (List Int) × ExportState)
  | _, [], ia, s => .ok (ia, s)
  | row, r :: rest, ia, s =>
    match writeIfGiven ia row ((s.2.2 : Int) + oneIndexed) with
    | .ok ia1 =>
      match compressRowLoop upperTriangleOnly oneIndexed row r s with
      | .ok s1 => compressRows upperTriangleOnly oneIndexed (row + 1) rest ia1 s1
      | .error f => .error f
    | .error f => .error f

/-- Source `GenerateCompressedRowMajorFormat(a, ia, ja, upperTriangleOnly, oneIndexed)`: the
buffers `(a, ia, ja)` as the call leaves them. -/
def SparseMatrix.GenerateCompressedRowMajorFormat (m : SparseMatrix) (a : Option (List ℚ))
    (ia ja : Option (List Int)) (upperTriangleOnly oneIndexed : Int) :
    Except Fault (Option (List ℚ) × Option (List Int) × Option (List Int)) :=
  match compressRows upperTriangleOnly oneIndexed 0 m.rows ia (a, ja, 0) with
  | .ok (ia1, a1, ja1, count) =>
    match writeIfGiven ia1 m.GetNumRows ((count : Int) + oneIndexed) with
    | .ok ia2 => .ok (a1, ia2, ja1)
    | .error f => .error f
  | .error f => .error f

/-- The row loop of `GenerateCompressedRowMajorFormat_four_array`, from row `row`:
`pointerB[row] = count + oneIndexed`, the entry loop, `pointerE[row] = count + oneIndexed`. -/
def compressRowsFourArray (upperTriangleOnly oneIndexed : Int) :
    Nat → List Row → Option (List Int) → Option (List Int) → ExportState →
      Except Fault (Option (List Int) × Option (List Int) × ExportState)
  | _, [], pointerB, pointerE, s => .ok (pointerB, pointerE, s)
  | row, r :: rest, pointerB, pointerE, s =>
    match writeIfGiven pointerB row ((s.2.2 : Int) + oneIndexed) with
    | .ok pointerB1 =>
      match compressRowLoop upperTriangleOnly oneIndexed row r s with
      | .ok s1 =>
        match writeIfGiven pointerE row ((s1.2.2 : Int) + oneIndexed) with
        | .ok pointerE1 =>
          compressRowsFourArray upperTriangleOnly oneIndexed (row + 1) rest pointerB1
            pointerE1 s1
        | .error f => .error f
      | .error f => .error f
    | .error f => .error f

/-- Source `GenerateCompressedRowMajorFormat_four_array(values, columns, pointerB, pointerE,
upperTriangleOnly, oneIndexed)`: the buffers `(values, columns, pointerB, pointerE)` as the
call leaves them. -/
def SparseMatrix.GenerateCompressedRowMajorFormat_four_array (m : SparseMatrix)
    (values : Option (List ℚ)) (columns pointerB pointerE : Option (List Int))
    (upperTriangleOnly oneIndexed : Int) :
    Except Fault (Option (List ℚ) × Option (List Int) × Option (List Int) ×
      Option (List Int)) :=
  match compressRowsFourArray upperTriangleOnly oneIndexed 0 m.rows pointerB pointerE
      (values, columns, 0) with
  | .ok (pointerB1, pointerE1, values1, columns1, _) =>
    .ok (values1, columns1, pointerB1, pointerE1)
  | .error f => .error f

/-- The entries of row `row` that the export keeps: all of them when `upperTriangleOnly` is
`0`, otherwise those whose column is not below `row`. -/
def emittedOfRow (upperTriangleOnly : Int) (row : Nat) (r : Row) : Row :=
  r.filter (fun e => decide (upperTriangleOnly = 0 ∨ row ≤ e.1))

/-- The kept entries of the rows in row-major order, the first row having index `row`. -/
def emittedFrom (upperTriangleOnly : Int) : Nat → List Row → Row
  | _, [] => []
  | row, r :: rest =>
    emittedOfRow upperTriangleOnly row r ++ emittedFrom upperTriangleOnly (row + 1) rest

/-- The number of kept entries in the rows before `row`. -/
def emittedBefore (upperTriangleOnly : Int) (rows : List Row) (row : Nat) : Nat :=
  (emittedFrom upperTriangleOnly 0 (rows.take row)).length

/-- A buffer whose first positions have been overwritten with `written`. -/
def overwritten {α : Type} (written buffer : List α) : List α :=
  written ++ buffer.drop written.length

/-! ## The calls a removal makes on the remapper -/

/-- The index that a remapper call reports (the row, for an insertion). -/
def RemapperCall.reportedIndex : RemapperCall → Int
  | .RemoveSuperRowFromSubMatrix index => index
  | .RemoveSuperColumnFromSubMatrix index => index
  | .OnEntryWasInsertedIntoSuperMatrix row _ => row

/-- The calls that the remapper of the super-matrix linkage has received when an operation
has returned, oldest first. -/
def remapperLog (outcome : Except Fault SparseMatrix) : Except Fault (List RemapperCall) :=
  outcome.map (fun m =>
    match m.superMatrixLinkage with
    | some l => l.indexRemapper
    | none => [])

/-! ## Access to the diagonal -/

/-- The cached branch of `GetDiagonal`, `n` rounds from row `i`:
`diagonal[i] = columnEntries[i][diagonalIndices[i]]`. -/
def getDiagonalCached (m : SparseMatrix) : Nat → Nat → List ℚ → Except Fault (List ℚ)
  | 0, _, diagonal => .ok diagonal
  | n + 1, i, diagonal =>
    match m.diagonalIndices[i]?, m.rows[i]? with
    | some index, some row =>
      if index < 0 then .error .outOfBounds
      else
        match row[index.toNat]? with
        | some e =>
          if i < diagonal.length then getDiagonalCached m n (i + 1) (diagonal.set i e.2)
          else .error .outOfBounds
        | none => .error .outOfBounds
    | _, _ => .error .outOfBounds

/-- The scanning branch of `GetDiagonal` on row `i`: `if (GetColumnIndex(i, j) == i)
diagonal[i] = columnEntries[i][j]` for every position `j`. -/
def getDiagonalScanRow (i : Nat) : Row → List ℚ → Except Fault (List ℚ)
  | [], diagonal => .ok diagonal
  | (c, a) :: rest, diagonal =>
    if c = i then
      if i < diagonal.length then getDiagonalScanRow i rest (diagonal.set i a)
      else .error .outOfBounds
    else getDiagonalScanRow i rest diagonal

/-- The row loop of the scanning branch of `GetDiagonal`, the first row having index `i`. -/
def getDiagonalScan : Nat → List Row → List ℚ → Except Fault (List ℚ)
  | _, [], diagonal => .ok diagonal
  | i, row :: rows, diagonal =>
    match getDiagonalScanRow i row diagonal with
    | .ok diagonal1 => getDiagonalScan (i + 1) rows diagonal1
    | .error f => .error f

/-- Source `GetDiagonal(diagonal)`: the caller's buffer as the call leaves it. -/
def SparseMatrix.GetDiagonal (m : SparseMatrix) (diagonal : List ℚ) : Except Fault (List ℚ) :=
  if m.HasCachedDiagonalIndices then getDiagonalCached m m.GetNumRows 0 diagonal
  else getDiagonalScan 0 m.rows diagonal

/-- The cached branch of both `AddDiagonalMatrix` overloads, `n` rounds from row `i`:
`columnEntries[i][diagonalIndices[i]] += addend(i)`, the addend being `diagonalMatrix[i]` or
`constDiagonalElement`. -/
def addDiagonalCached (addend : Nat → Except Fault ℚ) (diagonalIndices : List Int) :
    Nat → Nat → List Row → Except Fault (List Row)
  | 0, _, rows => .ok rows
  | n + 1, i, rows =>
    match diagonalIndices[i]?, rows[i]?, addend i with
    | some index, some row, .ok d =>
      if index < 0 then .error .outOfBounds
      else
        match row[index.toNat]? with
        | some (c, a) =>
          addDiagonalCached addend diagonalIndices n (i + 1)
            (rows.set i (row.set index.toNat (c, a + d)))
        | none => .error .outOfBounds
    | _, _, _ => .error .outOfBounds

/-- The scanning branch of both `AddDiagonalMatrix` overloads on row `i`:
`if (GetColumnIndex(i, j) == i) columnEntries[i][j] += addend` for every position `j`; the
addend is read only there. -/
def addDiagonalScanRow (addend : Except Fault ℚ) (i : Nat) : Row → Except Fault Row
  | [] => .ok []
  | (c, a) :: rest =>
    if c = i then
      match addend with
      | .ok d =>
        match addDiagonalScanRow addend i rest with
        | .ok rest1 => .ok ((c, a + d) :: rest1)
        | .error f => .error f
      | .error f => .error f
    else
      match addDiagonalScanRow addend i rest with
      | .ok rest1 => .ok ((c, a) :: rest1)
      | .error f => .error f

/-- The row loop of the scanning branch of `AddDiagonalMatrix`, the first row having index
`i`. -/
def addDiagonalScan (addend : Nat → Except Fault ℚ) : Nat → List Row → Except Fault (List Row)
  | _, [] => .ok []
  | i, row :: rows =>
    match addDiagonalScanRow (addend i) i row with
    | .ok row1 =>
      match addDiagonalScan addend (i + 1) rows with
      | .ok rows1 => .ok (row1 :: rows1)
      | .error f => .error f
    | .error f => .error f

/-- The read `diagonalMatrix[i]` of the caller's array. -/
def readDiagonalMatrix (diagonalMatrix : List ℚ) (i : Nat) : Except Fault ℚ :=
  match diagonalMatrix[i]? with
  | some d => .ok d
  | none => .error .outOfBounds

/-- The body shared by the two `AddDiagonalMatrix` overloads. -/
def SparseMatrix.addDiagonal (m : SparseMatrix) (addend : Nat → Except Fault ℚ) :
    Except Fault SparseMatrix :=
  if m.HasCachedDiagonalIndices then
    match addDiagonalCached addend m.diagonalIndices m.GetNumRows 0 m.rows with
    | .ok rows => .ok { m with rows := rows }
    | .error f => .error f
  else
    match addDiagonalScan addend 0 m.rows with
    | .ok rows => .ok { m with rows := rows }
    | .error f => .error f

/-- Source `AddDiagonalMatrix(double * diagonalMatrix)`. -/
def SparseMatrix.AddDiagonalMatrix (m : SparseMatrix) (diagonalMatrix : List ℚ) :
    Except Fault SparseMatrix :=
  m.addDiagonal (readDiagonalMatrix diagonalMatrix)

/-- Source `AddDiagonalMatrix(double constDiagonalElement)`. -/
def SparseMatrix.AddDiagonalMatrixConstant (m : SparseMatrix) (constDiagonalElement : ℚ) :
    Except Fault SparseMatrix :=
  m.addDiagonal (fun _ => .ok constDiagonalElement)

/-- The matrix `missingDiagonalExample` with its diagonal cache freshly built. -/
def missingDiagonalCached : SparseMatrix :=
  { missingDiagonalExample with diagonalIndices := [0, -1, 0] }

/-- Every row stores an entry on the diagonal. -/
def SparseMatrix.HasFullDiagonal (m : SparseMatrix) : Prop :=
  ∀ (i : Nat) (row : Row), m.rows[i]? = some row → i ∈ row.map Prod.fst

/-! ## Relaxation sweep -/

/-- What stops a relaxation sweep: a fault of the source, or a division by a stored `0`,
whose quotient is an IEEE infinity or NaN and not a rational number. -/
inductive SweepStop where
  | fault (f : Fault)
  | divisionByZero
  deriving DecidableEq, Repr

/-- The inner loop of `DoOneGaussSeidelIteration` on row `i`, from position `j`: an entry
with `column != i` gives `buffer -= columnEntries[i][j] * x[column]`, any other sets
`diagIndex = j`. Returns `buffer` and `diagIndex`. -/
def gaussSeidelRow (i : Nat) (x : List ℚ) : Nat → Row → ℚ → Int → Except Fault (ℚ × Int)
  | _, [], buffer, diagIndex => .ok (buffer, diagIndex)
  | j, (column, a) :: rest, buffer, diagIndex =>
    if column ≠ i then
      match x[column]? with
      | some xc => gaussSeidelRow i x (j + 1) rest (buffer - a * xc) diagIndex
      | none => .error .outOfBounds
    else gaussSeidelRow i x (j + 1) rest buffer (j : Int)

/-- The body of the row loop of `DoOneGaussSeidelIteration` for row `i`: `buffer = b[i]`,
`diagIndex = -1`, the inner loop, and `x[i] = buffer / columnEntries[i][diagIndex]`. -/
def gaussSeidelStep (b : List ℚ) (i : Nat) (row : Row) (x : List ℚ) :
    Except SweepStop (List ℚ) :=
  match b[i]? with
  | some bi =>
    match gaussSeidelRow i x 0 row bi (-1) with
    | .ok (buffer, diagIndex) =>
      if diagIndex < 0 then .error (.fault .outOfBounds)
      else
        match row[diagIndex.toNat]? with
        | some (_, d) =>
          if d = 0 then .error .divisionByZero
          else if i < x.length then .ok (x.set i (buffer / d))
          else .error (.fault .outOfBounds)
        | none => .error (.fault .outOfBounds)
    | .error f => .error (.fault f)
  | none => .error (.fault .outOfBounds)

/-- The row loop of `DoOneGaussSeidelIteration`, the first row having index `i`. -/
def gaussSeidelRows (b : List ℚ) : Nat → List Row → List ℚ → Except SweepStop (List ℚ)
  | _, [], x => .ok x
  | i, row :: rows, x =>
    match gaussSeidelStep b i row x with
    | .ok x1 => gaussSeidelRows b (i + 1) rows x1
    | .error s => .error s

/-- Source `DoOneGaussSeidelIteration(x, b)`: the vector `x` as the sweep leaves it. -/
def SparseMatrix.DoOneGaussSeidelIteration (m : SparseMatrix) (x b : List ℚ) :
    Except SweepStop (List ℚ) :=
  gaussSeidelRows b 0 m.rows x

/-- Every row stores an entry on the diagonal, and its value is not `0`. -/
def SparseMatrix.HasNonZeroDiagonal (m : SparseMatrix) : Prop :=
  ∀ (i : Nat) (row : Row), m.rows[i]? = some row → ∃ a, (i, a) ∈ row ∧ a ≠ 0

/-- The sum `Σ x[c] * a` over the entries `(c, a)` of a row whose column is not `i`. -/
def offDiagonalSum (x : List ℚ) (i : Nat) : Row → ℚ
  | [] => 0
  | (c, a) :: rest => (if c = i then 0 else x.getD c 0 * a) + offDiagonalSum x i rest

/-- A 2-row matrix with a non-zero diagonal: `(0,0)=2, (0,1)=1, (1,0)=1, (1,1)=3`. -/
def relaxationExample : SparseMatrix :=
  { rows := [[(0, 2), (1, 1)], [(0, 1), (1, 3)]] }

/-! ## Explicit transpose -/

/-- The inner loop of `Transpose` on row `i`:
`outline.AddEntry(columnIndices[i][j], i, columnEntries[i][j])`. -/
def transposeAddRow (i : Nat) : Row → SparseMatrixOutline → Except Fault SparseMatrixOutline
  | [], outline => .ok outline
  | (c, a) :: rest, outline =>
    match outline.AddEntry c i a with
    | .ok outline1 => transposeAddRow i rest outline1
    | .error f => .error f

/-- The row loop of `Transpose`, the first row having index `i`. -/
def transposeAddRows : Nat → List Row → SparseMatrixOutline → Except Fault SparseMatrixOutline
  | _, [], outline => .ok outline
  | i, row :: rows, outline =>
    match transposeAddRow i row outline with
    | .ok outline1 => transposeAddRows (i + 1) rows outline1
    | .error f => .error f

/-- Source `Transpose(numColumns)`: a negative `numColumns` stands for `GetNumColumns()`; the
outline has `numColumns` rows, and the matrix returned is built from it by
`InitFromOutline`. -/
def SparseMatrix.Transpose (m : SparseMatrix) (numColumns : Int) : Except Fault SparseMatrix :=
  let numColumns1 := if numColumns < 0 then (m.GetNumColumns : Int) else numColumns
  match transposeAddRows 0 m.rows (SparseMatrixOutline.create numColumns1.toNat) with
  | .ok outline => .ok (SparseMatrix.InitFromOutline outline).1
  | .error f => .error f

/-- What the rows from index `i` on contribute to position `(K, L)` of the transpose: the
value that row `L` stores at column `K`. -/
def transposedValue : Nat → List Row → Nat → Nat → ℚ
  | _, [], _, _ => 0
  | i, row :: rows, K, L =>
    (if L = i then rowEntrySum row K else 0) + transposedValue (i + 1) rows K L

/-- The sum `Σ v[i] * M(i, K)` over the rows, the first row having index `i`. -/
def columnSum (v : List ℚ) (K : Nat) : Nat → List Row → ℚ
  | _, [] => 0
  | i, row :: rows => v.getD i 0 * rowEntrySum row K + columnSum v K (i + 1) rows

/-! ## Outlines as they are built -/

/-- A sequence of `AddEntry(i, j, value)` calls on an outline, in order; the first fault
stops it. -/
def addEntries : List (Nat × Nat × ℚ) → SparseMatrixOutline → Except Fault SparseMatrixOutline
  | [], outline => .ok outline
  | (i, j, value) :: rest, outline =>
    match outline.AddEntry i j value with
    | .ok outline1 => addEntries rest outline1
    | .error f => .error f

/-! ## Rows with column indices of either sign -/

/-- One row as the source stores it: `columnIndices[i]` is a `vector<int>`, and `SetRows`,
`RemoveColumn` and `InsertNewEntry` store an index below zero in it when their `int`
arguments ask for one. -/
abbrev SignedRow := List (Int × ℚ)

/-- The members of `class SparseMatrix` once more, the stored column indices being `int`s of
either sign; `SparseMatrix` is the part of it that the data model of the spec describes
(`columnIndex: int ≥0`). -/
structure SignedMatrix where
  rows : List SignedRow
  diagonalIndices : List Int := []
  transposedIndices : List (List Int) := []
  subMatrixLinkages : List SparseSubMatrixLinkage := []
  superMatrixLinkage : Option SparseSubMatrixLinkage := none
  deriving DecidableEq, Repr

/-- A row of the data model read as a row of `int` column indices. -/
def signedRow (row : Row) : SignedRow := row.map (fun e => ((e.1 : Int), e.2))

/-- A matrix of the data model read as a matrix of `int` column indices. -/
def SparseMatrix.signed (m : SparseMatrix) : SignedMatrix :=
  { rows := m.rows.map signedRow, diagonalIndices := m.diagonalIndices,
    transposedIndices := m.transposedIndices, subMatrixLinkages := m.subMatrixLinkages,
    superMatrixLinkage := m.superMatrixLinkage }

/-- Modelled from the spec: `GetNumRows()` (declared in sparseMatrix.h, which is not among
the sources), the size of the row vectors. -/
def SignedMatrix.GetNumRows (m : SignedMatrix) : Nat := m.rows.length

/-- The column indices of a row are strictly increasing, whatever their sign. -/
def SignedRowSorted (row : SignedRow) : Prop := row.Pairwise (fun e1 e2 => e1.1 < e2.1)

/-- Every row has strictly increasing column indices, whatever their sign. -/
def SignedSortedRows (rows : List SignedRow) : Prop := ∀ row ∈ rows, SignedRowSorted row

/-- The shift loop of `RemoveColumn` on a row of `int` column indices: `for (k = j;
k < cachedRowLength-1; k++)` copy entry `k+1` to position `k`; `n` rounds from position `k`.
The vector keeps its size. -/
def Signed.shiftBack : Nat → Nat → SignedRow → Except Fault SignedRow
  | 0, _, row => .ok row
  | n + 1, k, row =>
    match row[k + 1]? with
    | some e =>
      if k < row.length then Signed.shiftBack n (k + 1) (row.set k e) else .error .outOfBounds
    | none => .error .outOfBounds

/-- The seek loop of `RemoveColumn(index)` on one row, `index` being an `int` of either sign,
at most `n` rounds from position `j`: on a match the entries ahead are shifted one step back
and `cachedRowLength` is lowered; the row itself is not resized. -/
def Signed.shiftSeekLoop (index : Int) : Nat → Nat → Nat → SignedRow →
    Except Fault (SignedRow × Nat)
  | 0, _, cachedRowLength, row => .ok (row, cachedRowLength)
  | n + 1, j, cachedRowLength, row =>
    if j < cachedRowLength then
      match row[j]? with
      | some (c, _) =>
        if c = index then
          match Signed.shiftBack (cachedRowLength - 1 - j) j row with
          | .ok row1 => Signed.shiftSeekLoop index n (j + 1) (cachedRowLength - 1) row1
          | .error f => .error f
        else Signed.shiftSeekLoop index n (j + 1) cachedRowLength row
      | none => .error .outOfBounds
    else .ok (row, cachedRowLength)

/-- The loop `for (j = 0; j < cachedRowLength; j++) if (columnIndices[i][j] > index)
--columnIndices[i][j]` over the first `cachedRowLength` entries of a row, for an `int`
`index` of either sign. -/
def Signed.decrementAbove (index : Int) : Nat → SignedRow → Except Fault SignedRow
  | 0, row => .ok row
  | _ + 1, [] => .error .outOfBounds
  | k + 1, (c, a) :: rest =>
    match Signed.decrementAbove index k rest with
    | .ok rest1 => .ok ((if index < c then (c - 1, a) else (c, a)) :: rest1)
    | .error f => .error f

/-- The body of the row loop of `RemoveColumn(index)`. The seek loop runs while
`j < cachedRowLength`, so at most `GetRowLength(i)` times. -/
def Signed.removeColumnFromRowShifting (index : Int) (row : SignedRow) :
    Except Fault SignedRow :=
  match Signed.shiftSeekLoop index row.length 0 row.length row with
  | .ok (row1, cachedRowLength) => Signed.decrementAbove index cachedRowLength row1
  | .error f => .error f

/-- A row loop `for (i = 0; i < GetNumRows(); i++)` that rewrites every row. -/
def Signed.forEachRow (body : SignedRow → Except Fault SignedRow) :
    List SignedRow → Except Fault (List SignedRow)
  | [] => .ok []
  | row :: rows =>
    match body row with
    | .ok row1 =>
      match Signed.forEachRow body rows with
      | .ok rows1 => .ok (row1 :: rows1)
      | .error f => .error f
    | .error f => .error f

/-- Source `superMatrixLinkage->GetIndexRemapper().call(...)`: the linkage pointer is
dereferenced without a check. -/
def SignedMatrix.notifySuper (m : SignedMatrix) (call : RemapperCall) :
    Except Fault SignedMatrix :=
  match m.superMatrixLinkage with
  | some l =>
    .ok { m with superMatrixLinkage := some { l with indexRemapper := l.indexRemapper ++ [call] } }
  | none => .error .nullPointer

/-- Source `RemoveColumn(index)` for an `int` index of either sign: below zero it matches no
column of the data model and lowers every column that is above it. -/
def SignedMatrix.RemoveColumn (m : SignedMatrix) (index : Int) : Except Fault SignedMatrix :=
  match Signed.forEachRow (Signed.removeColumnFromRowShifting index) m.rows with
  | .ok rows =>
    ({ m with rows := rows }).notifySuper (.RemoveSuperColumnFromSubMatrix index)
  | .error f => .error f

/-- The loop of `RemoveColumnsSlow`: `RemoveColumn(columns[i]-i-oneIndexed)` for the `i`-th
index, whatever the sign of the argument. -/
def Signed.removeColumnsSlowLoop (oneIndexed : Int) :
    Nat → List Int → SignedMatrix → Except Fault SignedMatrix
  | _, [], m => .ok m
  | i, c :: rest, m =>
    match m.RemoveColumn (c - i - oneIndexed) with
    | .ok m1 => Signed.removeColumnsSlowLoop oneIndexed (i + 1) rest m1
    | .error f => .error f

/-- Source `RemoveColumnsSlow(numColumns, columns, oneIndexed)` on a matrix of `int` column
indices. -/
def SignedMatrix.RemoveColumnsSlow (m : SignedMatrix) (columns : List Int) (oneIndexed : Int) :
    Except Fault SignedMatrix :=
  Signed.removeColumnsSlowLoop oneIndexed 0 columns m

/-- The scan of `GetInverseIndex` from position `j` on a row of `int` column indices: the
first position whose column is `jDense`, or `-1`. -/
def Signed.inverseIndexLoop (jDense : Int) : Nat → SignedRow → Int
  | _, [] => -1
  | j, (c, _) :: rest =>
    if c = jDense then (j : Int) else Signed.inverseIndexLoop jDense (j + 1) rest

/-- Source `GetInverseIndex(row, jDense)` for an `int` column of either sign; the row must
exist. -/
def SignedMatrix.GetInverseIndex (m : SignedMatrix) (row : Int) (jDense : Int) :
    Except Fault Int :=
  if row < 0 then .error .outOfBounds
  else
    match m.rows[row.toNat]? with
    | some r => .ok (Signed.inverseIndexLoop jDense 0 r)
    | none => .error .outOfBounds

/-- Source `std::lower_bound(rowIndices.begin(), rowIndices.end(), denseColumn) - begin()` on
a row of `int` column indices: on a row partitioned with respect to `denseColumn` (as every
sorted row is), the number of leading entries whose column is below `denseColumn`. -/
def Signed.lowerBound (denseColumn : Int) : SignedRow → Nat
  | [] => 0
  | (c, _) :: rest => if c < denseColumn then Signed.lowerBound denseColumn rest + 1 else 0

/-- Source `InsertNewEntry(row, denseColumn)` for an `int` column of either sign: returns the
insert position and the matrix after the call. The asserts abort the call;
`subMatrixLinkageCount` gives, for the handle of a matrix, the number of child linkages that
matrix records. -/
def SignedMatrix.InsertNewEntry (m : SignedMatrix) (subMatrixLinkageCount : Nat → Nat)
    (row : Int) (denseColumn : Int) : Except Fault (Nat × SignedMatrix) :=
  if row < (m.GetNumRows : Int) then
    match m.GetInverseIndex row denseColumn with
    | .ok inverseIndex =>
      if inverseIndex = -1 then
        match m.rows[row.toNat]? with
        | some r =>
          let insertIndex := Signed.lowerBound denseColumn r
          let rows1 := m.rows.set row.toNat
            (r.take insertIndex ++ (denseColumn, 0) :: r.drop insertIndex)
          match notifySubMatrices subMatrixLinkageCount
              (.OnEntryWasInsertedIntoSuperMatrix row denseColumn) m.subMatrixLinkages with
          | .ok subMatrixLinkages1 =>
            if m.superMatrixLinkage = none then
              .ok (insertIndex, { m with rows := rows1, subMatrixLinkages := subMatrixLinkages1 })
            else .error .assertion
          | .error f => .error f
        | none => .error .outOfBounds
      else .error .assertion
    | .error f => .error f
  else .error .assertion

/-- The row `RemoveColumn` leaves of a sorted row of `int` column indices, from the entry of
the removed column on: the entries ahead moved one step back, the last entry of the row
still at the end. -/
def Signed.shiftOut (index : Int) : SignedRow → SignedRow
  | [] => []
  | (c, a) :: rest =>
    if c = index then rest ++ ((c, a) :: rest).drop rest.length
    else (c, a) :: Signed.shiftOut index rest

/-- The columns of a row above `index` lowered by one. -/
def Signed.lowered (index : Int) (row : SignedRow) : SignedRow :=
  row.map (fun e => if index < e.1 then (e.1 - 1, e.2) else (e.1, e.2))

/-- The row that `RemoveColumn(index)` leaves of a row with strictly increasing columns. -/
def Signed.removedColumnRow (index : Int) (row : SignedRow) : SignedRow :=
  Signed.lowered index (row.filter (fun e => decide (e.1 ≠ index))) ++
    (if index ∈ row.map Prod.fst then row.drop (row.length - 1) else [])

/-- A sequence of remapper calls on the super-matrix linkage, in order. -/
def SignedMatrix.notifySuperAll (m : SignedMatrix) : List RemapperCall → Except Fault SignedMatrix
  | [] => .ok m
  | call :: calls =>
    match m.notifySuper call with
    | .ok m1 => m1.notifySuperAll calls
    | .error f => .error f

/-- Source `RemoveRow(index)`: `erase(begin()+index)` on the row vectors, then the remapper
call; a negative `index` erases before `begin()`. -/
def SignedMatrix.RemoveRow (m : SignedMatrix) (index : Int) : Except Fault SignedMatrix :=
  match index with
  | Int.ofNat i =>
    if i < m.rows.length then
      ({ m with rows := m.rows.eraseIdx i }).notifySuper (.RemoveSuperRowFromSubMatrix index)
    else .error .outOfBounds
  | Int.negSucc _ => .error .outOfBounds

/-- The seek loop of `RemoveRowColumn` on one row of `int` column indices, at most `k` rounds
from position `j`: `if (columnIndices[i][j] == index) { erase position j;
--cachedRowLength; }`, then `j++` in either case. Returns the row and the final
`cachedRowLength`. -/
def Signed.eraseSeekLoop (index : Int) : Nat → Nat → Nat → SignedRow →
    Except Fault (SignedRow × Nat)
  | 0, _, cachedRowLength, row => .ok (row, cachedRowLength)
  | k + 1, j, cachedRowLength, row =>
    if j < cachedRowLength then
      match row[j]? with
      | some (c, _) =>
        if c = index then
          Signed.eraseSeekLoop index k (j + 1) (cachedRowLength - 1) (row.eraseIdx j)
        else Signed.eraseSeekLoop index k (j + 1) cachedRowLength row
      | none => .error .outOfBounds
    else .ok (row, cachedRowLength)

/-- The body of the row loop of `RemoveRowColumn`. The seek loop runs while
`j < cachedRowLength`, so at most `GetRowLength(i)` times. -/
def Signed.removeColumnFromRowErasing (index : Int) (row : SignedRow) :
    Except Fault SignedRow :=
  match Signed.eraseSeekLoop index row.length 0 row.length row with
  | .ok (row1, cachedRowLength) => Signed.decrementAbove index cachedRowLength row1
  | .error f => .error f

/-- Source `RemoveRowColumn(index)`; a negative `index` erases before `begin()`. -/
def SignedMatrix.RemoveRowColumn (m : SignedMatrix) (index : Int) :
    Except Fault SignedMatrix :=
  match index with
  | Int.ofNat i =>
    if i < m.rows.length then
      match Signed.forEachRow (Signed.removeColumnFromRowErasing index) (m.rows.eraseIdx i) with
      | .ok rows =>
        ({ m with rows := rows }).notifySuperAll
          [.RemoveSuperRowFromSubMatrix index, .RemoveSuperColumnFromSubMatrix index]
      | .error f => .error f
    else .error .outOfBounds
  | Int.negSucc _ => .error .outOfBounds

/-- The row loop of `RemoveRows`, `k` rounds from `sourceRow`: a row whose index maps to `-1`
is skipped, any other is swapped into position `targetRow`. -/
def Signed.compactRowsLoop (oldToNew : List Int) :
    Nat → Nat → Nat → List SignedRow → Except Fault (List SignedRow × Nat)
  | 0, _, targetRow, rows => .ok (rows, targetRow)
  | k + 1, sourceRow, targetRow, rows =>
    match oldToNew[sourceRow]? with
    | some newIndex =>
      if newIndex = -1 then Signed.compactRowsLoop oldToNew k (sourceRow + 1) targetRow rows
      else
        match rows[targetRow]?, rows[sourceRow]? with
        | some target, some source =>
          Signed.compactRowsLoop oldToNew k (sourceRow + 1) (targetRow + 1)
            ((rows.set targetRow source).set sourceRow target)
        | _, _ => .error .outOfBounds
    | none => .error .outOfBounds

/-- Source `RemoveRows(numRemovedRows, removedRows, oneIndexed)`. -/
def SignedMatrix.RemoveRows (m : SignedMatrix) (removedRows : List Int) (oneIndexed : Int) :
    Except Fault SignedMatrix :=
  match buildOldToNew m.GetNumRows removedRows oneIndexed with
  | .ok oldToNew =>
    match Signed.compactRowsLoop oldToNew m.GetNumRows 0 0 m.rows with
    | .ok (rows, newRowCount) =>
      ({ m with rows := rows.take newRowCount }).notifySuperAll
        (removedRowCalls removedRows oneIndexed)
    | .error f => .error f
  | .error f => .error f

/-- The inner loop of `GetNumColumns` on a row of `int` column indices:
`numColumns = max(columnIndices[i][j], numColumns)`. -/
def Signed.numColumnsRow : SignedRow → Int → Int
  | [], numColumns => numColumns
  | (c, _) :: rest, numColumns => Signed.numColumnsRow rest (max c numColumns)

/-- Source `GetNumColumns()`: `numColumns` starts at `-1`, and `numColumns + 1` is returned. -/
def SignedMatrix.GetNumColumns (m : SignedMatrix) : Int :=
  m.rows.foldl (fun numColumns row => Signed.numColumnsRow row numColumns) (-1) + 1

/-- The entry loop of `RemoveRowsColumns` and `RemoveColumns` on one row of `int` column
indices, `k` rounds from `sourceIndex`: `oldToNew[oldIndex]` is read (a negative `oldIndex`
reads before the table), entries whose column maps to `-1` are skipped, the others are
written at `targetIndex` with the new column. Returns the row and the final `targetIndex`. -/
def Signed.renumberRowLoop (oldToNew : List Int) :
    Nat → Nat → Nat → SignedRow → Except Fault (SignedRow × Nat)
  | 0, _, targetIndex, row => .ok (row, targetIndex)
  | k + 1, sourceIndex, targetIndex, row =>
    match row[sourceIndex]? with
    | some (oldIndex, value) =>
      if oldIndex < 0 then .error .outOfBounds
      else
        match oldToNew[oldIndex.toNat]? with
        | some newIndex =>
          if newIndex = -1 then
            Signed.renumberRowLoop oldToNew k (sourceIndex + 1) targetIndex row
          else if targetIndex < row.length then
            Signed.renumberRowLoop oldToNew k (sourceIndex + 1) (targetIndex + 1)
              (row.set targetIndex (newIndex, value))
          else .error .outOfBounds
        | none => .error .outOfBounds
    | none => .error .outOfBounds

/-- The entry loop over a whole row followed by `resize(targetIndex)`. -/
def Signed.renumberRow (oldToNew : List Int) (row : SignedRow) : Except Fault SignedRow :=
  match Signed.renumberRowLoop oldToNew row.length 0 0 row with
  | .ok (row1, targetIndex) => .ok (row1.take targetIndex)
  | .error f => .error f

/-- Source `RemoveColumns(numRemovedColumns, removedColumns, oneIndexed)`. -/
def SignedMatrix.RemoveColumns (m : SignedMatrix) (removedColumns : List Int)
    (oneIndexed : Int) : Except Fault SignedMatrix :=
  let numColumns := (neededNumColumns oneIndexed removedColumns m.GetNumColumns).toNat
  match buildOldToNew numColumns removedColumns oneIndexed with
  | .ok oldToNew =>
    match Signed.forEachRow (Signed.renumberRow oldToNew) m.rows with
    | .ok rows =>
      ({ m with rows := rows }).notifySuperAll (removedColumnCalls removedColumns oneIndexed)
    | .error f => .error f
  | .error f => .error f

/-- The row loop of `RemoveRowsColumns`: as in `RemoveRows`, the surviving row being
renumbered and shortened before it is swapped into place. -/
def Signed.compactRenumberRowsLoop (oldToNew : List Int) :
    Nat → Nat → Nat → List SignedRow → Except Fault (List SignedRow × Nat)
  | 0, _, targetRow, rows => .ok (rows, targetRow)
  | k + 1, sourceRow, targetRow, rows =>
    match oldToNew[sourceRow]? with
    | some newIndex =>
      if newIndex = -1 then
        Signed.compactRenumberRowsLoop oldToNew k (sourceRow + 1) targetRow rows
      else
        match rows[sourceRow]? with
        | some source =>
          match Signed.renumberRow oldToNew source with
          | .ok source1 =>
            let rows1 := rows.set sourceRow source1
            match rows1[targetRow]? with
            | some target =>
              Signed.compactRenumberRowsLoop oldToNew k (sourceRow + 1) (targetRow + 1)
                ((rows1.set targetRow source1).set sourceRow target)
            | none => .error .outOfBounds
          | .error f => .error f
        | none => .error .outOfBounds
    | none => .error .outOfBounds

/-- Source `RemoveRowsColumns(numRemovedRowsColumns, removedRowsColumns, oneIndexed)`. -/
def SignedMatrix.RemoveRowsColumns (m : SignedMatrix) (removedRowsColumns : List Int)
    (oneIndexed : Int) : Except Fault SignedMatrix :=
  match buildOldToNew m.GetNumRows removedRowsColumns oneIndexed with
  | .ok oldToNew =>
    match Signed.compactRenumberRowsLoop oldToNew m.GetNumRows 0 0 m.rows with
    | .ok (rows, newRowCount) =>
      ({ m with rows := rows.take newRowCount }).notifySuperAll
        (removedRowColumnCalls removedRowsColumns oneIndexed)
    | .error f => .error f
  | .error f => .error f

/-- The sum `Σ x[c] * a` over the entries `(c, a)` of a row. -/
def rowSum (x : List ℚ) : Row → ℚ
  | [] => 0
  | (c, a) :: rest => x.getD c 0 * a + rowSum x rest

/-! ## Theorems -/

theorem multiplyRow_ok (x : List ℚ) (row : Row) (acc : ℚ) (h : ∀ e ∈ row, e.1 < x.length) :
    multiplyRow x row acc = .ok (acc + rowSum x row) := by
  induction row generalizing acc with
  | nil => simp [multiplyRow, rowSum]
  | cons e rest ih =>
    obtain ⟨c, a⟩ := e
    have hc : c < x.length := h (c, a) (List.mem_cons_self _ _)
    have hrest : ∀ e ∈ rest, e.1 < x.length := fun e he => h e (List.mem_cons_of_mem _ he)
    simp only [multiplyRow, List.getElem?_eq_getElem hc, rowSum]
    rw [ih _ hrest, List.getD_eq_getElem _ _ hc]
    congr 1; ring

theorem multiplyRows_ok (x : List ℚ) (rows : List Row) (h : ColumnsBelow x.length rows) :
    multiplyRows x rows = .ok (rows.map (rowSum x)) := by
  induction rows with
  | nil => rfl
  | cons row rows ih =>
    have h1 : ∀ e ∈ row, e.1 < x.length := h row (List.mem_cons_self _ _)
    have h2 : ColumnsBelow x.length rows := fun r hr => h r (List.mem_cons_of_mem _ hr)
    simp [multiplyRows, multiplyRow_ok x row 0 h1, ih h2]

theorem dot_set_add (x r : List ℚ) (c : Nat) (d : ℚ) (hlen : r.length = x.length)
    (hc : c < r.length) :
    dot x (r.set c (r[c] + d)) = dot x r + x.getD c 0 * d := by
  induction x generalizing r c with
  | nil => simp at hlen; subst hlen; simp at hc
  | cons a as ih =>
    cases r with
    | nil => simp at hc
    | cons b bs =>
      cases c with
      | zero => simp [dot]; ring
      | succ c =>
        simp only [List.length_cons, Nat.succ.injEq] at hlen
        simp only [List.length_cons, Nat.add_lt_add_iff_right] at hc
        simp only [List.set_cons_succ, dot, List.getElem_cons_succ, List.getD_cons_succ]
        rw [ih bs c hlen hc]; ring

theorem transposeMultiplyRow_ok (x y : List ℚ) (i : Nat) (hi : i < y.length) (row : Row)
    (result : List ℚ) (hlen : result.length = x.length) (h : ∀ e ∈ row, e.1 < x.length) :
    ∃ result1, transposeMultiplyRow y i row result = .ok result1 ∧
      result1.length = x.length ∧ dot x result1 = dot x result + y.getD i 0 * rowSum x row := by
  induction row generalizing result with
  | nil => exact ⟨result, rfl, hlen, by simp [rowSum]⟩
  | cons e rest ih =>
    obtain ⟨c, a⟩ := e
    have hc : c < result.length := hlen ▸ h (c, a) (List.mem_cons_self _ _)
    have hrest : ∀ e ∈ rest, e.1 < x.length := fun e he => h e (List.mem_cons_of_mem _ he)
    obtain ⟨r1, hr1, hl1, hd1⟩ :=
      ih (result.set c (result[c] + y[i] * a)) (by simpa using hlen) hrest
    refine ⟨r1, ?_, hl1, ?_⟩
    · simp only [transposeMultiplyRow, List.getElem?_eq_getElem hi,
        List.getElem?_eq_getElem hc]
      exact hr1
    · rw [hd1, dot_set_add x result c _ hlen hc, List.getD_eq_getElem _ _ hi]
      simp only [rowSum]; ring

theorem transposeMultiplyRows_ok (x y : List ℚ) (rows : List Row) (i : Nat)
    (hy : i + rows.length ≤ y.length) (result : List ℚ) (hlen : result.length = x.length)
    (h : ColumnsBelow x.length rows) :
    ∃ result1, transposeMultiplyRows y i rows result = .ok result1 ∧
      result1.length = x.length ∧
      dot x result1 = dot x result + dot (rows.map (rowSum x)) (y.drop i) := by
  induction rows generalizing i result with
  | nil => exact ⟨result, rfl, hlen, by simp [dot]⟩
  | cons row rows ih =>
    have h1 : ∀ e ∈ row, e.1 < x.length := h row (List.mem_cons_self _ _)
    have h2 : ColumnsBelow x.length rows := fun r hr => h r (List.mem_cons_of_mem _ hr)
    simp only [List.length_cons] at hy
    have hi : i < y.length := by omega
    obtain ⟨r1, hr1, hl1, hd1⟩ := transposeMultiplyRow_ok x y i hi row result hlen h1
    obtain ⟨r2, hr2, hl2, hd2⟩ := ih (i + 1) (by omega) r1 hl1 h2
    refine ⟨r2, ?_, hl2, ?_⟩
    · simp only [transposeMultiplyRows, hr1]; exact hr2
    · rw [hd2, hd1, List.drop_eq_getElem_cons hi, List.getD_eq_getElem _ _ hi]
      simp only [List.map_cons, dot]; ring

theorem dot_replicate_zero (x : List ℚ) (n : Nat) : dot x (List.replicate n 0) = 0 := by
  induction x generalizing n with
  | nil => simp [dot]
  | cons a as ih =>
    cases n with
    | zero => simp [dot]
    | succ n => simp [List.replicate_succ, dot, ih]

/-- C1: adjoint identity. For a matrix whose stored column indices are all below `m`, a vector
`x` of length `m` and a vector `y` with one entry per row, both products are computed and
`(Mx)·y = x·(Mᵗy)`. -/
theorem adjoint_identity (M : SparseMatrix) (x y : List ℚ)
    (hcols : ColumnsBelow x.length M.rows) (hy : y.length = M.GetNumRows) :
    ∃ Mx Mty, M.MultiplyVector x = .ok Mx ∧
      M.TransposeMultiplyVector y x.length = .ok Mty ∧
      Mx.length = M.GetNumRows ∧ Mty.length = x.length ∧
      dot Mx y = dot x Mty := by
  obtain ⟨r, hr, hl, hd⟩ := transposeMultiplyRows_ok x y M.rows 0
    (by simp [hy, SparseMatrix.GetNumRows]) (List.replicate x.length 0) (by simp) hcols
  refine ⟨M.rows.map (rowSum x), r, multiplyRows_ok x M.rows hcols, hr, by
    simp [SparseMatrix.GetNumRows], hl, ?_⟩
  rw [hd, dot_replicate_zero]; simp

/-- Witness for C1 on the example matrix with `x = [1, 1, 1]` and `y = [1, 2, 3]`. -/
theorem adjoint_identity_witness :
    ∃ Mx Mty, exampleMatrix.MultiplyVector [1, 1, 1] = .ok Mx ∧
      exampleMatrix.TransposeMultiplyVector [1, 2, 3] ([1, 1, 1] : List ℚ).length = .ok Mty ∧
      Mx.length = exampleMatrix.GetNumRows ∧ Mty.length = ([1, 1, 1] : List ℚ).length ∧
      dot Mx [1, 2, 3] = dot [1, 1, 1] Mty :=
  adjoint_identity exampleMatrix [1, 1, 1] [1, 2, 3] (by unfold ColumnsBelow; decide) (by decide)

/-! ### The renumbering table -/

theorem fillSurvivors_spec (k : Nat) (tbl : List Int) (dof cnt : Nat)
    (h : dof + k ≤ tbl.length) :
    ∃ tbl1, fillSurvivors k (tbl, dof, cnt) = .ok (tbl1, dof + k, cnt + k) ∧
      tbl1.length = tbl.length ∧
      ∀ j, tbl1[j]? =
        if dof ≤ j ∧ j < dof + k then some (((cnt + (j - dof) : Nat) : Int)) else tbl[j]? := by
  induction k generalizing tbl dof cnt with
  | zero =>
    refine ⟨tbl, rfl, rfl, fun j => ?_⟩
    rw [if_neg (by omega)]
  | succ k ih =>
    have hd : dof < tbl.length := by omega
    obtain ⟨tbl1, h1, hl1, hp1⟩ := ih (tbl.set dof cnt) (dof + 1) (cnt + 1) (by simp; omega)
    refine ⟨tbl1, ?_, by simpa using hl1, fun j => ?_⟩
    · simp only [fillSurvivors, hd, if_true, h1]
      congr 3 <;> omega
    · rw [hp1 j]
      by_cases hj : dof + 1 ≤ j ∧ j < dof + 1 + k
      · rw [if_pos hj, if_pos (by omega)]
        congr 2; omega
      · rw [if_neg hj]
        by_cases hj2 : j = dof
        · subst hj2
          rw [if_pos (by omega), List.getElem?_set_self hd]; simp
        · rw [if_neg (by omega), List.getElem?_set_ne (by omega)]

theorem countP_lt_eq_zero (R : List Nat) (j : Nat) (h : ∀ r ∈ R, j ≤ r) :
    R.countP (· < j) = 0 := by
  rw [List.countP_eq_zero]
  intro r hr
  have := h r hr
  simp; omega

theorem countP_lt_le (R : List Nat) (d j : Nat) (hs : R.Pairwise (· < ·))
    (h : ∀ r ∈ R, d ≤ r) : R.countP (· < j) ≤ j - d := by
  induction R generalizing d with
  | nil => simp
  | cons r rest ih =>
    rw [List.pairwise_cons] at hs
    have h1 := ih (r + 1) hs.2 (fun x hx => hs.1 x hx)
    have hr : d ≤ r := h r (List.mem_cons_self _ _)
    rw [List.countP_cons]
    by_cases hlt : r < j
    · simp only [hlt, decide_True, if_true]; omega
    · simp only [hlt, decide_False]
      rw [countP_lt_eq_zero rest j (fun x hx => by have := hs.1 x hx; omega)]
      simp

theorem markRemoved_spec (oneIndexed : Int) (R : List Nat) (tbl : List Int) (dof cnt : Nat)
    (hs : R.Pairwise (· < ·)) (hlo : ∀ r ∈ R, dof ≤ r) (hhi : ∀ r ∈ R, r < tbl.length)
    (hdof : dof ≤ tbl.length) :
    ∃ tbl1 dof1 cnt1,
      markRemoved oneIndexed (asRemovalList R oneIndexed) (tbl, dof, cnt) = .ok (tbl1, dof1, cnt1) ∧
      tbl1.length = tbl.length ∧ dof ≤ dof1 ∧ dof1 ≤ tbl.length ∧ (∀ r ∈ R, r < dof1) ∧
      (R = [] → dof1 = dof) ∧
      cnt1 + R.length = cnt + (dof1 - dof) ∧
      ∀ j, tbl1[j]? =
        if dof ≤ j ∧ j < dof1 then
          some (if j ∈ R then -1 else ((cnt : Int) + ((j : Int) - dof) - (R.countP (· < j) : Nat)))
        else tbl[j]? := by
  induction R generalizing tbl dof cnt with
  | nil =>
    refine ⟨tbl, dof, cnt, rfl, rfl, le_refl _, hdof, by simp, by simp, by simp, fun j => ?_⟩
    rw [if_neg (by omega)]
  | cons r rest ih =>
    rw [List.pairwise_cons] at hs
    have hr : dof ≤ r := hlo r (List.mem_cons_self _ _)
    have hrl : r < tbl.length := hhi r (List.mem_cons_self _ _)
    obtain ⟨tbl1, h1, hl1, hp1⟩ := fillSurvivors_spec (r - dof) tbl dof cnt (by omega)
    have hr1 : r < tbl1.length := by omega
    obtain ⟨tbl2, dof2, cnt2, h2, hl2, hd2, hd2', hlt2, hnil2, hc2, hp2⟩ :=
      ih (tbl1.set r (-1)) (r + 1) (cnt + (r - dof)) hs.2
        (fun x hx => hs.1 x hx) (fun x hx => by simpa [hl1] using hhi x (List.mem_cons_of_mem _ hx))
        (by simp; omega)
    refine ⟨tbl2, dof2, cnt2, ?_, by simpa [hl1] using hl2, by omega, by simpa [hl1] using hd2',
      ?_, by simp, ?_, fun j => ?_⟩
    · have e1 : ((r : Int) + oneIndexed - oneIndexed - (dof : Int)).toNat = r - dof := by omega
      have e2 : dof + (r - dof) = r := by omega
      simp only [asRemovalList, List.map_cons, markRemoved, e1, h1, e2, hr1, if_true]
      exact h2
    · intro x hx
      rcases List.mem_cons.1 hx with rfl | hx
      · omega
      · exact hlt2 x hx
    · simp only [List.length_cons]; omega
    · rw [hp2 j]
      by_cases hj : r + 1 ≤ j ∧ j < dof2
      · have hj0 : dof ≤ j ∧ j < dof2 := by omega
        rw [if_pos hj, if_pos hj0]
        have hne : j ≠ r := by omega
        have hrj : r < j := by omega
        simp only [List.mem_cons, hne, false_or, List.countP_cons, hrj, decide_True, if_true]
        split_ifs
        · rfl
        · congr 1; push_cast; omega
      · rw [if_neg hj]
        by_cases hj2 : j = r
        · subst hj2
          have hj0 : dof ≤ j ∧ j < dof2 := by omega
          rw [if_pos hj0, List.getElem?_set_self hr1]; simp
        · rw [List.getElem?_set_ne (by omega), hp1 j]
          by_cases hj3 : dof ≤ j ∧ j < r
          · have hj0 : dof ≤ j ∧ j < dof2 := by omega
            have hj1 : dof ≤ j ∧ j < dof + (r - dof) := by omega
            rw [if_pos hj1, if_pos hj0]
            have hnm : j ∉ r :: rest := by
              intro hm
              rcases List.mem_cons.1 hm with rfl | hm
              · omega
              · have := hs.1 j hm; omega
            rw [if_neg hnm, countP_lt_eq_zero (r :: rest) j (fun x hx => by
              rcases List.mem_cons.1 hx with rfl | hx
              · omega
              · have := hs.1 x hx; omega)]
            congr 1; push_cast; omega
          · have hj0 : ¬ (dof ≤ j ∧ j < dof2) := by omega
            have hj1 : ¬ (dof ≤ j ∧ j < dof + (r - dof)) := by omega
            rw [if_neg hj1, if_neg hj0]

theorem buildOldToNew_spec (n : Nat) (R : List Nat) (oneIndexed : Int)
    (hs : R.Pairwise (· < ·)) (hhi : ∀ r ∈ R, r < n) :
    buildOldToNew n (asRemovalList R oneIndexed) oneIndexed =
      .ok ((List.range n).map (newIndex R)) := by
  obtain ⟨tbl1, dof1, cnt1, h1, hl1, -, hd1, hlt1, -, hc1, hp1⟩ :=
    markRemoved_spec oneIndexed R (List.replicate n 0) 0 0 hs (fun _ _ => Nat.zero_le _)
      (by simpa using hhi) (Nat.zero_le _)
  simp only [List.length_replicate] at hl1 hd1
  obtain ⟨tbl2, h2, hl2, hp2⟩ := fillSurvivors_spec (n - dof1) tbl1 dof1 cnt1 (by omega)
  simp only [buildOldToNew, h1, h2]
  congr 1
  apply List.ext_getElem?
  intro j
  rw [hp2 j, List.getElem?_map]
  by_cases hjn : j < n
  · rw [List.getElem?_range hjn, Option.map_some']
    by_cases hj : dof1 ≤ j
    · have hj0 : dof1 ≤ j ∧ j < dof1 + (n - dof1) := by omega
      rw [if_pos hj0]
      have hnm : j ∉ R := fun hm => by have := hlt1 j hm; omega
      have hcnt : R.countP (· < j) = R.length := by
        rw [List.countP_eq_length]
        intro r hr
        have := hlt1 r hr
        simp; omega
      simp only [newIndex, hnm, if_false, hcnt]
      congr 1; push_cast; omega
    · have hj0 : ¬ (dof1 ≤ j ∧ j < dof1 + (n - dof1)) := by omega
      have hj1 : 0 ≤ j ∧ j < dof1 := by omega
      rw [if_neg hj0, hp1 j, if_pos hj1]
      simp only [newIndex]
      split_ifs <;> simp
  · have hj0 : ¬ (dof1 ≤ j ∧ j < dof1 + (n - dof1)) := by omega
    have e1 : tbl1[j]? = none := List.getElem?_eq_none (by omega)
    have e2 : (List.range n)[j]? = none := List.getElem?_eq_none (by simp; omega)
    rw [if_neg hj0, e1, e2]
    rfl

theorem newIndex_mem (R : List Nat) (k : Nat) (h : k ∈ R) : newIndex R k = -1 := by
  simp [newIndex, h]

theorem newIndex_not_mem (R : List Nat) (k : Nat) (hs : R.Pairwise (· < ·)) (h : k ∉ R) :
    newIndex R k ≠ -1 ∧ (newIndex R k).toNat = k - R.countP (· < k) := by
  have := countP_lt_le R 0 k hs (fun _ _ => Nat.zero_le _)
  simp only [newIndex, h, if_false]
  omega

theorem getElem?_table (n : Nat) (R : List Nat) (k : Nat) (h : k < n) :
    ((List.range n).map (newIndex R))[k]? = some (newIndex R k) := by
  rw [List.getElem?_map, List.getElem?_range h]; rfl

/-! ### In-place compaction -/

theorem take_set_of_le {α : Type} (l : List α) (m n : Nat) (a : α) (h : m ≤ n) :
    (l.set n a).take m = l.take m := by
  induction l generalizing m n with
  | nil => simp
  | cons x xs ih =>
    cases m with
    | zero => simp
    | succ m =>
      cases n with
      | zero => omega
      | succ n => simp [ih m n (by omega)]

theorem take_succ_set {α : Type} (l : List α) (t : Nat) (a : α) (h : t < l.length) :
    (l.set t a).take (t + 1) = l.take t ++ [a] := by
  induction l generalizing t with
  | nil => simp at h
  | cons x xs ih =>
    cases t with
    | zero => simp
    | succ t => simp [ih t (by simpa using h)]

theorem take_swap {α : Type} (l : List α) (t s : Nat) (a b : α) (hts : t ≤ s)
    (hs : s < l.length) (hab : t = s → b = a) :
    ((l.set t a).set s b).take (t + 1) = l.take t ++ [a] := by
  by_cases h : t = s
  · subst h
    rw [hab rfl, List.set_set, take_succ_set l t a hs]
  · rw [take_set_of_le _ _ _ _ (by omega), take_succ_set l t a (by omega)]

theorem drop_swap {α : Type} (l : List α) (t s : Nat) (a b : α) (hts : t ≤ s) :
    ((l.set t a).set s b).drop (s + 1) = l.drop (s + 1) := by
  rw [List.drop_set_of_lt _ _ (by omega), List.drop_set_of_lt _ _ (by omega)]

theorem renumberEntries_cons_mem (R : List Nat) (c : Nat) (v : ℚ) (rest : Row) (h : c ∈ R) :
    renumberEntries R ((c, v) :: rest) = renumberEntries R rest := by
  simp [renumberEntries, List.filterMap_cons, h]

theorem renumberEntries_cons_not_mem (R : List Nat) (c : Nat) (v : ℚ) (rest : Row) (h : c ∉ R) :
    renumberEntries R ((c, v) :: rest) =
      (c - R.countP (· < c), v) :: renumberEntries R rest := by
  simp [renumberEntries, List.filterMap_cons, h]

theorem renumberRowLoop_spec (n : Nat) (R : List Nat) (hs : R.Pairwise (· < ·))
    (k s t : Nat) (row : Row) (hk : s + k = row.length) (hts : t ≤ s)
    (hcol : ∀ e ∈ row.drop s, e.1 < n) :
    ∃ row1 t1, renumberRowLoop ((List.range n).map (newIndex R)) k s t row = .ok (row1, t1) ∧
      row1.take t1 = row.take t ++ renumberEntries R (row.drop s) := by
  induction k generalizing s t row with
  | zero =>
    refine ⟨row, t, rfl, ?_⟩
    rw [List.drop_of_length_le (by omega)]
    simp [renumberEntries]
  | succ k ih =>
    have hsl : s < row.length := by omega
    have hdrop : row.drop s = row[s] :: row.drop (s + 1) := List.drop_eq_getElem_cons hsl
    rcases hrow : row[s] with ⟨c, v⟩
    rw [hrow] at hdrop
    have hc : c < n := hcol (c, v) (by rw [hdrop]; exact List.mem_cons_self _ _)
    have hcol1 : ∀ e ∈ row.drop (s + 1), e.1 < n := fun e he =>
      hcol e (by rw [hdrop]; exact List.mem_cons_of_mem _ he)
    simp only [renumberRowLoop, List.getElem?_eq_getElem hsl, hrow, getElem?_table n R c hc]
    by_cases hm : c ∈ R
    · obtain ⟨row1, t1, h1, h2⟩ := ih (s + 1) t row (by omega) (by omega) hcol1
      refine ⟨row1, t1, ?_, ?_⟩
      · simp only [newIndex_mem R c hm, if_true]; exact h1
      · rw [h2, hdrop, renumberEntries_cons_mem R c v _ hm]
    · obtain ⟨hne, hnat⟩ := newIndex_not_mem R c hs hm
      have htl : t < row.length := by omega
      obtain ⟨row1, t1, h1, h2⟩ := ih (s + 1) (t + 1)
        (row.set t ((newIndex R c).toNat, v)) (by simp; omega) (by omega)
        (by rw [List.drop_set_of_lt _ _ (by omega)]; exact hcol1)
      refine ⟨row1, t1, ?_, ?_⟩
      · simp only [hne, if_false, htl, if_true]; exact h1
      · rw [h2, take_succ_set row t _ htl, List.drop_set_of_lt _ _ (by omega), hdrop,
          renumberEntries_cons_not_mem R c v _ hm, hnat]
        simp

theorem renumberRow_spec (n : Nat) (R : List Nat) (hs : R.Pairwise (· < ·)) (row : Row)
    (hcol : ∀ e ∈ row, e.1 < n) :
    renumberRow ((List.range n).map (newIndex R)) row = .ok (renumberEntries R row) := by
  obtain ⟨row1, t1, h1, h2⟩ := renumberRowLoop_spec n R hs row.length 0 0 row (by simp)
    (le_refl _) (by simpa using hcol)
  simp only [renumberRow, h1, h2]
  simp

theorem compactRowsLoop_spec (n : Nat) (R : List Nat) (hs : R.Pairwise (· < ·)) (k s t : Nat)
    (rows : List Row) (hn : rows.length = n) (hk : s + k = n) (hts : t ≤ s) :
    ∃ rows1 t1,
      compactRowsLoop ((List.range n).map (newIndex R)) k s t rows = .ok (rows1, t1) ∧
      rows1.take t1 = rows.take t ++ keepIdx (fun j => decide (j ∈ R)) s (rows.drop s) := by
  induction k generalizing s t rows with
  | zero =>
    refine ⟨rows, t, rfl, ?_⟩
    rw [List.drop_of_length_le (by omega)]
    simp [keepIdx]
  | succ k ih =>
    have hsl : s < rows.length := by omega
    have hdrop : rows.drop s = rows[s] :: rows.drop (s + 1) := List.drop_eq_getElem_cons hsl
    simp only [compactRowsLoop, getElem?_table n R s (by omega)]
    by_cases hm : s ∈ R
    · obtain ⟨rows1, t1, h1, h2⟩ := ih (s + 1) t rows hn (by omega) (by omega)
      refine ⟨rows1, t1, ?_, ?_⟩
      · simp only [newIndex_mem R s hm, if_true]; exact h1
      · rw [h2, hdrop]; simp [keepIdx, hm]
    · obtain ⟨hne, -⟩ := newIndex_not_mem R s hs hm
      have htl : t < rows.length := by omega
      obtain ⟨rows1, t1, h1, h2⟩ := ih (s + 1) (t + 1)
        ((rows.set t rows[s]).set s rows[t]) (by simpa using hn) (by omega) (by omega)
      refine ⟨rows1, t1, ?_, ?_⟩
      · simp only [hne, if_false, List.getElem?_eq_getElem htl, List.getElem?_eq_getElem hsl]
        exact h1
      · rw [h2, take_swap rows t s _ _ hts hsl (fun h => by subst h; rfl),
          drop_swap rows t s _ _ hts, hdrop]
        simp [keepIdx, hm]

theorem getD_swap {α : Type} (l : List (List α)) (t s k : Nat) (a b : List α) (hts : t ≤ s)
    (hk : s < k) : ((l.set t a).set s b).getD k [] = l.getD k [] := by
  rw [List.getD_eq_getElem?_getD, List.getD_eq_getElem?_getD,
    List.getElem?_set_ne (by omega), List.getElem?_set_ne (by omega)]

theorem compactRenumberRowsLoop_spec (n : Nat) (R : List Nat) (hs : R.Pairwise (· < ·))
    (k s t : Nat) (rows : List Row) (hn : rows.length = n) (hk : s + k = n) (hts : t ≤ s)
    (hcol : ∀ i, s ≤ i → i ∉ R → ∀ e ∈ rows.getD i [], e.1 < n) :
    ∃ rows1 t1,
      compactRenumberRowsLoop ((List.range n).map (newIndex R)) k s t rows = .ok (rows1, t1) ∧
      rows1.take t1 =
        rows.take t ++ (keepIdx (fun j => decide (j ∈ R)) s (rows.drop s)).map
          (renumberEntries R) := by
  induction k generalizing s t rows with
  | zero =>
    refine ⟨rows, t, rfl, ?_⟩
    rw [List.drop_of_length_le (by omega)]
    simp [keepIdx]
  | succ k ih =>
    have hsl : s < rows.length := by omega
    have hdrop : rows.drop s = rows[s] :: rows.drop (s + 1) := List.drop_eq_getElem_cons hsl
    have hcol1 : ∀ i, s + 1 ≤ i → i ∉ R → ∀ e ∈ rows.getD i [], e.1 < n := fun i hi hiR =>
      hcol i (by omega) hiR
    simp only [compactRenumberRowsLoop, getElem?_table n R s (by omega)]
    by_cases hm : s ∈ R
    · obtain ⟨rows1, t1, h1, h2⟩ := ih (s + 1) t rows hn (by omega) (by omega) hcol1
      refine ⟨rows1, t1, ?_, ?_⟩
      · simp only [newIndex_mem R s hm, if_true]; exact h1
      · rw [h2, hdrop]; simp [keepIdx, hm]
    · obtain ⟨hne, -⟩ := newIndex_not_mem R s hs hm
      have hren := renumberRow_spec n R hs rows[s] (by
        have := hcol s (le_refl _) hm
        rwa [List.getD_eq_getElem _ _ hsl] at this)
      have htl : t < (rows.set s (renumberEntries R rows[s])).length := by simp; omega
      have hsl1 : s < (rows.set s (renumberEntries R rows[s])).length := by simpa using hsl
      obtain ⟨rows1, t1, h1, h2⟩ := ih (s + 1) (t + 1)
        (((rows.set s (renumberEntries R rows[s])).set t (renumberEntries R rows[s])).set s
          (rows.set s (renumberEntries R rows[s]))[t])
        (by simpa using hn) (by omega) (by omega)
        (fun i hi hiR => by
          rw [getD_swap _ t s i _ _ hts (by omega), List.getD_eq_getElem?_getD,
            List.getElem?_set_ne (by omega), ← List.getD_eq_getElem?_getD]
          exact hcol1 i hi hiR)
      refine ⟨rows1, t1, ?_, ?_⟩
      · simp only [hne, if_false, List.getElem?_eq_getElem hsl, hren,
          List.getElem?_eq_getElem htl]
        exact h1
      · rw [h2, take_swap _ t s _ _ hts hsl1 (fun h => by subst h; simp),
          drop_swap _ t s _ _ hts, List.drop_set_of_lt _ _ (by omega),
          take_set_of_le _ _ _ _ hts, hdrop]
        simp [keepIdx, hm]

/-! ### Surviving rows -/

theorem keepIdx_map {α β : Type} (p : Nat → Bool) (f : α → β) (j : Nat) (xs : List α) :
    keepIdx p j (xs.map f) = (keepIdx p j xs).map f := by
  induction xs generalizing j with
  | nil => rfl
  | cons x xs ih => simp only [List.map_cons, keepIdx, ih]; split_ifs <;> simp

theorem keepIdx_congr {α : Type} (p q : Nat → Bool) (j : Nat) (xs : List α)
    (h : ∀ k, j ≤ k → k < j + xs.length → p k = q k) : keepIdx p j xs = keepIdx q j xs := by
  induction xs generalizing j with
  | nil => rfl
  | cons x xs ih =>
    have h0 : p j = q j := h j (le_refl _) (by simp)
    have h1 := ih (j + 1) (fun k hk1 hk2 => h k (by omega) (by simp; omega))
    simp only [keepIdx, h0, h1]

theorem keepIdx_shift {α : Type} (p : Nat → Bool) (j : Nat) (xs : List α) :
    keepIdx p (j + 1) xs = keepIdx (fun k => p (k + 1)) j xs := by
  induction xs generalizing j with
  | nil => rfl
  | cons x xs ih => simp only [keepIdx, ih]

theorem keepIdx_eraseIdx {α : Type} (p q : Nat → Bool) (j a : Nat) (xs : List α)
    (hlt : ∀ k, j ≤ k → k < j + a → p k = q k) (ha : p (j + a) = true)
    (hgt : ∀ k, j + a ≤ k → p (k + 1) = q k) :
    keepIdx q j (xs.eraseIdx a) = keepIdx p j xs := by
  induction xs generalizing j a with
  | nil => rfl
  | cons x xs ih =>
    cases a with
    | zero =>
      simp only [List.eraseIdx_cons_zero, keepIdx]
      rw [show p j = true from ha, if_pos rfl, keepIdx_shift]
      exact keepIdx_congr _ _ _ _ (fun k hk1 _ => (hgt k (by omega)).symm)
    | succ a =>
      have h0 : p j = q j := hlt j (le_refl _) (by omega)
      have h1 := ih (j + 1) a (fun k hk1 hk2 => hlt k (by omega) (by omega))
        (by rw [← ha]; congr 1; omega) (fun k hk => hgt k (by omega))
      simp only [List.eraseIdx_cons_succ, keepIdx, h0, h1]

theorem keepIdx_false {α : Type} (j : Nat) (xs : List α) :
    keepIdx (fun _ => false) j xs = xs := by
  induction xs generalizing j with
  | nil => rfl
  | cons x xs ih => simp [keepIdx, ih]

theorem keepIdx_nil_removed {α : Type} (j : Nat) (xs : List α) :
    keepIdx (fun k => decide (k ∈ ([] : List Nat))) j xs = xs := by
  induction xs generalizing j with
  | nil => rfl
  | cons x xs ih =>
    have h := ih (j + 1)
    simp only [List.not_mem_nil, decide_False] at h
    simp [keepIdx, h]

/-- Removing `a` and then the indices `S` lowered by one is removing `a :: S`, when `a` is
below every member of `S`. -/
theorem keepIdx_cons {α : Type} (a : Nat) (S : List Nat) (xs : List α)
    (hS : ∀ x ∈ S, a < x) :
    keepIdx (fun k => decide (k ∈ S.map (· - 1))) 0 (xs.eraseIdx a) =
      keepIdx (fun k => decide (k ∈ a :: S)) 0 xs := by
  apply keepIdx_eraseIdx
  · intro k _ hk
    have h1 : k ∉ a :: S := by
      intro hm
      rcases List.mem_cons.1 hm with rfl | hm
      · omega
      · have := hS k hm; omega
    have h2 : k ∉ S.map (· - 1) := by
      intro hm
      obtain ⟨x, hx, rfl⟩ := List.mem_map.1 hm
      have := hS x hx; omega
    simp [h1, h2]
  · simp
  · intro k hk
    have h1 : k + 1 ∈ a :: S ↔ k ∈ S.map (· - 1) := by
      constructor
      · intro hm
        rcases List.mem_cons.1 hm with h | hm
        · omega
        · exact List.mem_map.2 ⟨k + 1, hm, by simp⟩
      · intro hm
        obtain ⟨x, hx, hxk⟩ := List.mem_map.1 hm
        have := hS x hx
        have e : x = k + 1 := by omega
        exact List.mem_cons_of_mem _ (e ▸ hx)
    simp only [h1]

/-! ### Remapper calls -/

theorem notifySuper_some (m : SparseMatrix) (call : RemapperCall) (l : SparseSubMatrixLinkage)
    (h : m.superMatrixLinkage = some l) :
    ∃ m1 l1, m.notifySuper call = .ok m1 ∧ m1.rows = m.rows ∧
      m1.superMatrixLinkage = some l1 := by
  simp only [SparseMatrix.notifySuper, h]
  exact ⟨_, _, rfl, rfl, rfl⟩

theorem notifySuperAll_some (m : SparseMatrix) (calls : List RemapperCall)
    (l : SparseSubMatrixLinkage) (h : m.superMatrixLinkage = some l) :
    ∃ m1 l1, m.notifySuperAll calls = .ok m1 ∧ m1.rows = m.rows ∧
      m1.superMatrixLinkage = some l1 := by
  induction calls generalizing m l with
  | nil => exact ⟨m, l, rfl, rfl, h⟩
  | cons call calls ih =>
    obtain ⟨m1, l1, h1, hr1, hl1⟩ := notifySuper_some m call l h
    obtain ⟨m2, l2, h2, hr2, hl2⟩ := ih m1 l1 hl1
    exact ⟨m2, l2, by simp only [SparseMatrix.notifySuperAll, h1, h2], hr2.trans hr1, hl2⟩

theorem notifySuperAll_none (m : SparseMatrix) (calls : List RemapperCall)
    (h : m.superMatrixLinkage = none) (hc : calls ≠ []) :
    m.notifySuperAll calls = .error .nullPointer := by
  cases calls with
  | nil => exact absurd rfl hc
  | cons call calls => simp [SparseMatrix.notifySuperAll, SparseMatrix.notifySuper, h]

/-! ### Row removal -/

theorem RemoveRows_eq (M : SparseMatrix) (R : List Nat) (oneIndexed : Int)
    (hs : R.Pairwise (· < ·)) (hhi : ∀ r ∈ R, r < M.rows.length) :
    M.RemoveRows (asRemovalList R oneIndexed) oneIndexed =
      ({ M with rows := keepIdx (fun j => decide (j ∈ R)) 0 M.rows }).notifySuperAll
        (removedRowCalls (asRemovalList R oneIndexed) oneIndexed) := by
  obtain ⟨rows1, t1, h1, h2⟩ := compactRowsLoop_spec M.rows.length R hs M.rows.length 0 0
    M.rows rfl (by simp) (le_refl _)
  simp only [SparseMatrix.RemoveRows, SparseMatrix.GetNumRows,
    buildOldToNew_spec M.rows.length R oneIndexed hs hhi, h1, h2]
  simp

theorem slow_index (k i : Nat) (oneIndexed : Int) (h : i ≤ k) :
    (k : Int) + oneIndexed - (i : Int) - oneIndexed = Int.ofNat (k - i) := by
  simp only [Int.ofNat_eq_coe]; omega

theorem removeRowsSlowLoop_some (oneIndexed : Int) (R : List Nat) (i : Nat) (m : SparseMatrix)
    (l : SparseSubMatrixLinkage) (hl : m.superMatrixLinkage = some l)
    (hs : R.Pairwise (· < ·)) (hlo : ∀ r ∈ R, i ≤ r) (hhi : ∀ r ∈ R, r - i < m.rows.length) :
    ∃ m1 l1, removeRowsSlowLoop oneIndexed i (asRemovalList R oneIndexed) m = .ok m1 ∧
      m1.rows = keepIdx (fun j => decide (j ∈ R.map (· - i))) 0 m.rows ∧
      m1.rows.length + R.length = m.rows.length ∧
      m1.superMatrixLinkage = some l1 := by
  induction R generalizing i m l with
  | nil => exact ⟨m, l, rfl, (keepIdx_nil_removed 0 m.rows).symm, by simp, hl⟩
  | cons r rest ih =>
    rw [List.pairwise_cons] at hs
    have hr : i ≤ r := hlo r (List.mem_cons_self _ _)
    have hrl : r - i < m.rows.length := hhi r (List.mem_cons_self _ _)
    obtain ⟨m1, l1, h1, hr1, hl1⟩ := notifySuper_some
      { m with rows := m.rows.eraseIdx (r - i) } (.RemoveSuperRowFromSubMatrix ((r - i : Nat) : Int))
      l hl
    have hlen1 : m1.rows.length + 1 = m.rows.length := by
      rw [hr1]; simp only [List.length_eraseIdx, hrl, if_true]; omega
    obtain ⟨m2, l2, h2, hr2, hlen2, hl2⟩ := ih (i + 1) m1 l1 hl1 hs.2
      (fun x hx => by have := hs.1 x hx; omega)
      (fun x hx => by
        have h3 := hs.1 x hx
        have h4 := hhi x (List.mem_cons_of_mem _ hx)
        omega)
    refine ⟨m2, l2, ?_, ?_, by simp only [List.length_cons]; omega, hl2⟩
    · simp only [asRemovalList, List.map_cons, removeRowsSlowLoop, slow_index r i oneIndexed hr,
        SparseMatrix.RemoveRow, hrl, if_true]
      rw [h1]
      exact h2
    · rw [hr2, hr1, List.map_cons]
      have e : rest.map (· - (i + 1)) = (rest.map (· - i)).map (· - 1) := by
        rw [List.map_map]; apply List.map_congr_left; intro x _; simp; omega
      rw [e]
      exact keepIdx_cons (r - i) (rest.map (· - i)) m.rows (fun x hx => by
        obtain ⟨y, hy, rfl⟩ := List.mem_map.1 hx
        have := hs.1 y hy
        show r - i < y - i
        omega)

theorem removeRowsSlowLoop_none (oneIndexed : Int) (R : List Nat) (i : Nat) (m : SparseMatrix)
    (hl : m.superMatrixLinkage = none) (hne : R ≠ [])
    (hlo : ∀ r ∈ R, i ≤ r) (hhi : ∀ r ∈ R, r - i < m.rows.length) :
    removeRowsSlowLoop oneIndexed i (asRemovalList R oneIndexed) m = .error .nullPointer := by
  cases R with
  | nil => exact absurd rfl hne
  | cons r rest =>
    have hr : i ≤ r := hlo r (List.mem_cons_self _ _)
    have hrl : r - i < m.rows.length := hhi r (List.mem_cons_self _ _)
    simp [asRemovalList, removeRowsSlowLoop, slow_index r i oneIndexed hr,
      SparseMatrix.RemoveRow, hrl, SparseMatrix.notifySuper, hl]

/-- A valid removal list is the 0-indexed list of naturals `R` read with the flag. -/
theorem exists_zeroIndexed (n : Nat) (removed : List Int) (oneIndexed : Int)
    (h : ValidRemovalList n removed oneIndexed) :
    ∃ R : List Nat, asRemovalList R oneIndexed = removed ∧ R.Pairwise (· < ·) ∧
      (∀ r ∈ R, r < n) ∧ R.length = removed.length ∧
      ∀ j : Nat, (j : Int) + oneIndexed ∈ removed ↔ j ∈ R := by
  refine ⟨removed.map (fun r => (r - oneIndexed).toNat), ?_, ?_, ?_, by simp, ?_⟩
  · simp only [asRemovalList, List.map_map]
    conv_rhs => rw [← List.map_id removed]
    apply List.map_congr_left
    intro r hr
    have := (h.2 r hr).1
    simp only [Function.comp, id]
    omega
  · rw [List.pairwise_map]
    exact h.1.imp_of_mem (fun {a b} ha hb hab => by
      have := (h.2 a ha).1
      have := (h.2 b hb).1
      omega)
  · intro r hr
    obtain ⟨x, hx, rfl⟩ := List.mem_map.1 hr
    have := h.2 x hx
    omega
  · intro j
    constructor
    · intro hj
      exact List.mem_map.2 ⟨_, hj, by omega⟩
    · intro hj
      obtain ⟨x, hx, hxj⟩ := List.mem_map.1 hj
      have := (h.2 x hx).1
      have e : (j : Int) + oneIndexed = x := by omega
      rw [e]; exact hx

theorem survivingRows_eq (rows : List Row) (removed : List Int) (oneIndexed : Int)
    (R : List Nat) (hR : ∀ j : Nat, (j : Int) + oneIndexed ∈ removed ↔ j ∈ R) :
    survivingRows rows removed oneIndexed = keepIdx (fun j => decide (j ∈ R)) 0 rows := by
  apply keepIdx_congr
  intro k _ _
  simp only [hR k]

/-- C4 (as stated, refuted): on the example matrix without a super-matrix linkage and the
valid removal list `[1, 3]` read 1-indexed, `RemoveRows` (and `RemoveRowsSlow`) does not
return: the remapper call at its end dereferences the null linkage. -/
theorem RemoveRows_without_linkage_counterexample :
    ([1, 3] : List Int).Pairwise (· < ·) ∧
      (∀ r ∈ ([1, 3] : List Int), 0 ≤ r - 1 ∧ r - 1 < unlinkedExample.GetNumRows) ∧
      unlinkedExample.RemoveRows [1, 3] 1 = .error .nullPointer ∧
      unlinkedExample.RemoveRowsSlow [1, 3] 1 = .error .nullPointer :=
  ⟨by decide, by decide, rfl, rfl⟩

/-- C4 (amended): batch and reference row removal agree. For a strictly ascending removal
list whose entries, read with the flag, are row indices of the matrix: `RemoveRows` and
`RemoveRowsSlow` end alike (the same rows, or the same fault); on a matrix with a
super-matrix linkage (or for an empty list) `RemoveRows` returns, leaving exactly the
surviving rows, unchanged and in their original order, and the row count drops by the length
of the list; without that linkage the remapper call dereferences the null linkage. -/
theorem RemoveRows_agrees_with_RemoveRowsSlow (M : SparseMatrix) (removedRows : List Int)
    (oneIndexed : Int) (hasc : removedRows.Pairwise (· < ·))
    (hrange : ∀ r ∈ removedRows, 0 ≤ r - oneIndexed ∧ r - oneIndexed < M.GetNumRows) :
    Except.map (·.rows) (M.RemoveRows removedRows oneIndexed) =
        Except.map (·.rows) (M.RemoveRowsSlow removedRows oneIndexed) ∧
      ((M.superMatrixLinkage.isSome ∨ removedRows = []) →
        ∃ M1, M.RemoveRows removedRows oneIndexed = .ok M1 ∧
          M1.rows = survivingRows M.rows removedRows oneIndexed ∧
          M1.GetNumRows = M.GetNumRows - removedRows.length) ∧
      ((M.superMatrixLinkage = none ∧ removedRows ≠ []) →
        M.RemoveRows removedRows oneIndexed = .error .nullPointer) := by
  obtain ⟨R, hR, hs, hhi, hlen, hmem⟩ :=
    exists_zeroIndexed M.GetNumRows removedRows oneIndexed ⟨hasc, hrange⟩
  have hsurv := survivingRows_eq M.rows removedRows oneIndexed R hmem
  have hbatch := RemoveRows_eq M R oneIndexed hs hhi
  have hR0 : R.map (· - 0) = R := by simp
  rw [hR] at hbatch
  cases hl : M.superMatrixLinkage with
  | some l =>
    obtain ⟨m1, l1, h1, hr1, -⟩ := notifySuperAll_some
      { M with rows := keepIdx (fun j => decide (j ∈ R)) 0 M.rows }
      (removedRowCalls removedRows oneIndexed) l hl
    obtain ⟨m2, l2, h2, hr2, hlen2, -⟩ := removeRowsSlowLoop_some oneIndexed R 0 M l hl hs
      (fun _ _ => Nat.zero_le _) (fun r hr => by simpa using hhi r hr)
    rw [hR] at h2
    rw [hR0] at hr2
    have hcount : m1.GetNumRows = M.GetNumRows - removedRows.length := by
      simp only [SparseMatrix.GetNumRows]
      rw [hr1]
      show (keepIdx (fun j => decide (j ∈ R)) 0 M.rows).length = _
      rw [← hr2]; omega
    refine ⟨?_, fun _ => ⟨m1, hbatch.trans h1, by rw [hr1, hsurv], hcount⟩, fun h => by
      simp at h⟩
    rw [hbatch, h1, SparseMatrix.RemoveRowsSlow, h2]
    simp only [Except.map, hr1, hr2]
  | none =>
    by_cases hne : removedRows = []
    · subst hne
      have hRnil : R = [] := by simpa using hlen
      subst hRnil
      have e1 : M.RemoveRows [] oneIndexed = .ok
          { M with rows := keepIdx (fun j => decide (j ∈ ([] : List Nat))) 0 M.rows } := by
        rw [hbatch]; rfl
      refine ⟨?_, fun _ => ⟨_, e1, by rw [hsurv], by
        simp [SparseMatrix.GetNumRows, keepIdx_false]⟩, fun h => absurd rfl h.2⟩
      rw [e1]
      simp [SparseMatrix.RemoveRowsSlow, removeRowsSlowLoop, Except.map, keepIdx_false]
    · have hRne : R ≠ [] := by
        intro h; apply hne; rw [← hR, h]; rfl
      have e1 : M.RemoveRows removedRows oneIndexed = .error .nullPointer := by
        rw [hbatch]
        exact notifySuperAll_none _ _ hl (by
          simpa [removedRowCalls] using hne)
      have e2 := removeRowsSlowLoop_none oneIndexed R 0 M hl hRne
        (fun _ _ => Nat.zero_le _) (fun r hr => by simpa using hhi r hr)
      rw [hR] at e2
      refine ⟨by rw [e1, SparseMatrix.RemoveRowsSlow, e2], fun h => ?_, fun _ => e1⟩
      rcases h with h | h
      · simp at h
      · exact absurd h hne

/-- Witness for C4 (amended) on the example matrix, removal list `[1, 3]` read 1-indexed. -/
theorem RemoveRows_agrees_with_RemoveRowsSlow_witness :
    Except.map (·.rows) (exampleMatrix.RemoveRows [1, 3] 1) =
        Except.map (·.rows) (exampleMatrix.RemoveRowsSlow [1, 3] 1) ∧
      ((exampleMatrix.superMatrixLinkage.isSome ∨ ([1, 3] : List Int) = []) →
        ∃ M1, exampleMatrix.RemoveRows [1, 3] 1 = .ok M1 ∧
          M1.rows = survivingRows exampleMatrix.rows [1, 3] 1 ∧
          M1.GetNumRows = exampleMatrix.GetNumRows - ([1, 3] : List Int).length) ∧
      ((exampleMatrix.superMatrixLinkage = none ∧ ([1, 3] : List Int) ≠ []) →
        exampleMatrix.RemoveRows [1, 3] 1 = .error .nullPointer) :=
  RemoveRows_agrees_with_RemoveRowsSlow exampleMatrix [1, 3] 1 (by decide) (by decide)

/-! ### Single row-and-column removal -/

theorem eraseSeekLoop_done (index k j : Nat) (row : Row) (h : row.length < j) :
    eraseSeekLoop index k j row.length row = .ok (row, row.length) := by
  cases k with
  | zero => rfl
  | succ k => simp only [eraseSeekLoop, if_neg (show ¬ j < row.length by omega)]

/-- The seek loop of `RemoveRowColumn` stops by its own condition `j < cachedRowLength`:
any number of rounds that covers `cachedRowLength - j` gives the same result. -/
theorem eraseSeekLoop_fuel (index k k1 j cachedRowLength : Nat) (row : Row)
    (h : cachedRowLength ≤ j + k) (h1 : cachedRowLength ≤ j + k1) :
    eraseSeekLoop index k j cachedRowLength row =
      eraseSeekLoop index k1 j cachedRowLength row := by
  induction k generalizing k1 j cachedRowLength row with
  | zero =>
    cases k1 with
    | zero => rfl
    | succ k1 => simp only [eraseSeekLoop, if_neg (show ¬ j < cachedRowLength by omega)]
  | succ k ih =>
    by_cases hj : j < cachedRowLength
    · cases k1 with
      | zero => omega
      | succ k1 =>
        simp only [eraseSeekLoop, hj, if_true]
        cases row[j]? with
        | none => rfl
        | some e =>
          obtain ⟨c, v⟩ := e
          simp only []
          split_ifs
          · exact ih k1 (j + 1) (cachedRowLength - 1) _ (by omega) (by omega)
          · exact ih k1 (j + 1) cachedRowLength _ (by omega) (by omega)
    · cases k1 with
      | zero => simp only [eraseSeekLoop, if_neg hj]
      | succ k1 => simp only [eraseSeekLoop, if_neg hj]

/-- The seek loop of `RemoveColumn` stops by its own condition as well. -/
theorem shiftSeekLoop_fuel (index k k1 j cachedRowLength : Nat) (row : Row)
    (h : cachedRowLength ≤ j + k) (h1 : cachedRowLength ≤ j + k1) :
    shiftSeekLoop index k j cachedRowLength row =
      shiftSeekLoop index k1 j cachedRowLength row := by
  induction k generalizing k1 j cachedRowLength row with
  | zero =>
    cases k1 with
    | zero => rfl
    | succ k1 => simp only [shiftSeekLoop, if_neg (show ¬ j < cachedRowLength by omega)]
  | succ k ih =>
    by_cases hj : j < cachedRowLength
    · cases k1 with
      | zero => omega
      | succ k1 =>
        simp only [shiftSeekLoop, hj, if_true]
        cases row[j]? with
        | none => rfl
        | some e =>
          obtain ⟨c, v⟩ := e
          simp only []
          split_ifs
          · cases shiftBack (cachedRowLength - 1 - j) j row with
            | error f => rfl
            | ok row1 => exact ih k1 (j + 1) (cachedRowLength - 1) _ (by omega) (by omega)
          · exact ih k1 (j + 1) cachedRowLength _ (by omega) (by omega)
    · cases k1 with
      | zero => simp only [shiftSeekLoop, if_neg hj]
      | succ k1 => simp only [shiftSeekLoop, if_neg hj]

theorem eraseSeekLoop_spec (index k : Nat) (pre suf : Row) (hk : suf.length ≤ k)
    (hsorted : suf.Pairwise (fun e1 e2 => e1.1 < e2.1)) :
    eraseSeekLoop index k pre.length (pre ++ suf).length (pre ++ suf) =
      .ok (pre ++ suf.filter (fun e => decide (e.1 ≠ index)),
        (pre ++ suf.filter (fun e => decide (e.1 ≠ index))).length) := by
  induction k generalizing pre suf with
  | zero =>
    have : suf = [] := List.length_eq_zero.1 (by omega)
    subst this; simp [eraseSeekLoop]
  | succ k ih =>
    cases suf with
    | nil => simp [eraseSeekLoop]
    | cons e suf1 =>
      obtain ⟨c, v⟩ := e
      rw [List.pairwise_cons] at hsorted
      have hget : (pre ++ (c, v) :: suf1)[pre.length]? = some (c, v) := by
        rw [List.getElem?_append_right (le_refl _)]; simp
      have hlt : pre.length < (pre ++ (c, v) :: suf1).length := by simp
      simp only [eraseSeekLoop, hlt, if_true, hget]
      by_cases hc : c = index
      · subst hc
        have herase : (pre ++ (c, v) :: suf1).eraseIdx pre.length = pre ++ suf1 := by
          rw [List.eraseIdx_append_of_length_le (le_refl _)]; simp
        have hlen : (pre ++ (c, v) :: suf1).length - 1 = (pre ++ suf1).length := by simp
        rw [if_pos rfl, herase, hlen]
        cases suf1 with
        | nil =>
          rw [List.append_nil, eraseSeekLoop_done c k (pre.length + 1) pre (by omega)]
          simp
        | cons e1 suf2 =>
          have hne : e1.1 ≠ c := by
            have := hsorted.1 e1 (List.mem_cons_self _ _)
            simp only at this
            omega
          have h := ih (pre ++ [e1]) suf2 (by simp at hk; omega)
            (List.Pairwise.sublist (List.sublist_cons_self _ _) hsorted.2)
          have e : (pre ++ [e1]) ++ suf2 = pre ++ e1 :: suf2 := by simp
          have e2 : (pre ++ [e1]).length = pre.length + 1 := by simp
          rw [e2, e] at h
          rw [h]
          simp [List.filter_cons, hne]
      · have h := ih (pre ++ [(c, v)]) suf1 (by simp at hk; omega) hsorted.2
        have e : (pre ++ [(c, v)]) ++ suf1 = pre ++ (c, v) :: suf1 := by simp
        have e2 : (pre ++ [(c, v)]).length = pre.length + 1 := by simp
        rw [e2, e] at h
        rw [if_neg hc, h]
        simp [List.filter_cons, hc]

theorem decrementAbove_spec (index : Nat) (row : Row) :
    decrementAbove index row.length row =
      .ok (row.map (fun e => if index < e.1 then (e.1 - 1, e.2) else (e.1, e.2))) := by
  induction row with
  | nil => rfl
  | cons e rest ih =>
    obtain ⟨c, v⟩ := e
    simp only [List.length_cons, decrementAbove, ih, List.map_cons]

theorem filter_map_eq_renumberEntries (index : Nat) (row : Row) :
    (row.filter (fun e => decide (e.1 ≠ index))).map
        (fun e => if index < e.1 then (e.1 - 1, e.2) else (e.1, e.2)) =
      renumberEntries [index] row := by
  induction row with
  | nil => rfl
  | cons e rest ih =>
    obtain ⟨c, v⟩ := e
    by_cases hc : c = index
    · subst hc
      have hd : decide ((c, v).1 ≠ c) = false := by simp
      rw [renumberEntries_cons_mem [c] c v rest (List.mem_singleton_self _), List.filter_cons,
        hd]
      exact ih
    · have hd : decide ((c, v).1 ≠ index) = true := by simpa using hc
      rw [renumberEntries_cons_not_mem [index] c v rest (by simpa using hc), List.filter_cons,
        hd, if_pos rfl, List.map_cons, ih]
      congr 1
      by_cases hlt : index < c <;> simp [List.countP_cons, hlt]

theorem removeColumnFromRowErasing_spec (index : Nat) (row : Row) (h : RowSorted row) :
    removeColumnFromRowErasing index row = .ok (renumberEntries [index] row) := by
  have h1 := eraseSeekLoop_spec index row.length [] row (le_refl _) h
  simp only [List.nil_append, List.length_nil] at h1
  simp only [removeColumnFromRowErasing, h1, decrementAbove_spec,
    filter_map_eq_renumberEntries]

theorem forEachRow_spec (body : Row → Except Fault Row) (f : Row → Row) (rows : List Row)
    (h : ∀ row ∈ rows, body row = .ok (f row)) :
    forEachRow body rows = .ok (rows.map f) := by
  induction rows with
  | nil => rfl
  | cons row rows ih =>
    simp only [forEachRow, h row (List.mem_cons_self _ _),
      ih (fun r hr => h r (List.mem_cons_of_mem _ hr)), List.map_cons]

theorem RemoveRowColumn_eq (m : SparseMatrix) (index : Nat) (hi : index < m.rows.length)
    (hsorted : SortedRows m.rows) :
    m.RemoveRowColumn index =
      ({ m with rows := (m.rows.eraseIdx index).map (renumberEntries [index]) }).notifySuperAll
        [.RemoveSuperRowFromSubMatrix index, .RemoveSuperColumnFromSubMatrix index] := by
  have h := forEachRow_spec (removeColumnFromRowErasing index) (renumberEntries [index])
    (m.rows.eraseIdx index) (fun row hr =>
      removeColumnFromRowErasing_spec index row
        (hsorted row ((List.eraseIdx_sublist _ _).subset hr)))
  simp only [SparseMatrix.RemoveRowColumn, hi, if_true, h]

theorem renumberEntries_single_sorted (a : Nat) (row : Row) (h : RowSorted row) :
    RowSorted (renumberEntries [a] row) := by
  apply List.Pairwise.filterMap _ _ h
  intro e1 e2 hlt b1 hb1 b2 hb2
  simp only [List.mem_singleton, Option.mem_def] at hb1 hb2
  split_ifs at hb1 hb2 with h1 h2
  simp only [Option.some.injEq] at hb1 hb2
  subst hb1 hb2
  simp only [List.countP_cons, List.countP_nil]
  by_cases c1 : a < e1.1 <;> by_cases c2 : a < e2.1 <;> simp [c1, c2] <;> omega

/-- Removing column `a` and then the columns `S` lowered by one is removing `a :: S`, when
`a` is below every member of `S`. -/
theorem renumberEntries_cons (a : Nat) (S : List Nat) (row : Row) (hS : ∀ x ∈ S, a < x) :
    renumberEntries (S.map (· - 1)) (renumberEntries [a] row) = renumberEntries (a :: S) row := by
  simp only [renumberEntries, List.filterMap_filterMap]
  apply List.filterMap_congr
  intro e _
  obtain ⟨c, v⟩ := e
  show ((if c ∈ [a] then none else some (c - List.countP (· < c) [a], v)).bind
      (fun e => if e.1 ∈ S.map (· - 1) then none
        else some (e.1 - List.countP (· < e.1) (S.map (· - 1)), e.2))) =
    (if c ∈ a :: S then none else some (c - List.countP (· < c) (a :: S), v))
  by_cases hca : c = a
  · subst hca; simp
  · by_cases hac : a < c
    · have h1 : (if c ∈ [a] then none else some (c - List.countP (· < c) [a], v)) =
          some (c - 1, v) := by simp [hca, hac, List.countP_cons]
      have hcount : (S.map (· - 1)).countP (· < c - 1) = S.countP (· < c) := by
        rw [List.countP_map]
        apply List.countP_congr
        intro x hx
        have := hS x hx
        simp only [Function.comp, decide_eq_true_eq]
        omega
      have hmem : c - 1 ∈ S.map (· - 1) ↔ c ∈ S := by
        constructor
        · intro hm
          obtain ⟨y, hy, hyc⟩ := List.mem_map.1 hm
          have := hS y hy
          have e : y = c := by omega
          exact e ▸ hy
        · intro hm
          exact List.mem_map.2 ⟨c, hm, rfl⟩
      rw [h1, Option.some_bind]
      show (if c - 1 ∈ S.map (· - 1) then none
        else some (c - 1 - List.countP (· < c - 1) (S.map (· - 1)), v)) = _
      rw [hcount]
      by_cases hcS : c ∈ S
      · rw [if_pos (hmem.2 hcS), if_pos (List.mem_cons_of_mem _ hcS)]
      · have h2 : c ∉ a :: S := by simp [hca, hcS]
        have h3 : List.countP (· < c) (a :: S) = List.countP (· < c) S + 1 := by
          simp [List.countP_cons, hac]
        rw [if_neg (mt hmem.1 hcS), if_neg h2, h3]
        congr 2; omega
    · have h1 : (if c ∈ [a] then none else some (c - List.countP (· < c) [a], v)) =
          some (c, v) := by simp [hca, hac, List.countP_cons]
      have hcS : c ∉ a :: S := by
        intro hm
        rcases List.mem_cons.1 hm with h | hm
        · exact hca h
        · have := hS c hm; omega
      have hcS' : c ∉ S.map (· - 1) := fun hm => by
        obtain ⟨y, hy, hyc⟩ := List.mem_map.1 hm
        have := hS y hy
        omega
      have hz : List.countP (· < c) (a :: S) = 0 := by
        rw [List.countP_eq_zero]
        intro x hx
        rcases List.mem_cons.1 hx with rfl | hx
        · simp; omega
        · have := hS x hx
          simp; omega
      have hz' : (S.map (· - 1)).countP (· < c) = 0 := by
        rw [List.countP_eq_zero]
        intro x hx
        obtain ⟨y, hy, rfl⟩ := List.mem_map.1 hx
        have := hS y hy
        simp; omega
      rw [h1, Option.some_bind]
      show (if c ∈ S.map (· - 1) then none
        else some (c - List.countP (· < c) (S.map (· - 1)), v)) = _
      rw [if_neg hcS', if_neg hcS, hz, hz']

/-! ### Row-and-column removal: batch against reference -/

theorem renumberEntries_nil (row : Row) : renumberEntries [] row = row := by
  induction row with
  | nil => rfl
  | cons e rest ih =>
    obtain ⟨c, v⟩ := e
    rw [renumberEntries_cons_not_mem [] c v rest (List.not_mem_nil _), ih]
    simp

theorem eliminated_nil (rows : List Row) : eliminated [] rows = rows := by
  unfold eliminated
  rw [keepIdx_nil_removed]
  conv_rhs => rw [← List.map_id rows]
  exact List.map_congr_left (fun row _ => renumberEntries_nil row)

theorem RemoveRowsColumns_eq (M : SparseMatrix) (R : List Nat) (oneIndexed : Int)
    (hs : R.Pairwise (· < ·)) (hhi : ∀ r ∈ R, r < M.rows.length)
    (hcols : ∀ i, i ∉ R → ∀ e ∈ M.rows.getD i [], e.1 < M.rows.length) :
    M.RemoveRowsColumns (asRemovalList R oneIndexed) oneIndexed =
      ({ M with rows := eliminated R M.rows }).notifySuperAll
        (removedRowColumnCalls (asRemovalList R oneIndexed) oneIndexed) := by
  obtain ⟨rows1, t1, h1, h2⟩ := compactRenumberRowsLoop_spec M.rows.length R hs M.rows.length
    0 0 M.rows rfl (by simp) (le_refl _) (fun i _ hi => hcols i hi)
  simp only [SparseMatrix.RemoveRowsColumns, SparseMatrix.GetNumRows,
    buildOldToNew_spec M.rows.length R oneIndexed hs hhi, h1, h2, eliminated]
  simp

theorem columnsBelow_getD (n : Nat) (rows : List Row) (h : ColumnsBelow n rows) (i : Nat) :
    ∀ e ∈ rows.getD i [], e.1 < n := by
  rw [List.getD_eq_getElem?_getD]
  cases hi : rows[i]? with
  | none => intro e he; simp at he
  | some row => exact h row (List.getElem?_mem hi)

theorem removeRowsColumnsSlowLoop_some (oneIndexed : Int) (R : List Nat) (i : Nat)
    (m : SparseMatrix) (l : SparseSubMatrixLinkage) (hl : m.superMatrixLinkage = some l)
    (hsorted : SortedRows m.rows)
    (hs : R.Pairwise (· < ·)) (hlo : ∀ r ∈ R, i ≤ r) (hhi : ∀ r ∈ R, r - i < m.rows.length) :
    ∃ m1, removeRowsColumnsSlowLoop oneIndexed i (asRemovalList R oneIndexed) m = .ok m1 ∧
      m1.rows = eliminated (R.map (· - i)) m.rows := by
  induction R generalizing i m l with
  | nil => exact ⟨m, rfl, (eliminated_nil m.rows).symm⟩
  | cons r rest ih =>
    rw [List.pairwise_cons] at hs
    have hr : i ≤ r := hlo r (List.mem_cons_self _ _)
    have hrl : r - i < m.rows.length := hhi r (List.mem_cons_self _ _)
    obtain ⟨m1, l1, h1, hr1, hl1⟩ := notifySuperAll_some
      { m with rows := (m.rows.eraseIdx (r - i)).map (renumberEntries [r - i]) }
      [.RemoveSuperRowFromSubMatrix ((r - i : Nat) : Int),
       .RemoveSuperColumnFromSubMatrix ((r - i : Nat) : Int)] l hl
    have hr1' : m1.rows = (m.rows.eraseIdx (r - i)).map (renumberEntries [r - i]) := hr1
    have hsorted1 : SortedRows m1.rows := by
      intro row hrow
      rw [hr1'] at hrow
      obtain ⟨row0, hrow0, rfl⟩ := List.mem_map.1 hrow
      exact renumberEntries_single_sorted _ _
        (hsorted row0 ((List.eraseIdx_sublist _ _).subset hrow0))
    have hlen1 : m1.rows.length + 1 = m.rows.length := by
      rw [hr1']; simp only [List.length_map, List.length_eraseIdx, hrl, if_true]; omega
    obtain ⟨m2, h2, hr2⟩ := ih (i + 1) m1 l1 hl1 hsorted1 hs.2
      (fun x hx => by have := hs.1 x hx; omega)
      (fun x hx => by
        have h3 := hs.1 x hx
        have h4 := hhi x (List.mem_cons_of_mem _ hx)
        omega)
    refine ⟨m2, ?_, ?_⟩
    · simp only [asRemovalList, List.map_cons, removeRowsColumnsSlowLoop,
        slow_index r i oneIndexed hr, RemoveRowColumn_eq m (r - i) hrl hsorted]
      rw [h1]
      exact h2
    · have e : rest.map (· - (i + 1)) = (rest.map (· - i)).map (· - 1) := by
        rw [List.map_map]; apply List.map_congr_left; intro x _; simp; omega
      have hS : ∀ x ∈ rest.map (· - i), r - i < x := fun x hx => by
        obtain ⟨y, hy, rfl⟩ := List.mem_map.1 hx
        have := hs.1 y hy
        show r - i < y - i
        omega
      rw [hr2, hr1', e]
      unfold eliminated
      rw [keepIdx_map, List.map_map, List.map_cons,
        keepIdx_cons (r - i) (rest.map (· - i)) m.rows hS]
      apply List.map_congr_left
      intro row _
      exact renumberEntries_cons (r - i) (rest.map (· - i)) row hS

theorem removeRowsColumnsSlowLoop_none (oneIndexed : Int) (R : List Nat) (i : Nat)
    (m : SparseMatrix) (hl : m.superMatrixLinkage = none) (hne : R ≠ [])
    (hsorted : SortedRows m.rows)
    (hlo : ∀ r ∈ R, i ≤ r) (hhi : ∀ r ∈ R, r - i < m.rows.length) :
    removeRowsColumnsSlowLoop oneIndexed i (asRemovalList R oneIndexed) m =
      .error .nullPointer := by
  cases R with
  | nil => exact absurd rfl hne
  | cons r rest =>
    have hr : i ≤ r := hlo r (List.mem_cons_self _ _)
    have hrl : r - i < m.rows.length := hhi r (List.mem_cons_self _ _)
    have h := notifySuperAll_none
      { m with rows := (m.rows.eraseIdx (r - i)).map (renumberEntries [r - i]) }
      [.RemoveSuperRowFromSubMatrix ((r - i : Nat) : Int),
       .RemoveSuperColumnFromSubMatrix ((r - i : Nat) : Int)] hl (by simp)
    simp only [asRemovalList, List.map_cons, removeRowsColumnsSlowLoop,
      slow_index r i oneIndexed hr, RemoveRowColumn_eq m (r - i) hrl hsorted]
    rw [h]

/-- C2: batch and reference row-and-column removal agree. For a matrix with strictly
increasing rows whose column indices are all below the row count, and a strictly ascending
removal list whose entries, read with the flag, are in range: `RemoveRowsColumns` and
`RemoveRowsColumnsSlow` end alike (the same rows, or the same fault), and on a matrix with a
super-matrix linkage (or for an empty list) both return, with the same rows. -/
theorem RemoveRowsColumns_agrees_with_RemoveRowsColumnsSlow (M : SparseMatrix)
    (removed : List Int) (oneIndexed : Int) (hsorted : SortedRows M.rows)
    (hcols : ColumnsBelow M.GetNumRows M.rows) (hasc : removed.Pairwise (· < ·))
    (hrange : ∀ r ∈ removed, 0 ≤ r - oneIndexed ∧ r - oneIndexed < M.GetNumRows) :
    Except.map (·.rows) (M.RemoveRowsColumns removed oneIndexed) =
        Except.map (·.rows) (M.RemoveRowsColumnsSlow removed oneIndexed) ∧
      ((M.superMatrixLinkage.isSome ∨ removed = []) →
        ∃ M1 M2, M.RemoveRowsColumns removed oneIndexed = .ok M1 ∧
          M.RemoveRowsColumnsSlow removed oneIndexed = .ok M2 ∧ M1.rows = M2.rows) := by
  obtain ⟨R, hR, hs, hhi, hlen, -⟩ :=
    exists_zeroIndexed M.GetNumRows removed oneIndexed ⟨hasc, hrange⟩
  have hbatch := RemoveRowsColumns_eq M R oneIndexed hs hhi
    (fun i _ => columnsBelow_getD _ _ hcols i)
  have hR0 : R.map (· - 0) = R := by simp
  rw [hR] at hbatch
  cases hl : M.superMatrixLinkage with
  | some l =>
    obtain ⟨m1, l1, h1, hr1, -⟩ := notifySuperAll_some
      { M with rows := eliminated R M.rows }
      (removedRowColumnCalls removed oneIndexed) l hl
    obtain ⟨m2, h2, hr2⟩ := removeRowsColumnsSlowLoop_some oneIndexed R 0 M l hl hsorted hs
      (fun _ _ => Nat.zero_le _) (fun r hr => by simpa using hhi r hr)
    rw [hR] at h2
    rw [hR0] at hr2
    have hrows : m1.rows = m2.rows := by rw [hr1, hr2]
    refine ⟨?_, fun _ => ⟨m1, m2, hbatch.trans h1, h2, hrows⟩⟩
    rw [hbatch, h1, SparseMatrix.RemoveRowsColumnsSlow, h2]
    simp only [Except.map, hrows]
  | none =>
    by_cases hne : removed = []
    · subst hne
      have hRnil : R = [] := by simpa using hlen
      subst hRnil
      have e1 : M.RemoveRowsColumns [] oneIndexed =
          .ok { M with rows := eliminated [] M.rows } := by
        rw [hbatch]; rfl
      have e2 : M.RemoveRowsColumnsSlow [] oneIndexed = .ok M := rfl
      have e3 : eliminated [] M.rows = M.rows := eliminated_nil M.rows
      refine ⟨by rw [e1, e2]; simp only [Except.map, e3], fun _ => ⟨_, M, e1, e2, e3⟩⟩
    · have hRne : R ≠ [] := by
        intro h; apply hne; rw [← hR, h]; rfl
      have e1 : M.RemoveRowsColumns removed oneIndexed = .error .nullPointer := by
        rw [hbatch]
        refine notifySuperAll_none _ _ hl ?_
        cases hrem : removed.reverse with
        | nil => exact absurd (List.reverse_eq_nil_iff.1 hrem) hne
        | cons x xs => simp [removedRowColumnCalls, hrem]
      have e2 := removeRowsColumnsSlowLoop_none oneIndexed R 0 M hl hRne hsorted
        (fun _ _ => Nat.zero_le _) (fun r hr => by simpa using hhi r hr)
      rw [hR] at e2
      refine ⟨by rw [e1, SparseMatrix.RemoveRowsColumnsSlow, e2], fun h => ?_⟩
      rcases h with h | h
      · simp at h
      · exact absurd h hne

/-- Witness for C2 on the example matrix, removal list `[1, 3]` read 1-indexed. -/
theorem RemoveRowsColumns_agrees_with_RemoveRowsColumnsSlow_witness :
    Except.map (·.rows) (exampleMatrix.RemoveRowsColumns [1, 3] 1) =
        Except.map (·.rows) (exampleMatrix.RemoveRowsColumnsSlow [1, 3] 1) ∧
      ((exampleMatrix.superMatrixLinkage.isSome ∨ ([1, 3] : List Int) = []) →
        ∃ M1 M2, exampleMatrix.RemoveRowsColumns [1, 3] 1 = .ok M1 ∧
          exampleMatrix.RemoveRowsColumnsSlow [1, 3] 1 = .ok M2 ∧ M1.rows = M2.rows) :=
  RemoveRowsColumns_agrees_with_RemoveRowsColumnsSlow exampleMatrix [1, 3] 1
    (by simp [SortedRows, RowSorted, exampleMatrix])
    (by unfold ColumnsBelow; decide)
    (by decide) (by decide)

/-! ### Column removal: the reference routine keeps a stale entry -/

/-- C3 (evaluation at the failing input): on the one-row matrix `(0,0)=1, (0,1)=2`, removing
column `0` with `RemoveColumns` leaves the row `[(0, 2)]`, while `RemoveColumnsSlow` leaves
`[(0, 2), (1, 2)]`: `RemoveColumn` shifts the entries back and lowers its local
`cachedRowLength`, but never shortens the row. -/
theorem RemoveColumns_differs_from_RemoveColumnsSlow :
    Except.map (·.rows) (oneRowMatrix.RemoveColumns [0] 0) = .ok [[(0, 2)]] ∧
      Except.map (·.rows) (oneRowMatrix.RemoveColumnsSlow [0] 0) = .ok [[(0, 2), (1, 2)]] ∧
      Except.map (·.rows) (oneRowMatrix.RemoveColumns [0] 0) ≠
        Except.map (·.rows) (oneRowMatrix.RemoveColumnsSlow [0] 0) := by
  have h1 : Except.map (·.rows) (oneRowMatrix.RemoveColumns [0] 0) = .ok [[(0, 2)]] := rfl
  have h2 : Except.map (·.rows) (oneRowMatrix.RemoveColumnsSlow [0] 0) =
      .ok [[(0, 2), (1, 2)]] := rfl
  refine ⟨h1, h2, ?_⟩
  rw [h1, h2]
  intro h
  simp at h

/-! ### Worked example -/

theorem quadraticFormRow_spec (x : List ℚ) (i : Nat) (hi : i < x.length) (row : Row)
    (acc : ℚ) (h : ∀ e ∈ row, e.1 < x.length) :
    quadraticFormRow x i row acc =
      .ok (acc + (row.map (fun e => e.2 * foldWeight x i e.1)).sum) := by
  induction row generalizing acc with
  | nil => simp [quadraticFormRow]
  | cons e rest ih =>
    obtain ⟨c, a⟩ := e
    have hc : c < x.length := h (c, a) (List.mem_cons_self _ _)
    have hrest : ∀ e ∈ rest, e.1 < x.length := fun e he => h e (List.mem_cons_of_mem _ he)
    have gi : x.getD i 0 = x[i] := List.getD_eq_getElem _ _ hi
    have gc : x.getD c 0 = x[c] := List.getD_eq_getElem _ _ hc
    simp only [quadraticFormRow, List.getElem?_eq_getElem hi, List.getElem?_eq_getElem hc,
      List.map_cons, List.sum_cons]
    by_cases h1 : c < i
    · have hw : foldWeight x i c = 0 := by simp [foldWeight, h1]
      rw [if_pos h1, ih _ hrest, hw]; congr 1; ring
    · rw [if_neg h1]
      by_cases h2 : c = i
      · have hw : foldWeight x i c = x[i] * x[c] := by
          unfold foldWeight; rw [if_neg h1, if_pos h2, gi, gc]
        rw [if_pos h2, ih _ hrest, hw]; congr 1; ring
      · have hw : foldWeight x i c = 2 * (x[i] * x[c]) := by
          unfold foldWeight; rw [if_neg h1, if_neg h2, gi, gc]
        rw [if_neg h2, ih _ hrest, hw]; congr 1; ring

theorem quadraticFormRow_filter (x : List ℚ) (i : Nat) (row : Row) (acc : ℚ) :
    quadraticFormRow x i (row.filter (fun e => decide (i ≤ e.1))) acc =
      quadraticFormRow x i row acc := by
  induction row generalizing acc with
  | nil => rfl
  | cons e rest ih =>
    obtain ⟨c, a⟩ := e
    by_cases h1 : c < i
    · have hd : decide (i ≤ (c, a).1) = false := by simp; omega
      rw [List.filter_cons, hd]
      simp only [quadraticFormRow, h1, if_true]
      exact ih acc
    · have hd : decide (i ≤ (c, a).1) = true := by simp; omega
      rw [List.filter_cons, hd, if_pos rfl]
      simp only [quadraticFormRow, h1, if_false]
      cases x[i]? <;> cases x[c]? <;> simp only []
      split_ifs <;> exact ih _

theorem quadraticFormRows_filter (x : List ℚ) (i : Nat) (rows : List Row) (acc : ℚ) :
    quadraticFormRows x i (keepTriangle (fun i c => decide (i ≤ c)) i rows) acc =
      quadraticFormRows x i rows acc := by
  induction rows generalizing i acc with
  | nil => rfl
  | cons row rows ih =>
    simp only [keepTriangle, quadraticFormRows, quadraticFormRow_filter]
    cases quadraticFormRow x i row acc with
    | ok r => exact ih (i + 1) r
    | error f => rfl

theorem quadraticFormRows_spec (x : List ℚ) (i : Nat) (rows : List Row) (acc : ℚ)
    (hi : i + rows.length ≤ x.length) (h : ColumnsBelow x.length rows) :
    quadraticFormRows x i rows acc = .ok (acc + foldSum x i rows) := by
  induction rows generalizing i acc with
  | nil => simp [quadraticFormRows, foldSum]
  | cons row rows ih =>
    simp only [List.length_cons] at hi
    have h1 : ∀ e ∈ row, e.1 < x.length := h row (List.mem_cons_self _ _)
    have h2 : ColumnsBelow x.length rows := fun r hr => h r (List.mem_cons_of_mem _ hr)
    simp only [quadraticFormRows, quadraticFormRow_spec x i (by omega) row acc h1,
      ih (i + 1) _ (by omega) h2, foldSum]
    congr 1; ring

theorem rowEntry_eq_zero (row : Row) (j : Nat) (h : ∀ e ∈ row, e.1 ≠ j) : rowEntry row j = 0 := by
  induction row with
  | nil => rfl
  | cons e rest ih =>
    obtain ⟨c, a⟩ := e
    have hc : c ≠ j := h (c, a) (List.mem_cons_self _ _)
    simp only [rowEntry, hc, if_false]
    exact ih (fun e he => h e (List.mem_cons_of_mem _ he))

/-- A sum over the stored entries of a sorted row is the sum over all columns of the entry
values. -/
theorem sum_row_eq_sum_range (n : Nat) (g : Nat → ℚ) (row : Row) (hsorted : RowSorted row)
    (hcol : ∀ e ∈ row, e.1 < n) :
    (row.map (fun e => e.2 * g e.1)).sum = ∑ j ∈ Finset.range n, rowEntry row j * g j := by
  induction row with
  | nil => simp [rowEntry]
  | cons e rest ih =>
    obtain ⟨c, a⟩ := e
    have hs := List.pairwise_cons.1 hsorted
    have hc : c < n := hcol (c, a) (List.mem_cons_self _ _)
    have hz : rowEntry rest c = 0 := rowEntry_eq_zero rest c (fun e he => by
      have := hs.1 e he
      simp only at this
      omega)
    have hpt : ∀ j, rowEntry ((c, a) :: rest) j * g j =
        rowEntry rest j * g j + (if c = j then a * g j else 0) := by
      intro j
      by_cases hcj : c = j
      · subst hcj; simp [rowEntry, hz]
      · simp [rowEntry, hcj]
    rw [List.map_cons, List.sum_cons, ih hs.2 (fun e he => hcol e (List.mem_cons_of_mem _ he))]
    simp only [hpt, Finset.sum_add_distrib, Finset.sum_ite_eq, Finset.mem_range, hc, if_true]
    ring

theorem foldSum_eq_sum (x : List ℚ) (n i : Nat) (rows : List Row) (hsorted : SortedRows rows)
    (hcol : ColumnsBelow n rows) :
    foldSum x i rows = ∑ k ∈ Finset.range rows.length, ∑ j ∈ Finset.range n,
      rowEntry (rows.getD k []) j * foldWeight x (i + k) j := by
  induction rows generalizing i with
  | nil => simp [foldSum]
  | cons row rows ih =>
    have h1 := sum_row_eq_sum_range n (foldWeight x i) row (hsorted row (List.mem_cons_self _ _))
      (hcol row (List.mem_cons_self _ _))
    have h2 := ih (i + 1) (fun r hr => hsorted r (List.mem_cons_of_mem _ hr))
      (fun r hr => hcol r (List.mem_cons_of_mem _ hr))
    rw [foldSum, h1, h2, List.length_cons, Finset.sum_range_succ']
    simp only [List.getD_cons_succ, List.getD_cons_zero, Nat.add_zero]
    rw [add_comm]
    congr 1
    apply Finset.sum_congr rfl
    intro k _
    apply Finset.sum_congr rfl
    intro j _
    congr 2; omega

/-- For a symmetric array, folding the diagonal once and the upper triangle twice gives the
full double sum. -/
theorem sum_fold_eq_sum_all (n : Nat) (A : Nat → Nat → ℚ) (hA : ∀ i j, A i j = A j i) :
    ∑ i ∈ Finset.range n, ∑ j ∈ Finset.range n,
        (if j < i then 0 else if j = i then A i j else 2 * A i j) =
      ∑ i ∈ Finset.range n, ∑ j ∈ Finset.range n, A i j := by
  have hsplit : ∀ i j, (if j < i then 0 else if j = i then A i j else 2 * A i j) =
      (if i ≤ j then A i j else 0) + (if i < j then A i j else 0) := by
    intro i j
    by_cases h1 : j < i
    · rw [if_pos h1, if_neg (by omega), if_neg (by omega)]; ring
    · by_cases h2 : j = i
      · rw [if_neg h1, if_pos h2, if_pos (by omega), if_neg (by omega)]; ring
      · rw [if_neg h1, if_neg h2, if_pos (by omega), if_pos (by omega)]; ring
  have hswap : ∑ i ∈ Finset.range n, ∑ j ∈ Finset.range n, (if i < j then A i j else 0) =
      ∑ i ∈ Finset.range n, ∑ j ∈ Finset.range n, (if j < i then A i j else 0) := by
    rw [Finset.sum_comm]
    apply Finset.sum_congr rfl
    intro i _
    apply Finset.sum_congr rfl
    intro j _
    rw [hA j i]
  simp only [hsplit, Finset.sum_add_distrib]
  rw [hswap, ← Finset.sum_add_distrib]
  apply Finset.sum_congr rfl
  intro i _
  rw [← Finset.sum_add_distrib]
  apply Finset.sum_congr rfl
  intro j _
  by_cases h : i ≤ j
  · rw [if_pos h, if_neg (by omega)]; ring
  · rw [if_neg h, if_pos (by omega)]; ring

theorem QuadraticForm_eq_dense (M : SparseMatrix) (x : List ℚ) (hsorted : SortedRows M.rows)
    (hcols : ColumnsBelow M.GetNumRows M.rows) (hx : x.length = M.GetNumRows)
    (hsymm : ∀ i j, M.entry i j = M.entry j i) :
    M.QuadraticForm x = .ok (denseQuadraticForm M x) := by
  have h1 := quadraticFormRows_spec x 0 M.rows 0
    (by simp only [SparseMatrix.GetNumRows] at hx; omega) (hx ▸ hcols)
  have h2 := foldSum_eq_sum x M.GetNumRows 0 M.rows hsorted hcols
  have h3 := sum_fold_eq_sum_all M.GetNumRows
    (fun i j => M.entry i j * x.getD i 0 * x.getD j 0)
    (fun i j => by simp only [hsymm i j]; ring)
  rw [SparseMatrix.QuadraticForm, h1, h2, zero_add, denseQuadraticForm, ← h3]
  congr 1
  apply Finset.sum_congr rfl
  intro i _
  apply Finset.sum_congr rfl
  intro j _
  simp only [Nat.zero_add, SparseMatrix.entry, foldWeight]
  split_ifs <;> ring

theorem symmetricExample_symmetric (i j : Nat) :
    symmetricExample.entry i j = symmetricExample.entry j i := by
  rcases i with _ | _ | i <;> rcases j with _ | _ | j <;>
    simp [symmetricExample, SparseMatrix.entry, rowEntry]

/-- C10 (as stated, refuted on the lower triangle): for the symmetric matrix `[[0,1],[1,0]]`
and `x = [1,1]`, the full storage gives `QuadraticForm = 2 = xᵗSx`, but the storage that
keeps the diagonal and the strictly-lower entries gives `0`. -/
theorem QuadraticForm_lower_triangle_counterexample :
    SortedRows symmetricExample.rows ∧
      ColumnsBelow symmetricExample.GetNumRows symmetricExample.rows ∧
      (∀ i j, symmetricExample.entry i j = symmetricExample.entry j i) ∧
      symmetricExample.QuadraticForm [1, 1] = .ok 2 ∧
      denseQuadraticForm symmetricExample [1, 1] = 2 ∧
      symmetricExample.lowerTriangleStorage.QuadraticForm [1, 1] = .ok 0 ∧
      symmetricExample.lowerTriangleStorage.QuadraticForm [1, 1] ≠
        symmetricExample.QuadraticForm [1, 1] := by
  have h1 : symmetricExample.QuadraticForm [1, 1] = .ok 2 := by
    simp [symmetricExample, SparseMatrix.QuadraticForm, quadraticFormRows, quadraticFormRow]
  have h2 : symmetricExample.lowerTriangleStorage.QuadraticForm [1, 1] = .ok 0 := by
    simp [symmetricExample, SparseMatrix.lowerTriangleStorage, keepTriangle,
      SparseMatrix.QuadraticForm, quadraticFormRows, quadraticFormRow]
  refine ⟨by simp [SortedRows, RowSorted, symmetricExample], by unfold ColumnsBelow; decide,
    symmetricExample_symmetric, h1, ?_, h2, ?_⟩
  · simp [denseQuadraticForm, SparseMatrix.GetNumRows, symmetricExample, SparseMatrix.entry,
      rowEntry, Finset.sum_range_succ]
    norm_num
  · rw [h1, h2]
    intro h
    have := Except.ok.inj h
    norm_num at this

/-- C10 (amended): for a symmetric matrix whose full storage has strictly increasing rows and
column indices below the row count, and a vector with one entry per row, `QuadraticForm` on
the storage that keeps only the diagonal and the strictly-upper entries returns the same
scalar as on the full storage, and that scalar is `xᵗSx = Σ_i Σ_j S(i,j)·x_i·x_j`. -/
theorem QuadraticForm_upper_triangle (M : SparseMatrix) (x : List ℚ)
    (hsorted : SortedRows M.rows) (hcols : ColumnsBelow M.GetNumRows M.rows)
    (hx : x.length = M.GetNumRows) (hsymm : ∀ i j, M.entry i j = M.entry j i) :
    M.upperTriangleStorage.QuadraticForm x = M.QuadraticForm x ∧
      M.QuadraticForm x = .ok (denseQuadraticForm M x) :=
  ⟨quadraticFormRows_filter x 0 M.rows 0, QuadraticForm_eq_dense M x hsorted hcols hx hsymm⟩

/-- Witness for C10 (amended) on the symmetric matrix `[[0,1],[1,0]]` with `x = [1,1]`. -/
theorem QuadraticForm_upper_triangle_witness :
    symmetricExample.upperTriangleStorage.QuadraticForm [1, 1] =
        symmetricExample.QuadraticForm [1, 1] ∧
      symmetricExample.QuadraticForm [1, 1] = .ok (denseQuadraticForm symmetricExample [1, 1]) :=
  QuadraticForm_upper_triangle symmetricExample [1, 1]
    (by simp [SortedRows, RowSorted, symmetricExample]) (by unfold ColumnsBelow; decide)
    (by decide) symmetricExample_symmetric

/-! ### Dense basis projection -/

theorem sum_rowEntrySum (n : Nat) (g : Nat → ℚ) (row : Row) (hcol : ∀ e ∈ row, e.1 < n) :
    (row.map (fun e => e.2 * g e.1)).sum = ∑ j ∈ Finset.range n, rowEntrySum row j * g j := by
  induction row with
  | nil => simp [rowEntrySum]
  | cons e rest ih =>
    obtain ⟨c, a⟩ := e
    have hc : c < n := hcol (c, a) (List.mem_cons_self _ _)
    rw [List.map_cons, List.sum_cons, ih (fun e he => hcol e (List.mem_cons_of_mem _ he))]
    simp only [rowEntrySum, add_mul, ite_mul, zero_mul, Finset.sum_add_distrib,
      Finset.sum_ite_eq, Finset.mem_range, hc, if_true]

theorem rowSum_eq_sum (n : Nat) (x : List ℚ) (row : Row) (hcol : ∀ e ∈ row, e.1 < n) :
    rowSum x row = ∑ j ∈ Finset.range n, rowEntrySum row j * x.getD j 0 := by
  rw [← sum_rowEntrySum n (fun j => x.getD j 0) row hcol]
  induction row with
  | nil => rfl
  | cons e rest ih =>
    obtain ⟨c, a⟩ := e
    rw [rowSum, ih (fun e he => hcol e (List.mem_cons_of_mem _ he)), List.map_cons,
      List.sum_cons]
    ring

theorem writeAt_spec (buffer values : List ℚ) (offset : Nat)
    (h : offset + values.length ≤ buffer.length) :
    ∃ buffer1, writeAt buffer offset values = .ok buffer1 ∧ buffer1.length = buffer.length ∧
      (∀ p, p < offset → buffer1[p]? = buffer[p]?) ∧
      (∀ k, k < values.length → buffer1[offset + k]? = values[k]?) := by
  refine ⟨buffer.take offset ++ values ++ buffer.drop (offset + values.length),
    by simp only [writeAt, h, if_true], ?_, ?_, ?_⟩
  · simp only [List.length_append, List.length_take, List.length_drop]; omega
  · intro p hp
    rw [List.append_assoc, List.getElem?_append_left (by
        simp only [List.length_take]; omega),
      List.getElem?_take_of_lt hp]
  · intro k hk
    rw [List.getElem?_append_left (by
        simp only [List.length_append, List.length_take]; omega),
      List.getElem?_append_right (by simp only [List.length_take]; omega)]
    congr 1
    simp only [List.length_take]; omega

theorem multiplyMatrixLoop_spec (M : SparseMatrix) (U : List ℚ) (r : Nat)
    (hcols : ColumnsBelow M.GetNumRows M.rows) (hU : U.length = M.GetNumRows * r)
    (count c0 : Nat) (B : List ℚ) (hB : B.length = M.GetNumRows * r) (hc : c0 + count = r)
    (hdone : ∀ col, col < c0 → ∀ k, k < M.GetNumRows →
      B[M.GetNumRows * col + k]? =
        some (rowSum (U.drop (M.GetNumRows * col)) (M.rows.getD k []))) :
    ∃ B1, multiplyMatrixLoop M M.GetNumRows U count c0 B = .ok B1 ∧
      B1.length = M.GetNumRows * r ∧
      ∀ col, col < r → ∀ k, k < M.GetNumRows →
        B1[M.GetNumRows * col + k]? =
          some (rowSum (U.drop (M.GetNumRows * col)) (M.rows.getD k [])) := by
  induction count generalizing c0 B with
  | zero =>
    have : c0 = r := by omega
    subst this
    exact ⟨B, rfl, hB, hdone⟩
  | succ count ih =>
    have hlt : c0 + 1 ≤ r := by omega
    have hmul : M.GetNumRows * c0 + M.GetNumRows ≤ M.GetNumRows * r := by
      have := Nat.mul_le_mul_left M.GetNumRows hlt
      rw [Nat.mul_add, Nat.mul_one] at this
      exact this
    have hvec : M.MultiplyVector (U.drop (M.GetNumRows * c0)) =
        .ok (M.rows.map (rowSum (U.drop (M.GetNumRows * c0)))) := by
      apply multiplyRows_ok
      intro row hrow e he
      have := hcols row hrow e he
      simp only [List.length_drop]
      omega
    obtain ⟨B1, hw, hl1, hlow, hnew⟩ := writeAt_spec B
      (M.rows.map (rowSum (U.drop (M.GetNumRows * c0)))) (M.GetNumRows * c0)
      (by simp only [List.length_map]; rw [hB]; exact hmul)
    obtain ⟨B2, h2, hl2, hall⟩ := ih (c0 + 1) B1 (hl1.trans hB) (by omega) (by
      intro col hcol k hk
      by_cases hc0 : col = c0
      · subst hc0
        rw [hnew k (by simpa using hk), List.getElem?_map]
        simp only [SparseMatrix.GetNumRows] at hk
        rw [List.getElem?_eq_getElem hk, List.getD_eq_getElem _ _ hk]
        rfl
      · have hcl : col + 1 ≤ c0 := by omega
        have := Nat.mul_le_mul_left M.GetNumRows hcl
        rw [Nat.mul_add, Nat.mul_one] at this
        rw [hlow _ (by omega)]
        exact hdone col (by omega) k hk)
    exact ⟨B2, by simp only [multiplyMatrixLoop, hvec, hw, h2], hl2, hall⟩

theorem conjugateEntryLoop_spec (U MU : List ℚ) (n i j : Nat) (count k : Nat) (acc : ℚ)
    (hU : i * n + k + count ≤ U.length) (hMU : j * n + k + count ≤ MU.length) :
    conjugateEntryLoop U MU n i j count k acc =
      .ok (acc + ∑ t ∈ Finset.range count,
        U.getD (i * n + (k + t)) 0 * MU.getD (j * n + (k + t)) 0) := by
  induction count generalizing k acc with
  | zero => simp [conjugateEntryLoop]
  | succ count ih =>
    have h1 : i * n + k < U.length := by omega
    have h2 : j * n + k < MU.length := by omega
    simp only [conjugateEntryLoop, List.getElem?_eq_getElem h1, List.getElem?_eq_getElem h2]
    rw [ih (k + 1) _ (by omega) (by omega), Finset.sum_range_succ']
    simp only [Nat.add_zero, List.getD_eq_getElem _ _ h1, List.getD_eq_getElem _ _ h2]
    congr 1
    have e : ∀ t, k + 1 + t = k + (t + 1) := fun t => by omega
    simp only [e]
    ring

theorem position_ne_of_lt (r i i1 j j1 : Nat) (hi : i < r) (hj : j + 1 ≤ j1) :
    j * r + i ≠ j1 * r + i1 := by
  have := Nat.mul_le_mul_right r hj
  rw [Nat.add_mul, Nat.one_mul] at this
  omega

theorem position_ne_of_ne (r i i1 j j1 : Nat) (hi : i < r) (hi1 : i1 < r) (hne : i ≠ i1) :
    j * r + i ≠ j1 * r + i1 := by
  intro h
  have h1 : (j * r + i) % r = i := by
    rw [Nat.add_comm, Nat.add_mul_mod_self_right, Nat.mod_eq_of_lt hi]
  have h2 : (j1 * r + i1) % r = i1 := by
    rw [Nat.add_comm, Nat.add_mul_mod_self_right, Nat.mod_eq_of_lt hi1]
  rw [h] at h1
  exact hne (h1.symm.trans h2)

theorem position_lt (r i j : Nat) (hi : i < r) (hj : j < r) : j * r + i < r * r := by
  have := Nat.mul_le_mul_right r (show j + 1 ≤ r by omega)
  rw [Nat.add_mul, Nat.one_mul] at this
  omega

theorem column_bound (n r i : Nat) (hi : i < r) : i * n + n ≤ n * r := by
  have := Nat.mul_le_mul_right n (show i + 1 ≤ r by omega)
  rw [Nat.add_mul, Nat.one_mul, Nat.mul_comm r n] at this
  exact this

theorem conjugateColumnLoop_spec (U MU : List ℚ) (n r i : Nat) (hi : i < r)
    (hU : U.length = n * r) (hMU : MU.length = n * r) (count j0 : Nat) (UT : List ℚ)
    (hUT : r * r ≤ UT.length) (hc : j0 + count = r) :
    ∃ UT1, conjugateColumnLoop U MU n r i count j0 UT = .ok UT1 ∧ UT1.length = UT.length ∧
      (∀ p, (∀ j, j0 ≤ j → j < r → p ≠ j * r + i) → UT1[p]? = UT[p]?) ∧
      (∀ j, j0 ≤ j → j < r → UT1[j * r + i]? = some (columnProduct U MU n i j)) := by
  induction count generalizing j0 UT with
  | zero =>
    exact ⟨UT, rfl, rfl, fun _ _ => rfl, fun j h1 h2 => by omega⟩
  | succ count ih =>
    have hj0 : j0 < r := by omega
    have hentry := conjugateEntryLoop_spec U MU n i j0 n 0 0
      (by have := column_bound n r i hi; omega) (by have := column_bound n r j0 hj0; omega)
    have hpos : j0 * r + i < UT.length := by have := position_lt r i j0 hi hj0; omega
    obtain ⟨UT1, h1, hl1, hframe, hset⟩ := ih (j0 + 1)
      (UT.set (j0 * r + i) (columnProduct U MU n i j0)) (by simpa using hUT) (by omega)
    refine ⟨UT1, ?_, by simpa using hl1, ?_, ?_⟩
    · simp only [conjugateColumnLoop, hentry, hpos, if_true, zero_add, Nat.zero_add]
      exact h1
    · intro p hp
      rw [hframe p (fun j h1 h2 => hp j (by omega) h2),
        List.getElem?_set_ne (Ne.symm (hp j0 (le_refl _) hj0))]
    · intro j h1 h2
      by_cases hj : j = j0
      · subst hj
        rw [hframe _ (fun j1 h3 h4 => position_ne_of_lt r i i j j1 hi h3),
          List.getElem?_set_self hpos]
      · exact hset j (by omega) h2

theorem conjugateRowLoop_spec (U MU : List ℚ) (n r : Nat)
    (hU : U.length = n * r) (hMU : MU.length = n * r) (count i0 : Nat) (UT : List ℚ)
    (hUT : r * r ≤ UT.length) (hc : i0 + count = r) :
    ∃ UT1, conjugateRowLoop U MU n r count i0 UT = .ok UT1 ∧ UT1.length = UT.length ∧
      (∀ p, (∀ i j, i0 ≤ i → i < r → j < r → p ≠ j * r + i) → UT1[p]? = UT[p]?) ∧
      (∀ i j, i0 ≤ i → i < r → j < r →
        UT1[j * r + i]? = some (columnProduct U MU n i j)) := by
  induction count generalizing i0 UT with
  | zero =>
    exact ⟨UT, rfl, rfl, fun _ _ => rfl, fun i j h1 h2 => by omega⟩
  | succ count ih =>
    have hi0 : i0 < r := by omega
    obtain ⟨UT1, h1, hl1, hframe1, hset1⟩ :=
      conjugateColumnLoop_spec U MU n r i0 hi0 hU hMU r 0 UT hUT (by omega)
    obtain ⟨UT2, h2, hl2, hframe2, hset2⟩ := ih (i0 + 1) UT1 (by omega) (by omega)
    refine ⟨UT2, ?_, by omega, ?_, ?_⟩
    · simp only [conjugateRowLoop, h1]
      exact h2
    · intro p hp
      rw [hframe2 p (fun i j h3 h4 h5 => hp i j (by omega) h4 h5),
        hframe1 p (fun j _ h4 => hp i0 j (le_refl _) hi0 h4)]
    · intro i j h3 h4 h5
      by_cases hi : i = i0
      · subst hi
        rw [hframe2 _ (fun i1 j1 h6 h7 _ => position_ne_of_ne r i i1 j j1 h4 h7 (by omega))]
        exact hset1 j (Nat.zero_le _) h5
      · exact hset2 i j (by omega) h4 h5

/-- C7: the dense variant computes `UᵗMU` in column-major layout. For a square matrix with
`N` rows whose column indices are all below `N`, a dense column-major `N × r` array `U` and
an output buffer of at least `r·r` entries, `ConjugateMatrix(U, r, UTilde)` returns and
`UTilde[j·r + i] = Σ_k Σ_m U[i·N + k] · M(k,m) · U[j·N + m]` for all `i, j < r`. -/
theorem ConjugateMatrixDense_computes (M : SparseMatrix) (U : List ℚ) (r : Nat)
    (UTilde : List ℚ) (hcols : ColumnsBelow M.GetNumRows M.rows)
    (hU : U.length = M.GetNumRows * r) (hUT : r * r ≤ UTilde.length) :
    ∃ UTilde1, M.ConjugateMatrixDense U r UTilde = .ok UTilde1 ∧
      UTilde1.length = UTilde.length ∧
      ∀ i j, i < r → j < r →
        UTilde1[j * r + i]? =
          some (∑ k ∈ Finset.range M.GetNumRows, ∑ m ∈ Finset.range M.GetNumRows,
            U.getD (i * M.GetNumRows + k) 0 * M.entrySum k m *
              U.getD (j * M.GetNumRows + m) 0) := by
  obtain ⟨MU, hMU, hMUlen, hMUval⟩ := multiplyMatrixLoop_spec M U r hcols hU r 0
    (List.replicate (M.GetNumRows * r) 0) (by simp) (by omega)
    (fun col hcol => by omega)
  obtain ⟨UT1, h1, hl1, -, hset⟩ := conjugateRowLoop_spec U MU M.GetNumRows r hU hMUlen r 0
    UTilde hUT (by omega)
  refine ⟨UT1, ?_, hl1, fun i j hi hj => ?_⟩
  · simp only [SparseMatrix.ConjugateMatrixDense, SparseMatrix.MultiplyMatrix, hMU]
    exact h1
  · rw [hset i j (Nat.zero_le _) hi hj, columnProduct]
    congr 1
    apply Finset.sum_congr rfl
    intro k hk
    have hk' : k < M.GetNumRows := Finset.mem_range.1 hk
    have hval := hMUval j hj k hk'
    have hget : MU.getD (j * M.GetNumRows + k) 0 =
        rowSum (U.drop (M.GetNumRows * j)) (M.rows.getD k []) := by
      rw [Nat.mul_comm j, List.getD_eq_getElem?_getD, hval]; rfl
    have hrow : ∀ e ∈ M.rows.getD k [], e.1 < M.GetNumRows := by
      have hk2 : k < M.rows.length := hk'
      rw [List.getD_eq_getElem _ _ hk2]
      exact hcols _ (List.getElem_mem _)
    rw [hget, rowSum_eq_sum M.GetNumRows _ _ hrow, Finset.mul_sum]
    apply Finset.sum_congr rfl
    intro m _
    have hdrop : (U.drop (M.GetNumRows * j)).getD m 0 = U.getD (j * M.GetNumRows + m) 0 := by
      rw [List.getD_eq_getElem?_getD, List.getD_eq_getElem?_getD, List.getElem?_drop,
        Nat.mul_comm]
    rw [hdrop, SparseMatrix.entrySum]
    ring

/-- Witness for C7: the matrix `(0,0)=2, (1,1)=3` with the one-column basis `U = [1, 1]`. -/
theorem ConjugateMatrixDense_computes_witness :
    ∃ UTilde1, diagonalExample.ConjugateMatrixDense [1, 1] 1 [9] = .ok UTilde1 ∧
      UTilde1.length = ([9] : List ℚ).length ∧
      ∀ i j, i < 1 → j < 1 →
        UTilde1[j * 1 + i]? =
          some (∑ k ∈ Finset.range diagonalExample.GetNumRows,
            ∑ m ∈ Finset.range diagonalExample.GetNumRows,
              ([1, 1] : List ℚ).getD (i * diagonalExample.GetNumRows + k) 0 *
                diagonalExample.entrySum k m *
                ([1, 1] : List ℚ).getD (j * diagonalExample.GetNumRows + m) 0) :=
  ConjugateMatrixDense_computes diagonalExample [1, 1] 1 [9]
    (by unfold ColumnsBelow; decide) (by decide) (by decide)

/-! ### Outline variant of the basis projection -/

theorem rowEntrySum_mapAddEntry (row : List (Nat × ℚ)) (j j1 : Nat) (v : ℚ) :
    rowEntrySum (mapAddEntry row j v) j1 = rowEntrySum row j1 + (if j = j1 then v else 0) := by
  induction row with
  | nil => simp [mapAddEntry, rowEntrySum]
  | cons e rest ih =>
    obtain ⟨c, a⟩ := e
    by_cases h1 : j < c
    · simp only [mapAddEntry, h1, if_true, rowEntrySum]; ring
    · by_cases h2 : j = c
      · subst h2
        simp only [mapAddEntry, h1, if_false, if_true, rowEntrySum]
        split_ifs <;> ring
      · simp only [mapAddEntry, h1, h2, if_false, rowEntrySum, ih]; ring

theorem keys_mapAddEntry (row : List (Nat × ℚ)) (j j1 : Nat) (v : ℚ) :
    j1 ∈ (mapAddEntry row j v).map Prod.fst ↔ j1 ∈ row.map Prod.fst ∨ j1 = j := by
  induction row with
  | nil => simp [mapAddEntry]
  | cons e rest ih =>
    obtain ⟨c, a⟩ := e
    by_cases h1 : j < c
    · simp only [mapAddEntry, h1, if_true, List.map_cons, List.mem_cons]; tauto
    · by_cases h2 : j = c
      · subst h2
        simp only [mapAddEntry, h1, if_false, if_true, List.map_cons, List.mem_cons]; tauto
      · simp only [mapAddEntry, h1, h2, if_false, List.map_cons, List.mem_cons, ih]; tauto

theorem sorted_mapAddEntry (row : List (Nat × ℚ)) (j : Nat) (v : ℚ) (h : RowSorted row) :
    RowSorted (mapAddEntry row j v) := by
  induction row with
  | nil => simp [mapAddEntry, RowSorted]
  | cons e rest ih =>
    obtain ⟨c, a⟩ := e
    have hs := List.pairwise_cons.1 h
    by_cases h1 : j < c
    · simp only [mapAddEntry, h1, if_true]
      refine List.pairwise_cons.2 ⟨fun e he => ?_, h⟩
      rcases List.mem_cons.1 he with rfl | he
      · exact h1
      · have := hs.1 e he
        simp only at this ⊢
        omega
    · by_cases h2 : j = c
      · subst h2
        simp only [mapAddEntry, h1, if_false, if_true]
        exact List.pairwise_cons.2 ⟨fun e he => hs.1 e he, hs.2⟩
      · simp only [mapAddEntry, h1, h2, if_false]
        refine List.pairwise_cons.2 ⟨fun e he => ?_, ih hs.2⟩
        have hk : e.1 ∈ (mapAddEntry rest j v).map Prod.fst := List.mem_map.2 ⟨e, he, rfl⟩
        rcases (keys_mapAddEntry rest j e.1 v).1 hk with hk | hk
        · obtain ⟨e1, he1, he1k⟩ := List.mem_map.1 hk
          have := hs.1 e1 he1
          simp only at this ⊢
          omega
        · simp only
          omega

theorem accumulates_refl (o : SparseMatrixOutline) :
    Accumulates o o (fun _ _ => 0) (fun _ _ => False) :=
  ⟨rfl, id, fun _ _ => ⟨by simp, by simp⟩⟩

theorem accumulates_trans (o o1 o2 : SparseMatrixOutline) (f g : Nat → Nat → ℚ)
    (P Q : Nat → Nat → Prop) (h1 : Accumulates o o1 f P) (h2 : Accumulates o1 o2 g Q) :
    Accumulates o o2 (fun K L => f K L + g K L) (fun K L => P K L ∨ Q K L) := by
  refine ⟨h2.1.trans h1.1, fun hs => h2.2.1 (h1.2.1 hs), fun K L => ⟨?_, ?_⟩⟩
  · rw [(h2.2.2 K L).1, (h1.2.2 K L).1]; ring
  · rw [(h2.2.2 K L).2, (h1.2.2 K L).2]; tauto

theorem accumulates_congr (o o1 : SparseMatrixOutline) (f g : Nat → Nat → ℚ)
    (P Q : Nat → Nat → Prop) (h : Accumulates o o1 f P) (hf : ∀ K L, f K L = g K L)
    (hP : ∀ K L, P K L ↔ Q K L) : Accumulates o o1 g Q := by
  refine ⟨h.1, h.2.1, fun K L => ⟨?_, ?_⟩⟩
  · rw [(h.2.2 K L).1, hf]
  · rw [(h.2.2 K L).2, hP]

theorem getD_set_rows {α : Type} (l : List (List α)) (K0 K : Nat) (x : List α)
    (h : K0 < l.length) : (l.set K0 x).getD K [] = if K = K0 then x else l.getD K [] := by
  rw [List.getD_eq_getElem?_getD, List.getD_eq_getElem?_getD, List.getElem?_set]
  by_cases hK : K = K0
  · subst hK; simp [h]
  · rw [if_neg (Ne.symm hK), if_neg hK]

theorem AddEntry_accumulates (o : SparseMatrixOutline) (K0 L0 : Nat) (v : ℚ)
    (h : K0 < o.columnEntries.length) :
    ∃ o1, o.AddEntry K0 L0 v = .ok o1 ∧
      Accumulates o o1 (fun K L => if K0 = K ∧ L0 = L then v else 0)
        (fun K L => K0 = K ∧ L0 = L) := by
  refine ⟨{ columnEntries := o.columnEntries.set K0 (mapAddEntry o.columnEntries[K0] L0 v) },
    by simp only [SparseMatrixOutline.AddEntry, List.getElem?_eq_getElem h], by simp, ?_, ?_⟩
  · intro hs row hrow
    rcases List.mem_or_eq_of_mem_set hrow with hrow | rfl
    · exact hs row hrow
    · exact sorted_mapAddEntry _ _ _ (hs _ (List.getElem_mem _))
  · intro K L
    simp only [SparseMatrixOutline.value, SparseMatrixOutline.HasKey,
      getD_set_rows o.columnEntries K0 K _ h]
    by_cases hK : K = K0
    · subst hK
      simp only [if_true, rowEntrySum_mapAddEntry, keys_mapAddEntry, true_and,
        List.getD_eq_getElem _ _ h]
      constructor
      · rintro (h1 | h1)
        · exact Or.inl h1
        · exact Or.inr h1.symm
      · rintro (h1 | h1)
        · exact Or.inl h1
        · exact Or.inr h1.symm
    · have hK' : ¬ K0 = K := fun h => hK h.symm
      simp [hK, hK']

theorem conjugateAddRowJ_accumulates (scalar u : ℚ) (K0 : Nat) (rowJ : Row)
    (o : SparseMatrixOutline) (h : K0 < o.columnEntries.length) :
    ∃ o1, conjugateAddRowJ scalar u K0 rowJ o = .ok o1 ∧
      Accumulates o o1
        (fun K L => (rowJ.map (fun q => if K0 = K ∧ q.1 = L then scalar * u * q.2 else 0)).sum)
        (fun K L => K0 = K ∧ L ∈ rowJ.map Prod.fst) := by
  induction rowJ generalizing o with
  | nil =>
    exact ⟨o, rfl, accumulates_congr _ _ _ _ _ _ (accumulates_refl o) (by simp) (by simp)⟩
  | cons q rest ih =>
    obtain ⟨L0, w⟩ := q
    obtain ⟨o1, h1, hacc1⟩ := AddEntry_accumulates o K0 L0 (scalar * u * w) h
    obtain ⟨o2, h2, hacc2⟩ := ih o1 (by rw [hacc1.1]; exact h)
    refine ⟨o2, by simp only [conjugateAddRowJ, h1, h2], ?_⟩
    refine accumulates_congr _ _ _ _ _ _ (accumulates_trans _ _ _ _ _ _ _ hacc1 hacc2) ?_ ?_
    · intro K L; simp only [List.map_cons, List.sum_cons]
    · intro K L
      simp only [List.map_cons, List.mem_cons]
      constructor
      · rintro (⟨h3, h4⟩ | ⟨h3, h4⟩)
        · exact ⟨h3, Or.inl h4.symm⟩
        · exact ⟨h3, Or.inr h4⟩
      · rintro ⟨h3, h4 | h4⟩
        · exact Or.inl ⟨h3, h4.symm⟩
        · exact Or.inr ⟨h3, h4⟩

theorem conjugateAddRowI_accumulates (U : SparseMatrix) (scalar : ℚ) (J : Nat)
    (hJ : J < U.rows.length) (rowI : Row) (o : SparseMatrixOutline)
    (h : ∀ p ∈ rowI, p.1 < o.columnEntries.length) :
    ∃ o1, conjugateAddRowI U scalar J rowI o = .ok o1 ∧
      Accumulates o o1
        (fun K L => (rowI.map (fun p => ((U.rows.getD J []).map (fun q =>
          if p.1 = K ∧ q.1 = L then scalar * p.2 * q.2 else 0)).sum)).sum)
        (fun K L => K ∈ rowI.map Prod.fst ∧ L ∈ (U.rows.getD J []).map Prod.fst) := by
  induction rowI generalizing o with
  | nil =>
    exact ⟨o, rfl, accumulates_congr _ _ _ _ _ _ (accumulates_refl o) (by simp) (by simp)⟩
  | cons p rest ih =>
    obtain ⟨K0, u⟩ := p
    have hK0 : K0 < o.columnEntries.length := h (K0, u) (List.mem_cons_self _ _)
    obtain ⟨o1, h1, hacc1⟩ := conjugateAddRowJ_accumulates scalar u K0 U.rows[J] o hK0
    obtain ⟨o2, h2, hacc2⟩ := ih o1 (fun p hp => by
      rw [hacc1.1]; exact h p (List.mem_cons_of_mem _ hp))
    refine ⟨o2, by
      simp only [conjugateAddRowI, List.getElem?_eq_getElem hJ, h1, h2], ?_⟩
    refine accumulates_congr _ _ _ _ _ _ (accumulates_trans _ _ _ _ _ _ _ hacc1 hacc2) ?_ ?_
    · intro K L
      simp only [List.map_cons, List.sum_cons, List.getD_eq_getElem _ _ hJ]
    · intro K L
      simp only [List.map_cons, List.mem_cons, List.getD_eq_getElem _ _ hJ]
      constructor
      · rintro (⟨h3, h4⟩ | ⟨h3, h4⟩)
        · exact ⟨Or.inl h3.symm, h4⟩
        · exact ⟨Or.inr h3, h4⟩
      · rintro ⟨h3 | h3, h4⟩
        · exact Or.inl ⟨h3.symm, h4⟩
        · exact Or.inr ⟨h3, h4⟩

theorem conjugateAddEntries_accumulates (U : SparseMatrix) (I : Nat) (hI : I < U.rows.length)
    (mrow : Row) (o : SparseMatrixOutline) (hJ : ∀ e ∈ mrow, e.1 < U.rows.length)
    (hK : ∀ row ∈ U.rows, ∀ p ∈ row, p.1 < o.columnEntries.length) :
    ∃ o1, conjugateAddEntries U I mrow o = .ok o1 ∧
      Accumulates o o1 (fun K L => (mrow.map (tripleTerm U K L I)).sum)
        (fun K L => ∃ e ∈ mrow, K ∈ (U.rows.getD I []).map Prod.fst ∧
          L ∈ (U.rows.getD e.1 []).map Prod.fst) := by
  induction mrow generalizing o with
  | nil =>
    exact ⟨o, rfl, accumulates_congr _ _ _ _ _ _ (accumulates_refl o) (by simp) (by simp)⟩
  | cons e rest ih =>
    obtain ⟨J, scalar⟩ := e
    have hJ0 : J < U.rows.length := hJ (J, scalar) (List.mem_cons_self _ _)
    obtain ⟨o1, h1, hacc1⟩ := conjugateAddRowI_accumulates U scalar J hJ0 U.rows[I] o
      (hK _ (List.getElem_mem _))
    obtain ⟨o2, h2, hacc2⟩ := ih o1 (fun e he => hJ e (List.mem_cons_of_mem _ he))
      (fun row hrow p hp => by rw [hacc1.1]; exact hK row hrow p hp)
    refine ⟨o2, by
      simp only [conjugateAddEntries, List.getElem?_eq_getElem hI, h1, h2], ?_⟩
    refine accumulates_congr _ _ _ _ _ _ (accumulates_trans _ _ _ _ _ _ _ hacc1 hacc2) ?_ ?_
    · intro K L
      simp only [List.map_cons, List.sum_cons, tripleTerm, List.getD_eq_getElem _ _ hI]
    · intro K L
      simp only [List.mem_cons, List.getD_eq_getElem _ _ hI]
      constructor
      · rintro (⟨h3, h4⟩ | ⟨e, he, h3, h4⟩)
        · exact ⟨(J, scalar), Or.inl rfl, h3, h4⟩
        · exact ⟨e, Or.inr he, h3, h4⟩
      · rintro ⟨e, he | he, h3, h4⟩
        · subst he; exact Or.inl ⟨h3, h4⟩
        · exact Or.inr ⟨e, he, h3, h4⟩

theorem conjugateAddRows_accumulates (U : SparseMatrix) (i : Nat) (rows : List Row)
    (o : SparseMatrixOutline) (hI : i + rows.length ≤ U.rows.length)
    (hJ : ColumnsBelow U.rows.length rows)
    (hK : ∀ row ∈ U.rows, ∀ p ∈ row, p.1 < o.columnEntries.length) :
    ∃ o1, conjugateAddRows U i rows o = .ok o1 ∧
      Accumulates o o1 (fun K L => tripleSumRows U K L i rows)
        (fun K L => ∃ t, ∃ e ∈ rows.getD t [], K ∈ (U.rows.getD (i + t) []).map Prod.fst ∧
          L ∈ (U.rows.getD e.1 []).map Prod.fst) := by
  induction rows generalizing i o with
  | nil =>
    exact ⟨o, rfl, accumulates_congr _ _ _ _ _ _ (accumulates_refl o) (by simp [tripleSumRows])
      (by simp)⟩
  | cons row rows ih =>
    simp only [List.length_cons] at hI
    obtain ⟨o1, h1, hacc1⟩ := conjugateAddEntries_accumulates U i (by omega) row o
      (hJ row (List.mem_cons_self _ _)) hK
    obtain ⟨o2, h2, hacc2⟩ := ih (i + 1) o1 (by omega)
      (fun r hr => hJ r (List.mem_cons_of_mem _ hr))
      (fun r hr p hp => by rw [hacc1.1]; exact hK r hr p hp)
    refine ⟨o2, by simp only [conjugateAddRows, h1, h2], ?_⟩
    refine accumulates_congr _ _ _ _ _ _ (accumulates_trans _ _ _ _ _ _ _ hacc1 hacc2) ?_ ?_
    · intro K L; simp only [tripleSumRows]
    · intro K L
      constructor
      · rintro (⟨e, he, h3, h4⟩ | ⟨t, e, he, h3, h4⟩)
        · exact ⟨0, e, by simpa using he, by simpa using h3, h4⟩
        · refine ⟨t + 1, e, by simpa using he, ?_, h4⟩
          have e1 : i + (t + 1) = i + 1 + t := by omega
          rw [e1]; exact h3
      · rintro ⟨t, e, he, h3, h4⟩
        cases t with
        | zero => exact Or.inl ⟨e, by simpa using he, by simpa using h3, h4⟩
        | succ t =>
          refine Or.inr ⟨t, e, by simpa using he, ?_, h4⟩
          have e1 : i + (t + 1) = i + 1 + t := by omega
          rw [← e1]; exact h3

theorem numColumnsRow_ge (row : Row) (n : Nat) : n ≤ numColumnsRow row n := by
  induction row generalizing n with
  | nil => exact le_refl _
  | cons e rest ih =>
    obtain ⟨c, a⟩ := e
    exact le_trans (le_max_right _ _) (ih _)

theorem numColumnsRow_gt (row : Row) (n : Nat) : ∀ e ∈ row, e.1 < numColumnsRow row n := by
  induction row generalizing n with
  | nil => intro e he; simp at he
  | cons e0 rest ih =>
    obtain ⟨c, a⟩ := e0
    intro e he
    rcases List.mem_cons.1 he with rfl | he
    · have := numColumnsRow_ge rest (max (c + 1) n)
      have := le_max_left (c + 1) n
      simp only [numColumnsRow]
      omega
    · exact ih _ e he

theorem foldl_numColumns_ge (rows : List Row) (n : Nat) :
    n ≤ rows.foldl (fun numColumns row => numColumnsRow row numColumns) n := by
  induction rows generalizing n with
  | nil => exact le_refl _
  | cons row rows ih => exact le_trans (numColumnsRow_ge row n) (ih _)

theorem foldl_numColumns_gt (rows : List Row) (n : Nat) :
    ∀ row ∈ rows, ∀ e ∈ row,
      e.1 < rows.foldl (fun numColumns row => numColumnsRow row numColumns) n := by
  induction rows generalizing n with
  | nil => intro row hrow; simp at hrow
  | cons row0 rows ih =>
    intro row hrow e he
    rcases List.mem_cons.1 hrow with rfl | hrow
    · exact lt_of_lt_of_le (numColumnsRow_gt row n e he) (foldl_numColumns_ge rows _)
    · exact ih _ row hrow e he

/-- Every stored column index is below `GetNumColumns()`. -/
theorem column_lt_GetNumColumns (U : SparseMatrix) :
    ∀ row ∈ U.rows, ∀ e ∈ row, e.1 < U.GetNumColumns :=
  foldl_numColumns_gt U.rows 0

theorem initRowFromOutline_fst (m : List (Nat × ℚ)) (prev : Int) :
    (initRowFromOutline m prev).1 = m := by
  induction m generalizing prev with
  | nil => rfl
  | cons e rest ih =>
    obtain ⟨c, a⟩ := e
    simp only [initRowFromOutline, ih]

theorem InitFromOutline_rows (o : SparseMatrixOutline) :
    (SparseMatrix.InitFromOutline o).1.rows = o.columnEntries := by
  simp only [SparseMatrix.InitFromOutline, initRowFromOutline_fst, List.map_id']

theorem rowEntrySum_eq_zero (row : Row) (j : Nat) (h : ∀ e ∈ row, e.1 ≠ j) :
    rowEntrySum row j = 0 := by
  induction row with
  | nil => rfl
  | cons e rest ih =>
    obtain ⟨c, a⟩ := e
    have hc : c ≠ j := h (c, a) (List.mem_cons_self _ _)
    simp only [rowEntrySum, hc, if_false, zero_add]
    exact ih (fun e he => h e (List.mem_cons_of_mem _ he))

/-- On a row with strictly increasing columns the stored value is the sum of the stored
values. -/
theorem rowEntry_eq_rowEntrySum (row : Row) (j : Nat) (h : RowSorted row) :
    rowEntry row j = rowEntrySum row j := by
  induction row with
  | nil => rfl
  | cons e rest ih =>
    obtain ⟨c, a⟩ := e
    have hs := List.pairwise_cons.1 h
    by_cases hc : c = j
    · subst hc
      have hz := rowEntrySum_eq_zero rest c (fun e he => by
        have := hs.1 e he
        simp only at this
        omega)
      simp [rowEntry, rowEntrySum, hz]
    · simp [rowEntry, rowEntrySum, hc, ih hs.2]

theorem getD_replicate_nil {α : Type} (n K : Nat) :
    (List.replicate n ([] : List α)).getD K [] = [] := by
  rw [List.getD_eq_getElem?_getD, List.getElem?_replicate]
  split_ifs <;> rfl

/-- C6 (as stated, refuted): the matrix with rows `[[], [(0,1)]]` and the one-row basis
`[[(0,1)]]` satisfy the stated conditions (strictly increasing rows of `U`, every column
index of `M` below the row count of `U`), yet the outline variant reads the length of row
`1` of `U`, which does not exist. -/
theorem ConjugateMatrix_counterexample :
    SortedRows shortBasisExample.rows ∧
      ColumnsBelow shortBasisExample.GetNumRows tallExample.rows ∧
      tallExample.ConjugateMatrix shortBasisExample = .error .outOfBounds :=
  ⟨by simp [SortedRows, RowSorted, shortBasisExample], by unfold ColumnsBelow; decide, rfl⟩

/-- C6 (amended): the outline variant computes `UᵗMU`. For `M` with at most as many rows as
`U` and every column index of `M` below the row count of `U`, `ConjugateMatrix(U)` returns a
matrix with `U.GetNumColumns()` rows and strictly increasing rows whose entry at `(K, L)`
(zero when not stored) is the sum of `a·u·w` over all stored entries `(i, J, a)` of `M`,
`(i, K, u)` and `(J, L, w)` of `U`; `(K, L)` is stored exactly when such a triple exists. -/
theorem ConjugateMatrix_computes (M U : SparseMatrix) (hrows : M.GetNumRows ≤ U.GetNumRows)
    (hcols : ColumnsBelow U.GetNumRows M.rows) :
    ∃ R, M.ConjugateMatrix U = .ok R ∧ R.GetNumRows = U.GetNumColumns ∧ SortedRows R.rows ∧
      ∀ K L, R.entry K L = M.tripleSum U K L ∧ (R.Stored K L ↔ HasTriple M U K L) := by
  obtain ⟨o, ho, hlen, hsorted, hval⟩ := conjugateAddRows_accumulates U 0 M.rows
    (SparseMatrixOutline.create U.GetNumColumns) (by simpa using hrows) hcols
    (by simpa [SparseMatrixOutline.create] using column_lt_GetNumColumns U)
  have hs : SortedRows o.columnEntries := hsorted (by
    intro row hrow
    simp only [SparseMatrixOutline.create] at hrow
    rw [List.eq_of_mem_replicate hrow]
    exact List.Pairwise.nil)
  refine ⟨(SparseMatrix.InitFromOutline o).1, by simp only [SparseMatrix.ConjugateMatrix, ho],
    ?_, ?_, fun K L => ⟨?_, ?_⟩⟩
  · simp only [SparseMatrix.GetNumRows, InitFromOutline_rows, hlen,
      SparseMatrixOutline.create, List.length_replicate]
  · rw [InitFromOutline_rows]; exact hs
  · have hsortedK : RowSorted (o.columnEntries.getD K []) := by
      rw [List.getD_eq_getElem?_getD]
      cases hK : o.columnEntries[K]? with
      | none => exact List.Pairwise.nil
      | some row => exact hs row (List.getElem?_mem hK)
    have h1 := (hval K L).1
    simp only [SparseMatrixOutline.value, SparseMatrixOutline.create, getD_replicate_nil,
      rowEntrySum, zero_add] at h1
    rw [SparseMatrix.entry, InitFromOutline_rows, rowEntry_eq_rowEntrySum _ _ hsortedK, h1]
    rfl
  · have h2 := (hval K L).2
    simp only [SparseMatrixOutline.HasKey, SparseMatrixOutline.create, getD_replicate_nil,
      List.map_nil, List.not_mem_nil, false_or, Nat.zero_add] at h2
    simp only [SparseMatrix.Stored, InitFromOutline_rows, HasTriple]
    constructor
    · rintro ⟨v, hv⟩
      obtain ⟨t, e, he, h3, h4⟩ := h2.1 (List.mem_map.2 ⟨(L, v), hv, rfl⟩)
      obtain ⟨p, hp, hpK⟩ := List.mem_map.1 h3
      obtain ⟨q, hq, hqL⟩ := List.mem_map.1 h4
      refine ⟨t, e.1, e.2, p.2, q.2, he, ?_, ?_⟩
      · rw [← hpK]; exact hp
      · rw [← hqL]; exact hq
    · rintro ⟨i, J, a, u, w, h3, h4, h5⟩
      obtain ⟨e, he, heL⟩ := List.mem_map.1 (h2.2 ⟨i, (J, a), h3,
        List.mem_map.2 ⟨(K, u), h4, rfl⟩, List.mem_map.2 ⟨(L, w), h5, rfl⟩⟩)
      refine ⟨e.2, ?_⟩
      rw [← heL]; exact he

/-- Witness for C6 (amended): the identity matrix projected on the basis `(2, 3)ᵗ`. -/
theorem ConjugateMatrix_computes_witness :
    ∃ R, identityExample.ConjugateMatrix basisExample = .ok R ∧
      R.GetNumRows = basisExample.GetNumColumns ∧ SortedRows R.rows ∧
      ∀ K L, R.entry K L = identityExample.tripleSum basisExample K L ∧
        (R.Stored K L ↔ HasTriple identityExample basisExample K L) :=
  ConjugateMatrix_computes identityExample basisExample (by decide)
    (by unfold ColumnsBelow; decide)

/-! ### Precomputed-index variant of the basis projection -/

/-- C5 (evaluation at the failing input): for the 2 × 2 identity `M` and the basis
`U = (2, 3)ᵗ`, the outline variant returns the single entry `(0,0) = 13 = 2·2 + 3·3`; with
the index table built by `BuildConjugationIndices` for that pattern, the precomputed variant
leaves `(0,0) = 10 = 2·2 + 2·3`: it reads the first factor in row `row` of `U` (the row of
`MTilde`) instead of row `rowOfM`. -/
theorem ConjugateMatrixPrecomputed_differs :
    Except.map (·.rows) (identityExample.ConjugateMatrix basisExample) = .ok [[(0, 13)]] ∧
      identityExample.BuildConjugationIndices basisExample projectedExample =
        .ok [[[((0, 0), (0, 0)), ((1, 0), (0, 0))]]] ∧
      Except.map (·.rows) (identityExample.ConjugateMatrixPrecomputed
        [[[((0, 0), (0, 0)), ((1, 0), (0, 0))]]] basisExample projectedExample) =
        .ok [[(0, 10)]] := by
  have h1 : Except.map (·.rows) (identityExample.ConjugateMatrix basisExample) =
      .ok [[(0, 1 * 2 * 2 + 1 * 3 * 3)]] := rfl
  have h2 : Except.map (·.rows) (identityExample.ConjugateMatrixPrecomputed
      [[[((0, 0), (0, 0)), ((1, 0), (0, 0))]]] basisExample projectedExample) =
      .ok [[(0, 0 + 1 * 2 * 2 + 1 * 2 * 3)]] := rfl
  refine ⟨?_, rfl, ?_⟩
  · rw [h1]; norm_num
  · rw [h2]; norm_num

/-! ### Insertion followed by removal -/

theorem inverseIndexLoop_not_mem (c j : Nat) (row : Row) (h : c ∉ row.map Prod.fst) :
    inverseIndexLoop c j row = -1 := by
  induction row generalizing j with
  | nil => rfl
  | cons e rest ih =>
    obtain ⟨c1, a⟩ := e
    simp only [List.map_cons, List.mem_cons, not_or] at h
    simp only [inverseIndexLoop, if_neg (Ne.symm h.1)]
    exact ih (j + 1) h.2

theorem notifySubMatrices_ok (count : Nat → Nat) (call : RemapperCall)
    (links : List SparseSubMatrixLinkage) (h : ∀ l ∈ links, count l.subMatrix = 0) :
    ∃ links1, notifySubMatrices count call links = .ok links1 := by
  induction links with
  | nil => exact ⟨[], rfl⟩
  | cons l rest ih =>
    obtain ⟨rest1, h1⟩ := ih (fun l hl => h l (List.mem_cons_of_mem _ hl))
    exact ⟨{ l with indexRemapper := l.indexRemapper ++ [call] } :: rest1, by
      simp only [notifySubMatrices, h l (List.mem_cons_self _ _), if_true, h1]⟩

theorem InsertNewEntry_ok (M : SparseMatrix) (count : Nat → Nat) (r c : Nat)
    (hr : r < M.GetNumRows) (hc : c ∉ (M.rows.getD r []).map Prod.fst)
    (hsuper : M.superMatrixLinkage = none)
    (hsubs : ∀ l ∈ M.subMatrixLinkages, count l.subMatrix = 0) :
    ∃ p M1 row1, M.InsertNewEntry count r c = .ok (p, M1) ∧
      M1.rows = M.rows.set r row1 ∧ M1.superMatrixLinkage = none ∧
      row1 = (M.rows.getD r []).take p ++ (c, 0) :: (M.rows.getD r []).drop p := by
  have hr' : r < M.rows.length := hr
  obtain ⟨links1, hl1⟩ := notifySubMatrices_ok count
    (.OnEntryWasInsertedIntoSuperMatrix (r : Int) (c : Int)) M.subMatrixLinkages hsubs
  rw [List.getD_eq_getElem _ _ hr'] at hc
  refine ⟨lowerBound c M.rows[r],
    { M with
      rows := M.rows.set r
        ((M.rows[r]).take (lowerBound c M.rows[r]) ++
          (c, 0) :: (M.rows[r]).drop (lowerBound c M.rows[r])),
      subMatrixLinkages := links1 },
    _, ?_, rfl, hsuper, by rw [List.getD_eq_getElem _ _ hr']⟩
  have h1 : (r : Int) < (M.GetNumRows : Int) := by exact_mod_cast hr
  have h2 : ¬ ((r : Int) < 0) := by omega
  simp only [SparseMatrix.InsertNewEntry, h1, if_true, SparseMatrix.GetInverseIndex, h2,
    if_false, Int.toNat_ofNat, List.getElem?_eq_getElem hr', inverseIndexLoop_not_mem c 0 _ hc,
    hl1, hsuper]

theorem keepIdx_map_set {α β : Type} (p : Nat → Bool) (f : α → β) (j r : Nat)
    (rows : List α) (x : α) (hr : r < rows.length)
    (h : p (j + r) = true ∨ f x = f (rows.getD r x)) :
    (keepIdx p j (rows.set r x)).map f = (keepIdx p j rows).map f := by
  induction rows generalizing j r with
  | nil => simp at hr
  | cons y ys ih =>
    cases r with
    | zero =>
      simp only [List.set_cons_zero, keepIdx, Nat.add_zero, List.getD_cons_zero] at h ⊢
      rcases h with h | h
      · simp only [h, if_true]
      · by_cases hp : p j = true
        · simp only [hp, if_true]
        · rw [if_neg hp, if_neg hp, List.map_cons, List.map_cons, h]
    | succ r =>
      have h1 := ih (j + 1) r (by simpa using hr) (by
        rcases h with h | h
        · left; rw [← h]; congr 1; omega
        · right; simpa using h)
      simp only [List.set_cons_succ, keepIdx]
      by_cases hp : p j = true
      · simp only [hp, if_true, h1]
      · rw [if_neg hp, if_neg hp, List.map_cons, List.map_cons, h1]

theorem renumberEntries_append (R : List Nat) (a b : Row) :
    renumberEntries R (a ++ b) = renumberEntries R a ++ renumberEntries R b := by
  simp only [renumberEntries, List.filterMap_append]

theorem renumberEntries_insert (R : List Nat) (row : Row) (p c : Nat) (v : ℚ) (hc : c ∈ R) :
    renumberEntries R (row.take p ++ (c, v) :: row.drop p) = renumberEntries R row := by
  rw [renumberEntries_append, renumberEntries_cons_mem R c v _ hc, ← renumberEntries_append,
    List.take_append_drop]

theorem neededNumColumns_spec (oneIndexed : Int) (R : List Nat) (n0 : Int) :
    n0 ≤ neededNumColumns oneIndexed (asRemovalList R oneIndexed) n0 ∧
      ∀ k ∈ R, (k : Int) + 1 ≤ neededNumColumns oneIndexed (asRemovalList R oneIndexed) n0 := by
  induction R generalizing n0 with
  | nil => exact ⟨le_refl _, fun k hk => by simp at hk⟩
  | cons k rest ih =>
    simp only [asRemovalList, List.map_cons, neededNumColumns] at ih ⊢
    have h := ih (if (k : Int) + oneIndexed - oneIndexed + 1 > n0 then
      (k : Int) + oneIndexed - oneIndexed + 1 else n0)
    refine ⟨?_, fun k1 hk1 => ?_⟩
    · refine le_trans ?_ h.1
      split_ifs <;> omega
    · rcases List.mem_cons.1 hk1 with rfl | hk1
      · refine le_trans ?_ h.1
        split_ifs <;> omega
      · exact h.2 k1 hk1

theorem RemoveColumns_eq (M : SparseMatrix) (R : List Nat) (oneIndexed : Int)
    (hs : R.Pairwise (· < ·)) :
    M.RemoveColumns (asRemovalList R oneIndexed) oneIndexed =
      ({ M with rows := M.rows.map (renumberEntries R) }).notifySuperAll
        (removedColumnCalls (asRemovalList R oneIndexed) oneIndexed) := by
  obtain ⟨h1, h2⟩ := neededNumColumns_spec oneIndexed R (M.GetNumColumns : Int)
  simp only [SparseMatrix.RemoveColumns]
  generalize hN : (neededNumColumns oneIndexed (asRemovalList R oneIndexed)
    (M.GetNumColumns : Int)).toNat = N
  have hge : M.GetNumColumns ≤ N := by omega
  have hR : ∀ r ∈ R, r < N := fun r hr => by have := h2 r hr; omega
  have hrows := forEachRow_spec (renumberRow ((List.range N).map (newIndex R)))
    (renumberEntries R) M.rows
    (fun row hrow => renumberRow_spec N R hs row (fun e he => by
      have := column_lt_GetNumColumns M row hrow e he
      omega))
  simp only [buildOldToNew_spec N R oneIndexed hs hR, hrows]

theorem agreeOnRows_notify (X Y : SparseMatrix) (rowsX rowsY : List Row)
    (callsX callsY : List RemapperCall) (lx ly : SparseSubMatrixLinkage)
    (hX : X.superMatrixLinkage = some lx) (hY : Y.superMatrixLinkage = some ly)
    (hrows : rowsX = rowsY) :
    AgreeOnRows (({ X with rows := rowsX }).notifySuperAll callsX)
      (({ Y with rows := rowsY }).notifySuperAll callsY) := by
  obtain ⟨A, _, hA, hAr, -⟩ := notifySuperAll_some { X with rows := rowsX } callsX lx hX
  obtain ⟨B, _, hB, hBr, -⟩ := notifySuperAll_some { Y with rows := rowsY } callsY ly hY
  exact ⟨A, B, hA, hB, by rw [hAr, hBr]; exact hrows⟩

theorem asRemovalList_single (k : Nat) (oneIndexed : Int) :
    asRemovalList [k] oneIndexed = [(k : Int) + oneIndexed] := rfl

theorem getD_set_other (rows : List Row) (r i : Nat) (x : Row) (h : i ≠ r) :
    (rows.set r x).getD i [] = rows.getD i [] := by
  rw [List.getD_eq_getElem?_getD, List.getD_eq_getElem?_getD,
    List.getElem?_set_ne (Ne.symm h)]

/-- C9 (as stated, refuted): on the example matrix attached to a super-matrix,
`InsertNewEntry(0, 2)` fails its assertion `superMatrixLinkage == nullptr`, while removing
row `0` alone returns the two other rows; on the same matrix without a linkage the insertion
returns, but every removal then dereferences the null linkage. -/
theorem InsertNewEntry_then_remove_counterexample :
    SortedRows exampleMatrix.rows ∧ 2 ∉ (exampleMatrix.rows.getD 0 []).map Prod.fst ∧
      exampleMatrix.InsertNewEntry (fun _ => 0) 0 2 = .error .assertion ∧
      Except.map (·.rows) (exampleMatrix.RemoveRows [0] 0) =
        .ok [[(0, 1), (1, 3)], [(2, 5)]] ∧
      Except.map (·.rows)
          ((exampleMatrix.InsertNewEntry (fun _ => 0) 0 2).bind
            (fun pm => pm.2.RemoveRows [0] 0)) ≠
        Except.map (·.rows) (exampleMatrix.RemoveRows [0] 0) ∧
      (unlinkedExample.InsertNewEntry (fun _ => 0) 0 2).bind
          (fun pm => pm.2.RemoveRows [0] 0) = .error .nullPointer := by
  have h1 : exampleMatrix.InsertNewEntry (fun _ => 0) 0 2 = .error .assertion := rfl
  have h2 : Except.map (·.rows) (exampleMatrix.RemoveRows [0] 0) =
      .ok [[(0, 1), (1, 3)], [(2, 5)]] := rfl
  refine ⟨by simp [SortedRows, RowSorted, exampleMatrix], by decide, h1, h2, ?_, rfl⟩
  rw [h1, h2]
  intro h
  simp [Except.bind, Except.map] at h

/-- C9 (amended): insert-then-remove cancels once the matrix is attached to a super-matrix.
For a matrix with strictly increasing rows, no super-matrix linkage and no sub-matrix with
children of its own, a row `r` below the row count and a column `c` not stored in row `r`,
`InsertNewEntry(r, c)` returns; after the result is attached to a super-matrix through any
linkage `L`, `RemoveRows` with index `r` and `RemoveColumns` with index `c` (read with
either flag) return and leave the same rows as the same removal on the attached matrix
without the insertion, and so does `RemoveRowsColumns` with index `r`, or with index `c`
when `c` is below the row count, on a matrix whose column indices are below the row
count. -/
theorem InsertNewEntry_then_remove (M : SparseMatrix) (subMatrixLinkageCount : Nat → Nat)
    (r c : Nat) (L : SparseSubMatrixLinkage) (oneIndexed : Int)
    (_hsorted : SortedRows M.rows) (hr : r < M.GetNumRows)
    (hc : c ∉ (M.rows.getD r []).map Prod.fst) (hsuper : M.superMatrixLinkage = none)
    (hsubs : ∀ l ∈ M.subMatrixLinkages, subMatrixLinkageCount l.subMatrix = 0) :
    ∃ p M1, M.InsertNewEntry subMatrixLinkageCount r c = .ok (p, M1) ∧
      AgreeOnRows ((M1.attachedTo L).RemoveRows [(r : Int) + oneIndexed] oneIndexed)
        ((M.attachedTo L).RemoveRows [(r : Int) + oneIndexed] oneIndexed) ∧
      AgreeOnRows ((M1.attachedTo L).RemoveColumns [(c : Int) + oneIndexed] oneIndexed)
        ((M.attachedTo L).RemoveColumns [(c : Int) + oneIndexed] oneIndexed) ∧
      (ColumnsBelow M.GetNumRows M.rows →
        AgreeOnRows ((M1.attachedTo L).RemoveRowsColumns [(r : Int) + oneIndexed] oneIndexed)
          ((M.attachedTo L).RemoveRowsColumns [(r : Int) + oneIndexed] oneIndexed) ∧
        (c < M.GetNumRows →
          AgreeOnRows ((M1.attachedTo L).RemoveRowsColumns [(c : Int) + oneIndexed] oneIndexed)
            ((M.attachedTo L).RemoveRowsColumns [(c : Int) + oneIndexed] oneIndexed))) := by
  obtain ⟨p, M1, row1, hins, hrows1, -, hrow1⟩ :=
    InsertNewEntry_ok M subMatrixLinkageCount r c hr hc hsuper hsubs
  have hr' : r < M.rows.length := hr
  have hlen1 : (M1.attachedTo L).rows.length = M.rows.length := by
    show M1.rows.length = _
    rw [hrows1, List.length_set]
  have hL1 : (M1.attachedTo L).superMatrixLinkage = some L := rfl
  have hL0 : (M.attachedTo L).superMatrixLinkage = some L := rfl
  have hR1 : (M1.attachedTo L).rows = M.rows.set r row1 := hrows1
  have hR0 : (M.attachedTo L).rows = M.rows := rfl
  have hgetD : M.rows.getD r row1 = M.rows.getD r [] := by
    rw [List.getD_eq_getElem _ _ hr', List.getD_eq_getElem _ _ hr']
  have hrenc : renumberEntries [c] row1 = renumberEntries [c] (M.rows.getD r row1) := by
    rw [hgetD, hrow1, renumberEntries_insert [c] _ p c 0 (List.mem_singleton_self _)]
  refine ⟨p, M1, hins, ?_, ?_, fun hcols => ⟨?_, fun hcn => ?_⟩⟩
  · rw [← asRemovalList_single, RemoveRows_eq _ [r] oneIndexed (List.pairwise_singleton _ _)
        (fun x hx => by rw [List.mem_singleton.1 hx, hlen1]; exact hr'),
      RemoveRows_eq _ [r] oneIndexed (List.pairwise_singleton _ _)
        (fun x hx => by rw [List.mem_singleton.1 hx]; exact hr')]
    refine agreeOnRows_notify _ _ _ _ _ _ L L hL1 hL0 ?_
    rw [hR1, hR0]
    have := keepIdx_map_set (fun j => decide (j ∈ [r])) (id : Row → Row) 0 r M.rows row1 hr'
      (Or.inl (by simp))
    simpa using this
  · rw [← asRemovalList_single, RemoveColumns_eq _ [c] oneIndexed (List.pairwise_singleton _ _),
      RemoveColumns_eq _ [c] oneIndexed (List.pairwise_singleton _ _)]
    refine agreeOnRows_notify _ _ _ _ _ _ L L hL1 hL0 ?_
    rw [hR1, hR0]
    have := keepIdx_map_set (fun _ => false) (renumberEntries [c]) 0 r M.rows row1 hr'
      (Or.inr hrenc)
    rwa [keepIdx_false, keepIdx_false] at this
  · rw [← asRemovalList_single, RemoveRowsColumns_eq _ [r] oneIndexed
        (List.pairwise_singleton _ _)
        (fun x hx => by rw [List.mem_singleton.1 hx, hlen1]; exact hr')
        (fun i hi e he => by
          rw [hR1, getD_set_other _ _ _ _ (by simpa using hi)] at he
          rw [hlen1]
          exact columnsBelow_getD _ _ hcols i e he),
      RemoveRowsColumns_eq (M.attachedTo L) [r] oneIndexed (List.pairwise_singleton _ _)
        (fun x hx => by rw [List.mem_singleton.1 hx]; exact hr')
        (fun i _ => columnsBelow_getD _ _ hcols i)]
    refine agreeOnRows_notify _ _ _ _ _ _ L L hL1 hL0 ?_
    rw [hR1, hR0]
    exact keepIdx_map_set (fun j => decide (j ∈ [r])) (renumberEntries [r]) 0 r M.rows row1 hr'
      (Or.inl (by simp))
  · have hrow1cols : ∀ e ∈ row1, e.1 < M.rows.length := by
      intro e he
      rw [hrow1] at he
      rcases List.mem_append.1 he with he | he
      · exact columnsBelow_getD _ _ hcols r e (List.mem_of_mem_take he)
      · rcases List.mem_cons.1 he with rfl | he
        · exact hcn
        · exact columnsBelow_getD _ _ hcols r e (List.mem_of_mem_drop he)
    rw [← asRemovalList_single, RemoveRowsColumns_eq (M1.attachedTo L) [c] oneIndexed
        (List.pairwise_singleton _ _)
        (fun x hx => by rw [List.mem_singleton.1 hx, hlen1]; exact hcn)
        (fun i _ e he => by
          rw [hlen1]
          by_cases hir : i = r
          · subst hir
            rw [hR1, List.getD_eq_getElem?_getD, List.getElem?_set_self hr'] at he
            exact hrow1cols e he
          · rw [hR1, getD_set_other _ _ _ _ hir] at he
            exact columnsBelow_getD _ _ hcols i e he),
      RemoveRowsColumns_eq (M.attachedTo L) [c] oneIndexed (List.pairwise_singleton _ _)
        (fun x hx => by rw [List.mem_singleton.1 hx]; exact hcn)
        (fun i _ => columnsBelow_getD _ _ hcols i)]
    refine agreeOnRows_notify _ _ _ _ _ _ L L hL1 hL0 ?_
    rw [hR1, hR0]
    exact keepIdx_map_set (fun j => decide (j ∈ [c])) (renumberEntries [c]) 0 r M.rows row1 hr'
      (Or.inr hrenc)

/-- Witness for C9 (amended): the unlinked example matrix, new entry `(0, 2)`. -/
theorem InsertNewEntry_then_remove_witness :
    ∃ p M1, unlinkedExample.InsertNewEntry (fun _ => 0) ((0 : Nat) : Int) 2 = .ok (p, M1) ∧
      AgreeOnRows ((M1.attachedTo exampleLinkage).RemoveRows [((0 : Nat) : Int) + 0] 0)
        ((unlinkedExample.attachedTo exampleLinkage).RemoveRows [((0 : Nat) : Int) + 0] 0) ∧
      AgreeOnRows ((M1.attachedTo exampleLinkage).RemoveColumns [((2 : Nat) : Int) + 0] 0)
        ((unlinkedExample.attachedTo exampleLinkage).RemoveColumns [((2 : Nat) : Int) + 0] 0) ∧
      (ColumnsBelow unlinkedExample.GetNumRows unlinkedExample.rows →
        AgreeOnRows
          ((M1.attachedTo exampleLinkage).RemoveRowsColumns [((0 : Nat) : Int) + 0] 0)
          ((unlinkedExample.attachedTo exampleLinkage).RemoveRowsColumns
            [((0 : Nat) : Int) + 0] 0) ∧
        (2 < unlinkedExample.GetNumRows →
          AgreeOnRows
            ((M1.attachedTo exampleLinkage).RemoveRowsColumns [((2 : Nat) : Int) + 0] 0)
            ((unlinkedExample.attachedTo exampleLinkage).RemoveRowsColumns
              [((2 : Nat) : Int) + 0] 0))) :=
  InsertNewEntry_then_remove unlinkedExample (fun _ => 0) 0 2 exampleLinkage 0
    (by simp [SortedRows, RowSorted, unlinkedExample]) (by decide) (by decide) rfl
    (by simp [unlinkedExample])

/-! ### Quadratic form: which entries are folded -/

theorem foldSum_eq_everyEntrySum (x : List ℚ) (i : Nat) (rows : List Row)
    (h : NoneBelowDiagonal i rows) : foldSum x i rows = everyEntrySum x i rows := by
  induction rows generalizing i with
  | nil => rfl
  | cons row rows ih =>
    obtain ⟨h1, h2⟩ := h
    simp only [foldSum, everyEntrySum, ih (i + 1) h2]
    congr 2
    apply List.map_congr_left
    intro e he
    have hle := h1 e he
    unfold foldWeight everyEntryWeight
    rw [if_neg (by omega)]
    by_cases hc : e.1 = i
    · rw [if_pos hc, if_pos hc, hc]
    · rw [if_neg hc, if_neg hc]

/-- C11 (as stated, refuted): the 2-row matrix whose only entry is `(1, 0) = 1`, below the
diagonal, and `x = [1, 1]`: the sum over all stored entries is `2·1·x_1·x_0 = 2`, but
`QuadraticForm` skips the entry and returns `0`. -/
theorem QuadraticForm_skips_lower_entries_counterexample :
    tallExample.QuadraticForm [1, 1] = .ok 0 ∧
      everyEntrySum [1, 1] 0 tallExample.rows = 2 ∧
      tallExample.QuadraticForm [1, 1] ≠ .ok (everyEntrySum [1, 1] 0 tallExample.rows) := by
  have h1 : tallExample.QuadraticForm [1, 1] = .ok 0 := by
    simp [tallExample, SparseMatrix.QuadraticForm, quadraticFormRows, quadraticFormRow]
  have h2 : everyEntrySum [1, 1] 0 tallExample.rows = 2 := by
    simp [tallExample, everyEntrySum, everyEntryWeight]
  refine ⟨h1, h2, ?_⟩
  rw [h1, h2]
  intro h
  have := Except.ok.inj h
  norm_num at this

/-- C11 (amended): for every matrix and every vector `x` that has an entry for each row and
each stored column, `QuadraticForm(x)` returns the sum over the stored entries `(i, c, a)`
with `c ≥ i` of `a·x_i·x_i` when `c = i` and `2·a·x_i·x_c` when `c > i` (an entry with
`c < i` has weight `0`); when no entry is stored below the diagonal this is the sum over all
stored entries. -/
theorem QuadraticForm_folds_upper_entries (M : SparseMatrix) (x : List ℚ)
    (hrows : M.GetNumRows ≤ x.length) (hcols : ColumnsBelow x.length M.rows) :
    M.QuadraticForm x = .ok (foldSum x 0 M.rows) ∧
      (∀ i c, c < i → foldWeight x i c = 0) ∧
      (∀ i c, i ≤ c → foldWeight x i c = everyEntryWeight x i c) ∧
      (NoneBelowDiagonal 0 M.rows → M.QuadraticForm x = .ok (everyEntrySum x 0 M.rows)) := by
  have h1 := quadraticFormRows_spec x 0 M.rows 0
    (by simp only [SparseMatrix.GetNumRows] at hrows; omega) hcols
  rw [zero_add] at h1
  refine ⟨h1, fun i c h => by simp [foldWeight, h], fun i c h => ?_, fun h => ?_⟩
  · unfold foldWeight everyEntryWeight
    rw [if_neg (by omega)]
    by_cases hc : c = i
    · rw [if_pos hc, if_pos hc, hc]
    · rw [if_neg hc, if_neg hc]
  · rw [← foldSum_eq_everyEntrySum x 0 M.rows h]
    exact h1

/-- Witness for C11 (amended) on the symmetric matrix `[[0,1],[1,0]]` with `x = [1,1]`. -/
theorem QuadraticForm_folds_upper_entries_witness :
    symmetricExample.QuadraticForm [1, 1] = .ok (foldSum [1, 1] 0 symmetricExample.rows) ∧
      (∀ i c, c < i → foldWeight [1, 1] i c = 0) ∧
      (∀ i c, i ≤ c → foldWeight [1, 1] i c = everyEntryWeight [1, 1] i c) ∧
      (NoneBelowDiagonal 0 symmetricExample.rows →
        symmetricExample.QuadraticForm [1, 1] =
          .ok (everyEntrySum [1, 1] 0 symmetricExample.rows)) :=
  QuadraticForm_folds_upper_entries symmetricExample [1, 1] (by decide)
    (by unfold ColumnsBelow; decide)

/-! ### Insertion: postcondition and rejected input -/

theorem notifySubMatrices_eq_state (count : Nat → Nat) (call : RemapperCall)
    (links : List SparseSubMatrixLinkage) :
    notifySubMatrices count call links =
      match notifySubMatricesState count call links with
      | (links1, none) => .ok links1
      | (_, some f) => .error f := by
  induction links with
  | nil => rfl
  | cons l rest ih =>
    by_cases h : count l.subMatrix = 0
    · simp only [notifySubMatrices, notifySubMatricesState, h, if_true, ih]
      rcases notifySubMatricesState count call rest with ⟨rest1, _ | f⟩ <;> rfl
    · simp only [notifySubMatrices, notifySubMatricesState, h, if_false]

theorem InsertNewEntry_eq_state (M : SparseMatrix) (count : Nat → Nat) (row : Int) (c : Nat) :
    M.InsertNewEntry count row c = outcomeOf (M.InsertNewEntryState count row c) := by
  unfold SparseMatrix.InsertNewEntry SparseMatrix.InsertNewEntryState
  by_cases h1 : row < (M.GetNumRows : Int)
  · simp only [h1, if_true]
    cases M.GetInverseIndex row c with
    | error f => rfl
    | ok inverseIndex =>
      simp only []
      by_cases h2 : inverseIndex = -1
      · simp only [h2, if_true]
        cases M.rows[row.toNat]? with
        | none => rfl
        | some r =>
          simp only [notifySubMatrices_eq_state]
          rcases notifySubMatricesState count
            (.OnEntryWasInsertedIntoSuperMatrix row c) M.subMatrixLinkages with ⟨l1, _ | f⟩
          · simp only []
            by_cases h3 : M.superMatrixLinkage = none
            · simp only [h3, if_true]; rfl
            · simp only [h3, if_false]; rfl
          · rfl
      · simp only [h2, if_false]; rfl
  · simp only [h1, if_false]; rfl

theorem inverseIndexLoop_nonneg_or (c j : Nat) (row : Row) :
    inverseIndexLoop c j row = -1 ∨ 0 ≤ inverseIndexLoop c j row := by
  induction row generalizing j with
  | nil => exact Or.inl rfl
  | cons e rest ih =>
    obtain ⟨c0, a⟩ := e
    simp only [inverseIndexLoop]
    split_ifs
    · exact Or.inr (Int.natCast_nonneg j)
    · exact ih (j + 1)

theorem inverseIndexLoop_mem (c j : Nat) (row : Row) (h : c ∈ row.map Prod.fst) :
    0 ≤ inverseIndexLoop c j row := by
  induction row generalizing j with
  | nil => simp at h
  | cons e rest ih =>
    obtain ⟨c0, a⟩ := e
    simp only [inverseIndexLoop]
    by_cases h0 : c0 = c
    · rw [if_pos h0]; exact Int.natCast_nonneg j
    · rw [if_neg h0]
      apply ih
      simp only [List.map_cons, List.mem_cons] at h
      rcases h with h | h
      · exact absurd h.symm h0
      · exact h

theorem rowSorted_insert (c : Nat) (row : Row) (hs : RowSorted row)
    (hc : c ∉ row.map Prod.fst) :
    RowSorted (row.take (lowerBound c row) ++ (c, 0) :: row.drop (lowerBound c row)) := by
  induction row with
  | nil => simp [lowerBound, RowSorted]
  | cons e rest ih =>
    obtain ⟨c0, a⟩ := e
    unfold RowSorted at hs ih ⊢
    rw [List.pairwise_cons] at hs
    simp only [List.map_cons, List.mem_cons, not_or] at hc
    by_cases h0 : c0 < c
    · simp only [lowerBound, h0, if_true, List.take_succ_cons, List.drop_succ_cons,
        List.cons_append]
      rw [List.pairwise_cons]
      refine ⟨?_, ih hs.2 hc.2⟩
      intro e he
      rcases List.mem_append.1 he with he | he
      · exact hs.1 e (List.mem_of_mem_take he)
      · rcases List.mem_cons.1 he with he | he
        · rw [he]; exact h0
        · exact hs.1 e (List.mem_of_mem_drop he)
    · simp only [lowerBound, h0, if_false, List.take_zero, List.drop_zero, List.nil_append]
      have hlt : c < c0 := by have := hc.1; omega
      rw [List.pairwise_cons, List.pairwise_cons]
      exact ⟨fun e he => by
        rcases List.mem_cons.1 he with he | he
        · rw [he]; exact hlt
        · exact lt_trans hlt (hs.1 e he), hs⟩

theorem lowerBound_le (c : Nat) (row : Row) : lowerBound c row ≤ row.length := by
  induction row with
  | nil => simp [lowerBound]
  | cons e rest ih =>
    obtain ⟨c0, a⟩ := e
    simp only [lowerBound, List.length_cons]
    split_ifs <;> omega

/-- C13: postcondition of `InsertNewEntry`. On a matrix without linkages, for a row `r` below
the row count whose column indices are strictly increasing and a column `c` the row does not
store, the call returns a position `p`; afterwards row `r` is one entry longer, holds
`(c, 0)` at position `p`, is strictly increasing, and is the old row once position `p` is
taken out again (every previous pair, in the same order); the row count and every other row
are as before. -/
theorem InsertNewEntry_postcondition (M : SparseMatrix) (count : Nat → Nat) (r c : Nat)
    (hsubs : M.subMatrixLinkages = []) (hsuper : M.superMatrixLinkage = none)
    (hr : r < M.GetNumRows) (hsorted : RowSorted (M.rows.getD r []))
    (hc : c ∉ (M.rows.getD r []).map Prod.fst) :
    ∃ p M1, M.InsertNewEntry count r c = .ok (p, M1) ∧
      (M1.rows.getD r []).length = (M.rows.getD r []).length + 1 ∧
      (M1.rows.getD r [])[p]? = some (c, 0) ∧
      RowSorted (M1.rows.getD r []) ∧
      (M1.rows.getD r []).eraseIdx p = M.rows.getD r [] ∧
      M1.GetNumRows = M.GetNumRows ∧
      ∀ i, i ≠ r → M1.rows[i]? = M.rows[i]? := by
  have hr' : r < M.rows.length := hr
  have h1 : (r : Int) < (M.GetNumRows : Int) := by exact_mod_cast hr
  have h2 : ¬ ((r : Int) < 0) := by omega
  rw [List.getD_eq_getElem _ _ hr'] at hc hsorted ⊢
  have hp := lowerBound_le c M.rows[r]
  refine ⟨lowerBound c M.rows[r],
    { M with
      rows := M.rows.set r
        ((M.rows[r]).take (lowerBound c M.rows[r]) ++
          (c, 0) :: (M.rows[r]).drop (lowerBound c M.rows[r])) }, ?_, ?_⟩
  · simp only [SparseMatrix.InsertNewEntry, h1, if_true, SparseMatrix.GetInverseIndex, h2,
      if_false, Int.toNat_ofNat, List.getElem?_eq_getElem hr',
      inverseIndexLoop_not_mem c 0 _ hc, hsubs, notifySubMatrices, hsuper]
  · have hget : (M.rows.set r
        ((M.rows[r]).take (lowerBound c M.rows[r]) ++
          (c, 0) :: (M.rows[r]).drop (lowerBound c M.rows[r]))).getD r [] =
        (M.rows[r]).take (lowerBound c M.rows[r]) ++
          (c, 0) :: (M.rows[r]).drop (lowerBound c M.rows[r]) := by
      rw [List.getD_eq_getElem _ _ (by simpa using hr')]
      simp
    simp only [hget]
    refine ⟨?_, ?_, rowSorted_insert c _ hsorted hc, ?_, ?_, ?_⟩
    · simp only [List.length_append, List.length_cons, List.length_take, List.length_drop]
      omega
    · rw [List.getElem?_append_right (by simp only [List.length_take]; omega)]
      simp only [List.length_take, min_eq_left hp, Nat.sub_self, List.getElem?_cons_zero]
    · have hlen : ((M.rows[r]).take (lowerBound c M.rows[r])).length =
          lowerBound c M.rows[r] := by
        simp only [List.length_take]; omega
      rw [List.eraseIdx_append_of_length_le (by omega), hlen, Nat.sub_self]
      simp only [List.eraseIdx_cons_zero, List.take_append_drop]
    · simp [SparseMatrix.GetNumRows]
    · intro i hi
      simp only [List.getElem?_set]
      rw [if_neg (fun h => hi h.symm)]

/-- Witness for C13: column `1` inserted into row `1` of the matrix with the rows
`[(0,2)]` and `[(0,1), (2,3)]`. -/
theorem InsertNewEntry_postcondition_witness :
    ∃ p M1, insertionExample.InsertNewEntry (fun _ => 0) ((1 : Nat) : Int) 1 = .ok (p, M1) ∧
      (M1.rows.getD 1 []).length = (insertionExample.rows.getD 1 []).length + 1 ∧
      (M1.rows.getD 1 [])[p]? = some (1, 0) ∧
      RowSorted (M1.rows.getD 1 []) ∧
      (M1.rows.getD 1 []).eraseIdx p = insertionExample.rows.getD 1 [] ∧
      M1.GetNumRows = insertionExample.GetNumRows ∧
      ∀ i, i ≠ 1 → M1.rows[i]? = insertionExample.rows[i]? :=
  InsertNewEntry_postcondition insertionExample (fun _ => 0) 1 1 rfl rfl (by decide)
    (by simp [RowSorted, insertionExample]) (by decide)

/-- C14: `InsertNewEntry` rejects bad input. If row `r` (in range) already stores column `c`,
or `r` is at or beyond the row count, or `r` is negative, the call does not return a result,
and the matrix it leaves behind is the matrix as it was: the first two cases stop at an
assert, a negative `r` at the out-of-range row access; all three stop before the `insert`. -/
theorem InsertNewEntry_rejects (M : SparseMatrix) (count : Nat → Nat) (r : Int) (c : Nat)
    (hbad : (0 ≤ r ∧ c ∈ (M.rows.getD r.toNat []).map Prod.fst) ∨
      (M.GetNumRows : Int) ≤ r ∨ r < 0) :
    (∃ f, M.InsertNewEntry count r c = .error f) ∧
      (∃ f, M.InsertNewEntryState count r c = (M, .error f)) ∧
      (0 ≤ r → M.InsertNewEntryState count r c = (M, .error .assertion)) ∧
      (r < 0 → M.InsertNewEntryState count r c = (M, .error .outOfBounds)) := by
  have key : (0 ≤ r → M.InsertNewEntryState count r c = (M, .error .assertion)) ∧
      (r < 0 → M.InsertNewEntryState count r c = (M, .error .outOfBounds)) := by
    constructor
    · intro h0
      by_cases h1 : r < (M.GetNumRows : Int)
      · have hmem : c ∈ (M.rows.getD r.toNat []).map Prod.fst := by
          rcases hbad with h | h | h
          · exact h.2
          · omega
          · omega
        have hlt : r.toNat < M.rows.length := by
          have : (r.toNat : Int) = r := Int.toNat_of_nonneg h0
          simp only [SparseMatrix.GetNumRows] at h1
          omega
        rw [List.getD_eq_getElem _ _ hlt] at hmem
        have hpos := inverseIndexLoop_mem c 0 _ hmem
        have hne : ¬ (inverseIndexLoop c 0 M.rows[r.toNat] = -1) := by omega
        simp only [SparseMatrix.InsertNewEntryState, h1, if_true, SparseMatrix.GetInverseIndex,
          not_lt.2 h0, if_false, List.getElem?_eq_getElem hlt, hne]
      · simp only [SparseMatrix.InsertNewEntryState, h1, if_false]
    · intro hneg
      have h1 : r < (M.GetNumRows : Int) := by
        have : (0 : Int) ≤ (M.GetNumRows : Int) := Int.natCast_nonneg _
        omega
      simp only [SparseMatrix.InsertNewEntryState, h1, if_true, SparseMatrix.GetInverseIndex,
        hneg]
  have hstate : ∃ f, M.InsertNewEntryState count r c = (M, .error f) := by
    by_cases h0 : 0 ≤ r
    · exact ⟨_, key.1 h0⟩
    · exact ⟨_, key.2 (by omega)⟩
  refine ⟨?_, hstate, key.1, key.2⟩
  obtain ⟨f, hf⟩ := hstate
  exact ⟨f, by rw [InsertNewEntry_eq_state, hf]; rfl⟩

/-- Witness for C14: column `2` is already stored in row `1` of the example. -/
theorem InsertNewEntry_rejects_witness :
    (∃ f, insertionExample.InsertNewEntry (fun _ => 0) 1 2 = .error f) ∧
      (∃ f, insertionExample.InsertNewEntryState (fun _ => 0) 1 2 =
        (insertionExample, .error f)) ∧
      ((0 : Int) ≤ 1 → insertionExample.InsertNewEntryState (fun _ => 0) 1 2 =
        (insertionExample, .error .assertion)) ∧
      ((1 : Int) < 0 → insertionExample.InsertNewEntryState (fun _ => 0) 1 2 =
        (insertionExample, .error .outOfBounds)) :=
  InsertNewEntry_rejects insertionExample (fun _ => 0) 1 2 (Or.inl (by decide))

/-! ### Linkage graph -/

theorem existingLinkageLoop_none (T : Nat) (links : List SparseSubMatrixLinkage) :
    existingLinkageLoop T links = none ↔ ∀ l ∈ links, l.subMatrix ≠ T := by
  induction links with
  | nil => simp [existingLinkageLoop]
  | cons l rest ih =>
    simp only [existingLinkageLoop, List.mem_cons, forall_eq_or_imp]
    by_cases h : l.subMatrix = T
    · simp [h]
    · simp [h, ih]

theorem existingLinkageLoop_some (T : Nat) (links : List SparseSubMatrixLinkage)
    (link : SparseSubMatrixLinkage) (h : existingLinkageLoop T links = some link) :
    link.subMatrix = T ∧ ∃ p, links[p]? = some link ∧ links.erase link = links.eraseIdx p ∧
      ∀ q, q < p → ∀ l, links[q]? = some l → l.subMatrix ≠ T := by
  induction links with
  | nil => simp [existingLinkageLoop] at h
  | cons l rest ih =>
    simp only [existingLinkageLoop] at h
    by_cases hl : l.subMatrix = T
    · rw [if_pos hl] at h
      have e : l = link := Option.some.inj h
      subst e
      exact ⟨hl, 0, by simp, by simp, fun q hq => absurd hq (Nat.not_lt_zero q)⟩
    · rw [if_neg hl] at h
      obtain ⟨h1, p, h2, h3, h4⟩ := ih h
      have hne : l ≠ link := fun e => hl (e ▸ h1)
      refine ⟨h1, p + 1, by simpa using h2, ?_, ?_⟩
      · rw [List.erase_cons_tail (by simpa using hne), List.eraseIdx_cons_succ, h3]
      · intro q hq l0 hl0
        cases q with
        | zero =>
          simp only [List.getElem?_cons_zero, Option.some.injEq] at hl0
          rw [← hl0]; exact hl
        | succ q =>
          simp only [List.getElem?_cons_succ] at hl0
          exact h4 q (by omega) l0 hl0

theorem existingLinkageLoop_append (T : Nat) (links : List SparseSubMatrixLinkage)
    (link : SparseSubMatrixLinkage) (h : ∀ l ∈ links, l.subMatrix ≠ T)
    (hlink : link.subMatrix = T) :
    existingLinkageLoop T (links ++ [link]) = some link := by
  induction links with
  | nil => simp [existingLinkageLoop, hlink]
  | cons l rest ih =>
    simp only [List.cons_append, existingLinkageLoop]
    rw [if_neg (h l (List.mem_cons_self _ _))]
    exact ih (fun l0 hl0 => h l0 (List.mem_cons_of_mem _ hl0))

theorem AttachSubMatrix_spec (S : SparseMatrix) (self T : Nat) (offset : Int) :
    ((∃ l ∈ S.subMatrixLinkages, l.subMatrix = T) →
        S.AttachSubMatrix self T offset = (S, .error .assertion)) ∧
      ((∀ l ∈ S.subMatrixLinkages, l.subMatrix ≠ T) →
        ∃ link S1, S.AttachSubMatrix self T offset = (S1, .ok link) ∧
          link.superMatrix = self ∧ link.subMatrix = T ∧
          link.denseRowColumnOffset = offset ∧
          S1.subMatrixLinkages = S.subMatrixLinkages ++ [link] ∧
          S1.GetExistingSubMatrixLinkage T = some link ∧
          S1 = { S with subMatrixLinkages := S.subMatrixLinkages ++ [link] }) := by
  constructor
  · intro h
    cases hex : S.GetExistingSubMatrixLinkage T with
    | none =>
      obtain ⟨l, hl, hT⟩ := h
      exact absurd hT ((existingLinkageLoop_none T _).1 hex l hl)
    | some link => simp only [SparseMatrix.AttachSubMatrix, hex]
  · intro h
    have hex : S.GetExistingSubMatrixLinkage T = none := (existingLinkageLoop_none T _).2 h
    refine ⟨SparseSubMatrixLinkage.create self T offset, _, ?_, rfl, rfl, rfl, rfl, ?_, rfl⟩
    · simp only [SparseMatrix.AttachSubMatrix, hex]
    · exact existingLinkageLoop_append T _ _ h rfl

/-- C17: contract of `AttachSubMatrix`. If the child-linkage list of `S` already holds a
linkage whose sub-matrix is `T`, the call stops at the assert and leaves `S` as it was.
Otherwise it returns a linkage with super `S` (handle `self`), sub `T` and the given offset;
the child list of `S` is the old list followed by that one linkage,
`GetExistingSubMatrixLinkage(T)` then returns it, and nothing else of `S` changes. -/
theorem AttachSubMatrix_contract (S : SparseMatrix) (self T : Nat) (offset : Int) :
    ((∃ l ∈ S.subMatrixLinkages, l.subMatrix = T) →
        S.AttachSubMatrix self T offset = (S, .error .assertion)) ∧
      ((∀ l ∈ S.subMatrixLinkages, l.subMatrix ≠ T) →
        ∃ link S1, S.AttachSubMatrix self T offset = (S1, .ok link) ∧
          link.superMatrix = self ∧ link.subMatrix = T ∧
          link.denseRowColumnOffset = offset ∧
          S1.subMatrixLinkages = S.subMatrixLinkages ++ [link] ∧
          S1.GetExistingSubMatrixLinkage T = some link ∧
          S1 = { S with subMatrixLinkages := S.subMatrixLinkages ++ [link] }) :=
  AttachSubMatrix_spec S self T offset

/-- Witness for C17: `superExample` already records a linkage to the matrix with handle `1`,
and none to the matrix with handle `2`. -/
theorem AttachSubMatrix_contract_witness :
    superExample.AttachSubMatrix 0 1 0 = (superExample, .error .assertion) ∧
      ∃ link S1, superExample.AttachSubMatrix 0 2 5 = (S1, .ok link) ∧
        link.superMatrix = 0 ∧ link.subMatrix = 2 ∧ link.denseRowColumnOffset = 5 ∧
        S1.subMatrixLinkages = superExample.subMatrixLinkages ++ [link] ∧
        S1.GetExistingSubMatrixLinkage 2 = some link ∧
        S1 = { superExample with
          subMatrixLinkages := superExample.subMatrixLinkages ++ [link] } :=
  ⟨(AttachSubMatrix_contract superExample 0 1 0).1 ⟨exampleLinkage, by decide, rfl⟩,
    (AttachSubMatrix_contract superExample 0 2 5).2 (by decide)⟩

/-- C18: contract of `DetachSubMatrix` and the round trip. Without a linkage to `T` the call
stops at the assert and leaves `S` as it was. With one, it returns, and the child list is
the old list without the first linkage whose sub-matrix is `T` (position `p`), the others in
order. After an `AttachSubMatrix(T, offset)` that returned, `DetachSubMatrix(T)` returns and
leaves `S` with the child list it had before the attach, and
`GetExistingSubMatrixLinkage(T)` is then null. -/
theorem DetachSubMatrix_contract (S : SparseMatrix) (self T : Nat) (offset : Int) :
    ((∀ l ∈ S.subMatrixLinkages, l.subMatrix ≠ T) →
        S.DetachSubMatrix T = (S, .error .assertion)) ∧
      ((∃ l ∈ S.subMatrixLinkages, l.subMatrix = T) →
        ∃ p link, S.subMatrixLinkages[p]? = some link ∧ link.subMatrix = T ∧
          (∀ q, q < p → ∀ l, S.subMatrixLinkages[q]? = some l → l.subMatrix ≠ T) ∧
          S.DetachSubMatrix T =
            ({ S with subMatrixLinkages := S.subMatrixLinkages.eraseIdx p }, .ok ())) ∧
      (∀ S1 link, S.AttachSubMatrix self T offset = (S1, .ok link) →
        S1.DetachSubMatrix T = (S, .ok ()) ∧ S.GetExistingSubMatrixLinkage T = none) := by
  refine ⟨fun h => ?_, fun h => ?_, fun S1 link h => ?_⟩
  · have hex : S.GetExistingSubMatrixLinkage T = none := (existingLinkageLoop_none T _).2 h
    simp only [SparseMatrix.DetachSubMatrix, hex]
  · cases hex : S.GetExistingSubMatrixLinkage T with
    | none =>
      obtain ⟨l, hl, hT⟩ := h
      exact absurd hT ((existingLinkageLoop_none T _).1 hex l hl)
    | some link =>
      obtain ⟨h1, p, h2, h3, h4⟩ := existingLinkageLoop_some T _ link hex
      exact ⟨p, link, h2, h1, h4, by simp only [SparseMatrix.DetachSubMatrix, hex, h3]⟩
  · cases hex : S.GetExistingSubMatrixLinkage T with
    | some l0 => simp [SparseMatrix.AttachSubMatrix, hex] at h
    | none =>
      have hall := (existingLinkageLoop_none T _).1 hex
      simp only [SparseMatrix.AttachSubMatrix, hex, Prod.mk.injEq, Except.ok.injEq] at h
      obtain ⟨hS1, hlink⟩ := h
      subst hlink
      subst hS1
      have hnot : SparseSubMatrixLinkage.create self T offset ∉ S.subMatrixLinkages :=
        fun hmem => hall _ hmem rfl
      have hex1 : ({ S with subMatrixLinkages := S.subMatrixLinkages ++
          [SparseSubMatrixLinkage.create self T offset] } :
            SparseMatrix).GetExistingSubMatrixLinkage T =
          some (SparseSubMatrixLinkage.create self T offset) :=
        existingLinkageLoop_append T _ _ hall rfl
      refine ⟨?_, rfl⟩
      simp only [SparseMatrix.DetachSubMatrix, hex1]
      rw [List.erase_append_right _ hnot]
      simp

/-- Witness for C18 on `superExample`: detaching the matrix with handle `2` stops at the
assert, detaching the one with handle `1` empties the child list, and attaching the matrix
with handle `2` and detaching it again restores `superExample`. -/
theorem DetachSubMatrix_contract_witness :
    superExample.DetachSubMatrix 2 = (superExample, .error .assertion) ∧
      (∃ p link, superExample.subMatrixLinkages[p]? = some link ∧ link.subMatrix = 1 ∧
        (∀ q, q < p → ∀ l, superExample.subMatrixLinkages[q]? = some l → l.subMatrix ≠ 1) ∧
        superExample.DetachSubMatrix 1 =
          ({ superExample with
            subMatrixLinkages := superExample.subMatrixLinkages.eraseIdx p }, .ok ())) ∧
      ((superExample.AttachSubMatrix 0 2 5).1.DetachSubMatrix 2 = (superExample, .ok ()) ∧
        superExample.GetExistingSubMatrixLinkage 2 = none) :=
  ⟨(DetachSubMatrix_contract superExample 0 2 0).1 (by decide),
    (DetachSubMatrix_contract superExample 0 1 0).2.1 ⟨exampleLinkage, by decide, rfl⟩,
    (DetachSubMatrix_contract superExample 0 2 5).2.2 _ _ rfl⟩

theorem setSuperMatrixLinkage_getElem? (matrices : List SparseMatrix) (self : Nat)
    (link : SparseSubMatrixLinkage) (m : SparseMatrix) (h : matrices[self]? = some m) :
    (setSuperMatrixLinkage matrices self link)[self]? =
        some { m with superMatrixLinkage := some link } ∧
      ∀ i, i ≠ self → (setSuperMatrixLinkage matrices self link)[i]? = matrices[i]? := by
  have hlt : self < matrices.length := by
    by_contra hn
    rw [List.getElem?_eq_none (by omega)] at h
    exact Option.noConfusion h
  simp only [setSuperMatrixLinkage, h]
  refine ⟨by simp [hlt], fun i hi => ?_⟩
  rw [List.getElem?_set, if_neg (fun e => hi e.symm)]

theorem set_getElem?_self {α : Type} (l : List α) (i : Nat) (x : α) (h : l[i]? = some x) :
    l.set i x = l := by
  apply List.ext_getElem?
  intro j
  rw [List.getElem?_set]
  split_ifs with h1 h2
  · rw [← h1, h]
  · rw [← h1, List.getElem?_eq_none (by omega)]
  · rfl

/-- C19: contract of `AttachSuperMatrix`, for the matrix `T` (handle `t`) and the
super-matrix `S` (handle `s`). If `T` already has a parent linkage the call stops at the
assert and nothing changes. Otherwise its outcome is that of `S.AttachSubMatrix` with `T` as
the sub: when `S` already records a linkage to `T` that call stops at its own assert and
nothing changes; else the linkage it returns is returned, is stored as the parent linkage
of `T`, and is the linkage that `S` records for `T`, after the ones it had; every other
matrix is as before. -/
theorem AttachSuperMatrix_contract (matrices : List SparseMatrix) (t s : Nat)
    (T S : SparseMatrix) (offset : Int) (hT : matrices[t]? = some T)
    (hS : matrices[s]? = some S) :
    (T.superMatrixLinkage ≠ none →
        AttachSuperMatrix matrices t s offset = (matrices, .error .assertion)) ∧
      (T.superMatrixLinkage = none →
        (AttachSuperMatrix matrices t s offset).2 = (S.AttachSubMatrix s t offset).2 ∧
        ((∃ l ∈ S.subMatrixLinkages, l.subMatrix = t) →
          AttachSuperMatrix matrices t s offset = (matrices, .error .assertion)) ∧
        ((∀ l ∈ S.subMatrixLinkages, l.subMatrix ≠ t) →
          ∃ link matrices1 T1 S1,
            AttachSuperMatrix matrices t s offset = (matrices1, .ok link) ∧
            S.AttachSubMatrix s t offset =
              ({ S with subMatrixLinkages := S.subMatrixLinkages ++ [link] }, .ok link) ∧
            matrices1[t]? = some T1 ∧ T1.superMatrixLinkage = some link ∧
            T1.rows = T.rows ∧
            matrices1[s]? = some S1 ∧ S1.GetExistingSubMatrixLinkage t = some link ∧
            S1.subMatrixLinkages = S.subMatrixLinkages ++ [link] ∧ S1.rows = S.rows ∧
            ∀ i, i ≠ t → i ≠ s → matrices1[i]? = matrices[i]?)) := by
  have hslt : s < matrices.length := by
    by_contra hn
    rw [List.getElem?_eq_none (by omega)] at hS
    exact Option.noConfusion hS
  have hsget : matrices[s] = S := by
    rw [List.getElem?_eq_getElem hslt] at hS
    exact Option.some.inj hS
  refine ⟨fun h => ?_, fun h => ⟨?_, fun hex => ?_, fun hall => ?_⟩⟩
  · simp only [AttachSuperMatrix, hT, h, if_false]
  · simp only [AttachSuperMatrix, hT, h, if_true, hS]
    rcases S.AttachSubMatrix s t offset with ⟨s1, l | l⟩ <;> rfl
  · have h1 := (AttachSubMatrix_spec S s t offset).1 hex
    simp only [AttachSuperMatrix, hT, h, if_true, hS, h1]
    rw [set_getElem?_self matrices s S hS]
  · obtain ⟨link, S1, h1, -, -, -, h5, h6, h7⟩ := (AttachSubMatrix_spec S s t offset).2 hall
    have hset : (matrices.set s S1)[s]? = some S1 := by simp [hslt]
    by_cases hts : t = s
    · subst hts
      have hTS : T = S := Option.some.inj (hT.symm.trans hS)
      subst hTS
      obtain ⟨g1, g2⟩ := setSuperMatrixLinkage_getElem? (matrices.set t S1) t link S1 hset
      refine ⟨link, _, _, _, by simp only [AttachSuperMatrix, hT, h, if_true, hS, h1],
        by rw [h1, h7], g1, rfl, by rw [h7], g1, h6, h5, by rw [h7], ?_⟩
      intro i hi _
      rw [g2 i hi, List.getElem?_set, if_neg (fun e => hi e.symm)]
    · have hset2 : (matrices.set s S1)[t]? = some T := by
        rw [List.getElem?_set, if_neg (fun e => hts e.symm)]; exact hT
      obtain ⟨g1, g2⟩ := setSuperMatrixLinkage_getElem? (matrices.set s S1) t link T hset2
      refine ⟨link, _, _, _, by simp only [AttachSuperMatrix, hT, h, if_true, hS, h1],
        by rw [h1, h7], g1, rfl, rfl, (g2 s (fun e => hts e.symm)).trans hset, h6, h5,
        by rw [h7], ?_⟩
      intro i hi his
      rw [g2 i hi, List.getElem?_set, if_neg (fun e => his e.symm)]

/-- Witness for C19 on the two matrices of `linkedPair` with their linkages taken off. -/
theorem AttachSuperMatrix_contract_witness :
    ∃ link matrices1 T1 S1,
      AttachSuperMatrix unlinkedPair 1 0 0 = (matrices1, .ok link) ∧
      identityExample.AttachSubMatrix 0 1 0 =
        ({ identityExample with
          subMatrixLinkages := identityExample.subMatrixLinkages ++ [link] }, .ok link) ∧
      matrices1[1]? = some T1 ∧ T1.superMatrixLinkage = some link ∧
      T1.rows = shortBasisExample.rows ∧
      matrices1[0]? = some S1 ∧ S1.GetExistingSubMatrixLinkage 1 = some link ∧
      S1.subMatrixLinkages = identityExample.subMatrixLinkages ++ [link] ∧
      S1.rows = identityExample.rows ∧
      ∀ i, i ≠ 1 → i ≠ 0 → matrices1[i]? = unlinkedPair[i]? :=
  ((AttachSuperMatrix_contract unlinkedPair 1 0 shortBasisExample identityExample 0 rfl
    rfl).2 rfl).2.2 (by decide)

/-- C20: operations on a missing linkage fail without touching a value, `M` being the matrix
with handle `self`. `AddFromSubMatrix(factor, sub)` stops at its assert when `M` records no
linkage to `sub`; `AddFromSubMatrix(factor, link)` when the super-matrix of `link` is not
this matrix; `AssignFromSuperMatrix(super)` when `M` has no parent linkage or the
super-matrix of its parent linkage is not `super`. In each case every matrix alive is left
as it was. In the other cases the call goes on to the linkage. -/
theorem missing_linkage_operations_fail
    (add : SparseSubMatrixLinkage → ℚ → List SparseMatrix → List SparseMatrix × Except Fault Unit)
    (assign : SparseSubMatrixLinkage → List SparseMatrix → List SparseMatrix × Except Fault Unit)
    (matrices : List SparseMatrix) (self : Nat) (M : SparseMatrix) (factor : ℚ)
    (hM : matrices[self]? = some M) :
    (∀ sub, (∀ l ∈ M.subMatrixLinkages, l.subMatrix ≠ sub) →
        AddFromSubMatrix add matrices self factor sub = (matrices, .error .assertion)) ∧
      (∀ link, link.superMatrix ≠ self →
        AddFromSubMatrixLinkage add matrices self factor link =
          (matrices, .error .assertion)) ∧
      (∀ super, (M.superMatrixLinkage = none ∨
          ∃ l, M.superMatrixLinkage = some l ∧ l.superMatrix ≠ super) →
        AssignFromSuperMatrix assign matrices self super = (matrices, .error .assertion)) ∧
      (∀ sub link, M.GetExistingSubMatrixLinkage sub = some link → link.superMatrix = self →
        AddFromSubMatrix add matrices self factor sub = add link factor matrices) ∧
      (∀ link, link.superMatrix = self →
        AddFromSubMatrixLinkage add matrices self factor link = add link factor matrices) ∧
      (∀ super link, M.superMatrixLinkage = some link → link.superMatrix = super →
        AssignFromSuperMatrix assign matrices self super = assign link matrices) := by
  refine ⟨fun sub h => ?_, fun link h => ?_, fun super h => ?_, fun sub link h1 h2 => ?_,
    fun link h => ?_, fun super link h1 h2 => ?_⟩
  · have hex : M.GetExistingSubMatrixLinkage sub = none :=
      (existingLinkageLoop_none sub _).2 h
    simp only [AddFromSubMatrix, hM, hex]
  · simp only [AddFromSubMatrixLinkage, h, if_false]
  · rcases h with h | ⟨l, h1, h2⟩
    · simp only [AssignFromSuperMatrix, hM, h]
    · simp only [AssignFromSuperMatrix, hM, h1, h2, if_false]
  · simp only [AddFromSubMatrix, hM, h1, AddFromSubMatrixLinkage, h2, if_true]
  · simp only [AddFromSubMatrixLinkage, h, if_true]
  · simp only [AssignFromSuperMatrix, hM, h1, h2, if_true]

/-- Witness for C20 on `linkedPair`: the super-matrix (handle `0`) records no linkage to the
matrix with handle `2`, `exampleLinkage` has super `0` and not `1`, and the parent linkage of
the sub-matrix (handle `1`) has super `0` and not `2`. -/
theorem missing_linkage_operations_fail_witness :
    AddFromSubMatrix (fun _ _ ms => (ms, .ok ())) linkedPair 0 2 2 =
        (linkedPair, .error .assertion) ∧
      AddFromSubMatrixLinkage (fun _ _ ms => (ms, .ok ())) linkedPair 1 2 exampleLinkage =
        (linkedPair, .error .assertion) ∧
      AssignFromSuperMatrix (fun _ ms => (ms, .ok ())) linkedPair 1 2 =
        (linkedPair, .error .assertion) :=
  ⟨(missing_linkage_operations_fail (fun _ _ ms => (ms, .ok ())) (fun _ ms => (ms, .ok ()))
      linkedPair 0 superExample 2 rfl).1 2 (by decide),
    (missing_linkage_operations_fail (fun _ _ ms => (ms, .ok ())) (fun _ ms => (ms, .ok ()))
      linkedPair 1 _ 2 rfl).2.1 exampleLinkage (by decide),
    (missing_linkage_operations_fail (fun _ _ ms => (ms, .ok ())) (fun _ ms => (ms, .ok ()))
      linkedPair 1 _ 2 rfl).2.2.1 2 (Or.inr ⟨exampleLinkage, rfl, by decide⟩)⟩

/-! ### Transposition indices -/

theorem getD_set_ne_int (buffer : List Int) (c c1 : Nat) (v : Int) (h : c1 ≠ c) :
    (buffer.set c v).getD c1 0 = buffer.getD c1 0 := by
  rw [List.getD_eq_getElem?_getD, List.getD_eq_getElem?_getD, List.getElem?_set,
    if_neg (fun e => h e.symm)]

theorem getD_set_eq_int (buffer : List Int) (c : Nat) (v : Int) (h : c < buffer.length) :
    (buffer.set c v).getD c 0 = v := by
  rw [List.getD_eq_getElem?_getD, List.getElem?_set, if_pos rfl, if_pos h]
  rfl

theorem transposeRow_spec (row : Row) (buffer : List Int) (hs : RowSorted row)
    (hc : ∀ e ∈ row, e.1 < buffer.length) :
    ∃ buffer1, transposeRow row buffer =
        .ok (row.map (fun e => buffer.getD e.1 0), buffer1) ∧
      buffer1.length = buffer.length ∧
      ∀ c, buffer1.getD c 0 =
        buffer.getD c 0 + (row.countP (fun e => decide (e.1 = c)) : Nat) := by
  induction row generalizing buffer with
  | nil => exact ⟨buffer, rfl, rfl, fun c => by simp⟩
  | cons e rest ih =>
    obtain ⟨c0, a⟩ := e
    unfold RowSorted at hs
    rw [List.pairwise_cons] at hs
    have hc0 : c0 < buffer.length := hc (c0, a) (List.mem_cons_self _ _)
    obtain ⟨buffer1, h1, h2, h3⟩ := ih (buffer.set c0 (buffer[c0] + 1)) hs.2
      (fun e he => by
        rw [List.length_set]; exact hc e (List.mem_cons_of_mem _ he))
    refine ⟨buffer1, ?_, by rw [h2, List.length_set], fun c => ?_⟩
    · simp only [transposeRow, List.getElem?_eq_getElem hc0, h1, List.map_cons]
      have e1 : buffer.getD c0 0 = buffer[c0] := List.getD_eq_getElem _ _ hc0
      have e2 : rest.map (fun e => (buffer.set c0 (buffer[c0] + 1)).getD e.1 0) =
          rest.map (fun e => buffer.getD e.1 0) := by
        apply List.map_congr_left
        intro e he
        have : c0 < e.1 := hs.1 e he
        exact getD_set_ne_int _ _ _ _ (by omega)
      rw [e1, e2]
    · rw [h3 c, List.countP_cons]
      by_cases hcc : c0 = c
      · subst hcc
        rw [getD_set_eq_int _ _ _ hc0, List.getD_eq_getElem _ _ hc0]
        simp only [decide_True, if_true]
        push_cast
        ring
      · rw [getD_set_ne_int _ _ _ _ (fun e => hcc e.symm)]
        simp [hcc]

theorem countBefore_cons (row : Row) (rows : List Row) (c : Nat) :
    countBefore (row :: rows) c =
      row.countP (fun e => decide (e.1 = c)) + countBefore rows c := by
  simp [countBefore]

theorem transposeRows_spec (rows : List Row) (buffer : List Int) (hs : SortedRows rows)
    (hc : ColumnsBelow buffer.length rows) :
    ∃ t, transposeRows rows buffer = .ok t ∧ t.length = rows.length ∧
      ∀ (i : Nat) (row : Row), rows[i]? = some row →
        t[i]? = some (row.map (fun e => buffer.getD e.1 0 +
          ((countBefore (rows.take i) e.1 : Nat) : Int))) := by
  induction rows generalizing buffer with
  | nil => exact ⟨[], rfl, rfl, fun i row h => by simp at h⟩
  | cons r rest ih =>
    obtain ⟨buffer1, h1, h2, h3⟩ := transposeRow_spec r buffer
      (hs r (List.mem_cons_self _ _)) (hc r (List.mem_cons_self _ _))
    obtain ⟨t, g1, g2, g3⟩ := ih buffer1
      (fun row hrow => hs row (List.mem_cons_of_mem _ hrow))
      (fun row hrow => h2 ▸ hc row (List.mem_cons_of_mem _ hrow))
    refine ⟨r.map (fun e => buffer.getD e.1 0) :: t, by simp only [transposeRows, h1, g1],
      by simp [g2], fun i row hi => ?_⟩
    cases i with
    | zero =>
      simp only [List.getElem?_cons_zero, Option.some.injEq] at hi
      subst hi
      simp [countBefore]
    | succ i =>
      simp only [List.getElem?_cons_succ] at hi
      simp only [List.getElem?_cons_succ, g3 i row hi, List.take_succ_cons, Option.some.injEq]
      apply List.map_congr_left
      intro e _
      rw [h3 e.1, countBefore_cons]
      push_cast
      ring

theorem countP_lt_succ (row : Row) (i : Nat) :
    row.countP (fun e => decide (e.1 < i + 1)) =
      row.countP (fun e => decide (e.1 < i)) + row.countP (fun e => decide (e.1 = i)) := by
  induction row with
  | nil => rfl
  | cons e rest ih =>
    simp only [List.countP_cons, ih]
    by_cases h1 : e.1 < i
    · have h2 : e.1 < i + 1 := by omega
      have h3 : ¬ e.1 = i := by omega
      simp only [h1, h2, h3, decide_True, decide_False, if_true]
      simp
      omega
    · by_cases h3 : e.1 = i
      · have h2 : e.1 < i + 1 := by omega
        simp only [h1, h2, h3, decide_True, decide_False, if_true]
        simp
        omega
      · have h2 : ¬ e.1 < i + 1 := by omega
        simp only [h1, h2, h3, decide_False]
        simp

theorem countP_lt_eq_sum (row : Row) (i : Nat) :
    row.countP (fun e => decide (e.1 < i)) =
      ∑ k ∈ Finset.range i, row.countP (fun e => decide (e.1 = k)) := by
  induction i with
  | zero => simp
  | succ i ih => rw [countP_lt_succ, Finset.sum_range_succ, ih]

theorem countBefore_take (rows : List Row) (i c : Nat) :
    countBefore (rows.take i) c =
      ∑ k ∈ Finset.range i, (rows.getD k []).countP (fun e => decide (e.1 = c)) := by
  induction rows generalizing i with
  | nil => simp [countBefore]
  | cons r rest ih =>
    cases i with
    | zero => simp [countBefore]
    | succ i =>
      rw [List.take_succ_cons, countBefore_cons, ih i, Finset.sum_range_succ']
      simp only [List.getD_cons_succ, List.getD_cons_zero]
      omega

theorem countP_eq_of_sorted (row : Row) (k : Nat) (hs : RowSorted row) :
    row.countP (fun e => decide (e.1 = k)) = if k ∈ row.map Prod.fst then 1 else 0 := by
  induction row with
  | nil => simp
  | cons e rest ih =>
    unfold RowSorted at hs
    rw [List.pairwise_cons] at hs
    rw [List.countP_cons, ih hs.2]
    by_cases h : e.1 = k
    · have hn : k ∉ rest.map Prod.fst := by
        intro hm
        obtain ⟨e1, he1, he2⟩ := List.mem_map.1 hm
        have := hs.1 e1 he1
        omega
      simp [h, hn]
    · have h' : ¬ k = e.1 := fun e0 => h e0.symm
      have hiff : k ∈ (e :: rest).map Prod.fst ↔ k ∈ rest.map Prod.fst := by
        rw [List.map_cons, List.mem_cons]
        exact ⟨fun h1 => h1.resolve_left h', Or.inr⟩
      simp only [h, decide_False, Bool.false_eq_true, if_false, Nat.add_zero]
      by_cases hk : k ∈ rest.map Prod.fst
      · rw [if_pos hk, if_pos (hiff.2 hk)]
      · rw [if_neg hk, if_neg (fun h1 => hk (hiff.1 h1))]

theorem lowerBound_eq_countP (i : Nat) (row : Row) (hs : RowSorted row) :
    lowerBound i row = row.countP (fun e => decide (e.1 < i)) := by
  induction row with
  | nil => rfl
  | cons e rest ih =>
    obtain ⟨c0, a⟩ := e
    unfold RowSorted at hs
    rw [List.pairwise_cons] at hs
    by_cases h : c0 < i
    · simp only [lowerBound, h, if_true, List.countP_cons, decide_True, ih hs.2]
    · simp only [lowerBound, h, if_false, List.countP_cons, decide_False]
      have : rest.countP (fun e => decide (e.1 < i)) = 0 := by
        rw [List.countP_eq_zero]
        intro e he
        have := hs.1 e he
        simp only [decide_eq_true_eq]
        simp only at this
        omega
      simp [this]

theorem getElem?_lowerBound (i : Nat) (v : ℚ) (row : Row) (hs : RowSorted row)
    (h : (i, v) ∈ row) : row[lowerBound i row]? = some (i, v) ∧ rowEntry row i = v := by
  induction row with
  | nil => simp at h
  | cons e rest ih =>
    obtain ⟨c0, a⟩ := e
    unfold RowSorted at hs
    rw [List.pairwise_cons] at hs
    by_cases h0 : c0 < i
    · have hmem : (i, v) ∈ rest := by
        rcases List.mem_cons.1 h with h1 | h1
        · have : i = c0 := congrArg Prod.fst h1
          omega
        · exact h1
      obtain ⟨g1, g2⟩ := ih hs.2 hmem
      have hne : ¬ c0 = i := by omega
      simp only [lowerBound, h0, if_true, List.getElem?_cons_succ, g1, rowEntry, hne, if_false,
        g2, and_self]
    · have heq : (i, v) = (c0, a) := by
        rcases List.mem_cons.1 h with h1 | h1
        · exact h1
        · have := hs.1 _ h1
          simp only at this
          omega
      have h1 : c0 = i := (congrArg Prod.fst heq).symm
      have h2 : a = v := (congrArg Prod.snd heq).symm
      subst h1 h2
      simp [lowerBound, rowEntry]

theorem sortedRows_getD (rows : List Row) (hs : SortedRows rows) (i : Nat) :
    RowSorted (rows.getD i []) := by
  rw [List.getD_eq_getElem?_getD]
  cases hi : rows[i]? with
  | none => exact List.Pairwise.nil
  | some row => exact hs row (List.getElem?_mem hi)

theorem mem_map_fst_iff (row : Row) (c : Nat) : c ∈ row.map Prod.fst ↔ ∃ v, (c, v) ∈ row := by
  constructor
  · intro h
    obtain ⟨e, he, rfl⟩ := List.mem_map.1 h
    exact ⟨e.2, he⟩
  · rintro ⟨v, hv⟩
    exact List.mem_map.2 ⟨(c, v), hv, rfl⟩

/-- In a matrix with strictly increasing rows and a symmetric pattern, the number of entries
with column `c` in the rows above `i` is the position of column `i` in row `c`. -/
theorem mirror_position (m : SparseMatrix) (hs : SortedRows m.rows) (hsym : m.SymmetricPattern)
    (i c : Nat) (hst : m.Stored i c) :
    ∃ v, (m.rows.getD c [])[countBefore (m.rows.take i) c]? = some (i, v) ∧
      m.entry c i = v := by
  obtain ⟨v, hv⟩ := hsym i c hst
  have hsc := sortedRows_getD m.rows hs c
  obtain ⟨g1, g2⟩ := getElem?_lowerBound i v _ hsc hv
  refine ⟨v, ?_, g2⟩
  have e : countBefore (m.rows.take i) c = lowerBound i (m.rows.getD c []) := by
    rw [countBefore_take, lowerBound_eq_countP i _ hsc, countP_lt_eq_sum]
    apply Finset.sum_congr rfl
    intro k _
    rw [countP_eq_of_sorted _ c (sortedRows_getD m.rows hs k), countP_eq_of_sorted _ k hsc]
    have hiff : c ∈ (m.rows.getD k []).map Prod.fst ↔ k ∈ (m.rows.getD c []).map Prod.fst := by
      rw [mem_map_fst_iff, mem_map_fst_iff]
      exact ⟨fun h => hsym k c h, fun h => hsym c k h⟩
    by_cases hk : c ∈ (m.rows.getD k []).map Prod.fst
    · rw [if_pos hk, if_pos (hiff.1 hk)]
    · rw [if_neg hk, if_neg (fun h => hk (hiff.2 h))]
  rw [e]
  exact g1
theorem getD_replicate_zero (n c : Nat) : (List.replicate n (0 : Int)).getD c 0 = 0 := by
  rw [List.getD_eq_getElem?_getD, List.getElem?_replicate]
  split_ifs <;> rfl

theorem fresh_indices (m : SparseMatrix) (hs : SortedRows m.rows)
    (hf : m.TranspositionIndicesFresh) (i : Nat) (row : Row) (hrow : m.rows[i]? = some row) :
    m.transposedIndices[i]? =
      some (row.map (fun e => ((countBefore (m.rows.take i) e.1 : Nat) : Int))) := by
  obtain ⟨t, h1, -, h3⟩ := transposeRows_spec m.rows (List.replicate m.GetNumColumns 0) hs
    (fun r hr e he => by
      rw [List.length_replicate]; exact column_lt_GetNumColumns m r hr e he)
  unfold SparseMatrix.TranspositionIndicesFresh at hf
  rw [h1] at hf
  have e : t = m.transposedIndices := Except.ok.inj hf
  rw [← e, h3 i row hrow]
  congr 1
  apply List.map_congr_left
  intro e _
  rw [getD_replicate_zero, zero_add]

theorem getElem?_of_getD_getElem? {α : Type} (rows : List (List α)) (c p : Nat) (x : α)
    (h : (rows.getD c [])[p]? = some x) : ∃ r, rows[c]? = some r ∧ r[p]? = some x := by
  rw [List.getD_eq_getElem?_getD] at h
  cases hc : rows[c]? with
  | none => rw [hc] at h; simp at h
  | some r => rw [hc] at h; exact ⟨r, rfl, h⟩

theorem skewCheckRow_spec (m : SparseMatrix) (hs : SortedRows m.rows)
    (hsym : m.SymmetricPattern) (hf : m.TranspositionIndicesFresh) (i : Nat) (row : Row)
    (hrow : m.rows[i]? = some row) (n j : Nat) (acc : ℚ) (hn : j + n = row.length) :
    skewCheckRow m i n j acc =
      .ok (((row.drop j).map (fun e => |m.entry i e.1 + m.entry e.1 i|)).foldl raiseTo acc) := by
  induction n generalizing j acc with
  | zero =>
    rw [List.drop_eq_nil_of_le (by omega)]
    rfl
  | succ n ih =>
    have hj : j < row.length := by omega
    have hgetD : m.rows.getD i [] = row := by
      rw [List.getD_eq_getElem?_getD, hrow]; rfl
    have hmem : row[j] ∈ row := List.getElem_mem _
    have hst : m.Stored i (row[j]).1 := ⟨(row[j]).2, by rw [hgetD]; exact hmem⟩
    obtain ⟨v, hv1, hv2⟩ := mirror_position m hs hsym i (row[j]).1 hst
    obtain ⟨rc, hrc1, hrc2⟩ := getElem?_of_getD_getElem? _ _ _ _ hv1
    have ha : m.entry i (row[j]).1 = (row[j]).2 := by
      unfold SparseMatrix.entry
      rw [hgetD]
      exact (getElem?_lowerBound _ _ row (hs row (List.getElem?_mem hrow)) hmem).2
    have h1 : m.GetEntry i (j : Int) = .ok (row[j]).2 := by
      have : ¬ ((j : Int) < 0) := by omega
      simp only [SparseMatrix.GetEntry, this, if_false, hrow, Int.toNat_ofNat,
        List.getElem?_eq_getElem hj]
    have h2 : m.TransposedIndex i j =
        .ok ((countBefore (m.rows.take i) (row[j]).1 : Nat) : Int) := by
      simp only [SparseMatrix.TransposedIndex, fresh_indices m hs hf i row hrow,
        List.getElem?_map, List.getElem?_eq_getElem hj, Option.map_some']
    have h3 : m.GetColumnIndex i j = .ok (row[j]).1 := by
      simp only [SparseMatrix.GetColumnIndex, hrow, List.getElem?_eq_getElem hj]
    have h4 : m.GetEntry (row[j]).1 ((countBefore (m.rows.take i) (row[j]).1 : Nat) : Int) =
        .ok v := by
      have : ¬ (((countBefore (m.rows.take i) (row[j]).1 : Nat) : Int) < 0) := by omega
      simp only [SparseMatrix.GetEntry, this, if_false, hrc1, Int.toNat_ofNat, hrc2]
    simp only [skewCheckRow, h1, h2, h3, h4]
    rw [ih (j + 1) _ (by omega), List.drop_eq_getElem_cons hj, List.map_cons, List.foldl_cons,
      ha, hv2]
    rfl

theorem skewCheckRows_spec (m : SparseMatrix) (hs : SortedRows m.rows)
    (hsym : m.SymmetricPattern) (hf : m.TranspositionIndicesFresh) (n i : Nat) (acc : ℚ)
    (hn : i + n = m.rows.length) :
    skewCheckRows m n i acc = .ok ((skewTerms m i (m.rows.drop i)).foldl raiseTo acc) := by
  induction n generalizing i acc with
  | zero =>
    rw [List.drop_eq_nil_of_le (by omega)]
    rfl
  | succ n ih =>
    have hi : i < m.rows.length := by omega
    have hrow : m.rows[i]? = some m.rows[i] := List.getElem?_eq_getElem hi
    have h1 := skewCheckRow_spec m hs hsym hf i _ hrow (m.rows[i]).length 0 acc (by omega)
    rw [List.drop_zero] at h1
    simp only [skewCheckRows, SparseMatrix.GetRowLength, hrow, h1]
    rw [ih (i + 1) _ (by omega), List.drop_eq_getElem_cons hi, skewTerms, List.foldl_append]

theorem foldl_raiseTo_spec (L : List ℚ) (acc : ℚ) :
    acc ≤ L.foldl raiseTo acc ∧ (∀ t ∈ L, t ≤ L.foldl raiseTo acc) ∧
      (L.foldl raiseTo acc = acc ∨ L.foldl raiseTo acc ∈ L) := by
  induction L generalizing acc with
  | nil => exact ⟨le_refl _, fun t ht => by simp at ht, Or.inl rfl⟩
  | cons x rest ih =>
    obtain ⟨h1, h2, h3⟩ := ih (raiseTo acc x)
    have hacc : acc ≤ raiseTo acc x := by
      unfold raiseTo; split_ifs with h
      · exact le_of_lt h
      · exact le_refl _
    have hx : x ≤ raiseTo acc x := by
      unfold raiseTo; split_ifs with h
      · exact le_refl _
      · exact not_lt.1 h
    have hor : raiseTo acc x = acc ∨ raiseTo acc x = x := by
      unfold raiseTo; split_ifs
      · exact Or.inr rfl
      · exact Or.inl rfl
    rw [List.foldl_cons]
    refine ⟨le_trans hacc h1, fun t ht => ?_, ?_⟩
    · rcases List.mem_cons.1 ht with ht | ht
      · rw [ht]; exact le_trans hx h1
      · exact h2 t ht
    · rcases h3 with h3 | h3
      · rcases hor with hor | hor
        · left; rw [h3, hor]
        · right; rw [h3, hor]; exact List.mem_cons_self _ _
      · right; exact List.mem_cons_of_mem _ h3

theorem mem_skewTerms (m : SparseMatrix) (i0 : Nat) (rs : List Row) (t : ℚ) :
    t ∈ skewTerms m i0 rs ↔
      ∃ (k : Nat) (c : Nat) (v : ℚ), (c, v) ∈ rs.getD k [] ∧
        t = |m.entry (i0 + k) c + m.entry c (i0 + k)| := by
  induction rs generalizing i0 with
  | nil => simp [skewTerms]
  | cons row rest ih =>
    rw [skewTerms, List.mem_append, ih (i0 + 1)]
    constructor
    · rintro (h | ⟨k, c, v, h1, h2⟩)
      · obtain ⟨e, he, rfl⟩ := List.mem_map.1 h
        exact ⟨0, e.1, e.2, by simpa using he, rfl⟩
      · exact ⟨k + 1, c, v, by simpa using h1, by rw [h2]; congr 3 <;> omega⟩
    · rintro ⟨k, c, v, h1, h2⟩
      cases k with
      | zero =>
        left
        exact List.mem_map.2 ⟨(c, v), by simpa using h1, h2.symm⟩
      | succ k =>
        right
        exact ⟨k, c, v, by simpa using h1, by rw [h2]; congr 3 <;> omega⟩

theorem BuildTranspositionIndices_spec (m : SparseMatrix) (hs : SortedRows m.rows)
    (hu : m.TranspositionIndicesUpToDate) :
    ∃ t, m.BuildTranspositionIndices = .ok { m with transposedIndices := t } ∧
      transposeRows m.rows (List.replicate m.GetNumColumns 0) = .ok t := by
  obtain ⟨t, h1, -, -⟩ := transposeRows_spec m.rows (List.replicate m.GetNumColumns 0) hs
    (fun r hr e he => by
      rw [List.length_replicate]; exact column_lt_GetNumColumns m r hr e he)
  by_cases hc : m.HasCachedTransposedIndices = true
  · have hne : m.transposedIndices ≠ [] := by
      intro h
      simp [SparseMatrix.HasCachedTransposedIndices, h] at hc
    have hf := hu.resolve_left hne
    exact ⟨m.transposedIndices, by simp only [SparseMatrix.BuildTranspositionIndices, hc,
      if_true], hf⟩
  · have hc1 : m.HasCachedTransposedIndices = false := by simpa using hc
    exact ⟨t, by simp [SparseMatrix.BuildTranspositionIndices, hc1, h1], h1⟩

theorem SkewSymmetricCheck_spec (m : SparseMatrix) (hs : SortedRows m.rows)
    (hsym : m.SymmetricPattern) (hu : m.TranspositionIndicesUpToDate) :
    ∃ d, m.SkewSymmetricCheck = .ok (d, m.FreeTranspositionIndices) ∧
      (∀ i c, m.Stored i c → |m.entry i c + m.entry c i| ≤ d) ∧
      (d = 0 ∨ ∃ i c, m.Stored i c ∧ d = |m.entry i c + m.entry c i|) := by
  obtain ⟨t, hb, ht⟩ := BuildTranspositionIndices_spec m hs hu
  have hloop := skewCheckRows_spec { m with transposedIndices := t } hs hsym ht
    m.rows.length 0 0 (by simp)
  obtain ⟨-, h2, h3⟩ := foldl_raiseTo_spec
    (skewTerms { m with transposedIndices := t } 0 m.rows) 0
  have hmem := mem_skewTerms { m with transposedIndices := t } 0 m.rows
  rw [List.drop_zero] at hloop
  refine ⟨(skewTerms { m with transposedIndices := t } 0 m.rows).foldl raiseTo 0, ?_,
    fun i c hst => ?_, ?_⟩
  · simp only [SparseMatrix.SkewSymmetricCheck, hb, SparseMatrix.GetNumRows]
    rw [hloop]
    rfl
  · obtain ⟨v, hv⟩ := hst
    exact h2 _ ((hmem _).2 ⟨i, c, v, hv, by rw [Nat.zero_add]; rfl⟩)
  · rcases h3 with h3 | h3
    · exact Or.inl h3
    · obtain ⟨k, c, v, h4, h5⟩ := (hmem _).1 h3
      rw [Nat.zero_add] at h5
      exact Or.inr ⟨k, c, ⟨v, h4⟩, h5⟩
theorem skewRows_getD (A : SparseMatrix) (i0 k : Nat) (rows : List Row) :
    (skewRows A i0 rows).getD k [] =
      (rows.getD k []).map (fun e => (e.1, A.entry (i0 + k) e.1 - A.entry e.1 (i0 + k))) := by
  induction rows generalizing i0 k with
  | nil => simp [skewRows]
  | cons row rest ih =>
    cases k with
    | zero => simp [skewRows]
    | succ k =>
      simp only [skewRows, List.getD_cons_succ]
      rw [ih (i0 + 1) k]
      have e : i0 + 1 + k = i0 + (k + 1) := by omega
      rw [e]

theorem skewRows_sorted (A : SparseMatrix) (i0 : Nat) (rows : List Row) (hs : SortedRows rows) :
    SortedRows (skewRows A i0 rows) := by
  induction rows generalizing i0 with
  | nil => intro row hrow; simp [skewRows] at hrow
  | cons row rest ih =>
    intro r hr
    simp only [skewRows, List.mem_cons] at hr
    rcases hr with hr | hr
    · rw [hr]
      unfold RowSorted
      rw [List.pairwise_map]
      exact hs row (List.mem_cons_self _ _)
    · exact ih (i0 + 1) (fun r1 hr1 => hs r1 (List.mem_cons_of_mem _ hr1)) r hr

theorem skewPart_stored (A : SparseMatrix) (a b : Nat) :
    A.skewPart.Stored a b ↔ A.Stored a b := by
  unfold SparseMatrix.Stored SparseMatrix.skewPart
  simp only [skewRows_getD, List.mem_map, Prod.mk.injEq]
  constructor
  · rintro ⟨v, e, he, h1, -⟩
    exact ⟨e.2, by rw [← h1]; exact he⟩
  · rintro ⟨v, hv⟩
    exact ⟨_, (b, v), hv, rfl, rfl⟩

theorem rowEntry_map_of_mem (g : Nat → ℚ) (row : Row) (c : Nat) (h : c ∈ row.map Prod.fst) :
    rowEntry (row.map (fun e => (e.1, g e.1))) c = g c := by
  induction row with
  | nil => simp at h
  | cons e rest ih =>
    simp only [List.map_cons, rowEntry]
    by_cases h0 : e.1 = c
    · rw [if_pos h0, h0]
    · rw [if_neg h0]
      apply ih
      simp only [List.map_cons, List.mem_cons] at h
      exact h.resolve_left (fun e0 => h0 e0.symm)

theorem skewPart_entry (A : SparseMatrix) (i c : Nat) (h : A.Stored i c) :
    A.skewPart.entry i c = A.entry i c - A.entry c i := by
  unfold SparseMatrix.entry SparseMatrix.skewPart
  simp only [skewRows_getD, Nat.zero_add]
  exact rowEntry_map_of_mem (fun c => rowEntry (A.rows.getD i []) c - rowEntry (A.rows.getD c []) i)
    _ c ((mem_map_fst_iff _ _).2 h)

theorem staleIndicesExample_symmetric : staleIndicesExample.SymmetricPattern := by
  intro a b h
  have hab : a < 2 ∧ b < 2 := by
    obtain ⟨v, hv⟩ := h
    rcases a with _ | _ | a
    · simp [staleIndicesExample] at hv
      rcases hv with hv | hv <;> omega
    · simp [staleIndicesExample] at hv
      rcases hv with hv | hv <;> omega
    · simp [staleIndicesExample] at hv
  obtain ⟨ha, hb⟩ := hab
  interval_cases a <;> interval_cases b <;>
    simp [SparseMatrix.Stored, staleIndicesExample]

/-- C12 (as stated, refuted on transposition indices that are out of date): build the
indices of the matrix `(0,1)=2, (1,0)=5`, then insert the entries `(0,0)` and `(1,1)`. The
matrix reached has strictly increasing rows and a symmetric pattern, and its skew defect is
`|2 + 5| = 7`; `SkewSymmetricCheck` finds indices, does not rebuild them, and reads
`transposedIndices[0][1]` past the end of the cached row instead of returning `7`. -/
theorem SkewSymmetricCheck_stale_indices_counterexample :
    offDiagonalExample.BuildTranspositionIndices =
        .ok { offDiagonalExample with transposedIndices := [[0], [0]] } ∧
      ({ offDiagonalExample with transposedIndices := [[0], [0]] } :
          SparseMatrix).InsertNewEntry (fun _ => 0) 0 0 =
        .ok (0, { rows := [[(0, 0), (1, 2)], [(0, 5)]], transposedIndices := [[0], [0]] }) ∧
      ({ rows := [[(0, 0), (1, 2)], [(0, 5)]], transposedIndices := [[0], [0]] } :
          SparseMatrix).InsertNewEntry (fun _ => 0) 1 1 = .ok (1, staleIndicesExample) ∧
      SortedRows staleIndicesExample.rows ∧ staleIndicesExample.SymmetricPattern ∧
      |staleIndicesExample.entry 0 1 + staleIndicesExample.entry 1 0| = 7 ∧
      staleIndicesExample.SkewSymmetricCheck = .error .outOfBounds := by
  refine ⟨rfl, rfl, rfl, by simp [SortedRows, RowSorted, staleIndicesExample],
    staleIndicesExample_symmetric, ?_, rfl⟩
  simp [staleIndicesExample, SparseMatrix.entry, rowEntry]
  norm_num

/-- C12 (amended): `SkewSymmetricCheck` returns the skew defect. For a matrix with strictly
increasing rows and a structurally symmetric pattern, whose transposition indices are absent
or up to date, the call returns a value `d` with `|M(i,c) + M(c,i)| ≤ d` for every stored
entry `(i, c)`, and `d` is `0` or is attained at a stored entry: `d` is the maximum (`0` for
an empty matrix). The rows are left as they were and the indices are freed. In particular
the matrix with the pattern of `M` and the values `M(i,c) − M(c,i)` yields exactly `0`. -/
theorem SkewSymmetricCheck_returns_defect (M : SparseMatrix) (hs : SortedRows M.rows)
    (hsym : M.SymmetricPattern) (hu : M.TranspositionIndicesUpToDate) :
    (∃ d M1, M.SkewSymmetricCheck = .ok (d, M1) ∧ M1.rows = M.rows ∧
        M1.transposedIndices = [] ∧
        (∀ i c, M.Stored i c → |M.entry i c + M.entry c i| ≤ d) ∧
        (d = 0 ∨ ∃ i c, M.Stored i c ∧ d = |M.entry i c + M.entry c i|)) ∧
      (∃ M2, M.skewPart.SkewSymmetricCheck = .ok (0, M2) ∧ M2.rows = M.skewPart.rows) := by
  constructor
  · obtain ⟨d, h1, h2, h3⟩ := SkewSymmetricCheck_spec M hs hsym hu
    exact ⟨d, _, h1, rfl, rfl, h2, h3⟩
  · have hsym2 : M.skewPart.SymmetricPattern := fun a b h =>
      (skewPart_stored M b a).2 (hsym a b ((skewPart_stored M a b).1 h))
    obtain ⟨d, h1, -, h3⟩ := SkewSymmetricCheck_spec M.skewPart
      (skewRows_sorted M 0 M.rows hs) hsym2 (Or.inl rfl)
    have hd : d = 0 := by
      rcases h3 with h3 | ⟨i, c, hst, h3⟩
      · exact h3
      · have hst1 := (skewPart_stored M i c).1 hst
        rw [h3, skewPart_entry M i c hst1, skewPart_entry M c i (hsym i c hst1)]
        have : M.entry i c - M.entry c i + (M.entry c i - M.entry i c) = 0 := by ring
        rw [this, abs_zero]
    rw [hd] at h1
    exact ⟨_, h1, rfl⟩

theorem squareExample_symmetric : squareExample.SymmetricPattern := by
  intro a b h
  have hab : a < 2 ∧ b < 2 := by
    obtain ⟨v, hv⟩ := h
    rcases a with _ | _ | a
    · simp [squareExample] at hv
      rcases hv with hv | hv <;> omega
    · simp [squareExample] at hv
      rcases hv with hv | hv <;> omega
    · simp [squareExample] at hv
  obtain ⟨ha, hb⟩ := hab
  interval_cases a <;> interval_cases b <;>
    simp [SparseMatrix.Stored, squareExample]

/-- Witness for C12 (amended) on the matrix `(0,0)=1, (0,1)=2, (1,0)=5, (1,1)=4`, whose
transposition indices are absent. -/
theorem SkewSymmetricCheck_returns_defect_witness :
    (∃ d M1, squareExample.SkewSymmetricCheck = .ok (d, M1) ∧ M1.rows = squareExample.rows ∧
        M1.transposedIndices = [] ∧
        (∀ i c, squareExample.Stored i c →
          |squareExample.entry i c + squareExample.entry c i| ≤ d) ∧
        (d = 0 ∨ ∃ i c, squareExample.Stored i c ∧
          d = |squareExample.entry i c + squareExample.entry c i|)) ∧
      (∃ M2, squareExample.skewPart.SkewSymmetricCheck = .ok (0, M2) ∧
        M2.rows = squareExample.skewPart.rows) :=
  SkewSymmetricCheck_returns_defect squareExample
    (by simp [SortedRows, RowSorted, squareExample]) squareExample_symmetric (Or.inl rfl)

/-! ### Symmetrization -/

theorem symmetrizedBelow_getElem? (m : SparseMatrix) (i k0 k : Nat) (rs : List Row) :
    (symmetrizedBelow m i k0 rs)[k]? =
      (rs[k]?).map (fun row => if k0 + k < i then symmetrizedRow m (k0 + k) row else row) := by
  induction rs generalizing k0 k with
  | nil => simp [symmetrizedBelow]
  | cons row rest ih =>
    cases k with
    | zero => simp [symmetrizedBelow]
    | succ k =>
      simp only [symmetrizedBelow, List.getElem?_cons_succ, ih (k0 + 1) k]
      have e : k0 + 1 + k = k0 + (k + 1) := by omega
      rw [e]

theorem symmetrizedBelow_length (m : SparseMatrix) (i k0 : Nat) (rs : List Row) :
    (symmetrizedBelow m i k0 rs).length = rs.length := by
  induction rs generalizing k0 with
  | nil => rfl
  | cons row rest ih => simp [symmetrizedBelow, ih]

theorem prefix_map_set {α : Type} (f : α → α) (l : List α) (j : Nat) (hj : j < l.length) :
    ((l.take j).map f ++ l.drop j).set j (f l[j]) =
      (l.take (j + 1)).map f ++ l.drop (j + 1) := by
  induction l generalizing j with
  | nil => simp at hj
  | cons x xs ih =>
    cases j with
    | zero => simp
    | succ j =>
      simp only [List.take_succ_cons, List.map_cons, List.drop_succ_cons, List.cons_append,
        List.set_cons_succ, List.getElem_cons_succ]
      rw [ih j (by simpa using hj)]

theorem prefix_map_getElem? {α : Type} (f : α → α) (l : List α) (j : Nat) :
    ((l.take j).map f ++ l.drop j)[j]? = l[j]? := by
  induction l generalizing j with
  | nil => simp
  | cons x xs ih =>
    cases j with
    | zero => simp
    | succ j =>
      simp only [List.take_succ_cons, List.map_cons, List.drop_succ_cons, List.cons_append,
        List.getElem?_cons_succ]
      exact ih j

theorem symmetrizedRow_eq_prefix (m : SparseMatrix) (i j : Nat) (row : Row)
    (h1 : ∀ e ∈ row.take j, e.1 < i) (h2 : ∀ e ∈ row.drop j, i ≤ e.1) :
    (row.take j).map (fun e => (e.1, m.entry e.1 i)) ++ row.drop j =
      symmetrizedRow m i row := by
  unfold symmetrizedRow
  conv_rhs => rw [← List.take_append_drop j row, List.map_append]
  congr 1
  · apply List.map_congr_left
    intro e he
    rw [if_pos (h1 e he)]
  · symm
    conv_rhs => rw [← List.map_id (row.drop j)]
    apply List.map_congr_left
    intro e he
    rw [if_neg (by have := h2 e he; omega)]
    rfl

theorem symmetrizeRow_spec (m : SparseMatrix) (hs : SortedRows m.rows)
    (hsym : m.SymmetricPattern) (hf : m.TranspositionIndicesFresh) (i : Nat) (row : Row)
    (hrow : m.rows[i]? = some row) (n j : Nat) (cur : SparseMatrix)
    (hn : j + n = row.length) (ht : cur.transposedIndices = m.transposedIndices)
    (hlen : cur.rows.length = m.rows.length)
    (habove : ∀ k, k < i → ∀ r, m.rows[k]? = some r →
      cur.rows[k]? = some (symmetrizedRow m k r))
    (hcur : cur.rows[i]? =
      some ((row.take j).map (fun e => (e.1, m.entry e.1 i)) ++ row.drop j))
    (hdone : ∀ e ∈ row.take j, e.1 < i) :
    symmetrizeRow i n j cur =
      .ok { cur with rows := cur.rows.set i (symmetrizedRow m i row) } := by
  have hsrow : RowSorted row := hs row (List.getElem?_mem hrow)
  induction n generalizing j cur with
  | zero =>
    have hj : row.length ≤ j := by omega
    have e := symmetrizedRow_eq_prefix m i j row hdone
      (by rw [List.drop_eq_nil_of_le hj]; intro e he; simp at he)
    rw [e] at hcur
    simp only [symmetrizeRow, set_getElem?_self _ _ _ hcur]
  | succ n ih =>
    have hj : j < row.length := by omega
    have hcol : cur.GetColumnIndex i j = .ok (row[j]).1 := by
      simp only [SparseMatrix.GetColumnIndex, hcur, prefix_map_getElem?,
        List.getElem?_eq_getElem hj]
    by_cases hge : (row[j]).1 ≥ i
    · have e := symmetrizedRow_eq_prefix m i j row hdone (by
        intro e he
        rw [List.drop_eq_getElem_cons hj] at he
        rcases List.mem_cons.1 he with he | he
        · rw [he]; exact hge
        · have hp : (row.drop j).Pairwise (fun e1 e2 => e1.1 < e2.1) :=
            List.Pairwise.sublist (List.drop_sublist _ _) hsrow
          rw [List.drop_eq_getElem_cons hj, List.pairwise_cons] at hp
          have := hp.1 e he
          omega)
      rw [e] at hcur
      simp only [symmetrizeRow, hcol, hge, if_true, set_getElem?_self _ _ _ hcur]
    · have hlt : (row[j]).1 < i := by omega
      have hgetD : m.rows.getD i [] = row := by
        rw [List.getD_eq_getElem?_getD, hrow]; rfl
      have hmem : row[j] ∈ row := List.getElem_mem _
      have hst : m.Stored i (row[j]).1 := ⟨(row[j]).2, by rw [hgetD]; exact hmem⟩
      obtain ⟨v, hv1, hv2⟩ := mirror_position m hs hsym i (row[j]).1 hst
      obtain ⟨rc, hrc1, hrc2⟩ := getElem?_of_getD_getElem? _ _ _ _ hv1
      have htr : cur.TransposedIndex i j =
          .ok ((countBefore (m.rows.take i) (row[j]).1 : Nat) : Int) := by
        simp only [SparseMatrix.TransposedIndex, ht, fresh_indices m hs hf i row hrow,
          List.getElem?_map, List.getElem?_eq_getElem hj, Option.map_some']
      have hent : cur.GetEntry (row[j]).1
          ((countBefore (m.rows.take i) (row[j]).1 : Nat) : Int) = .ok v := by
        have hneg : ¬ (((countBefore (m.rows.take i) (row[j]).1 : Nat) : Int) < 0) := by
          omega
        have hni : ¬ (i < (row[j]).1) := by omega
        simp only [SparseMatrix.GetEntry, hneg, if_false, habove _ hlt rc hrc1,
          Int.toNat_ofNat, symmetrizedRow, List.getElem?_map, hrc2, Option.map_some', hni]
      have hilt : i < cur.rows.length := by
        by_contra hcon
        rw [List.getElem?_eq_none (by omega)] at hcur
        exact Option.noConfusion hcur
      have hcurD : cur.rows.getD i [] =
          (row.take j).map (fun e => (e.1, m.entry e.1 i)) ++ row.drop j := by
        rw [List.getD_eq_getElem?_getD, hcur]; rfl
      have hset := prefix_map_set (fun e => (e.1, m.entry e.1 i)) row j hj
      obtain ⟨R, hR⟩ : ∃ R, R =
          (row.take (j + 1)).map (fun e => (e.1, m.entry e.1 i)) ++ row.drop (j + 1) :=
        ⟨_, rfl⟩
      rw [← hR] at hset
      simp only [symmetrizeRow, hcol, hge, if_false, htr, hent]
      rw [hcurD, ← hv2, hset]
      rw [ih (j + 1) { cur with rows := cur.rows.set i R }
        (by omega) ht (by simpa using hlen)
        (fun k hk r hr => by
          simp only [List.getElem?_set]
          rw [if_neg (by omega)]
          exact habove k hk r hr)
        (by simp only [List.getElem?_set, if_true, hilt, hR])
        (fun e he => by
          rw [List.take_succ, List.mem_append] at he
          rcases he with he | he
          · exact hdone e he
          · rw [List.getElem?_eq_getElem hj] at he
            simp only [Option.toList_some, List.mem_singleton] at he
            rw [he]; exact hlt)]
      simp only [List.set_set]

theorem symmetrizeRows_spec (m : SparseMatrix) (hs : SortedRows m.rows)
    (hsym : m.SymmetricPattern) (hf : m.TranspositionIndicesFresh) (n i : Nat)
    (cur : SparseMatrix) (hn : i + n = m.rows.length)
    (ht : cur.transposedIndices = m.transposedIndices)
    (hcur : cur.rows = symmetrizedBelow m i 0 m.rows) :
    symmetrizeRows n i cur =
      .ok { cur with rows := symmetrizedBelow m m.rows.length 0 m.rows } := by
  induction n generalizing i cur with
  | zero =>
    have e : i = m.rows.length := by omega
    rw [e] at hcur
    simp only [symmetrizeRows, ← hcur]
  | succ n ih =>
    have hi : i < m.rows.length := by omega
    have hrow : m.rows[i]? = some m.rows[i] := List.getElem?_eq_getElem hi
    have hci : cur.rows[i]? = some m.rows[i] := by
      rw [hcur, symmetrizedBelow_getElem?, hrow]
      simp
    have hstep := symmetrizeRow_spec m hs hsym hf i _ hrow (m.rows[i]).length 0 cur (by omega)
      ht (by rw [hcur, symmetrizedBelow_length])
      (fun k hk r hr => by
        rw [hcur, symmetrizedBelow_getElem?, hr]
        simp [hk])
      (by simpa using hci) (by simp)
    have hnext : cur.rows.set i (symmetrizedRow m i m.rows[i]) =
        symmetrizedBelow m (i + 1) 0 m.rows := by
      apply List.ext_getElem?
      intro k
      rw [List.getElem?_set, hcur, symmetrizedBelow_getElem?, symmetrizedBelow_getElem?,
        symmetrizedBelow_length]
      by_cases hk : i = k
      · subst hk
        simp [hi, hrow]
      · rw [if_neg hk]
        cases hrk : m.rows[k]? with
        | none => rfl
        | some r =>
          simp only [Option.map_some', Nat.zero_add]
          by_cases hki : k < i
          · rw [if_pos hki, if_pos (by omega)]
          · rw [if_neg hki, if_neg (by omega)]
    simp only [symmetrizeRows, SparseMatrix.GetRowLength, hci, hstep]
    rw [ih (i + 1) { cur with rows := cur.rows.set i (symmetrizedRow m i m.rows[i]) }
      (by omega) ht hnext]
theorem symmetrizedRow_cons (m : SparseMatrix) (i c0 : Nat) (a : ℚ) (rest : Row) :
    symmetrizedRow m i ((c0, a) :: rest) =
      (c0, if c0 < i then m.entry c0 i else a) :: symmetrizedRow m i rest := by
  unfold symmetrizedRow
  rw [List.map_cons]
  congr 1
  show (if c0 < i then (c0, m.entry c0 i) else (c0, a)) = _
  split_ifs <;> rfl

theorem rowEntry_symmetrizedRow (m : SparseMatrix) (i c : Nat) (row : Row)
    (h : c ∈ row.map Prod.fst) :
    rowEntry (symmetrizedRow m i row) c = if c < i then m.entry c i else rowEntry row c := by
  induction row with
  | nil => simp at h
  | cons e rest ih =>
    obtain ⟨c0, a⟩ := e
    rw [symmetrizedRow_cons]
    by_cases h0 : c0 = c
    · subst h0
      simp only [rowEntry, if_true]
    · have hrest : c ∈ rest.map Prod.fst := by
        simp only [List.map_cons, List.mem_cons] at h
        exact h.resolve_left (fun e0 => h0 e0.symm)
      simp only [rowEntry, h0, if_false]
      exact ih hrest

theorem symmetrizedBelow_getD (m : SparseMatrix) (i : Nat) :
    (symmetrizedBelow m m.rows.length 0 m.rows).getD i [] =
      symmetrizedRow m i (m.rows.getD i []) := by
  rw [List.getD_eq_getElem?_getD, List.getD_eq_getElem?_getD, symmetrizedBelow_getElem?]
  cases hi : m.rows[i]? with
  | none => rfl
  | some row =>
    have hlt : i < m.rows.length := by
      by_contra hcon
      rw [List.getElem?_eq_none (by omega)] at hi
      exact Option.noConfusion hi
    simp [hlt]

theorem symmetrizedRow_fst (m : SparseMatrix) (i : Nat) (row : Row) :
    (symmetrizedRow m i row).map Prod.fst = row.map Prod.fst := by
  unfold symmetrizedRow
  rw [List.map_map]
  apply List.map_congr_left
  intro e _
  simp only [Function.comp]
  split_ifs <;> rfl

/-- C16: postcondition of `SymmetrizeMatrix`. For a matrix with strictly increasing rows, a
structurally symmetric pattern and freshly built transposition indices, the call returns;
afterwards the row count and the column indices of every row are as before, every stored
entry `(i, c)` with `c < i` has the value entry `(c, i)` had before the call, every stored
entry with `c ≥ i` has its old value, and so `M(i,c) = M(c,i)` at every stored entry. -/
theorem SymmetrizeMatrix_postcondition (M : SparseMatrix) (hs : SortedRows M.rows)
    (hsym : M.SymmetricPattern) (hf : M.TranspositionIndicesFresh) :
    ∃ M1, M.SymmetrizeMatrix = .ok M1 ∧ M1.GetNumRows = M.GetNumRows ∧
      (∀ i, (M1.rows.getD i []).map Prod.fst = (M.rows.getD i []).map Prod.fst) ∧
      (∀ i c, M.Stored i c →
        (c < i → M1.entry i c = M.entry c i) ∧ (i ≤ c → M1.entry i c = M.entry i c) ∧
        M1.entry i c = M1.entry c i) := by
  have h := symmetrizeRows_spec M hs hsym hf M.rows.length 0 M (by omega) rfl
    (by
      apply List.ext_getElem?
      intro k
      rw [symmetrizedBelow_getElem?]
      cases M.rows[k]? <;> simp)
  have hentry : ∀ i c, M.Stored i c →
      rowEntry (symmetrizedRow M i (M.rows.getD i [])) c =
        if c < i then M.entry c i else M.entry i c := fun i c hst =>
    rowEntry_symmetrizedRow M i c _ ((mem_map_fst_iff _ _).2 hst)
  refine ⟨{ M with rows := symmetrizedBelow M M.rows.length 0 M.rows }, h, ?_, fun i => ?_,
    fun i c hst => ?_⟩
  · simp [SparseMatrix.GetNumRows, symmetrizedBelow_length]
  · simp only [symmetrizedBelow_getD, symmetrizedRow_fst]
  · have e1 := hentry i c hst
    have e2 := hentry c i (hsym i c hst)
    simp only [SparseMatrix.entry, symmetrizedBelow_getD] at e1 e2 ⊢
    refine ⟨fun hlt => by rw [e1, if_pos hlt], fun hle => by rw [e1, if_neg (by omega)], ?_⟩
    rw [e1, e2]
    by_cases h1 : c < i
    · rw [if_pos h1, if_neg (by omega)]
    · rw [if_neg h1]
      by_cases h2 : i < c
      · rw [if_pos h2]
      · rw [if_neg h2]
        have : c = i := by omega
        rw [this]

theorem squareExampleIndexed_symmetric : squareExampleIndexed.SymmetricPattern := by
  intro a b h
  have hab : a < 2 ∧ b < 2 := by
    obtain ⟨v, hv⟩ := h
    rcases a with _ | _ | a
    · simp [squareExampleIndexed] at hv
      rcases hv with hv | hv <;> omega
    · simp [squareExampleIndexed] at hv
      rcases hv with hv | hv <;> omega
    · simp [squareExampleIndexed] at hv
  obtain ⟨ha, hb⟩ := hab
  interval_cases a <;> interval_cases b <;>
    simp [SparseMatrix.Stored, squareExampleIndexed]

/-- Witness for C16 on the matrix `(0,0)=1, (0,1)=2, (1,0)=5, (1,1)=4` with its
transposition indices built. -/
theorem SymmetrizeMatrix_postcondition_witness :
    ∃ M1, squareExampleIndexed.SymmetrizeMatrix = .ok M1 ∧
      M1.GetNumRows = squareExampleIndexed.GetNumRows ∧
      (∀ i, (M1.rows.getD i []).map Prod.fst =
        (squareExampleIndexed.rows.getD i []).map Prod.fst) ∧
      (∀ i c, squareExampleIndexed.Stored i c →
        (c < i → M1.entry i c = squareExampleIndexed.entry c i) ∧
        (i ≤ c → M1.entry i c = squareExampleIndexed.entry i c) ∧
        M1.entry i c = M1.entry c i) :=
  SymmetrizeMatrix_postcondition squareExampleIndexed
    (by simp [SortedRows, RowSorted, squareExampleIndexed]) squareExampleIndexed_symmetric rfl

/-! ### The sorted-row invariant -/

theorem sortedRows_set (rows : List Row) (k : Nat) (row : Row) (hs : SortedRows rows)
    (hrow : RowSorted row) : SortedRows (rows.set k row) := by
  intro r hr
  rcases List.mem_or_eq_of_mem_set hr with h | h
  · exact hs r h
  · rw [h]; exact hrow

theorem inverseIndexLoop_neg_one (c j : Nat) (row : Row) (h : inverseIndexLoop c j row = -1) :
    c ∉ row.map Prod.fst := by
  intro hmem
  have := inverseIndexLoop_mem c j row hmem
  omega

theorem InsertNewEntry_inv (M : SparseMatrix) (count : Nat → Nat) (row : Int) (c p : Nat)
    (M1 : SparseMatrix) (h : M.InsertNewEntry count row c = .ok (p, M1)) :
    ∃ r, M.rows[row.toNat]? = some r ∧ c ∉ r.map Prod.fst ∧ p = lowerBound c r ∧
      M1.rows = M.rows.set row.toNat (r.take p ++ (c, 0) :: r.drop p) := by
  unfold SparseMatrix.InsertNewEntry at h
  by_cases h1 : row < (M.GetNumRows : Int)
  · rw [if_pos h1] at h
    unfold SparseMatrix.GetInverseIndex at h
    by_cases h2 : row < 0
    · rw [if_pos h2] at h; exact Except.noConfusion h
    · rw [if_neg h2] at h
      cases hr : M.rows[row.toNat]? with
      | none => rw [hr] at h; exact Except.noConfusion h
      | some r =>
        rw [hr] at h
        simp only [] at h
        by_cases h3 : inverseIndexLoop c 0 r = -1
        · rw [if_pos h3] at h
          cases hn : notifySubMatrices count (.OnEntryWasInsertedIntoSuperMatrix row c)
              M.subMatrixLinkages with
          | error f => rw [hn] at h; exact Except.noConfusion h
          | ok links1 =>
            rw [hn] at h
            simp only [] at h
            by_cases h4 : M.superMatrixLinkage = none
            · rw [if_pos h4] at h
              have h5 := Except.ok.inj h
              have hp : lowerBound c r = p := congrArg Prod.fst h5
              have hM : M1 = _ := (congrArg Prod.snd h5).symm
              refine ⟨r, rfl, inverseIndexLoop_neg_one c 0 r h3, hp.symm, ?_⟩
              rw [hM, ← hp]
            · rw [if_neg h4] at h; exact Except.noConfusion h
        · rw [if_neg h3] at h; exact Except.noConfusion h
  · rw [if_neg h1] at h; exact Except.noConfusion h

theorem InsertNewEntry_sorted (M : SparseMatrix) (count : Nat → Nat) (row : Int) (c p : Nat)
    (M1 : SparseMatrix) (hs : SortedRows M.rows)
    (h : M.InsertNewEntry count row c = .ok (p, M1)) : SortedRows M1.rows := by
  obtain ⟨r, h1, h2, h3, h4⟩ := InsertNewEntry_inv M count row c p M1 h
  rw [h4, h3]
  exact sortedRows_set _ _ _ hs (rowSorted_insert c r (hs r (List.getElem?_mem h1)) h2)

theorem notifySuper_rows (m : SparseMatrix) (call : RemapperCall) (m1 : SparseMatrix)
    (h : m.notifySuper call = .ok m1) : m1.rows = m.rows := by
  unfold SparseMatrix.notifySuper at h
  cases hl : m.superMatrixLinkage with
  | none => rw [hl] at h; exact Except.noConfusion h
  | some l =>
    rw [hl] at h
    have hM := Except.ok.inj h
    rw [← hM]

theorem notifySuperAll_rows (m : SparseMatrix) (calls : List RemapperCall) (m1 : SparseMatrix)
    (h : m.notifySuperAll calls = .ok m1) : m1.rows = m.rows := by
  induction calls generalizing m with
  | nil =>
    have hM := Except.ok.inj h
    rw [← hM]
  | cons call rest ih =>
    unfold SparseMatrix.notifySuperAll at h
    cases h1 : m.notifySuper call with
    | error f => rw [h1] at h; exact Except.noConfusion h
    | ok m2 =>
      rw [h1] at h
      rw [ih m2 h, notifySuper_rows m call m2 h1]

theorem RemoveRow_sorted (M : SparseMatrix) (index : Nat) (M1 : SparseMatrix)
    (hs : SortedRows M.rows) (h : M.RemoveRow index = .ok M1) : SortedRows M1.rows := by
  unfold SparseMatrix.RemoveRow at h
  by_cases h0 : index < M.rows.length
  · rw [if_pos h0] at h
    rw [notifySuper_rows _ _ M1 h]
    exact fun r hr => hs r ((List.eraseIdx_sublist _ _).subset hr)
  · rw [if_neg h0] at h; exact Except.noConfusion h

theorem keepIdx_subset {α : Type} (p : Nat → Bool) (j : Nat) (xs : List α) :
    ∀ x ∈ keepIdx p j xs, x ∈ xs := by
  induction xs generalizing j with
  | nil => intro x hx; simp [keepIdx] at hx
  | cons y ys ih =>
    intro x hx
    simp only [keepIdx] at hx
    split_ifs at hx
    · exact List.mem_cons_of_mem _ (ih (j + 1) x hx)
    · rcases List.mem_cons.1 hx with hx | hx
      · rw [hx]; exact List.mem_cons_self _ _
      · exact List.mem_cons_of_mem _ (ih (j + 1) x hx)

theorem RemoveRows_sorted (M : SparseMatrix) (removed : List Int) (oneIndexed : Int)
    (M1 : SparseMatrix) (hs : SortedRows M.rows)
    (hv : ValidRemovalList M.GetNumRows removed oneIndexed)
    (h : M.RemoveRows removed oneIndexed = .ok M1) : SortedRows M1.rows := by
  obtain ⟨R, hR, hp, hhi, -, -⟩ := exists_zeroIndexed M.GetNumRows removed oneIndexed hv
  rw [← hR, RemoveRows_eq M R oneIndexed hp hhi] at h
  rw [notifySuperAll_rows _ _ M1 h]
  exact fun r hr => hs r (keepIdx_subset _ _ _ r hr)

theorem renumberEntries_sorted (R : List Nat) (row : Row) (hR : R.Pairwise (· < ·))
    (hs : RowSorted row) : RowSorted (renumberEntries R row) := by
  obtain ⟨n, hn⟩ : ∃ n, R.length = n := ⟨_, rfl⟩
  induction n generalizing R row with
  | zero =>
    have : R = [] := List.length_eq_zero.1 hn
    rw [this, renumberEntries_nil]
    exact hs
  | succ n ih =>
    cases R with
    | nil => simp at hn
    | cons a S =>
      rw [List.pairwise_cons] at hR
      rw [← renumberEntries_cons a S row hR.1]
      apply ih
      · rw [List.pairwise_map]
        refine List.Pairwise.imp_of_mem ?_ hR.2
        intro x y hx hy hxy
        have := hR.1 x hx
        show x - 1 < y - 1
        omega
      · exact renumberEntries_single_sorted a row hs
      · simpa using hn

theorem RemoveColumns_sorted (M : SparseMatrix) (removed : List Int) (oneIndexed : Int)
    (n : Nat) (M1 : SparseMatrix) (hs : SortedRows M.rows)
    (hv : ValidRemovalList n removed oneIndexed)
    (h : M.RemoveColumns removed oneIndexed = .ok M1) : SortedRows M1.rows := by
  obtain ⟨R, hR, hp, -, -, -⟩ := exists_zeroIndexed n removed oneIndexed hv
  rw [← hR, RemoveColumns_eq M R oneIndexed hp] at h
  rw [notifySuperAll_rows _ _ M1 h]
  intro r hr
  obtain ⟨r0, hr0, rfl⟩ := List.mem_map.1 hr
  exact renumberEntries_sorted R r0 hp (hs r0 hr0)

theorem RemoveRowColumn_sorted (M : SparseMatrix) (index : Nat) (M1 : SparseMatrix)
    (hs : SortedRows M.rows) (h : M.RemoveRowColumn index = .ok M1) : SortedRows M1.rows := by
  by_cases h0 : index < M.rows.length
  · rw [RemoveRowColumn_eq M index h0 hs] at h
    rw [notifySuperAll_rows _ _ M1 h]
    intro r hr
    obtain ⟨r0, hr0, rfl⟩ := List.mem_map.1 hr
    exact renumberEntries_single_sorted index r0
      (hs r0 ((List.eraseIdx_sublist _ _).subset hr0))
  · unfold SparseMatrix.RemoveRowColumn at h
    rw [if_neg h0] at h; exact Except.noConfusion h

theorem renumberRowLoop_ok_cols (tbl : List Int) (k s t : Nat) (row : Row) (r : Row × Nat)
    (hk : s + k = row.length) (hts : t ≤ s)
    (h : renumberRowLoop tbl k s t row = .ok r) : ∀ e ∈ row.drop s, e.1 < tbl.length := by
  induction k generalizing s t row with
  | zero =>
    rw [List.drop_eq_nil_of_le (by omega)]
    intro e he; simp at he
  | succ k ih =>
    have hsl : s < row.length := by omega
    rcases hrow : row[s] with ⟨old, value⟩
    have hget : row[s]? = some (old, value) := by rw [List.getElem?_eq_getElem hsl, hrow]
    unfold renumberRowLoop at h
    rw [hget] at h
    simp only [] at h
    cases hold : tbl[old]? with
    | none => rw [hold] at h; exact Except.noConfusion h
    | some new =>
      rw [hold] at h
      simp only [] at h
      have hlt : old < tbl.length := by
        by_contra hcon
        rw [List.getElem?_eq_none (by omega)] at hold
        exact Option.noConfusion hold
      rw [List.drop_eq_getElem_cons hsl, hrow]
      intro e he
      rcases List.mem_cons.1 he with he | he
      · rw [he]; exact hlt
      · by_cases hnew : new = -1
        · rw [if_pos hnew] at h
          exact ih (s + 1) t row (by omega) (by omega) h e he
        · rw [if_neg hnew] at h
          by_cases htl : t < row.length
          · rw [if_pos htl] at h
            have := ih (s + 1) (t + 1) _ (by simp only [List.length_set]; omega) (by omega) h e
            apply this
            rw [List.drop_set_of_lt _ _ (by omega)]
            exact he
          · rw [if_neg htl] at h; exact Except.noConfusion h

theorem renumberRow_ok_cols (tbl : List Int) (row row1 : Row)
    (h : renumberRow tbl row = .ok row1) : ∀ e ∈ row, e.1 < tbl.length := by
  unfold renumberRow at h
  cases h1 : renumberRowLoop tbl row.length 0 0 row with
  | error f => rw [h1] at h; exact Except.noConfusion h
  | ok r =>
    have := renumberRowLoop_ok_cols tbl row.length 0 0 row r (by simp) (le_refl _) h1
    simpa using this
theorem compactRenumberRowsLoop_ok_cols (tbl : List Int) (k s t : Nat) (rows : List Row)
    (r : List Row × Nat) (hk : s + k = rows.length) (hts : t ≤ s)
    (h : compactRenumberRowsLoop tbl k s t rows = .ok r) :
    ∀ i, s ≤ i → ∀ v, tbl[i]? = some v → v ≠ -1 →
      ∀ e ∈ rows.getD i [], e.1 < tbl.length := by
  induction k generalizing s t rows with
  | zero =>
    intro i hi v _ _ e he
    rw [List.getD_eq_getElem?_getD, List.getElem?_eq_none (by omega)] at he
    simp at he
  | succ k ih =>
    have hsl : s < rows.length := by omega
    unfold compactRenumberRowsLoop at h
    cases hnew : tbl[s]? with
    | none => rw [hnew] at h; exact Except.noConfusion h
    | some new =>
      rw [hnew] at h
      simp only [] at h
      by_cases hn1 : new = -1
      · rw [if_pos hn1] at h
        intro i hi v hv hv1 e he
        by_cases his : i = s
        · subst his
          rw [hnew] at hv
          exact absurd ((Option.some.inj hv).symm.trans hn1) hv1
        · exact ih (s + 1) t rows (by omega) (by omega) h i (by omega) v hv hv1 e he
      · rw [if_neg hn1, List.getElem?_eq_getElem hsl] at h
        simp only [] at h
        cases hren : renumberRow tbl rows[s] with
        | error f => rw [hren] at h; exact Except.noConfusion h
        | ok source1 =>
          rw [hren] at h
          simp only [] at h
          have htl : t < (rows.set s source1).length := by
            simp only [List.length_set]; omega
          rw [List.getElem?_eq_getElem htl] at h
          simp only [] at h
          intro i hi v hv hv1 e he
          by_cases his : i = s
          · subst his
            rw [List.getD_eq_getElem _ _ hsl] at he
            exact renumberRow_ok_cols tbl _ source1 hren e he
          · have := ih (s + 1) (t + 1) _ (by simp only [List.length_set]; omega) (by omega) h
              i (by omega) v hv hv1 e
            apply this
            rw [List.getD_eq_getElem?_getD, List.getElem?_set, if_neg (by omega),
              List.getElem?_set, if_neg (by omega), List.getElem?_set, if_neg (by omega),
              ← List.getD_eq_getElem?_getD]
            exact he

theorem RemoveRowsColumns_sorted (M : SparseMatrix) (removed : List Int) (oneIndexed : Int)
    (M1 : SparseMatrix) (hs : SortedRows M.rows)
    (hv : ValidRemovalList M.GetNumRows removed oneIndexed)
    (h : M.RemoveRowsColumns removed oneIndexed = .ok M1) : SortedRows M1.rows := by
  obtain ⟨R, hR, hp, hhi, -, -⟩ := exists_zeroIndexed M.GetNumRows removed oneIndexed hv
  have hcols : ∀ i, i ∉ R → ∀ e ∈ M.rows.getD i [], e.1 < M.rows.length := by
    intro i hi e he
    have h0 := h
    unfold SparseMatrix.RemoveRowsColumns at h0
    rw [← hR, buildOldToNew_spec M.GetNumRows R oneIndexed hp hhi] at h0
    simp only [] at h0
    cases hloop : compactRenumberRowsLoop ((List.range M.GetNumRows).map (newIndex R))
        M.GetNumRows 0 0 M.rows with
    | error f => rw [hloop] at h0; exact Except.noConfusion h0
    | ok r =>
      have hil : i < M.rows.length := by
        by_contra hcon
        rw [List.getD_eq_getElem?_getD, List.getElem?_eq_none (by omega)] at he
        simp at he
      have := compactRenumberRowsLoop_ok_cols _ M.GetNumRows 0 0 M.rows r
        (by simp [SparseMatrix.GetNumRows]) (le_refl _) hloop i (Nat.zero_le _)
        (newIndex R i) (getElem?_table _ R i hil) (newIndex_not_mem R i hp hi).1 e he
      simpa [SparseMatrix.GetNumRows] using this
  rw [← hR, RemoveRowsColumns_eq M R oneIndexed hp hhi hcols] at h
  rw [notifySuperAll_rows _ _ M1 h]
  intro r hr
  unfold eliminated at hr
  obtain ⟨r0, hr0, rfl⟩ := List.mem_map.1 hr
  exact renumberEntries_sorted R r0 hp (hs r0 (keepIdx_subset _ _ _ r0 hr0))
theorem shiftBack_spec (pre rest : Row) (x : Nat × ℚ) :
    shiftBack rest.length pre.length (pre ++ x :: rest) =
      .ok (pre ++ (rest ++ (x :: rest).drop rest.length)) := by
  induction rest generalizing pre x with
  | nil => simp [shiftBack]
  | cons y ys ih =>
    have h1 : (pre ++ x :: y :: ys)[pre.length + 1]? = some y := by
      rw [List.getElem?_append_right (by omega)]
      simp
    have h2 : pre.length < (pre ++ x :: y :: ys).length := by simp
    have h3 : (pre ++ x :: y :: ys).set pre.length y = (pre ++ [y]) ++ y :: ys := by
      rw [List.set_append_right _ _ (le_refl _)]
      simp
    have h4 := ih (pre ++ [y]) y
    simp only [List.length_append, List.length_singleton] at h4
    simp only [List.length_cons, shiftBack, h1, h2, if_true, h3, h4]
    simp

theorem shiftSeekLoop_noMatch (index n j cached : Nat) (row : Row)
    (h : ∀ p, j ≤ p → p < cached → ∃ e, row[p]? = some e ∧ e.1 ≠ index) :
    shiftSeekLoop index n j cached row = .ok (row, cached) := by
  induction n generalizing j with
  | zero => rfl
  | succ n ih =>
    unfold shiftSeekLoop
    by_cases hj : j < cached
    · obtain ⟨e, he1, he2⟩ := h j (le_refl _) hj
      obtain ⟨c, a⟩ := e
      rw [if_pos hj, he1]
      simp only []
      rw [if_neg he2]
      exact ih (j + 1) (fun p hp1 hp2 => h p (by omega) hp2)
    · rw [if_neg hj]

theorem shiftSeekLoop_spec (index n : Nat) (pre suf : Row) (hs : RowSorted suf)
    (hn : suf.length ≤ n) :
    shiftSeekLoop index n pre.length (pre ++ suf).length (pre ++ suf) =
      .ok (pre ++ shiftOut index suf,
        (pre ++ suf).length - (if index ∈ suf.map Prod.fst then 1 else 0)) := by
  induction suf generalizing pre n with
  | nil =>
    cases n with
    | zero => simp [shiftSeekLoop, shiftOut]
    | succ n => simp [shiftSeekLoop, shiftOut]
  | cons e rest ih =>
    obtain ⟨c, a⟩ := e
    unfold RowSorted at hs
    rw [List.pairwise_cons] at hs
    cases n with
    | zero => simp at hn
    | succ n =>
      have hj : pre.length < (pre ++ (c, a) :: rest).length := by simp
      have hget : (pre ++ (c, a) :: rest)[pre.length]? = some (c, a) := by
        rw [List.getElem?_append_right (le_refl _)]
        simp
      unfold shiftSeekLoop
      rw [if_pos hj, hget]
      simp only []
      by_cases hc : c = index
      · have hlen : (pre ++ (c, a) :: rest).length - 1 - pre.length = rest.length := by
          simp only [List.length_append, List.length_cons]; omega
        rw [if_pos hc, hlen, shiftBack_spec pre rest (c, a)]
        simp only []
        rw [shiftSeekLoop_noMatch]
        · simp only [shiftOut, hc, if_true, List.map_cons, List.mem_cons, true_or]
        · intro p hp1 hp2
          simp only [List.length_append, List.length_cons] at hp2
          have hp3 : p - pre.length < rest.length := by omega
          refine ⟨rest[p - pre.length], ?_, ?_⟩
          · rw [List.getElem?_append_right (by omega),
              List.getElem?_append_left (by omega), List.getElem?_eq_getElem hp3]
          · have := hs.1 _ (List.getElem_mem hp3)
            simp only at this
            omega
      · rw [if_neg hc]
        have h1 := ih n (pre ++ [(c, a)]) hs.2 (by simpa using hn)
        simp only [List.length_append, List.length_singleton, List.append_assoc,
          List.singleton_append] at h1
        simp only [List.length_append, List.length_cons] at h1 ⊢
        rw [h1]
        have hiff : index ∈ ((c, a) :: rest).map Prod.fst ↔ index ∈ rest.map Prod.fst := by
          rw [List.map_cons, List.mem_cons]
          exact ⟨fun h => h.resolve_left (fun e => hc e.symm), Or.inr⟩
        simp only [shiftOut, hc, if_false]
        by_cases hm : index ∈ rest.map Prod.fst
        · rw [if_pos hm, if_pos (hiff.2 hm)]
        · rw [if_neg hm, if_neg (fun h => hm (hiff.1 h))]

theorem decrementAbove_prefix (index : Nat) (l1 l2 : Row) :
    decrementAbove index l1.length (l1 ++ l2) =
      .ok (l1.map (fun e => if index < e.1 then (e.1 - 1, e.2) else (e.1, e.2)) ++ l2) := by
  induction l1 with
  | nil =>
    cases l2 <;> rfl
  | cons e rest ih =>
    obtain ⟨c, a⟩ := e
    simp only [List.length_cons, List.cons_append, decrementAbove, List.append_eq, ih,
      List.map_cons]

theorem shiftOut_not_mem (index : Nat) (row : Row) (h : index ∉ row.map Prod.fst) :
    shiftOut index row = row := by
  induction row with
  | nil => rfl
  | cons e rest ih =>
    obtain ⟨c, a⟩ := e
    simp only [List.map_cons, List.mem_cons, not_or] at h
    have hc : ¬ c = index := fun e => h.1 e.symm
    simp only [shiftOut, hc, if_false, ih h.2]

theorem shiftOut_split (index : Nat) (v : ℚ) (s1 s2 : Row) (h : ∀ e ∈ s1, e.1 ≠ index) :
    shiftOut index (s1 ++ (index, v) :: s2) =
      s1 ++ (s2 ++ ((index, v) :: s2).drop s2.length) := by
  induction s1 with
  | nil => simp [shiftOut]
  | cons e rest ih =>
    obtain ⟨c, a⟩ := e
    have hc : ¬ c = index := h (c, a) (List.mem_cons_self _ _)
    simp only [List.cons_append, shiftOut, hc, if_false, List.append_eq,
      ih (fun e he => h e (List.mem_cons_of_mem _ he))]

theorem map_decrement_eq (index : Nat) (row : Row) (h : index ∉ row.map Prod.fst) :
    row.map (fun e => if index < e.1 then (e.1 - 1, e.2) else (e.1, e.2)) =
      renumberEntries [index] row := by
  rw [← filter_map_eq_renumberEntries]
  congr 1
  symm
  rw [List.filter_eq_self]
  intro e he
  simp only [decide_eq_true_eq]
  intro hcon
  exact h (List.mem_map.2 ⟨e, he, hcon⟩)

theorem last_is_largest (l : Row) (x : Nat × ℚ) (hs : RowSorted (x :: l)) :
    ∀ b ∈ (x :: l).drop l.length, ∀ a ∈ x :: l, a.1 ≤ b.1 := by
  induction l generalizing x with
  | nil =>
    intro b hb a ha
    simp only [List.length_nil, List.drop_zero, List.mem_singleton] at hb ha
    rw [hb, ha]
  | cons y ys ih =>
    unfold RowSorted at hs
    rw [List.pairwise_cons] at hs
    intro b hb a ha
    simp only [List.length_cons, List.drop_succ_cons] at hb
    rcases List.mem_cons.1 ha with ha | ha
    · rw [ha]
      exact le_of_lt (hs.1 b (List.mem_of_mem_drop hb))
    · exact ih y hs.2 b hb a ha

/-- On a row with strictly increasing columns the body of the row loop of `RemoveColumn`
returns a row with strictly increasing columns: the row without the removed column and with
the columns above it lowered, followed, when the column was stored, by the last entry of
the old row (the row vectors are not shortened). -/
theorem removeColumnFromRowShifting_sorted (index : Nat) (row : Row) (hs : RowSorted row) :
    ∃ row1, removeColumnFromRowShifting index row = .ok row1 ∧ RowSorted row1 ∧
      row1 = renumberEntries [index] row ++
        (if index ∈ row.map Prod.fst then row.drop (row.length - 1) else []) := by
  have hseek := shiftSeekLoop_spec index row.length [] row hs (le_refl _)
  simp only [List.nil_append, List.length_nil] at hseek
  by_cases hm : index ∈ row.map Prod.fst
  · obtain ⟨e, he, hei⟩ := List.mem_map.1 hm
    obtain ⟨s1, s2, hsplit⟩ := List.append_of_mem he
    obtain ⟨c, v⟩ := e
    simp only at hei
    subst hei
    subst hsplit
    unfold RowSorted at hs
    rw [List.pairwise_append, List.pairwise_cons] at hs
    obtain ⟨hs1, ⟨hs2a, hs2⟩, hs12⟩ := hs
    have h1 : ∀ e ∈ s1, e.1 ≠ c := fun e he => by
      have := hs12 e he (c, v) (List.mem_cons_self _ _)
      simp only at this
      omega
    have h2 : ∀ e ∈ s2, e.1 ≠ c := fun e he => by
      have := hs2a e he
      simp only at this
      omega
    have hnot : c ∉ (s1 ++ s2).map Prod.fst := by
      intro hcon
      obtain ⟨e, he, hec⟩ := List.mem_map.1 hcon
      rcases List.mem_append.1 he with he | he
      · exact h1 e he hec
      · exact h2 e he hec
    have hsort12 : RowSorted (s1 ++ s2) := by
      unfold RowSorted
      rw [List.pairwise_append]
      exact ⟨hs1, hs2, fun a ha b hb => hs12 a ha b (List.mem_cons_of_mem _ hb)⟩
    have hren : renumberEntries [c] (s1 ++ (c, v) :: s2) = renumberEntries [c] (s1 ++ s2) := by
      rw [renumberEntries_append, renumberEntries_append,
        renumberEntries_cons_mem [c] c v s2 (List.mem_singleton_self _)]
    have hlen : (s1 ++ (c, v) :: s2).length - 1 = (s1 ++ s2).length := by
      simp only [List.length_append, List.length_cons]; omega
    have hdrop : (s1 ++ (c, v) :: s2).drop ((s1 ++ (c, v) :: s2).length - 1) =
        ((c, v) :: s2).drop s2.length := by
      have : (s1 ++ (c, v) :: s2).length - 1 = s1.length + s2.length := by
        simp only [List.length_append, List.length_cons]; omega
      rw [this, List.drop_append]
    have hlargest := last_is_largest s2 (c, v) (by
      unfold RowSorted; rw [List.pairwise_cons]; exact ⟨hs2a, hs2⟩)
    have hsorted : RowSorted
        ((s1 ++ s2).map (fun e => if c < e.1 then (e.1 - 1, e.2) else (e.1, e.2)) ++
          ((c, v) :: s2).drop s2.length) := by
      unfold RowSorted
      rw [List.pairwise_append]
      refine ⟨?_, ?_, ?_⟩
      · rw [map_decrement_eq c (s1 ++ s2) hnot]
        exact renumberEntries_single_sorted c _ hsort12
      · exact List.Pairwise.sublist (List.drop_sublist _ _)
          (List.pairwise_cons.2 ⟨hs2a, hs2⟩)
      · intro a ha b hb
        obtain ⟨e, he, rfl⟩ := List.mem_map.1 ha
        have hcb : c ≤ b.1 := hlargest b hb (c, v) (List.mem_cons_self _ _)
        rcases List.mem_append.1 he with he | he
        · have hlt := hs12 e he (c, v) (List.mem_cons_self _ _)
          simp only at hlt
          rw [if_neg (by omega)]
          simp only
          omega
        · have hlt := hs2a e he
          have hle := hlargest b hb e (List.mem_cons_of_mem _ he)
          simp only at hlt
          rw [if_pos hlt]
          simp only
          omega
    have hdec := decrementAbove_prefix c (s1 ++ s2) (((c, v) :: s2).drop s2.length)
    rw [if_pos hm, shiftOut_split c v s1 s2 h1, ← List.append_assoc, hlen] at hseek
    refine ⟨_, by simp only [removeColumnFromRowShifting, hseek, hdec], hsorted, ?_⟩
    rw [if_pos hm, hdrop, hren, map_decrement_eq c (s1 ++ s2) hnot]
  · rw [if_neg hm] at hseek ⊢
    rw [shiftOut_not_mem index row hm] at hseek
    have hdec := decrementAbove_prefix index row []
    simp only [List.append_nil] at hdec
    refine ⟨renumberEntries [index] row, ?_, renumberEntries_single_sorted index row hs, by simp⟩
    simp only [removeColumnFromRowShifting, hseek, Nat.sub_zero, hdec,
      map_decrement_eq index row hm]
theorem RemoveColumn_sorted (M : SparseMatrix) (index : Nat) (M1 : SparseMatrix)
    (hs : SortedRows M.rows) (h : M.RemoveColumn index = .ok M1) : SortedRows M1.rows := by
  have hbody : ∀ row ∈ M.rows, removeColumnFromRowShifting index row =
      .ok (renumberEntries [index] row ++
        (if index ∈ row.map Prod.fst then row.drop (row.length - 1) else [])) := by
    intro row hrow
    obtain ⟨row1, h1, -, h3⟩ := removeColumnFromRowShifting_sorted index row (hs row hrow)
    rw [h1, h3]
  unfold SparseMatrix.RemoveColumn at h
  rw [forEachRow_spec _ _ M.rows hbody] at h
  rw [notifySuper_rows _ _ M1 h]
  intro r hr
  obtain ⟨r0, hr0, rfl⟩ := List.mem_map.1 hr
  obtain ⟨row1, -, h2, h3⟩ := removeColumnFromRowShifting_sorted index r0 (hs r0 hr0)
  rw [← h3]
  exact h2

/-! ### The mutations return under their preconditions -/

theorem RemoveRow_returns (M : SparseMatrix) (L : SparseSubMatrixLinkage) (index : Nat)
    (hl : M.superMatrixLinkage = some L) (hi : index < M.GetNumRows) :
    ∃ M1, M.RemoveRow index = .ok M1 := by
  obtain ⟨m1, -, h1, -, -⟩ := notifySuper_some { M with rows := M.rows.eraseIdx index }
    (.RemoveSuperRowFromSubMatrix index) L hl
  have hi1 : index < M.rows.length := hi
  exact ⟨m1, by simp only [SparseMatrix.RemoveRow, hi1, if_true, h1]⟩

theorem RemoveColumn_returns (M : SparseMatrix) (L : SparseSubMatrixLinkage) (index : Nat)
    (hs : SortedRows M.rows) (hl : M.superMatrixLinkage = some L) :
    ∃ M1, M.RemoveColumn index = .ok M1 := by
  have hbody : ∀ row ∈ M.rows, removeColumnFromRowShifting index row =
      .ok (renumberEntries [index] row ++
        (if index ∈ row.map Prod.fst then row.drop (row.length - 1) else [])) := by
    intro row hrow
    obtain ⟨row1, h1, -, h3⟩ := removeColumnFromRowShifting_sorted index row (hs row hrow)
    rw [h1, h3]
  obtain ⟨m1, -, h1, -, -⟩ := notifySuper_some
    { M with rows := M.rows.map (fun row => renumberEntries [index] row ++
        (if index ∈ row.map Prod.fst then row.drop (row.length - 1) else [])) }
    (.RemoveSuperColumnFromSubMatrix index) L hl
  exact ⟨m1, by simp only [SparseMatrix.RemoveColumn, forEachRow_spec _ _ M.rows hbody, h1]⟩

theorem RemoveRowColumn_returns (M : SparseMatrix) (L : SparseSubMatrixLinkage) (index : Nat)
    (hs : SortedRows M.rows) (hl : M.superMatrixLinkage = some L) (hi : index < M.GetNumRows) :
    ∃ M1, M.RemoveRowColumn index = .ok M1 := by
  obtain ⟨m1, -, h1, -, -⟩ := notifySuperAll_some
    { M with rows := (M.rows.eraseIdx index).map (renumberEntries [index]) }
    [.RemoveSuperRowFromSubMatrix index, .RemoveSuperColumnFromSubMatrix index] L hl
  exact ⟨m1, by rw [RemoveRowColumn_eq M index hi hs, h1]⟩

theorem RemoveRows_returns (M : SparseMatrix) (L : SparseSubMatrixLinkage)
    (removed : List Int) (oneIndexed : Int) (hl : M.superMatrixLinkage = some L)
    (hv : ValidRemovalList M.GetNumRows removed oneIndexed) :
    ∃ M1, M.RemoveRows removed oneIndexed = .ok M1 := by
  obtain ⟨R, hR, hp, hhi, -, -⟩ := exists_zeroIndexed M.GetNumRows removed oneIndexed hv
  obtain ⟨m1, -, h1, -, -⟩ := notifySuperAll_some
    { M with rows := keepIdx (fun j => decide (j ∈ R)) 0 M.rows }
    (removedRowCalls (asRemovalList R oneIndexed) oneIndexed) L hl
  exact ⟨m1, by rw [← hR, RemoveRows_eq M R oneIndexed hp hhi, h1]⟩

theorem RemoveColumns_returns (M : SparseMatrix) (L : SparseSubMatrixLinkage)
    (removed : List Int) (oneIndexed : Int) (n : Nat) (hl : M.superMatrixLinkage = some L)
    (hv : ValidRemovalList n removed oneIndexed) :
    ∃ M1, M.RemoveColumns removed oneIndexed = .ok M1 := by
  obtain ⟨R, hR, hp, -, -, -⟩ := exists_zeroIndexed n removed oneIndexed hv
  obtain ⟨m1, -, h1, -, -⟩ := notifySuperAll_some
    { M with rows := M.rows.map (renumberEntries R) }
    (removedColumnCalls (asRemovalList R oneIndexed) oneIndexed) L hl
  exact ⟨m1, by rw [← hR, RemoveColumns_eq M R oneIndexed hp, h1]⟩

theorem notifySubMatrices_returns (count : Nat → Nat) (call : RemapperCall)
    (links : List SparseSubMatrixLinkage) (h : ∀ l ∈ links, count l.subMatrix = 0) :
    ∃ links1, notifySubMatrices count call links = .ok links1 ∧
      ∀ l ∈ links1, count l.subMatrix = 0 := by
  induction links with
  | nil => exact ⟨[], rfl, fun l hl => by simp at hl⟩
  | cons l rest ih =>
    obtain ⟨rest1, h1, h2⟩ := ih (fun l hl => h l (List.mem_cons_of_mem _ hl))
    have hl0 := h l (List.mem_cons_self _ _)
    refine ⟨{ l with indexRemapper := l.indexRemapper ++ [call] } :: rest1, by
      simp only [notifySubMatrices, hl0, if_true, h1], fun l1 hl1 => ?_⟩
    rcases List.mem_cons.1 hl1 with hl1 | hl1
    · rw [hl1]; exact hl0
    · exact h2 l1 hl1

/-- The matrix has no super-matrix linkage and its sub-matrices record no linkage of their
own: the two asserts at the end of `InsertNewEntry` hold. -/
theorem InsertNewEntry_returns (M : SparseMatrix) (count : Nat → Nat) (r c : Nat) (row : Row)
    (hrow : M.rows[r]? = some row) (hc : c ∉ row.map Prod.fst)
    (hsuper : M.superMatrixLinkage = none)
    (hsubs : ∀ l ∈ M.subMatrixLinkages, count l.subMatrix = 0) :
    ∃ M1, M.InsertNewEntry count r c = .ok (lowerBound c row, M1) ∧
      M1.rows = M.rows.set r
        (row.take (lowerBound c row) ++ (c, 0) :: row.drop (lowerBound c row)) ∧
      M1.superMatrixLinkage = none ∧ ∀ l ∈ M1.subMatrixLinkages, count l.subMatrix = 0 := by
  have hr : r < M.rows.length := by
    by_contra hcon
    rw [List.getElem?_eq_none (by omega)] at hrow
    exact Option.noConfusion hrow
  obtain ⟨links1, hl1, hl2⟩ := notifySubMatrices_returns count
    (.OnEntryWasInsertedIntoSuperMatrix (r : Int) (c : Int)) M.subMatrixLinkages hsubs
  have h1 : (r : Int) < (M.GetNumRows : Int) := by
    simp only [SparseMatrix.GetNumRows]; omega
  have h2 : ¬ ((r : Int) < 0) := by omega
  refine ⟨{ M with
    rows := M.rows.set r
      (row.take (lowerBound c row) ++ (c, 0) :: row.drop (lowerBound c row)),
    subMatrixLinkages := links1 }, ?_, rfl, hsuper, hl2⟩
  simp only [SparseMatrix.InsertNewEntry, h1, if_true, SparseMatrix.GetInverseIndex, h2,
    if_false, Int.toNat_ofNat, hrow, inverseIndexLoop_not_mem c 0 _ hc, hl1, hsuper]

theorem insertionExample_sorted : SortedRows insertionExample.rows := by
  simp [SortedRows, RowSorted, insertionExample]

theorem squareExample_sorted : SortedRows squareExample.rows := by
  simp [SortedRows, RowSorted, squareExample]

/-! ### Sequences of linkage calls -/

theorem getElem?_set_some {α : Type} (l : List α) (i j : Nat) (x y : α)
    (h : (l.set i x)[j]? = some y) :
    (j = i ∧ y = x ∧ i < l.length) ∨ (j ≠ i ∧ l[j]? = some y) := by
  rw [List.getElem?_set] at h
  by_cases hij : i = j
  · rw [if_pos hij] at h
    by_cases hlt : i < l.length
    · rw [if_pos hlt] at h
      exact Or.inl ⟨hij.symm, (Option.some.inj h).symm, hlt⟩
    · rw [if_neg hlt] at h
      exact Option.noConfusion h
  · rw [if_neg hij] at h
    exact Or.inr ⟨fun e => hij e.symm, h⟩

theorem AttachSubMatrix_ok (m m1 : SparseMatrix) (self sub : Nat) (offset : Int)
    (link : SparseSubMatrixLinkage) (h : m.AttachSubMatrix self sub offset = (m1, .ok link)) :
    (∀ l ∈ m.subMatrixLinkages, l.subMatrix ≠ sub) ∧
      link = SparseSubMatrixLinkage.create self sub offset ∧
      m1 = { m with subMatrixLinkages := m.subMatrixLinkages ++ [link] } := by
  cases hex : m.GetExistingSubMatrixLinkage sub with
  | some l0 => simp [SparseMatrix.AttachSubMatrix, hex] at h
  | none =>
    simp only [SparseMatrix.AttachSubMatrix, hex, Prod.mk.injEq, Except.ok.injEq] at h
    obtain ⟨h1, h2⟩ := h
    subst h2
    exact ⟨(existingLinkageLoop_none sub _).1 hex, rfl, h1.symm⟩

theorem DetachSubMatrix_ok (m m1 : SparseMatrix) (matrix : Nat)
    (h : m.DetachSubMatrix matrix = (m1, .ok ())) :
    ∃ link, m1 = { m with subMatrixLinkages := m.subMatrixLinkages.erase link } := by
  cases hex : m.GetExistingSubMatrixLinkage matrix with
  | none => simp [SparseMatrix.DetachSubMatrix, hex] at h
  | some link =>
    simp only [SparseMatrix.DetachSubMatrix, hex, Prod.mk.injEq, and_true] at h
    exact ⟨link, h.symm⟩

/-- What a returning `AttachSuperMatrix` leaves: the super-matrix has one more child linkage,
the receiver has it as its parent linkage and had none before, nothing else changes. -/
theorem AttachSuperMatrix_ok (matrices matrices1 : List SparseMatrix) (t s : Nat)
    (offset : Int) (link : SparseSubMatrixLinkage)
    (h : AttachSuperMatrix matrices t s offset = (matrices1, .ok link)) :
    link = SparseSubMatrixLinkage.create s t offset ∧
      matrices1.length = matrices.length ∧
      (∃ T, matrices[t]? = some T ∧ T.superMatrixLinkage = none) ∧
      (∃ T1, matrices1[t]? = some T1 ∧ T1.superMatrixLinkage = some link) ∧
      ∀ (i : Nat) (M1 : SparseMatrix), matrices1[i]? = some M1 →
        ∃ M0, matrices[i]? = some M0 ∧
          (M1.subMatrixLinkages = M0.subMatrixLinkages ∨
            (i = s ∧ M1.subMatrixLinkages = M0.subMatrixLinkages ++ [link] ∧
              ∀ l ∈ M0.subMatrixLinkages, l.subMatrix ≠ t)) ∧
          (M1.superMatrixLinkage = M0.superMatrixLinkage ∨ i = t) := by
  cases hT : matrices[t]? with
  | none => simp [AttachSuperMatrix, hT] at h
  | some T =>
    by_cases hnone : T.superMatrixLinkage = none
    · cases hS : matrices[s]? with
      | none => simp [AttachSuperMatrix, hT, hnone, hS] at h
      | some S =>
        rcases hA : S.AttachSubMatrix s t offset with ⟨S1, l0 | link0⟩
        · simp [AttachSuperMatrix, hT, hnone, hS, hA] at h
        · simp only [AttachSuperMatrix, hT, hnone, if_true, hS, hA, Prod.mk.injEq,
            Except.ok.injEq] at h
          obtain ⟨h1, h2⟩ := h
          subst h2
          obtain ⟨g1, g2, g3⟩ := AttachSubMatrix_ok S S1 s t offset link0 hA
          have hslt : s < matrices.length := by
            by_contra hn
            rw [List.getElem?_eq_none (by omega)] at hS
            exact Option.noConfusion hS
          have hsetS : (matrices.set s S1)[s]? = some S1 := by simp [hslt]
          obtain ⟨T0, hT0, hT0link⟩ : ∃ T0, (matrices.set s S1)[t]? = some T0 ∧
              (T0 = S1 ∧ t = s ∨ T0 = T ∧ t ≠ s) := by
            by_cases hts : t = s
            · exact ⟨S1, by rw [hts]; exact hsetS, Or.inl ⟨rfl, hts⟩⟩
            · refine ⟨T, ?_, Or.inr ⟨rfl, hts⟩⟩
              rw [List.getElem?_set, if_neg (fun e => hts e.symm)]; exact hT
          obtain ⟨k1, k2⟩ := setSuperMatrixLinkage_getElem? (matrices.set s S1) t link0 T0 hT0
          rw [h1] at k1 k2
          have hlen : matrices1.length = matrices.length := by
            rw [← h1]
            simp [setSuperMatrixLinkage, hT0]
          refine ⟨g2, hlen, ⟨T, rfl, hnone⟩, ⟨_, k1, rfl⟩, fun i M1 hM1 => ?_⟩
          by_cases hit : i = t
          · subst hit
            rw [k1] at hM1
            have e := (Option.some.inj hM1).symm
            rcases hT0link with ⟨e1, e2⟩ | ⟨e1, e2⟩
            · refine ⟨S, by rw [e2]; exact hS, Or.inr ⟨e2, ?_, g1⟩, Or.inr rfl⟩
              rw [e, e1, g3]
            · exact ⟨T, hT, Or.inl (by rw [e, e1]), Or.inr rfl⟩
          · rw [k2 i hit] at hM1
            rcases getElem?_set_some _ _ _ _ _ hM1 with ⟨e1, e2, -⟩ | ⟨-, e2⟩
            · refine ⟨S, by rw [e1]; exact hS, Or.inr ⟨e1, by rw [e2, g3], g1⟩, Or.inl ?_⟩
              rw [e2, g3]
            · exact ⟨M1, e2, Or.inl rfl, Or.inl rfl⟩
    · simp [AttachSuperMatrix, hT, hnone] at h

theorem run_keeps_distinct_children (matrices state : List SparseMatrix) (call : LinkageCall)
    (hinv : ∀ (i : Nat) (m : SparseMatrix), matrices[i]? = some m →
      (m.subMatrixLinkages.map (·.subMatrix)).Nodup)
    (h : call.run matrices = .ok state) :
    ∀ (i : Nat) (m : SparseMatrix), state[i]? = some m →
      (m.subMatrixLinkages.map (·.subMatrix)).Nodup := by
  have happ : ∀ (links : List SparseSubMatrixLinkage) (link : SparseSubMatrixLinkage),
      (links.map (·.subMatrix)).Nodup → (∀ l ∈ links, l.subMatrix ≠ link.subMatrix) →
      ((links ++ [link]).map (·.subMatrix)).Nodup := by
    intro links link h1 h2
    rw [List.map_append, List.nodup_append]
    refine ⟨h1, by simp, ?_⟩
    intro a ha hb
    simp only [List.map_cons, List.map_nil, List.mem_singleton] at hb
    obtain ⟨l, hl, e⟩ := List.mem_map.1 ha
    exact h2 l hl (e.trans hb)
  intro i m hm
  cases call with
  | attachSubMatrix self sub offset =>
    simp only [LinkageCall.run] at h
    cases hself : matrices[self]? with
    | none => simp [hself] at h
    | some m0 =>
      rcases hA : m0.AttachSubMatrix self sub offset with ⟨m1, f | link⟩
      · simp [hself, hA] at h
      · simp only [hself, hA, Except.ok.injEq] at h
        subst h
        obtain ⟨g1, g2, g3⟩ := AttachSubMatrix_ok m0 m1 self sub offset link hA
        rcases getElem?_set_some _ _ _ _ _ hm with ⟨-, e2, -⟩ | ⟨-, e2⟩
        · rw [e2, g3]
          exact happ _ _ (hinv self m0 hself) (fun l hl => by rw [g2]; exact g1 l hl)
        · exact hinv i m e2
  | attachSuperMatrix self super offset =>
    simp only [LinkageCall.run] at h
    rcases hA : AttachSuperMatrix matrices self super offset with ⟨ms, f | link⟩
    · simp [hA] at h
    · simp only [hA, Except.ok.injEq] at h
      subst h
      obtain ⟨g1, -, -, -, g4⟩ := AttachSuperMatrix_ok matrices ms self super offset link hA
      obtain ⟨M0, hM0, hl | ⟨-, hl, hne⟩, -⟩ := g4 i m hm
      · rw [hl]; exact hinv i M0 hM0
      · rw [hl]
        exact happ _ _ (hinv i M0 hM0) (fun l hl => by rw [g1]; exact hne l hl)
  | detachSubMatrix self matrix =>
    simp only [LinkageCall.run] at h
    cases hself : matrices[self]? with
    | none => simp [hself] at h
    | some m0 =>
      rcases hA : m0.DetachSubMatrix matrix with ⟨m1, f | u⟩
      · simp [hself, hA] at h
      · simp only [hself, hA, Except.ok.injEq] at h
        subst h
        obtain ⟨link, g⟩ := DetachSubMatrix_ok m0 m1 matrix hA
        rcases getElem?_set_some _ _ _ _ _ hm with ⟨-, e2, -⟩ | ⟨-, e2⟩
        · rw [e2, g]
          exact (hinv self m0 hself).sublist ((List.erase_sublist _ _).map _)
        · exact hinv i m e2

theorem getElem?_of_length_eq {α : Type} (l l1 : List α) (j : Nat) (x : α)
    (hlen : l1.length = l.length) (h : l[j]? = some x) : ∃ y, l1[j]? = some y := by
  have hlt : j < l.length := by
    by_contra hn
    rw [List.getElem?_eq_none (by omega)] at h
    exact Option.noConfusion h
  exact ⟨l1[j], List.getElem?_eq_getElem (by omega)⟩

theorem run_keeps_parent_known (matrices state : List SparseMatrix) (call : LinkageCall)
    (hinv : ChildrenKnowParent matrices) (hcall : call.isDirectAttach = false)
    (h : call.run matrices = .ok state) : ChildrenKnowParent state := by
  intro s m hm l hl
  cases call with
  | attachSubMatrix self sub offset => simp [LinkageCall.isDirectAttach] at hcall
  | attachSuperMatrix self super offset =>
    simp only [LinkageCall.run] at h
    rcases hA : AttachSuperMatrix matrices self super offset with ⟨ms, f | link⟩
    · simp [hA] at h
    · simp only [hA, Except.ok.injEq] at h
      subst h
      obtain ⟨g1, hlen, ⟨T, hT, hTnone⟩, ⟨T1, hT1, hT1link⟩, g4⟩ :=
        AttachSuperMatrix_ok matrices ms self super offset link hA
      obtain ⟨M0, hM0, hlinks, -⟩ := g4 s m hm
      have hold : l ∈ M0.subMatrixLinkages →
          ∃ t l2, ms[l.subMatrix]? = some t ∧ t.superMatrixLinkage = some l2 ∧
            l2.superMatrix = s := by
        intro hl0
        obtain ⟨t, l2, ht, htl, hsup⟩ := hinv s M0 hM0 l hl0
        have hne : l.subMatrix ≠ self := by
          intro e
          rw [e, hT] at ht
          rw [← Option.some.inj ht, hTnone] at htl
          exact Option.noConfusion htl
        obtain ⟨t1, ht1⟩ := getElem?_of_length_eq matrices ms _ t hlen ht
        obtain ⟨t0, ht0, -, hsuper⟩ := g4 _ t1 ht1
        rcases hsuper with hsuper | hsuper
        · refine ⟨t1, l2, ht1, ?_, hsup⟩
          rw [hsuper, ← Option.some.inj (ht.symm.trans ht0)]
          exact htl
        · exact absurd hsuper hne
      rcases hlinks with e | ⟨e1, e2, -⟩
      · exact hold (e ▸ hl)
      · rw [e2] at hl
        rcases List.mem_append.1 hl with hl | hl
        · exact hold hl
        · rw [List.mem_singleton] at hl
          refine ⟨T1, link, ?_, hT1link, ?_⟩
          · rw [hl, g1]; exact hT1
          · rw [g1, e1]; rfl
  | detachSubMatrix self matrix =>
    simp only [LinkageCall.run] at h
    cases hself : matrices[self]? with
    | none => simp [hself] at h
    | some m0 =>
      rcases hA : m0.DetachSubMatrix matrix with ⟨m1, f | u⟩
      · simp [hself, hA] at h
      · simp only [hself, hA, Except.ok.injEq] at h
        subst h
        obtain ⟨link, g⟩ := DetachSubMatrix_ok m0 m1 matrix hA
        have hkeep : ∀ (j : Nat) (t : SparseMatrix), matrices[j]? = some t →
            ∃ t1, (matrices.set self m1)[j]? = some t1 ∧
              t1.superMatrixLinkage = t.superMatrixLinkage := by
          intro j t ht
          by_cases hj : j = self
          · subst hj
            have hlt : j < matrices.length := by
              by_contra hn
              rw [List.getElem?_eq_none (by omega)] at ht
              exact Option.noConfusion ht
            refine ⟨m1, by simp [hlt], ?_⟩
            rw [g, ← Option.some.inj (hself.symm.trans ht)]
          · exact ⟨t, by rw [List.getElem?_set, if_neg (fun e => hj e.symm)]; exact ht, rfl⟩
        have hold : ∀ M0, matrices[s]? = some M0 → l ∈ M0.subMatrixLinkages →
            ∃ t l2, (matrices.set self m1)[l.subMatrix]? = some t ∧
              t.superMatrixLinkage = some l2 ∧ l2.superMatrix = s := by
          intro M0 hM0 hl0
          obtain ⟨t, l2, ht, htl, hsup⟩ := hinv s M0 hM0 l hl0
          obtain ⟨t1, ht1, hsame⟩ := hkeep _ t ht
          exact ⟨t1, l2, ht1, by rw [hsame]; exact htl, hsup⟩
        rcases getElem?_set_some _ _ _ _ _ hm with ⟨e1, e2, -⟩ | ⟨-, e2⟩
        · rw [e2, g] at hl
          exact hold m0 (by rw [e1]; exact hself) (List.mem_of_mem_erase hl)
        · exact hold m e2 hl

theorem runLinkageCalls_invariants (calls : List LinkageCall) (matrices state : List SparseMatrix)
    (hrun : runLinkageCalls calls matrices = .ok state) :
    ((∀ (i : Nat) (m : SparseMatrix), matrices[i]? = some m →
        (m.subMatrixLinkages.map (·.subMatrix)).Nodup) →
      ∀ (i : Nat) (m : SparseMatrix), state[i]? = some m →
        (m.subMatrixLinkages.map (·.subMatrix)).Nodup) ∧
      (ChildrenKnowParent matrices → (∀ c ∈ calls, c.isDirectAttach = false) →
        ChildrenKnowParent state) := by
  induction calls generalizing matrices with
  | nil =>
    simp only [runLinkageCalls, Except.ok.injEq] at hrun
    subst hrun
    exact ⟨fun h => h, fun h _ => h⟩
  | cons call rest ih =>
    simp only [runLinkageCalls] at hrun
    cases hstep : call.run matrices with
    | error f => simp [hstep] at hrun
    | ok matrices1 =>
      simp only [hstep] at hrun
      obtain ⟨ih1, ih2⟩ := ih matrices1 hrun
      refine ⟨fun h => ih1 (run_keeps_distinct_children matrices matrices1 call h hstep),
        fun h hc => ih2 (run_keeps_parent_known matrices matrices1 call h
          (hc call (List.mem_cons_self _ _)) hstep)
          (fun c hcm => hc c (List.mem_cons_of_mem _ hcm))⟩

theorem singleParent_of_childrenKnowParent (matrices : List SparseMatrix)
    (h : ChildrenKnowParent matrices) : SingleParent matrices := by
  intro t s1 s2 ⟨m1, hm1, l1, hl1, e1⟩ ⟨m2, hm2, l2, hl2, e2⟩
  obtain ⟨t1, p1, ht1, hp1, hs1⟩ := h s1 m1 hm1 l1 hl1
  obtain ⟨t2, p2, ht2, hp2, hs2⟩ := h s2 m2 hm2 l2 hl2
  rw [e1] at ht1
  rw [e2, ht1] at ht2
  rw [← Option.some.inj ht2, hp1] at hp2
  rw [← hs1, ← hs2, Option.some.inj hp2]

theorem unlinked_invariants (matrices : List SparseMatrix) (h : Unlinked matrices) :
    (∀ (i : Nat) (m : SparseMatrix), matrices[i]? = some m →
        (m.subMatrixLinkages.map (·.subMatrix)).Nodup) ∧ ChildrenKnowParent matrices := by
  refine ⟨fun i m hm => ?_, fun s m hm l hl => ?_⟩
  · rw [(h m (List.getElem?_mem hm)).1]; exact List.nodup_nil
  · rw [(h m (List.getElem?_mem hm)).1] at hl
    exact absurd hl (List.not_mem_nil _)

/-- C21 (as stated, refuted): from the three unlinked matrices of `unlinkedTriple`, the calls
`AttachSubMatrix(2, 0)` on the matrix with handle `0` and then on the matrix with handle `1`
both return (each checks only its own child list), and leave the matrix with handle `2` as
the sub-matrix of linkages recorded by two super-matrices. -/
theorem AttachSubMatrix_two_supers_counterexample :
    Unlinked unlinkedTriple ∧
      runLinkageCalls [.attachSubMatrix 0 2 0, .attachSubMatrix 1 2 0] unlinkedTriple =
        .ok twoSupersExample ∧
      RecordsSubMatrix twoSupersExample 0 2 ∧ RecordsSubMatrix twoSupersExample 1 2 ∧
      ¬ SingleParent twoSupersExample := by
  have h0 : RecordsSubMatrix twoSupersExample 0 2 :=
    ⟨_, rfl, SparseSubMatrixLinkage.create 0 2 0, List.mem_cons_self _ _, rfl⟩
  have h1 : RecordsSubMatrix twoSupersExample 1 2 :=
    ⟨_, rfl, SparseSubMatrixLinkage.create 1 2 0, List.mem_cons_self _ _, rfl⟩
  refine ⟨?_, rfl, h0, h1, fun h => absurd (h 2 0 1 h0 h1) (by decide)⟩
  intro m hm
  simp only [unlinkedTriple, List.mem_cons, List.mem_singleton, List.not_mem_nil,
    or_false] at hm
  rcases hm with rfl | rfl | rfl <;> exact ⟨rfl, rfl⟩

/-- C21 (amended): single parent through `AttachSuperMatrix`. In every state that a sequence
of returning calls of `AttachSubMatrix(sub, offset)`, `AttachSuperMatrix` and
`DetachSubMatrix` reaches from unlinked matrices, no matrix records two linkages to the same
sub-matrix; and when no call of the sequence is a direct `AttachSubMatrix(sub, offset)`,
every recorded linkage leads to a sub-matrix whose parent linkage names the recording
matrix, so that each matrix is the sub-matrix of linkages recorded by at most one
super-matrix. -/
theorem single_parent_through_AttachSuperMatrix (matrices state : List SparseMatrix)
    (calls : List LinkageCall) (h0 : Unlinked matrices)
    (hrun : runLinkageCalls calls matrices = .ok state) :
    (∀ m ∈ state, (m.subMatrixLinkages.map (·.subMatrix)).Nodup) ∧
      ((∀ c ∈ calls, c.isDirectAttach = false) →
        ChildrenKnowParent state ∧ SingleParent state) := by
  obtain ⟨u1, u2⟩ := unlinked_invariants matrices h0
  obtain ⟨i1, i2⟩ := runLinkageCalls_invariants calls matrices state hrun
  refine ⟨fun m hm => ?_, fun hc => ⟨i2 u2 hc, singleParent_of_childrenKnowParent _ (i2 u2 hc)⟩⟩
  obtain ⟨i, hi, e⟩ := List.getElem_of_mem hm
  exact i1 u1 i m (by rw [List.getElem?_eq_getElem hi, e])

/-- Witness for C21 (amended): from the two unlinked matrices of `unlinkedPair`, the matrix
with handle `1` attaches itself to the one with handle `0` and is detached again. -/
theorem single_parent_through_AttachSuperMatrix_witness :
    Unlinked unlinkedPair ∧
      ∃ state, runLinkageCalls [.attachSuperMatrix 1 0 0, .detachSubMatrix 0 1] unlinkedPair =
          .ok state ∧
        (∀ m ∈ state, (m.subMatrixLinkages.map (·.subMatrix)).Nodup) ∧
        ChildrenKnowParent state ∧ SingleParent state := by
  have hu : Unlinked unlinkedPair := by
    intro m hm
    simp only [unlinkedPair, List.mem_cons, List.mem_singleton, List.not_mem_nil,
      or_false] at hm
    rcases hm with rfl | rfl <;> exact ⟨rfl, rfl⟩
  exact ⟨hu, _, rfl,
    (single_parent_through_AttachSuperMatrix unlinkedPair _
      [.attachSuperMatrix 1 0 0, .detachSubMatrix 0 1] hu rfl).1,
    (single_parent_through_AttachSuperMatrix unlinkedPair _
      [.attachSuperMatrix 1 0 0, .detachSubMatrix 0 1] hu rfl).2 (by decide)⟩

/-! ### Column removal with trailing empty columns -/

theorem renumberEntries_of_all_above (R : List Nat) (row : Row)
    (h : ∀ e ∈ row, ∀ r ∈ R, e.1 < r) : renumberEntries R row = row := by
  induction row with
  | nil => rfl
  | cons e rest ih =>
    have he : ∀ r ∈ R, e.1 < r := h e (List.mem_cons_self _ _)
    have hmem : e.1 ∉ R := fun hm => absurd (he e.1 hm) (lt_irrefl _)
    have hcount : R.countP (· < e.1) = 0 := by
      rw [List.countP_eq_zero]
      intro r hr
      have := he r hr
      simp only [decide_eq_true_eq]
      omega
    have ih1 := ih (fun e1 he1 => h e1 (List.mem_cons_of_mem _ he1))
    simp only [renumberEntries] at ih1 ⊢
    rw [List.filterMap_cons]
    simp only [hmem, if_false, hcount, Nat.sub_zero, ih1]

/-- C22: `RemoveColumns` with trailing empty columns. For every matrix and every strictly
ascending list `R` of column indices (read with either flag; members at or beyond
`GetNumColumns()` allowed), the table is built over `N` columns, `N` being the larger of
`GetNumColumns()` and one past the largest member: every write into the table and every read
`oldToNew[oldIndex]` of a stored column is in bounds, and the entry loop leaves in every row
the entries whose column is not in `R`, each with its value and with its column lowered by
the number of members of `R` below it. These rows are handed to the notification of the
super-linkage, so with a super-linkage the call returns them. If every member of `R` is at
or beyond `GetNumColumns()` the rows are the ones the matrix had. -/
theorem RemoveColumns_handles_trailing_columns (M : SparseMatrix) (R : List Nat)
    (oneIndexed : Int) (hs : R.Pairwise (· < ·)) :
    (∃ N oldToNew,
        N = (neededNumColumns oneIndexed (asRemovalList R oneIndexed) M.GetNumColumns).toNat ∧
        buildOldToNew N (asRemovalList R oneIndexed) oneIndexed = .ok oldToNew ∧
        oldToNew.length = N ∧ M.GetNumColumns ≤ N ∧ (∀ r ∈ R, r < N) ∧
        (∀ row ∈ M.rows, ∀ e ∈ row, e.1 < oldToNew.length) ∧
        forEachRow (renumberRow oldToNew) M.rows = .ok (M.rows.map (renumberEntries R))) ∧
      M.RemoveColumns (asRemovalList R oneIndexed) oneIndexed =
        ({ M with rows := M.rows.map (renumberEntries R) }).notifySuperAll
          (removedColumnCalls (asRemovalList R oneIndexed) oneIndexed) ∧
      (∀ L, M.superMatrixLinkage = some L →
        ∃ M1, M.RemoveColumns (asRemovalList R oneIndexed) oneIndexed = .ok M1 ∧
          M1.rows = M.rows.map (renumberEntries R)) ∧
      ((∀ r ∈ R, M.GetNumColumns ≤ r) → M.rows.map (renumberEntries R) = M.rows) := by
  obtain ⟨h1, h2⟩ := neededNumColumns_spec oneIndexed R (M.GetNumColumns : Int)
  refine ⟨?_, RemoveColumns_eq M R oneIndexed hs, fun L hL => ?_, fun hall => ?_⟩
  · generalize hN : (neededNumColumns oneIndexed (asRemovalList R oneIndexed)
      (M.GetNumColumns : Int)).toNat = N at *
    have hge : M.GetNumColumns ≤ N := by omega
    have hR : ∀ r ∈ R, r < N := fun r hr => by have := h2 r hr; omega
    have hcol : ∀ row ∈ M.rows, ∀ e ∈ row, e.1 < N := fun row hrow e he => by
      have := column_lt_GetNumColumns M row hrow e he
      omega
    refine ⟨N, _, rfl, buildOldToNew_spec N R oneIndexed hs hR, by simp, hge, hR,
      by simpa using hcol, ?_⟩
    exact forEachRow_spec (renumberRow ((List.range N).map (newIndex R)))
      (renumberEntries R) M.rows (fun row hrow => renumberRow_spec N R hs row (hcol row hrow))
  · obtain ⟨M1, _, hM1, hrows, -⟩ :=
      notifySuperAll_some { M with rows := M.rows.map (renumberEntries R) }
        (removedColumnCalls (asRemovalList R oneIndexed) oneIndexed) L hL
    exact ⟨M1, by rw [RemoveColumns_eq M R oneIndexed hs, hM1], hrows⟩
  · conv_rhs => rw [← List.map_id M.rows]
    apply List.map_congr_left
    intro row hrow
    exact renumberEntries_of_all_above R row (fun e he r hr => by
      have := column_lt_GetNumColumns M row hrow e he
      have := hall r hr
      omega)

/-- Witness for C22 on the example matrix (3 columns): removing the columns `1` and `7`
leaves `[(0,2)], [(0,1)], [(1,5)]`, and removing the columns `5` and `7` leaves the rows as
they were. -/
theorem RemoveColumns_handles_trailing_columns_witness :
    (∃ M1, exampleMatrix.RemoveColumns (asRemovalList [1, 7] 0) 0 = .ok M1 ∧
        M1.rows = exampleMatrix.rows.map (renumberEntries [1, 7]) ∧
        M1.rows = [[(0, 2)], [(0, 1)], [(1, 5)]]) ∧
      (∃ M1, exampleMatrix.RemoveColumns (asRemovalList [5, 7] 1) 1 = .ok M1 ∧
        M1.rows = exampleMatrix.rows) := by
  obtain ⟨M1, h1, h2⟩ := (RemoveColumns_handles_trailing_columns exampleMatrix [1, 7] 0
    (by decide)).2.2.1 exampleLinkage rfl
  obtain ⟨M2, h3, h4⟩ := (RemoveColumns_handles_trailing_columns exampleMatrix [5, 7] 1
    (by decide)).2.2.1 exampleLinkage rfl
  have h5 := (RemoveColumns_handles_trailing_columns exampleMatrix [5, 7] 1
    (by decide)).2.2.2 (by decide)
  refine ⟨⟨M1, h1, h2, ?_⟩, ⟨M2, h3, h4.trans h5⟩⟩
  rw [h2]
  decide

/-! ### Removal on a matrix without a super-matrix linkage -/

theorem inverseIndexLoop_position (c j : Nat) (row : Row) :
    (inverseIndexLoop c j row = -1 ∧ c ∉ row.map Prod.fst) ∨
      ∃ p, inverseIndexLoop c j row = ((j + p : Nat) : Int) ∧
        (row[p]?).map Prod.fst = some c ∧ ∀ q, q < p → (row[q]?).map Prod.fst ≠ some c := by
  induction row generalizing j with
  | nil => exact Or.inl ⟨rfl, by simp⟩
  | cons e rest ih =>
    obtain ⟨c0, a⟩ := e
    simp only [inverseIndexLoop]
    by_cases h0 : c0 = c
    · rw [if_pos h0]
      exact Or.inr ⟨0, rfl, by simp [h0], fun q hq => absurd hq (Nat.not_lt_zero q)⟩
    · rw [if_neg h0]
      rcases ih (j + 1) with ⟨h1, h2⟩ | ⟨p, h1, h2, h3⟩
      · refine Or.inl ⟨h1, ?_⟩
        simp only [List.map_cons, List.mem_cons, not_or]
        exact ⟨fun e => h0 e.symm, h2⟩
      · refine Or.inr ⟨p + 1, by rw [h1]; congr 1; omega, by simpa using h2, fun q hq => ?_⟩
        cases q with
        | zero => simpa using h0
        | succ q => simpa using h3 q (by omega)

theorem isPositionOf_inverseIndexLoop (c : Nat) (row : Row) :
    IsPositionOf row c (inverseIndexLoop c 0 row) := by
  rcases inverseIndexLoop_position c 0 row with h | ⟨p, h1, h2, h3⟩
  · exact Or.inl h
  · rw [h1]
    simp only [Nat.zero_add]
    exact Or.inr ⟨Int.natCast_nonneg p, by simpa using h2, fun j hj => h3 j (by simpa using hj)⟩

theorem isPositionOf_unique (row : Row) (c : Nat) (t1 t2 : Int) (h1 : IsPositionOf row c t1)
    (h2 : IsPositionOf row c t2) : t1 = t2 := by
  have hmem : ∀ t : Int, 0 ≤ t → (row[t.toNat]?).map Prod.fst = some c →
      c ∈ row.map Prod.fst := by
    intro t _ ht
    obtain ⟨e, he, hc⟩ := Option.map_eq_some'.1 ht
    exact List.mem_map.2 ⟨e, List.getElem?_mem he, hc⟩
  rcases h1 with ⟨e1, n1⟩ | ⟨p1, g1, l1⟩ <;> rcases h2 with ⟨e2, n2⟩ | ⟨p2, g2, l2⟩
  · rw [e1, e2]
  · exact absurd (hmem t2 p2 g2) n1
  · exact absurd (hmem t1 p1 g1) n2
  · have ha : ¬ t1.toNat < t2.toNat := fun h => l2 _ h g1
    have hb : ¬ t2.toNat < t1.toNat := fun h => l1 _ h g2
    omega

theorem buildDiagonalLoop_spec (m : SparseMatrix) (n i : Nat) (indices : List Int)
    (hlen : indices.length = m.rows.length) (hn : i + n = m.rows.length) :
    ∃ indices1, buildDiagonalLoop m n i indices = .ok indices1 ∧
      indices1.length = m.rows.length ∧
      (∀ k, k < i → indices1[k]? = indices[k]?) ∧
      ∀ (k : Nat) (row : Row), i ≤ k → m.rows[k]? = some row →
        indices1[k]? = some (inverseIndexLoop k 0 row) := by
  induction n generalizing i indices with
  | zero =>
    refine ⟨indices, rfl, hlen, fun _ _ => rfl, fun k row hk hrow => ?_⟩
    have : k < m.rows.length := by
      by_contra hc
      rw [List.getElem?_eq_none (by omega)] at hrow
      exact Option.noConfusion hrow
    omega
  | succ n ih =>
    have hi : i < m.rows.length := by omega
    have hrow : m.rows[i]? = some m.rows[i] := List.getElem?_eq_getElem hi
    have hget : m.GetInverseIndex (i : Int) i = .ok (inverseIndexLoop i 0 m.rows[i]) := by
      simp only [SparseMatrix.GetInverseIndex, Int.toNat_ofNat, hrow]
      rw [if_neg (by omega)]
    obtain ⟨indices1, h1, h2, h3, h4⟩ := ih (i + 1)
      (indices.set i (inverseIndexLoop i 0 m.rows[i])) (by simpa using hlen) (by omega)
    refine ⟨indices1, ?_, h2, fun k hk => ?_, fun k row hk hkrow => ?_⟩
    · simp only [buildDiagonalLoop, hget, hlen, hi, if_true, h1]
    · rw [h3 k (by omega), List.getElem?_set, if_neg (by omega)]
    · by_cases hki : k = i
      · subst hki
        rw [h3 k (by omega), List.getElem?_set, if_pos rfl, if_pos (by omega)]
        rw [hrow] at hkrow
        rw [Option.some.inj hkrow]
      · exact h4 k row (by omega) hkrow

theorem BuildDiagonalIndices_spec (m : SparseMatrix) (h : m.HasCachedDiagonalIndices = false) :
    ∃ indices, m.BuildDiagonalIndices = .ok { m with diagonalIndices := indices } ∧
      indices.length = m.rows.length ∧
      ∀ (i : Nat) (row : Row), m.rows[i]? = some row →
        indices[i]? = some (inverseIndexLoop i 0 row) := by
  have hlen : (resizeIndices m.diagonalIndices m.GetNumRows).length = m.rows.length := by
    simp only [resizeIndices, SparseMatrix.GetNumRows, List.length_append, List.length_take,
      List.length_replicate]
    omega
  obtain ⟨indices, h1, h2, -, h4⟩ := buildDiagonalLoop_spec m m.GetNumRows 0 _ hlen
    (by simp [SparseMatrix.GetNumRows])
  exact ⟨indices, by simp only [SparseMatrix.BuildDiagonalIndices, h, h1]; rfl, h2,
    fun i row hrow => h4 i row (Nat.zero_le _) hrow⟩

/-- C24: diagonal cache content and idempotent build. On a matrix with no diagonal cache
`BuildDiagonalIndices()` returns and changes the cache alone, which then holds one index per
row: for row `i`, `-1` when the row stores no entry with column `i`, otherwise the position
within the row of the (first) entry whose column is `i`. On a matrix whose cache is built
the call changes nothing, so a second build after any build changes nothing; and
`FreeDiagonalIndices()` followed by `BuildDiagonalIndices()` yields the cache computed from
the current rows, whatever the cache held before. -/
theorem BuildDiagonalIndices_contract (m : SparseMatrix) :
    (m.HasCachedDiagonalIndices = false →
        ∃ indices, m.BuildDiagonalIndices = .ok { m with diagonalIndices := indices } ∧
          indices.length = m.GetNumRows ∧
          ∀ (i : Nat) (row : Row), m.rows[i]? = some row →
            ∃ t, indices[i]? = some t ∧ IsPositionOf row i t) ∧
      (m.HasCachedDiagonalIndices = true → m.BuildDiagonalIndices = .ok m) ∧
      (∃ m1, m.BuildDiagonalIndices = .ok m1 ∧ m1.BuildDiagonalIndices = .ok m1) ∧
      (m.FreeDiagonalIndices.HasCachedDiagonalIndices = false ∧
        ∃ indices, m.FreeDiagonalIndices.BuildDiagonalIndices =
            .ok { m with diagonalIndices := indices } ∧
          indices.length = m.GetNumRows ∧
          ∀ (i : Nat) (row : Row), m.rows[i]? = some row →
            ∃ t, indices[i]? = some t ∧ IsPositionOf row i t) := by
  have hcached : ∀ x : SparseMatrix, x.HasCachedDiagonalIndices = true →
      x.BuildDiagonalIndices = .ok x := fun x hx => by
    simp only [SparseMatrix.BuildDiagonalIndices, hx, if_true]
  have hfresh : ∀ x : SparseMatrix, x.HasCachedDiagonalIndices = false →
      ∃ indices, x.BuildDiagonalIndices = .ok { x with diagonalIndices := indices } ∧
        indices.length = x.GetNumRows ∧
        ∀ (i : Nat) (row : Row), x.rows[i]? = some row →
          ∃ t, indices[i]? = some t ∧ IsPositionOf row i t := fun x hx => by
    obtain ⟨indices, h1, h2, h3⟩ := BuildDiagonalIndices_spec x hx
    exact ⟨indices, h1, h2, fun i row hrow =>
      ⟨_, h3 i row hrow, isPositionOf_inverseIndexLoop i row⟩⟩
  refine ⟨hfresh m, hcached m, ?_, rfl, hfresh m.FreeDiagonalIndices rfl⟩
  cases hm : m.HasCachedDiagonalIndices with
  | true => exact ⟨m, hcached m hm, hcached m hm⟩
  | false =>
    obtain ⟨indices, h1, h2, -⟩ := BuildDiagonalIndices_spec m hm
    refine ⟨_, h1, ?_⟩
    cases hx : ({ m with diagonalIndices := indices } : SparseMatrix).HasCachedDiagonalIndices with
    | true => exact hcached _ hx
    | false =>
      obtain ⟨indices1, g1, g2, -⟩ := BuildDiagonalIndices_spec _ hx
      rw [g1]
      have e0 : indices = [] := by
        simpa [SparseMatrix.HasCachedDiagonalIndices] using hx
      have e1 : indices1 = [] := by
        apply List.eq_nil_of_length_eq_zero
        rw [g2, ← h2, e0]; rfl
      rw [e1, e0]

/-- Witness for C24 on `missingDiagonalExample`, whose row `1` stores no diagonal entry: the
cache built is `0, -1, 0`, also after a cache `7, 7, 7` has been freed. -/
theorem BuildDiagonalIndices_contract_witness :
    (∃ indices, missingDiagonalExample.BuildDiagonalIndices =
          .ok { missingDiagonalExample with diagonalIndices := indices } ∧
        indices.length = missingDiagonalExample.GetNumRows ∧
        ∀ (i : Nat) (row : Row), missingDiagonalExample.rows[i]? = some row →
          ∃ t, indices[i]? = some t ∧ IsPositionOf row i t) ∧
      missingDiagonalExample.BuildDiagonalIndices =
        .ok { missingDiagonalExample with diagonalIndices := [0, -1, 0] } ∧
      ({ missingDiagonalExample with diagonalIndices := [7, 7, 7] } :
          SparseMatrix).BuildDiagonalIndices =
        .ok { missingDiagonalExample with diagonalIndices := [7, 7, 7] } ∧
      ({ missingDiagonalExample with diagonalIndices := [7, 7, 7] } :
          SparseMatrix).FreeDiagonalIndices.BuildDiagonalIndices =
        .ok { missingDiagonalExample with diagonalIndices := [0, -1, 0] } :=
  ⟨(BuildDiagonalIndices_contract missingDiagonalExample).1 rfl, rfl,
    (BuildDiagonalIndices_contract
      { missingDiagonalExample with diagonalIndices := [7, 7, 7] }).2.1 rfl, rfl⟩

/-! ### Row norm -/

theorem rowNorm2Loop_eq (row : Row) (norm2 : ℚ) :
    rowNorm2Loop row norm2 = norm2 + sumOfSquares row := by
  induction row generalizing norm2 with
  | nil => simp [rowNorm2Loop, sumOfSquares]
  | cons e rest ih =>
    obtain ⟨c, el⟩ := e
    simp only [rowNorm2Loop, ih, sumOfSquares, List.map_cons, List.sum_cons]
    ring

theorem sumOfSquares_nonneg (row : Row) : 0 ≤ sumOfSquares row := by
  induction row with
  | nil => simp [sumOfSquares]
  | cons e rest ih =>
    simp only [sumOfSquares, List.map_cons, List.sum_cons] at ih ⊢
    have := mul_self_nonneg e.2
    linarith

/-- C25 (as stated, refuted): for the row with the values `3` and `4`, whose Euclidean
2-norm is `5`, `GetRowNorm2` returns `25`, which is not the 2-norm. -/
theorem GetRowNorm2_not_the_norm_counterexample :
    threeFourExample.GetRowNorm2 0 = .ok 25 ∧
      IsEuclideanNorm 5 [(0, 3), (1, 4)] ∧ ¬ IsEuclideanNorm 25 [(0, 3), (1, 4)] ∧
      threeFourExample.GetRowNorm2 0 ≠ .ok 5 := by
  have h : threeFourExample.GetRowNorm2 0 = .ok 25 := by
    simp only [SparseMatrix.GetRowNorm2, threeFourExample, List.getElem?_cons_zero, rowNorm2Loop]
    norm_num
  refine ⟨h, ?_, ?_, ?_⟩
  · simp only [IsEuclideanNorm, sumOfSquares, List.map_cons, List.map_nil, List.sum_cons,
      List.sum_nil]
    norm_num
  · simp only [IsEuclideanNorm, sumOfSquares, List.map_cons, List.map_nil, List.sum_cons,
      List.sum_nil]
    norm_num
  · rw [h]
    intro e
    have e1 := Except.ok.inj e
    norm_num at e1

/-- C25 (amended): `GetRowNorm2` is the squared row 2-norm. For every matrix and every row
index in range, `GetRowNorm2(row)` returns the sum of the squares of the values the row
stores, a number that is not negative: the square of the Euclidean 2-norm of the row, not
the norm itself (there is no square root). -/
theorem GetRowNorm2_is_sum_of_squares (m : SparseMatrix) (row : Nat) (r : Row)
    (h : m.rows[row]? = some r) :
    m.GetRowNorm2 row = .ok (sumOfSquares r) ∧ 0 ≤ sumOfSquares r ∧
      ∀ x, IsEuclideanNorm x r → m.GetRowNorm2 row = .ok (x * x) := by
  have h1 : m.GetRowNorm2 row = .ok (sumOfSquares r) := by
    simp only [SparseMatrix.GetRowNorm2, h, rowNorm2Loop_eq, zero_add]
  exact ⟨h1, sumOfSquares_nonneg r, fun x hx => by rw [h1, hx.2]⟩

/-- Witness for C25 (amended): the row with the values `3` and `4` yields `25 = 5 * 5`. -/
theorem GetRowNorm2_is_sum_of_squares_witness :
    threeFourExample.rows[0]? = some [(0, 3), (1, 4)] ∧
      threeFourExample.GetRowNorm2 0 = .ok (sumOfSquares [(0, 3), (1, 4)]) ∧
      sumOfSquares [(0, 3), (1, 4)] = 25 ∧
      threeFourExample.GetRowNorm2 0 = .ok (5 * 5) := by
  have h := GetRowNorm2_is_sum_of_squares threeFourExample 0 [(0, 3), (1, 4)] rfl
  refine ⟨rfl, h.1, ?_, h.2.2 5 ?_⟩
  · simp only [sumOfSquares, List.map_cons, List.map_nil, List.sum_cons, List.sum_nil]
    norm_num
  · simp only [IsEuclideanNorm, sumOfSquares, List.map_cons, List.map_nil, List.sum_cons,
      List.sum_nil]
    norm_num

/-! ### Compressed-row export -/

theorem writeIfGiven_overwritten {α : Type} (buffer : Option (List α)) (w : List α) (v : α)
    (h : ∀ b, buffer = some b → w.length < b.length) :
    writeIfGiven (buffer.map (overwritten w)) w.length v =
      .ok (buffer.map (overwritten (w ++ [v]))) := by
  cases buffer with
  | none => rfl
  | some b =>
    have hb := h b rfl
    have hlen : (overwritten w b).length = b.length := by
      simp only [overwritten, List.length_append, List.length_drop]; omega
    simp only [Option.map_some', writeIfGiven, hlen, hb, if_true]
    congr 2
    apply List.ext_getElem?
    intro k
    simp only [overwritten, List.getElem?_set, List.length_append, List.length_drop,
      List.length_cons, List.length_nil]
    by_cases h1 : k < w.length
    · rw [if_neg (by omega), List.getElem?_append_left h1,
        List.getElem?_append_left (by simp; omega), List.getElem?_append_left h1]
    · by_cases h2 : k = w.length
      · subst h2
        rw [if_pos rfl, if_pos (by omega), List.getElem?_append_left (by simp),
          List.getElem?_append_right (le_refl _)]
        simp
      · rw [if_neg (fun e => h2 e.symm), List.getElem?_append_right (by omega),
          List.getElem?_append_right (by simp; omega), List.getElem?_drop, List.getElem?_drop]
        congr 1
        simp only [List.length_append, List.length_cons, List.length_nil]
        omega

theorem emittedOfRow_cons (up : Int) (row : Nat) (e : Nat × ℚ) (rest : Row) :
    emittedOfRow up row (e :: rest) =
      if up = 0 ∨ row ≤ e.1 then e :: emittedOfRow up row rest else emittedOfRow up row rest := by
  simp only [emittedOfRow, List.filter_cons]
  by_cases h : up = 0 ∨ row ≤ e.1
  · simp [h]
  · simp [h]

theorem compressRowLoop_spec (up one : Int) (row : Nat) (r : Row) (a : Option (List ℚ))
    (ja : Option (List Int)) (w : Row)
    (ha : ∀ b, a = some b → w.length + (emittedOfRow up row r).length ≤ b.length)
    (hja : ∀ b, ja = some b → w.length + (emittedOfRow up row r).length ≤ b.length) :
    compressRowLoop up one row r
        (a.map (overwritten (w.map Prod.snd)),
          ja.map (overwritten (w.map (fun e => (e.1 : Int) + one))), w.length) =
      .ok (a.map (overwritten ((w ++ emittedOfRow up row r).map Prod.snd)),
        ja.map (overwritten ((w ++ emittedOfRow up row r).map (fun e => (e.1 : Int) + one))),
        (w ++ emittedOfRow up row r).length) := by
  induction r generalizing w with
  | nil => simp [compressRowLoop, emittedOfRow]
  | cons e rest ih =>
    obtain ⟨c, v⟩ := e
    rw [emittedOfRow_cons] at ha hja ⊢
    by_cases hk : up = 0 ∨ row ≤ c
    · simp only [hk, if_true, List.length_cons] at ha hja ⊢
      have h1 := writeIfGiven_overwritten a (w.map Prod.snd) v
        (fun b hb => by have := ha b hb; simp only [List.length_map]; omega)
      have h2 := writeIfGiven_overwritten ja (w.map (fun e => (e.1 : Int) + one))
        ((c : Int) + one) (fun b hb => by have := hja b hb; simp only [List.length_map]; omega)
      rw [List.length_map] at h1 h2
      have h3 := ih (w ++ [(c, v)])
        (fun b hb => by have := ha b hb; simp only [List.length_append, List.length_cons,
          List.length_nil]; omega)
        (fun b hb => by have := hja b hb; simp only [List.length_append, List.length_cons,
          List.length_nil]; omega)
      simp only [List.map_append, List.map_cons, List.map_nil, List.length_append,
        List.length_cons, List.length_nil, List.append_assoc, List.singleton_append,
        Nat.zero_add] at h3
      simp only [compressRowLoop, hk, if_true, h1, h2, h3, List.map_append, List.map_cons,
        List.length_append, List.length_cons]
    · simp only [hk, if_false] at ha hja ⊢
      simp only [compressRowLoop, hk, if_false]
      exact ih w ha hja

theorem emittedFrom_append (up : Int) (i : Nat) (xs ys : List Row) :
    emittedFrom up i (xs ++ ys) = emittedFrom up i xs ++ emittedFrom up (i + xs.length) ys := by
  induction xs generalizing i with
  | nil => simp [emittedFrom]
  | cons x xs ih =>
    simp only [List.cons_append, emittedFrom, List.append_eq, ih, List.append_assoc,
      List.length_cons]
    rw [show i + 1 + xs.length = i + (xs.length + 1) by omega]

theorem emittedBefore_length (up : Int) (pre rest : List Row) :
    emittedBefore up (pre ++ rest) pre.length = (emittedFrom up 0 pre).length := by
  simp [emittedBefore]

/-- The pointers of the rows below `n`, each raised by the flag. -/
theorem pointers_succ (f : Nat → Int) (n : Nat) :
    (List.range (n + 1)).map f = (List.range n).map f ++ [f n] := by
  rw [List.range_succ, List.map_append, List.map_cons, List.map_nil]

theorem compressRows_spec (up one : Int) (allRows pre rest : List Row)
    (a : Option (List ℚ)) (ia ja : Option (List Int)) (hall : allRows = pre ++ rest)
    (ha : ∀ b, a = some b → (emittedFrom up 0 allRows).length ≤ b.length)
    (hja : ∀ b, ja = some b → (emittedFrom up 0 allRows).length ≤ b.length)
    (hia : ∀ b, ia = some b → allRows.length ≤ b.length) :
    compressRows up one pre.length rest
        (ia.map (overwritten ((List.range pre.length).map
          (fun row => (emittedBefore up allRows row : Int) + one))))
        (a.map (overwritten ((emittedFrom up 0 pre).map Prod.snd)),
          ja.map (overwritten ((emittedFrom up 0 pre).map (fun e => (e.1 : Int) + one))),
          (emittedFrom up 0 pre).length) =
      .ok (ia.map (overwritten ((List.range allRows.length).map
          (fun row => (emittedBefore up allRows row : Int) + one))),
        a.map (overwritten ((emittedFrom up 0 allRows).map Prod.snd)),
        ja.map (overwritten ((emittedFrom up 0 allRows).map (fun e => (e.1 : Int) + one))),
        (emittedFrom up 0 allRows).length) := by
  induction rest generalizing pre with
  | nil =>
    simp only [List.append_nil] at hall
    subst hall
    rfl
  | cons r rest ih =>
    have hsplit : emittedFrom up 0 allRows =
        emittedFrom up 0 pre ++ (emittedOfRow up pre.length r ++
          emittedFrom up (pre.length + 1) rest) := by
      rw [hall, emittedFrom_append]
      simp [emittedFrom]
    have hlenAll : allRows.length = pre.length + (rest.length + 1) := by
      rw [hall]; simp
    have h1 := writeIfGiven_overwritten ia ((List.range pre.length).map
      (fun row => (emittedBefore up allRows row : Int) + one))
      (((emittedFrom up 0 pre).length : Int) + one)
      (fun b hb => by have := hia b hb; simp only [List.length_map, List.length_range]; omega)
    simp only [List.length_map, List.length_range] at h1
    have h2 := compressRowLoop_spec up one pre.length r a ja (emittedFrom up 0 pre)
      (fun b hb => by
        have := ha b hb
        rw [hsplit] at this
        simp only [List.length_append] at this
        omega)
      (fun b hb => by
        have := hja b hb
        rw [hsplit] at this
        simp only [List.length_append] at this
        omega)
    have hpre : emittedFrom up 0 (pre ++ [r]) =
        emittedFrom up 0 pre ++ emittedOfRow up pre.length r := by
      rw [emittedFrom_append]
      simp [emittedFrom]
    have h3 := ih (pre ++ [r]) (by rw [hall]; simp)
    rw [List.length_append, List.length_singleton, pointers_succ, hpre] at h3
    have hb : emittedBefore up allRows pre.length = (emittedFrom up 0 pre).length := by
      rw [hall]; exact emittedBefore_length up pre (r :: rest)
    rw [hb] at h3
    simp only [compressRows, h1, h2]
    exact h3

theorem compressRowsFourArray_spec (up one : Int) (allRows pre rest : List Row)
    (values : Option (List ℚ)) (columns pointerB pointerE : Option (List Int))
    (hall : allRows = pre ++ rest)
    (hv : ∀ b, values = some b → (emittedFrom up 0 allRows).length ≤ b.length)
    (hc : ∀ b, columns = some b → (emittedFrom up 0 allRows).length ≤ b.length)
    (hB : ∀ b, pointerB = some b → allRows.length ≤ b.length)
    (hE : ∀ b, pointerE = some b → allRows.length ≤ b.length) :
    compressRowsFourArray up one pre.length rest
        (pointerB.map (overwritten ((List.range pre.length).map
          (fun row => (emittedBefore up allRows row : Int) + one))))
        (pointerE.map (overwritten ((List.range pre.length).map
          (fun row => (emittedBefore up allRows (row + 1) : Int) + one))))
        (values.map (overwritten ((emittedFrom up 0 pre).map Prod.snd)),
          columns.map (overwritten ((emittedFrom up 0 pre).map (fun e => (e.1 : Int) + one))),
          (emittedFrom up 0 pre).length) =
      .ok (pointerB.map (overwritten ((List.range allRows.length).map
          (fun row => (emittedBefore up allRows row : Int) + one))),
        pointerE.map (overwritten ((List.range allRows.length).map
          (fun row => (emittedBefore up allRows (row + 1) : Int) + one))),
        values.map (overwritten ((emittedFrom up 0 allRows).map Prod.snd)),
        columns.map (overwritten ((emittedFrom up 0 allRows).map
          (fun e => (e.1 : Int) + one))),
        (emittedFrom up 0 allRows).length) := by
  induction rest generalizing pre with
  | nil =>
    simp only [List.append_nil] at hall
    subst hall
    rfl
  | cons r rest ih =>
    have hsplit : emittedFrom up 0 allRows =
        emittedFrom up 0 pre ++ (emittedOfRow up pre.length r ++
          emittedFrom up (pre.length + 1) rest) := by
      rw [hall, emittedFrom_append]
      simp [emittedFrom]
    have hlenAll : allRows.length = pre.length + (rest.length + 1) := by
      rw [hall]; simp
    have h1 := writeIfGiven_overwritten pointerB ((List.range pre.length).map
      (fun row => (emittedBefore up allRows row : Int) + one))
      (((emittedFrom up 0 pre).length : Int) + one)
      (fun b hb => by have := hB b hb; simp only [List.length_map, List.length_range]; omega)
    have h2 := compressRowLoop_spec up one pre.length r values columns (emittedFrom up 0 pre)
      (fun b hb => by
        have := hv b hb
        rw [hsplit] at this
        simp only [List.length_append] at this
        omega)
      (fun b hb => by
        have := hc b hb
        rw [hsplit] at this
        simp only [List.length_append] at this
        omega)
    have h4 := writeIfGiven_overwritten pointerE ((List.range pre.length).map
      (fun row => (emittedBefore up allRows (row + 1) : Int) + one))
      (((emittedFrom up 0 pre ++ emittedOfRow up pre.length r).length : Int) + one)
      (fun b hb => by have := hE b hb; simp only [List.length_map, List.length_range]; omega)
    simp only [List.length_map, List.length_range] at h1 h4
    have hpre : emittedFrom up 0 (pre ++ [r]) =
        emittedFrom up 0 pre ++ emittedOfRow up pre.length r := by
      rw [emittedFrom_append]
      simp [emittedFrom]
    have h3 := ih (pre ++ [r]) (by rw [hall]; simp)
    rw [List.length_append, List.length_singleton, pointers_succ, pointers_succ, hpre] at h3
    have hb : emittedBefore up allRows pre.length = (emittedFrom up 0 pre).length := by
      rw [hall]; exact emittedBefore_length up pre (r :: rest)
    have he : emittedBefore up allRows (pre.length + 1) =
        (emittedFrom up 0 pre ++ emittedOfRow up pre.length r).length := by
      have := emittedBefore_length up (pre ++ [r]) rest
      rw [List.length_append, List.length_singleton, hpre, List.append_assoc,
        List.singleton_append, ← hall] at this
      exact this
    rw [hb, he] at h3
    simp only [compressRowsFourArray, h1, h2, h4]
    exact h3

/-- C26: layout of the compressed-row exports. With `emitted` the stored entries taken row
by row, in stored order, keeping an entry when `upperTriangleOnly` is `0` or its column is
not below its row: `GenerateCompressedRowMajorFormat` writes the value of the `k`-th emitted
entry to `a[k]` and its column plus `oneIndexed` to `ja[k]`, writes to `ia[row]` the number
of entries emitted in earlier rows plus `oneIndexed`, and to `ia[rowCount]` the number of all
emitted entries plus `oneIndexed`; `GenerateCompressedRowMajorFormat_four_array` writes the
same values and columns, to `pointerB[row]` what `ia[row]` gets and to `pointerE[row]` what
`ia[row + 1]` gets. Nothing else of a buffer is changed, and a null buffer is skipped. The
buffers given must be long enough for these writes. -/
theorem GenerateCompressedRowMajorFormat_layout (m : SparseMatrix)
    (a values : Option (List ℚ)) (ia ja columns pointerB pointerE : Option (List Int))
    (upperTriangleOnly oneIndexed : Int)
    (ha : ∀ b, a = some b → (emittedFrom upperTriangleOnly 0 m.rows).length ≤ b.length)
    (hja : ∀ b, ja = some b → (emittedFrom upperTriangleOnly 0 m.rows).length ≤ b.length)
    (hia : ∀ b, ia = some b → m.GetNumRows + 1 ≤ b.length)
    (hv : ∀ b, values = some b → (emittedFrom upperTriangleOnly 0 m.rows).length ≤ b.length)
    (hc : ∀ b, columns = some b → (emittedFrom upperTriangleOnly 0 m.rows).length ≤ b.length)
    (hB : ∀ b, pointerB = some b → m.GetNumRows ≤ b.length)
    (hE : ∀ b, pointerE = some b → m.GetNumRows ≤ b.length) :
    m.GenerateCompressedRowMajorFormat a ia ja upperTriangleOnly oneIndexed =
        .ok (a.map (overwritten ((emittedFrom upperTriangleOnly 0 m.rows).map Prod.snd)),
          ia.map (overwritten ((List.range (m.GetNumRows + 1)).map
            (fun row => (emittedBefore upperTriangleOnly m.rows row : Int) + oneIndexed))),
          ja.map (overwritten ((emittedFrom upperTriangleOnly 0 m.rows).map
            (fun e => (e.1 : Int) + oneIndexed)))) ∧
      m.GenerateCompressedRowMajorFormat_four_array values columns pointerB pointerE
          upperTriangleOnly oneIndexed =
        .ok (values.map (overwritten ((emittedFrom upperTriangleOnly 0 m.rows).map Prod.snd)),
          columns.map (overwritten ((emittedFrom upperTriangleOnly 0 m.rows).map
            (fun e => (e.1 : Int) + oneIndexed))),
          pointerB.map (overwritten ((List.range m.GetNumRows).map
            (fun row => (emittedBefore upperTriangleOnly m.rows row : Int) + oneIndexed))),
          pointerE.map (overwritten ((List.range m.GetNumRows).map
            (fun row =>
              (emittedBefore upperTriangleOnly m.rows (row + 1) : Int) + oneIndexed)))) ∧
      emittedBefore upperTriangleOnly m.rows m.GetNumRows =
        (emittedFrom upperTriangleOnly 0 m.rows).length := by
  have htotal : emittedBefore upperTriangleOnly m.rows m.GetNumRows =
      (emittedFrom upperTriangleOnly 0 m.rows).length := by
    simp [emittedBefore, SparseMatrix.GetNumRows]
  refine ⟨?_, ?_, htotal⟩
  · have h1 := compressRows_spec upperTriangleOnly oneIndexed m.rows [] m.rows a ia ja rfl ha hja
      (fun b hb => by have := hia b hb; simp only [SparseMatrix.GetNumRows] at this; omega)
    have h2 := writeIfGiven_overwritten ia ((List.range m.rows.length).map
      (fun row => (emittedBefore upperTriangleOnly m.rows row : Int) + oneIndexed))
      (((emittedFrom upperTriangleOnly 0 m.rows).length : Int) + oneIndexed)
      (fun b hb => by
        have := hia b hb
        simp only [SparseMatrix.GetNumRows] at this
        simp only [List.length_map, List.length_range]
        omega)
    simp only [List.length_map, List.length_range] at h2
    have h3 : ∀ x : Option (List Int), Option.map (overwritten ([] : List Int)) x = x := by
      intro x; cases x <;> simp [overwritten]
    have h4 : ∀ x : Option (List ℚ), Option.map (overwritten ([] : List ℚ)) x = x := by
      intro x; cases x <;> simp [overwritten]
    simp only [List.length_nil, List.range_zero, List.map_nil, emittedFrom, h3, h4] at h1
    simp only [SparseMatrix.GenerateCompressedRowMajorFormat, h1, SparseMatrix.GetNumRows, h2,
      pointers_succ]
    simp only [SparseMatrix.GetNumRows] at htotal
    rw [htotal]
  · have h1 := compressRowsFourArray_spec upperTriangleOnly oneIndexed m.rows [] m.rows values
      columns pointerB pointerE rfl hv hc hB hE
    have h3 : ∀ x : Option (List Int), Option.map (overwritten ([] : List Int)) x = x := by
      intro x; cases x <;> simp [overwritten]
    have h4 : ∀ x : Option (List ℚ), Option.map (overwritten ([] : List ℚ)) x = x := by
      intro x; cases x <;> simp [overwritten]
    simp only [List.length_nil, List.range_zero, List.map_nil, emittedFrom, h3, h4] at h1
    simp only [SparseMatrix.GenerateCompressedRowMajorFormat_four_array, h1,
      SparseMatrix.GetNumRows]

/-- Witness for C26 on the example matrix with `upperTriangleOnly = 1` and `oneIndexed = 1`:
the entries `(0,0)=2, (0,1)=1, (1,1)=3, (2,2)=5` are emitted, `ia` is `1, 3, 4, 5`, and the
last position of each buffer, which is beyond the writes, keeps its `9`. -/
theorem GenerateCompressedRowMajorFormat_layout_witness :
    exampleMatrix.GenerateCompressedRowMajorFormat (some [9, 9, 9, 9, 9])
        (some [9, 9, 9, 9, 9]) (some [9, 9, 9, 9, 9]) 1 1 =
      .ok (some [2, 1, 3, 5, 9], some [1, 3, 4, 5, 9], some [1, 2, 2, 3, 9]) ∧
      exampleMatrix.GenerateCompressedRowMajorFormat_four_array (some [9, 9, 9, 9, 9])
        (some [9, 9, 9, 9, 9]) (some [9, 9, 9, 9]) none 1 1 =
      .ok (some [2, 1, 3, 5, 9], some [1, 2, 2, 3, 9], some [1, 3, 4, 9], none) := by
  have hlen : (emittedFrom 1 0 exampleMatrix.rows).length = 4 := by decide
  have hrows : exampleMatrix.GetNumRows = 3 := rfl
  have h := GenerateCompressedRowMajorFormat_layout exampleMatrix (some [9, 9, 9, 9, 9])
    (some [9, 9, 9, 9, 9]) (some [9, 9, 9, 9, 9]) (some [9, 9, 9, 9, 9])
    (some [9, 9, 9, 9, 9]) (some [9, 9, 9, 9]) none 1 1
    (fun b hb => by rw [hlen, ← Option.some.inj hb]; decide)
    (fun b hb => by rw [hlen, ← Option.some.inj hb]; decide)
    (fun b hb => by rw [hrows, ← Option.some.inj hb]; decide)
    (fun b hb => by rw [hlen, ← Option.some.inj hb]; decide)
    (fun b hb => by rw [hlen, ← Option.some.inj hb]; decide)
    (fun b hb => by rw [hrows, ← Option.some.inj hb]; decide)
    (fun b hb => Option.noConfusion hb)
  refine ⟨h.1.trans ?_, h.2.1.trans ?_⟩
  · have e1 : (emittedFrom 1 0 exampleMatrix.rows) = [(0, 2), (1, 1), (1, 3), (2, 5)] := by
      decide
    have e2 : (List.range (exampleMatrix.GetNumRows + 1)).map
        (fun row => (emittedBefore 1 exampleMatrix.rows row : Int) + 1) = [1, 3, 4, 5] := by
      decide
    rw [e1, e2]
    simp [overwritten]
  · have e1 : (emittedFrom 1 0 exampleMatrix.rows) = [(0, 2), (1, 1), (1, 3), (2, 5)] := by
      decide
    have e2 : (List.range exampleMatrix.GetNumRows).map
        (fun row => (emittedBefore 1 exampleMatrix.rows row : Int) + 1) = [1, 3, 4] := by
      decide
    rw [e1, e2]
    simp [overwritten]

/-! ### Order of the removal notifications -/

theorem notifySuperAll_log (m : SparseMatrix) (calls : List RemapperCall)
    (l : SparseSubMatrixLinkage) (h : m.superMatrixLinkage = some l) :
    remapperLog (m.notifySuperAll calls) = .ok (l.indexRemapper ++ calls) := by
  induction calls generalizing m l with
  | nil => simp [SparseMatrix.notifySuperAll, remapperLog, Except.map, h]
  | cons call calls ih =>
    simp only [SparseMatrix.notifySuperAll, SparseMatrix.notifySuper, h]
    rw [ih _ { l with indexRemapper := l.indexRemapper ++ [call] } rfl]
    simp

/-- The batch removals report in the order of their notification loops: `RemoveRows` and
`RemoveColumns` in list order, `RemoveRowsColumns` from the last index to the first. -/
theorem batch_removal_log (M : SparseMatrix) (L : SparseSubMatrixLinkage) (R : List Nat)
    (oneIndexed : Int) (hL : M.superMatrixLinkage = some L) (hs : R.Pairwise (· < ·))
    (hhi : ∀ r ∈ R, r < M.rows.length) :
    remapperLog (M.RemoveRows (asRemovalList R oneIndexed) oneIndexed) =
        .ok (L.indexRemapper ++
          R.map (fun (r : Nat) => RemapperCall.RemoveSuperRowFromSubMatrix r)) ∧
      remapperLog (M.RemoveColumns (asRemovalList R oneIndexed) oneIndexed) =
        .ok (L.indexRemapper ++
          R.map (fun (r : Nat) => RemapperCall.RemoveSuperColumnFromSubMatrix r)) := by
  have hcalls : ∀ f : Int → RemapperCall,
      (asRemovalList R oneIndexed).map (fun r => f (r - oneIndexed)) =
        R.map (fun (r : Nat) => f r) := by
    intro f
    simp only [asRemovalList, List.map_map]
    apply List.map_congr_left
    intro r _
    simp only [Function.comp]
    congr 1
    omega
  constructor
  · rw [RemoveRows_eq M R oneIndexed hs hhi,
      notifySuperAll_log { M with rows := keepIdx (fun j => decide (j ∈ R)) 0 M.rows } _ L hL]
    simp only [removedRowCalls, hcalls]
  · rw [RemoveColumns_eq M R oneIndexed hs,
      notifySuperAll_log { M with rows := M.rows.map (renumberEntries R) } _ L hL]
    simp only [removedColumnCalls, hcalls]

/-- C27 (evaluation at the failing input): on the example matrix, attached to a super-matrix
whose remapper has received no call, with the removal list `0, 2`: `RemoveRows` reports the
rows `0, 2` and `RemoveColumns` the columns `0, 2`, in ascending order; `RemoveRowsColumns`
reports row and column `2`, then row and column `0`, in descending order. The reference
routines `RemoveRowsSlow` and `RemoveColumnsSlow` report `0` and then `1`, the second index
lowered by the removal already made. -/
theorem batch_removal_notification_order :
    remapperLog (exampleMatrix.RemoveRows [0, 2] 0) =
        .ok [.RemoveSuperRowFromSubMatrix 0, .RemoveSuperRowFromSubMatrix 2] ∧
      remapperLog (exampleMatrix.RemoveColumns [0, 2] 0) =
        .ok [.RemoveSuperColumnFromSubMatrix 0, .RemoveSuperColumnFromSubMatrix 2] ∧
      remapperLog (exampleMatrix.RemoveRowsColumns [0, 2] 0) =
        .ok [.RemoveSuperRowFromSubMatrix 2, .RemoveSuperColumnFromSubMatrix 2,
          .RemoveSuperRowFromSubMatrix 0, .RemoveSuperColumnFromSubMatrix 0] ∧
      remapperLog (exampleMatrix.RemoveRowsSlow [0, 2] 0) =
        .ok [.RemoveSuperRowFromSubMatrix 0, .RemoveSuperRowFromSubMatrix 1] ∧
      remapperLog (exampleMatrix.RemoveColumnsSlow [0, 2] 0) =
        .ok [.RemoveSuperColumnFromSubMatrix 0, .RemoveSuperColumnFromSubMatrix 1] ∧
      ¬ (([.RemoveSuperRowFromSubMatrix 0, .RemoveSuperRowFromSubMatrix 2] :
          List RemapperCall).map RemapperCall.reportedIndex).Pairwise (· > ·) ∧
      ¬ (([.RemoveSuperColumnFromSubMatrix 0, .RemoveSuperColumnFromSubMatrix 2] :
          List RemapperCall).map RemapperCall.reportedIndex).Pairwise (· > ·) ∧
      (([.RemoveSuperRowFromSubMatrix 2, .RemoveSuperColumnFromSubMatrix 2,
          .RemoveSuperRowFromSubMatrix 0, .RemoveSuperColumnFromSubMatrix 0] :
          List RemapperCall).map RemapperCall.reportedIndex).Pairwise (· ≥ ·) :=
  ⟨rfl, rfl, rfl, rfl, rfl, by decide, by decide, by decide⟩

/-! ### The renumbering table: survivors -/

theorem removedBelow_succ (R : List Nat) (k : Nat) (hs : R.Pairwise (· < ·)) :
    R.countP (· < k + 1) = R.countP (· < k) + (if k ∈ R then 1 else 0) := by
  induction R with
  | nil => simp
  | cons r rest ih =>
    rw [List.pairwise_cons] at hs
    have ih1 := ih hs.2
    rw [List.countP_cons, List.countP_cons, ih1]
    by_cases hr : r = k
    · subst hr
      have hnot : r ∉ rest := fun hm => absurd (hs.1 r hm) (lt_irrefl _)
      simp [hnot]
    · have hmem : (k ∈ r :: rest) ↔ k ∈ rest := by
        simp only [List.mem_cons]
        exact ⟨fun h => h.elim (fun e => absurd e.symm hr) id, Or.inr⟩
      by_cases hk : k ∈ rest
      · have hk1 : k ∈ r :: rest := hmem.2 hk
        simp only [hk, hk1, if_true, decide_eq_true_eq]
        by_cases hlt : r < k
        · rw [if_pos hlt, if_pos (by omega)]
        · rw [if_neg hlt, if_neg (by omega)]
      · have hk1 : k ∉ r :: rest := fun h => hk (hmem.1 h)
        simp only [hk, hk1, if_false, decide_eq_true_eq]
        by_cases hlt : r < k
        · rw [if_pos hlt, if_pos (by omega)]
        · rw [if_neg hlt, if_neg (by omega)]

theorem removedBelow_add_le (R : List Nat) (k d : Nat) (hs : R.Pairwise (· < ·)) :
    R.countP (· < k + d) ≤ R.countP (· < k) + d := by
  induction d with
  | zero => simp
  | succ d ih =>
    rw [← Nat.add_assoc, removedBelow_succ R (k + d) hs]
    split_ifs <;> omega

theorem newIndex_strictMono (R : List Nat) (k1 k2 : Nat) (hs : R.Pairwise (· < ·))
    (hlt : k1 < k2) (h1 : k1 ∉ R) : newIndex R k1 < newIndex R k2 ∨ k2 ∈ R := by
  by_cases h2 : k2 ∈ R
  · exact Or.inr h2
  · left
    have hstep := removedBelow_succ R k1 hs
    rw [if_neg h1] at hstep
    have hbound := removedBelow_add_le R (k1 + 1) (k2 - (k1 + 1)) hs
    rw [show k1 + 1 + (k2 - (k1 + 1)) = k2 by omega] at hbound
    simp only [newIndex, h1, h2, if_false]
    omega

theorem survivors_values (R : List Nat) (n : Nat) (hs : R.Pairwise (· < ·)) :
    ((List.range n).filter (fun k => decide (k ∉ R))).map (newIndex R) =
      (List.range (n - R.countP (· < n))).map (fun (j : Nat) => (j : Int)) := by
  induction n with
  | zero => simp
  | succ n ih =>
    have hle := countP_lt_le R 0 n hs (fun _ _ => Nat.zero_le _)
    rw [List.range_succ, List.filter_append, List.map_append, ih, removedBelow_succ R n hs]
    by_cases hn : n ∈ R
    · simp only [hn, if_true, List.filter_cons, not_true_eq_false, decide_False,
        List.filter_nil, List.map_nil, List.append_nil]
      rw [show n + 1 - (R.countP (· < n) + 1) = n - R.countP (· < n) by omega]
      simp
    · simp only [hn, if_false, List.filter_cons, not_false_eq_true, decide_True, if_true,
        List.filter_nil, List.map_cons, List.map_nil, Nat.add_zero]
      rw [show n + 1 - R.countP (· < n) = (n - R.countP (· < n)) + 1 by omega,
        List.range_succ, List.map_append, List.map_cons, List.map_nil]
      congr 2
      simp only [newIndex, hn, if_false]
      omega

theorem removedBelow_all (R : List Nat) (n : Nat) (h : ∀ r ∈ R, r < n) :
    R.countP (· < n) = R.length := by
  rw [List.countP_eq_length]
  intro r hr
  simpa using h r hr

/-- C28: the renumbering table. For every table length `N` and every strictly ascending list
`R` of indices below `N` (passed 0- or 1-indexed with the flag), the first pass of
`RemoveRowsColumns`, `RemoveRows` and `RemoveColumns` returns a table of `N` entries that
holds `-1` at every removed index and, at every surviving index `k`, `k` minus the number of
removed indices below `k`. Its values at two surviving indices are ordered as the indices,
and its values other than `-1`, read in table order, are `0, 1, ..., N - length(R) - 1`. -/
theorem renumbering_table (N : Nat) (R : List Nat) (oneIndexed : Int)
    (hs : R.Pairwise (· < ·)) (hhi : ∀ r ∈ R, r < N) :
    ∃ oldToNew, buildOldToNew N (asRemovalList R oneIndexed) oneIndexed = .ok oldToNew ∧
      oldToNew.length = N ∧
      (∀ k ∈ R, oldToNew[k]? = some (-1)) ∧
      (∀ k, k < N → k ∉ R →
        oldToNew[k]? = some ((k : Int) - (R.countP (· < k) : Nat)) ∧
          0 ≤ (k : Int) - (R.countP (· < k) : Nat)) ∧
      (∀ k1 k2 v1 v2, k1 < k2 → k1 ∉ R → k2 ∉ R → oldToNew[k1]? = some v1 →
        oldToNew[k2]? = some v2 → v1 < v2) ∧
      oldToNew.filter (fun v => decide (v ≠ -1)) =
        (List.range (N - R.length)).map (fun (j : Nat) => (j : Int)) := by
  refine ⟨_, buildOldToNew_spec N R oneIndexed hs hhi, by simp, fun k hk => ?_,
    fun k hk hkR => ?_, fun k1 k2 v1 v2 hlt h1 h2 e1 e2 => ?_, ?_⟩
  · rw [getElem?_table N R k (hhi k hk), newIndex_mem R k hk]
  · have hle := countP_lt_le R 0 k hs (fun _ _ => Nat.zero_le _)
    rw [getElem?_table N R k hk]
    simp only [newIndex, hkR, if_false, true_and]
    omega
  · have hk2 : k2 < N := by
      by_contra hn
      rw [List.getElem?_eq_none (by simp; omega)] at e2
      exact Option.noConfusion e2
    rw [getElem?_table N R k1 (by omega)] at e1
    rw [getElem?_table N R k2 hk2] at e2
    rw [← Option.some.inj e1, ← Option.some.inj e2]
    exact (newIndex_strictMono R k1 k2 hs hlt h1).resolve_right h2
  · rw [← removedBelow_all R N hhi, ← survivors_values R N hs, List.filter_map]
    congr 1
    apply List.filter_congr
    intro k _
    by_cases hk : k ∈ R
    · simp [newIndex_mem R k hk, hk]
    · simp [(newIndex_not_mem R k hs hk).1, hk]

/-- Witness for C28: the table of length `5` for the removal list `1, 3` is
`0, -1, 1, -1, 2`. -/
theorem renumbering_table_witness :
    ∃ oldToNew, buildOldToNew 5 (asRemovalList [1, 3] 0) 0 = .ok oldToNew ∧
      oldToNew = [0, -1, 1, -1, 2] ∧
      oldToNew.filter (fun v => decide (v ≠ -1)) =
        (List.range (5 - ([1, 3] : List Nat).length)).map (fun (j : Nat) => (j : Int)) := by
  obtain ⟨t, h1, -, -, -, -, h6⟩ := renumbering_table 5 [1, 3] 0 (by decide) (by decide)
  refine ⟨t, h1, ?_, h6⟩
  have h0 : buildOldToNew 5 (asRemovalList [1, 3] 0) 0 = .ok [0, -1, 1, -1, 2] := rfl
  rw [h0] at h1
  exact (Except.ok.inj h1).symm

/-! ### Transposition indices: the mirror entry -/

/-- C29: transposition indices locate the mirror entry. For every matrix with strictly
increasing rows, a structurally symmetric pattern and no cached transposition indices,
`BuildTranspositionIndices()` returns and changes the cache alone, which then has one list
per row; for every row `i` and position `j` of it, with `c` the column stored there, the
cached value `t = transposedIndices[i][j]` is a position of row `c` (which exists), and the
entry of row `c` at position `t` has column `i`. Read through the accessors:
`TransposedIndex(i, j)` returns `t` and `GetColumnIndex(c, t)` returns `i`. -/
theorem BuildTranspositionIndices_locates_mirror (m : SparseMatrix)
    (hs : SortedRows m.rows) (hsym : m.SymmetricPattern)
    (hc : m.HasCachedTransposedIndices = false) :
    ∃ indices, m.BuildTranspositionIndices = .ok { m with transposedIndices := indices } ∧
      indices.length = m.GetNumRows ∧
      ∀ (i j c : Nat) (v : ℚ) (row : Row), m.rows[i]? = some row → row[j]? = some (c, v) →
        ∃ (t : Nat) (rowIndices : List Int) (mirrorRow : Row) (w : ℚ),
          indices[i]? = some rowIndices ∧ rowIndices.length = row.length ∧
          rowIndices[j]? = some (t : Int) ∧
          m.rows[c]? = some mirrorRow ∧ t < mirrorRow.length ∧
          mirrorRow[t]? = some (i, w) ∧
          ({ m with transposedIndices := indices } : SparseMatrix).TransposedIndex i j =
            .ok (t : Int) ∧
          m.GetColumnIndex c t = .ok i := by
  have hempty : m.transposedIndices = [] := by
    simpa [SparseMatrix.HasCachedTransposedIndices] using hc
  obtain ⟨indices, h1, h2⟩ := BuildTranspositionIndices_spec m hs (Or.inl hempty)
  obtain ⟨t0, g1, g2, -⟩ := transposeRows_spec m.rows (List.replicate m.GetNumColumns 0) hs
    (fun r hr e he => by
      rw [List.length_replicate]; exact column_lt_GetNumColumns m r hr e he)
  have hlen : indices.length = m.GetNumRows := by
    rw [g1] at h2
    rw [← Except.ok.inj h2, g2]; rfl
  refine ⟨indices, h1, hlen, fun i j c v row hrow hj => ?_⟩
  have hfresh := fresh_indices { m with transposedIndices := indices } hs h2 i row hrow
  have hmem : (c, v) ∈ m.rows.getD i [] := by
    rw [List.getD_eq_getElem?_getD, hrow]
    exact List.getElem?_mem hj
  obtain ⟨w, hw, -⟩ := mirror_position m hs hsym i c ⟨v, hmem⟩
  obtain ⟨mirrorRow, hm1, hm2⟩ := getElem?_of_getD_getElem? m.rows c _ _ hw
  have hlt : countBefore (m.rows.take i) c < mirrorRow.length := by
    by_contra hn
    rw [List.getElem?_eq_none (by omega)] at hm2
    exact Option.noConfusion hm2
  have hidx : (row.map (fun e => ((countBefore (m.rows.take i) e.1 : Nat) : Int)))[j]? =
      some ((countBefore (m.rows.take i) c : Nat) : Int) := by
    rw [List.getElem?_map, hj]; rfl
  refine ⟨countBefore (m.rows.take i) c, _, mirrorRow, w, hfresh, by simp, hidx, hm1, hlt,
    hm2, ?_, ?_⟩
  · simp only [SparseMatrix.TransposedIndex]
    rw [hfresh]
    simp only [hidx]
  · simp only [SparseMatrix.GetColumnIndex, hm1, hm2]

/-- Witness for C29 on `squareExample`: the indices built are `[0, 0], [1, 1]`, and the entry
`(0, 1)`, at position `1` of row `0`, has its mirror at position `0` of row `1`. -/
theorem BuildTranspositionIndices_locates_mirror_witness :
    ∃ indices, squareExample.BuildTranspositionIndices =
        .ok { squareExample with transposedIndices := indices } ∧
      indices = [[0, 0], [1, 1]] ∧
      ∃ (t : Nat) (rowIndices : List Int) (mirrorRow : Row) (w : ℚ),
        indices[0]? = some rowIndices ∧ rowIndices.length = 2 ∧
        rowIndices[1]? = some (t : Int) ∧
        squareExample.rows[1]? = some mirrorRow ∧ t < mirrorRow.length ∧
        mirrorRow[t]? = some (0, w) ∧
        ({ squareExample with transposedIndices := indices } : SparseMatrix).TransposedIndex 0 1 =
          .ok (t : Int) ∧
        squareExample.GetColumnIndex 1 t = .ok 0 := by
  obtain ⟨indices, h1, -, h3⟩ := BuildTranspositionIndices_locates_mirror squareExample
    squareExample_sorted squareExample_symmetric rfl
  have h0 : squareExample.BuildTranspositionIndices =
      .ok { squareExample with transposedIndices := [[0, 0], [1, 1]] } := rfl
  rw [h0] at h1
  have e : indices = [[0, 0], [1, 1]] :=
    (congrArg SparseMatrix.transposedIndices (Except.ok.inj h1)).symm
  exact ⟨indices, by rw [h0, e], e, h3 0 1 1 2 [(0, 1), (1, 2)] rfl rfl⟩

/-! ### Access to the diagonal: cached against scanning -/

/-- C30 (evaluation at the failing input): on `missingDiagonalExample`, whose row `1` stores
no diagonal entry, the freshly built cache is `0, -1, 0`. Without the cache, `GetDiagonal`
on the buffer `9, 9, 9` returns `2, 9, 5`, and both `AddDiagonalMatrix` overloads return,
leaving row `1` as it was. With the cache, each of the three reads
`columnEntries[1][-1]`, a position outside the row. -/
theorem cached_diagonal_access_out_of_bounds :
    SortedRows missingDiagonalExample.rows ∧
      missingDiagonalExample.BuildDiagonalIndices = .ok missingDiagonalCached ∧
      missingDiagonalExample.GetDiagonal [9, 9, 9] = .ok [2, 9, 5] ∧
      missingDiagonalCached.GetDiagonal [9, 9, 9] = .error .outOfBounds ∧
      Except.map (·.rows) (missingDiagonalExample.AddDiagonalMatrix [1, 1, 1]) =
        .ok [[(0, 3), (1, 1)], [(0, 4), (2, 6)], [(2, 6)]] ∧
      missingDiagonalCached.AddDiagonalMatrix [1, 1, 1] = .error .outOfBounds ∧
      Except.map (·.rows) (missingDiagonalExample.AddDiagonalMatrixConstant 1) =
        .ok [[(0, 3), (1, 1)], [(0, 4), (2, 6)], [(2, 6)]] ∧
      missingDiagonalCached.AddDiagonalMatrixConstant 1 = .error .outOfBounds := by
  have h1 : Except.map (·.rows) (missingDiagonalExample.AddDiagonalMatrix [1, 1, 1]) =
      .ok [[(0, 2 + 1), (1, 1)], [(0, 4), (2, 6)], [(2, 5 + 1)]] := rfl
  have h2 : Except.map (·.rows) (missingDiagonalExample.AddDiagonalMatrixConstant 1) =
      .ok [[(0, 2 + 1), (1, 1)], [(0, 4), (2, 6)], [(2, 5 + 1)]] := rfl
  refine ⟨by simp [SortedRows, RowSorted, missingDiagonalExample], rfl, rfl, rfl, ?_, rfl, ?_,
    rfl⟩
  · rw [h1]; norm_num
  · rw [h2]; norm_num

theorem getDiagonalScanRow_absent (i : Nat) (row : Row) (diagonal : List ℚ)
    (h : i ∉ row.map Prod.fst) : getDiagonalScanRow i row diagonal = .ok diagonal := by
  induction row with
  | nil => rfl
  | cons e rest ih =>
    obtain ⟨c, a⟩ := e
    simp only [List.map_cons, List.mem_cons, not_or] at h
    have hc : ¬ c = i := fun e => h.1 e.symm
    simp only [getDiagonalScanRow, if_neg hc]
    exact ih h.2

theorem getDiagonalScanRow_present (i p : Nat) (a : ℚ) (row : Row) (diagonal : List ℚ)
    (hs : RowSorted row) (hp : row[p]? = some (i, a)) :
    getDiagonalScanRow i row diagonal =
      if i < diagonal.length then .ok (diagonal.set i a) else .error .outOfBounds := by
  induction row generalizing p with
  | nil => simp at hp
  | cons e rest ih =>
    obtain ⟨c, a0⟩ := e
    unfold RowSorted at hs
    rw [List.pairwise_cons] at hs
    by_cases hc : c = i
    · subst hc
      have hnot : c ∉ rest.map Prod.fst := by
        intro hm
        obtain ⟨e, he, hce⟩ := List.mem_map.1 hm
        have := hs.1 e he
        simp only at this
        omega
      have ha : a0 = a := by
        cases p with
        | zero =>
          simp only [List.getElem?_cons_zero, Option.some.injEq, Prod.mk.injEq] at hp
          exact hp.2
        | succ p =>
          simp only [List.getElem?_cons_succ] at hp
          exact absurd (List.mem_map.2 ⟨(c, a), List.getElem?_mem hp, rfl⟩) hnot
      subst ha
      simp only [getDiagonalScanRow, if_true]
      split_ifs
      · exact getDiagonalScanRow_absent c rest _ hnot
      · rfl
    · simp only [getDiagonalScanRow, if_neg hc]
      cases p with
      | zero =>
        simp only [List.getElem?_cons_zero, Option.some.injEq, Prod.mk.injEq] at hp
        exact absurd hp.1 hc
      | succ p =>
        simp only [List.getElem?_cons_succ] at hp
        exact ih p hs.2 hp

/-- On a row that stores the column `c`, the scan of `GetInverseIndex` returns a position of
the row, and the entry there has column `c`. -/
theorem inverseIndexLoop_present (c : Nat) (row : Row) (h : c ∈ row.map Prod.fst) :
    ∃ (p : Nat) (a : ℚ), inverseIndexLoop c 0 row = (p : Int) ∧ row[p]? = some (c, a) := by
  rcases inverseIndexLoop_position c 0 row with ⟨-, h2⟩ | ⟨p, h1, h2, -⟩
  · exact absurd h h2
  · obtain ⟨e, he, hc⟩ := Option.map_eq_some'.1 h2
    refine ⟨p, e.2, by rw [h1, Nat.zero_add], ?_⟩
    rw [he, ← hc]

theorem getDiagonalCached_eq_scan (m : SparseMatrix) (hs : SortedRows m.rows)
    (hfull : m.HasFullDiagonal)
    (hidx : ∀ (i : Nat) (row : Row), m.rows[i]? = some row →
      m.diagonalIndices[i]? = some (inverseIndexLoop i 0 row))
    (n i : Nat) (diagonal : List ℚ) (hn : i + n = m.rows.length) :
    getDiagonalCached m n i diagonal = getDiagonalScan i (m.rows.drop i) diagonal := by
  induction n generalizing i diagonal with
  | zero =>
    rw [List.drop_of_length_le (by omega)]
    rfl
  | succ n ih =>
    have hi : i < m.rows.length := by omega
    have hrow : m.rows[i]? = some m.rows[i] := List.getElem?_eq_getElem hi
    obtain ⟨p, a, h1, h2⟩ := inverseIndexLoop_present i m.rows[i] (hfull i _ hrow)
    have hscan := getDiagonalScanRow_present i p a m.rows[i] diagonal
      (hs _ (List.getElem?_mem hrow)) h2
    rw [List.drop_eq_getElem_cons hi]
    simp only [getDiagonalCached, hidx i _ hrow, hrow, h1, Int.toNat_ofNat, h2, getDiagonalScan,
      hscan]
    rw [if_neg (by omega)]
    by_cases hd : i < diagonal.length
    · simp only [hd, if_true]
      exact ih (i + 1) _ (by omega)
    · simp only [hd, if_false]

theorem addDiagonalScanRow_absent (addend : Except Fault ℚ) (i : Nat) (row : Row)
    (h : i ∉ row.map Prod.fst) : addDiagonalScanRow addend i row = .ok row := by
  induction row with
  | nil => rfl
  | cons e rest ih =>
    obtain ⟨c, a⟩ := e
    simp only [List.map_cons, List.mem_cons, not_or] at h
    have hc : ¬ c = i := fun e => h.1 e.symm
    simp only [addDiagonalScanRow, if_neg hc, ih h.2]

theorem addDiagonalScanRow_present (addend : Except Fault ℚ) (i p : Nat) (a : ℚ) (row : Row)
    (hs : RowSorted row) (hp : row[p]? = some (i, a)) :
    addDiagonalScanRow addend i row =
      match addend with
      | .ok d => .ok (row.set p (i, a + d))
      | .error f => .error f := by
  induction row generalizing p with
  | nil => simp at hp
  | cons e rest ih =>
    obtain ⟨c, a0⟩ := e
    unfold RowSorted at hs
    rw [List.pairwise_cons] at hs
    by_cases hc : c = i
    · subst hc
      have hnot : c ∉ rest.map Prod.fst := by
        intro hm
        obtain ⟨e, he, hce⟩ := List.mem_map.1 hm
        have := hs.1 e he
        simp only at this
        omega
      cases p with
      | zero =>
        simp only [List.getElem?_cons_zero, Option.some.injEq, Prod.mk.injEq] at hp
        rw [← hp.2]
        cases addend with
        | error f => simp only [addDiagonalScanRow, if_true]
        | ok d =>
          simp only [addDiagonalScanRow, if_true, addDiagonalScanRow_absent _ c rest hnot,
            List.set_cons_zero]
      | succ p =>
        simp only [List.getElem?_cons_succ] at hp
        exact absurd (List.mem_map.2 ⟨(c, a), List.getElem?_mem hp, rfl⟩) hnot
    · cases p with
      | zero =>
        simp only [List.getElem?_cons_zero, Option.some.injEq, Prod.mk.injEq] at hp
        exact absurd hp.1 hc
      | succ p =>
        simp only [List.getElem?_cons_succ] at hp
        simp only [addDiagonalScanRow, if_neg hc, ih p hs.2 hp, List.set_cons_succ]
        cases addend with
        | error f => rfl
        | ok d => rfl

theorem addDiagonalCached_eq_scan (addend : Nat → Except Fault ℚ) (indices : List Int)
    (haddend : ∀ k f, addend k = .error f → f = .outOfBounds)
    (n i : Nat) (rows : List Row) (hn : i + n = rows.length)
    (hrows : ∀ (k : Nat) (row : Row), i ≤ k → rows[k]? = some row →
      RowSorted row ∧ k ∈ row.map Prod.fst ∧ indices[k]? = some (inverseIndexLoop k 0 row)) :
    addDiagonalCached addend indices n i rows =
      Except.map (fun tail => rows.take i ++ tail) (addDiagonalScan addend i (rows.drop i)) := by
  induction n generalizing i rows with
  | zero =>
    rw [List.drop_of_length_le (by omega), List.take_of_length_le (by omega)]
    simp [addDiagonalCached, addDiagonalScan, Except.map]
  | succ n ih =>
    have hi : i < rows.length := by omega
    have hrow : rows[i]? = some rows[i] := List.getElem?_eq_getElem hi
    obtain ⟨hsorted, hmem, hidx⟩ := hrows i _ (le_refl _) hrow
    obtain ⟨p, a, h1, h2⟩ := inverseIndexLoop_present i rows[i] hmem
    have hscan := addDiagonalScanRow_present (addend i) i p a rows[i] hsorted h2
    rw [List.drop_eq_getElem_cons hi]
    cases hadd : addend i with
    | error f =>
      have hf := haddend i f hadd
      subst hf
      rw [hadd] at hscan
      simp only [addDiagonalCached, hidx, hrow, hadd, addDiagonalScan, hscan, Except.map]
    | ok d =>
      rw [hadd] at hscan
      have hih := ih (i + 1) (rows.set i (rows[i].set p (i, a + d)))
        (by rw [List.length_set]; omega)
        (fun k row hk hkrow => by
          rw [List.getElem?_set_ne (by omega)] at hkrow
          exact hrows k row (by omega) hkrow)
      have hdrop : (rows.set i (rows[i].set p (i, a + d))).drop (i + 1) = rows.drop (i + 1) :=
        List.drop_set_of_lt _ _ (by omega)
      have htake : (rows.set i (rows[i].set p (i, a + d))).take (i + 1) =
          rows.take i ++ [rows[i].set p (i, a + d)] := by
        rw [List.take_succ, take_set_of_le _ _ _ _ (le_refl i)]
        simp [hi]
      rw [hdrop, htake] at hih
      simp only [addDiagonalCached, hidx, hrow, hadd, h1, Int.toNat_ofNat, h2, addDiagonalScan,
        hscan]
      rw [if_neg (by omega), hih]
      cases addDiagonalScan addend (i + 1) (rows.drop (i + 1)) with
      | error f => rfl
      | ok rows1 => simp [Except.map]

theorem addDiagonal_agrees (m : SparseMatrix) (indices : List Int)
    (addend : Nat → Except Fault ℚ)
    (haddend : ∀ k f, addend k = .error f → f = .outOfBounds)
    (hs : SortedRows m.rows) (hfull : m.HasFullDiagonal)
    (hc : m.HasCachedDiagonalIndices = false)
    (hidx : ∀ (i : Nat) (row : Row), m.rows[i]? = some row →
      indices[i]? = some (inverseIndexLoop i 0 row)) :
    Except.map (·.rows) (({ m with diagonalIndices := indices } : SparseMatrix).addDiagonal
        addend) =
      Except.map (·.rows) (m.addDiagonal addend) := by
  have hscan : Except.map (·.rows) (m.addDiagonal addend) = addDiagonalScan addend 0 m.rows := by
    simp only [SparseMatrix.addDiagonal, hc]
    cases addDiagonalScan addend 0 m.rows <;> rfl
  rw [hscan]
  cases hc1 : ({ m with diagonalIndices := indices } : SparseMatrix).HasCachedDiagonalIndices with
  | false =>
    simp only [SparseMatrix.addDiagonal, hc1]
    cases addDiagonalScan addend 0 m.rows <;> rfl
  | true =>
    have h := addDiagonalCached_eq_scan addend indices haddend m.rows.length 0 m.rows
      (by simp) (fun k row _ hrow =>
        ⟨hs row (List.getElem?_mem hrow), hfull k row hrow, hidx k row hrow⟩)
    simp only [List.drop_zero, List.take_zero, List.nil_append] at h
    simp only [SparseMatrix.addDiagonal, hc1, SparseMatrix.GetNumRows, h]
    cases addDiagonalScan addend 0 m.rows <;> rfl

/-- On a matrix with strictly increasing rows that stores a diagonal entry in every row, and
has no diagonal cache, `BuildDiagonalIndices()` returns, and `GetDiagonal` and both
`AddDiagonalMatrix` overloads give with the cache built what they give without it. -/
theorem diagonal_access_agrees (m : SparseMatrix) (hs : SortedRows m.rows)
    (hfull : m.HasFullDiagonal) (hc : m.HasCachedDiagonalIndices = false) :
    ∃ m1, m.BuildDiagonalIndices = .ok m1 ∧ m1.rows = m.rows ∧
      (∀ diagonal, m1.GetDiagonal diagonal = m.GetDiagonal diagonal) ∧
      (∀ diagonalMatrix, Except.map (·.rows) (m1.AddDiagonalMatrix diagonalMatrix) =
        Except.map (·.rows) (m.AddDiagonalMatrix diagonalMatrix)) ∧
      ∀ constDiagonalElement,
        Except.map (·.rows) (m1.AddDiagonalMatrixConstant constDiagonalElement) =
          Except.map (·.rows) (m.AddDiagonalMatrixConstant constDiagonalElement) := by
  obtain ⟨indices, h1, -, h3⟩ := BuildDiagonalIndices_spec m hc
  refine ⟨_, h1, rfl, fun diagonal => ?_, fun diagonalMatrix => ?_, fun c => ?_⟩
  · cases hc1 : ({ m with diagonalIndices := indices } :
        SparseMatrix).HasCachedDiagonalIndices with
    | false => simp [SparseMatrix.GetDiagonal, hc1, hc]
    | true =>
      have h := getDiagonalCached_eq_scan { m with diagonalIndices := indices } hs hfull h3
        m.rows.length 0 diagonal (by simp)
      simp only [List.drop_zero] at h
      simp only [SparseMatrix.GetDiagonal, hc1, hc, SparseMatrix.GetNumRows, h]
      rfl
  · refine addDiagonal_agrees m indices _ (fun k f hf => ?_) hs hfull hc h3
    simp only [readDiagonalMatrix] at hf
    cases hd : diagonalMatrix[k]? with
    | none => rw [hd] at hf; exact (Except.error.inj hf).symm
    | some d => rw [hd] at hf; simp at hf
  · exact addDiagonal_agrees m indices _ (fun k f hf => by simp at hf) hs hfull hc h3

/-! ### Bounds safety of the batch row-and-column removal -/

theorem notifySuperAll_not_outOfBounds (m : SparseMatrix) (calls : List RemapperCall) :
    m.notifySuperAll calls ≠ .error .outOfBounds := by
  cases hl : m.superMatrixLinkage with
  | some l =>
    obtain ⟨m1, _, h1, -, -⟩ := notifySuperAll_some m calls l hl
    rw [h1]
    intro h
    exact Except.noConfusion h
  | none =>
    cases calls with
    | nil =>
      intro h
      simp [SparseMatrix.notifySuperAll] at h
    | cons call calls =>
      rw [notifySuperAll_none m (call :: calls) hl (by simp)]
      intro h
      exact Fault.noConfusion (Except.error.inj h)

/-- C31: bounds safety of `RemoveRowsColumns`. For every matrix whose stored column indices
are all below the row count, and every strictly ascending list `R` of indices below the row
count (passed 0- or 1-indexed with the flag): the first pass returns the table `oldToNew`,
which has one entry per row; the row loop, which reads the table at every row index and at
every stored column of a surviving row and writes and swaps the row arrays, returns; so the
call does not end in an out-of-range access. What is left is the notification of the
super-linkage: with a linkage the call returns, without one (and a non-empty list) it ends
at the null linkage. -/
theorem RemoveRowsColumns_bounds_safety (M : SparseMatrix) (R : List Nat) (oneIndexed : Int)
    (hcols : ColumnsBelow M.GetNumRows M.rows) (hs : R.Pairwise (· < ·))
    (hhi : ∀ r ∈ R, r < M.GetNumRows) :
    (∃ oldToNew rows1 newRowCount,
        buildOldToNew M.GetNumRows (asRemovalList R oneIndexed) oneIndexed = .ok oldToNew ∧
        oldToNew.length = M.GetNumRows ∧
        (∀ row ∈ M.rows, ∀ e ∈ row, e.1 < oldToNew.length) ∧
        compactRenumberRowsLoop oldToNew M.GetNumRows 0 0 M.rows =
          .ok (rows1, newRowCount)) ∧
      M.RemoveRowsColumns (asRemovalList R oneIndexed) oneIndexed ≠ .error .outOfBounds ∧
      (∀ L, M.superMatrixLinkage = some L →
        ∃ M1, M.RemoveRowsColumns (asRemovalList R oneIndexed) oneIndexed = .ok M1) ∧
      (M.superMatrixLinkage = none → R ≠ [] →
        M.RemoveRowsColumns (asRemovalList R oneIndexed) oneIndexed = .error .nullPointer) := by
  have hc : ∀ i, i ∉ R → ∀ e ∈ M.rows.getD i [], e.1 < M.rows.length :=
    fun i _ => columnsBelow_getD M.rows.length M.rows hcols i
  have heq := RemoveRowsColumns_eq M R oneIndexed hs hhi hc
  obtain ⟨rows1, t1, h1, h2⟩ := compactRenumberRowsLoop_spec M.rows.length R hs M.rows.length
    0 0 M.rows rfl (by simp) (le_refl _) (fun i _ hi => hc i hi)
  refine ⟨⟨_, rows1, t1, buildOldToNew_spec M.rows.length R oneIndexed hs hhi, by
    simp [SparseMatrix.GetNumRows], fun row hrow e he => by simpa using hcols row hrow e he,
    h1⟩, ?_, fun L hL => ?_, fun hnone hne => ?_⟩
  · rw [heq]
    exact notifySuperAll_not_outOfBounds _ _
  · obtain ⟨M1, _, hM1, -, -⟩ := notifySuperAll_some { M with rows := eliminated R M.rows }
      (removedRowColumnCalls (asRemovalList R oneIndexed) oneIndexed) L hL
    exact ⟨M1, by rw [heq, hM1]⟩
  · rw [heq]
    refine notifySuperAll_none _ _ hnone ?_
    cases R with
    | nil => exact absurd rfl hne
    | cons r rest => simp [removedRowColumnCalls, asRemovalList]

/-- Witness for C31 on the example matrix (3 rows, columns below 3) with the removal list
`0, 2`: the call returns, and leaves the one row `[(0, 3)]`. -/
theorem RemoveRowsColumns_bounds_safety_witness :
    exampleMatrix.RemoveRowsColumns (asRemovalList [0, 2] 0) 0 ≠ .error .outOfBounds ∧
      (∃ M1, exampleMatrix.RemoveRowsColumns (asRemovalList [0, 2] 0) 0 = .ok M1) ∧
      Except.map (·.rows) (exampleMatrix.RemoveRowsColumns (asRemovalList [0, 2] 0) 0) =
        .ok [[(0, 3)]] :=
  ⟨(RemoveRowsColumns_bounds_safety exampleMatrix [0, 2] 0 (by unfold ColumnsBelow; decide)
      (by decide) (by decide)).2.1,
    (RemoveRowsColumns_bounds_safety exampleMatrix [0, 2] 0 (by unfold ColumnsBelow; decide)
      (by decide) (by decide)).2.2.1 exampleLinkage rfl, rfl⟩

/-! ### Insertion on a linked matrix -/

theorem notifySubMatricesState_outcome (count : Nat → Nat) (call : RemapperCall)
    (links : List SparseSubMatrixLinkage) :
    ((notifySubMatricesState count call links).2 = none ∧
        ∀ l ∈ links, count l.subMatrix = 0) ∨
      ((notifySubMatricesState count call links).2 = some .assertion ∧
        ∃ l ∈ links, count l.subMatrix ≠ 0) := by
  induction links with
  | nil => exact Or.inl ⟨rfl, fun l hl => by simp at hl⟩
  | cons l rest ih =>
    by_cases h : count l.subMatrix = 0
    · simp only [notifySubMatricesState, h, if_true]
      rcases ih with ⟨h1, h2⟩ | ⟨h1, l0, hl0, h2⟩
      · refine Or.inl ⟨h1, fun l1 hl1 => ?_⟩
        rcases List.mem_cons.1 hl1 with e | hl1
        · rw [e]; exact h
        · exact h2 l1 hl1
      · exact Or.inr ⟨h1, l0, List.mem_cons_of_mem _ hl0, h2⟩
    · simp only [notifySubMatricesState, h, if_false]
      exact Or.inr ⟨trivial, l, List.mem_cons_self _ _, h⟩

/-- C32: `InsertNewEntry` refuses linked matrices. For every matrix that has a parent
(super-matrix) linkage, or records a linkage to a sub-matrix that itself records child
linkages, `InsertNewEntry(row, c)` returns for no `row` and `c`. When `r` is in range and
row `r` does not store `c`, the call is stopped by a failed assert, and only after the
entry has been inserted: the matrix it leaves has the new entry `(c, 0)` in row `r`, at its
place in column order. -/
theorem InsertNewEntry_refuses_linked (M : SparseMatrix) (count : Nat → Nat)
    (hlinked : M.superMatrixLinkage ≠ none ∨
      ∃ l ∈ M.subMatrixLinkages, count l.subMatrix ≠ 0) :
    (∀ (row : Int) (c : Nat), ∃ f, M.InsertNewEntry count row c = .error f) ∧
      ∀ (r c : Nat) (entries : Row), M.rows[r]? = some entries →
        c ∉ entries.map Prod.fst →
        M.InsertNewEntry count r c = .error .assertion ∧
          ∃ M1, M.InsertNewEntryState count r c = (M1, .error .assertion) ∧
            M1.rows = M.rows.set r
              (entries.take (lowerBound c entries) ++
                (c, 0) :: entries.drop (lowerBound c entries)) := by
  have hstate : ∀ (row : Int) (c : Nat), ∃ M1 f, M.InsertNewEntryState count row c =
      (M1, .error f) ∧ ∀ entries, 0 ≤ row → M.rows[row.toNat]? = some entries →
        c ∉ entries.map Prod.fst → f = .assertion ∧
          M1.rows = M.rows.set row.toNat
            (entries.take (lowerBound c entries) ++
              (c, 0) :: entries.drop (lowerBound c entries)) := by
    intro row c
    by_cases h1 : row < (M.GetNumRows : Int)
    · by_cases h0 : row < 0
      · exact ⟨M, .outOfBounds, by
          simp only [SparseMatrix.InsertNewEntryState, h1, if_true,
            SparseMatrix.GetInverseIndex, h0],
          fun entries hrow => absurd hrow (by omega)⟩
      · cases hr : M.rows[row.toNat]? with
        | none =>
          exact ⟨M, .outOfBounds, by
            simp only [SparseMatrix.InsertNewEntryState, h1, if_true,
              SparseMatrix.GetInverseIndex, h0, if_false, hr],
            fun entries _ he => absurd he (by simp)⟩
        | some r =>
          by_cases h2 : inverseIndexLoop c 0 r = -1
          · obtain ⟨R, hR⟩ : ∃ R, R = M.rows.set row.toNat
                (r.take (lowerBound c r) ++ (c, 0) :: r.drop (lowerBound c r)) := ⟨_, rfl⟩
            rcases hst : notifySubMatricesState count
                (.OnEntryWasInsertedIntoSuperMatrix row c) M.subMatrixLinkages with
              ⟨links1, _ | f⟩
            · have hsuper : M.superMatrixLinkage ≠ none := by
                rcases hlinked with h | ⟨l, hl, hne⟩
                · exact h
                · rcases notifySubMatricesState_outcome count
                      (.OnEntryWasInsertedIntoSuperMatrix row c) M.subMatrixLinkages with
                    ⟨-, hall⟩ | ⟨hsome, -⟩
                  · exact absurd (hall l hl) hne
                  · rw [hst] at hsome
                    exact Option.noConfusion hsome
              refine ⟨{ M with rows := R, subMatrixLinkages := links1 }, .assertion, by
                rw [hR]
                simp only [SparseMatrix.InsertNewEntryState, h1, if_true,
                  SparseMatrix.GetInverseIndex, h0, if_false, hr, h2, hst, hsuper],
                fun entries _ he _ => ⟨rfl, by rw [← Option.some.inj he, hR]⟩⟩
            · have hf : f = .assertion := by
                rcases notifySubMatricesState_outcome count
                    (.OnEntryWasInsertedIntoSuperMatrix row c) M.subMatrixLinkages with
                  ⟨hnone, -⟩ | ⟨hsome, -⟩
                · rw [hst] at hnone
                  exact Option.noConfusion hnone
                · rw [hst] at hsome
                  exact Option.some.inj hsome
              refine ⟨{ M with rows := R, subMatrixLinkages := links1 }, f, by
                rw [hR]
                simp only [SparseMatrix.InsertNewEntryState, h1, if_true,
                  SparseMatrix.GetInverseIndex, h0, if_false, hr, h2, hst],
                fun entries _ he _ => ⟨hf, by rw [← Option.some.inj he, hR]⟩⟩
          · exact ⟨M, .assertion, by
              simp only [SparseMatrix.InsertNewEntryState, h1, if_true,
                SparseMatrix.GetInverseIndex, h0, if_false, hr, h2],
              fun entries _ he hc => by
                rw [← Option.some.inj he] at hc
                exact absurd (inverseIndexLoop_not_mem c 0 r hc) h2⟩
    · exact ⟨M, .assertion, by simp only [SparseMatrix.InsertNewEntryState, h1, if_false],
        fun entries h0 he => by
          have hlt : row.toNat < M.rows.length := by
            by_contra hn
            rw [List.getElem?_eq_none (by omega)] at he
            exact Option.noConfusion he
          simp only [SparseMatrix.GetNumRows] at h1
          omega⟩
  refine ⟨fun row c => ?_, fun r c entries hrow hc => ?_⟩
  · obtain ⟨M1, f, h, -⟩ := hstate row c
    exact ⟨f, by rw [InsertNewEntry_eq_state, h]; rfl⟩
  · obtain ⟨M1, f, h, hrest⟩ := hstate (r : Int) c
    obtain ⟨hf, hrows⟩ := hrest entries (Int.natCast_nonneg r) (by simpa using hrow) hc
    subst hf
    exact ⟨by rw [InsertNewEntry_eq_state, h]; rfl, M1, h, by simpa using hrows⟩

/-- Witness for C32: the example matrix has a parent linkage, and `superExample` records a
linkage to the matrix with handle `1`, taken here to record 2 child linkages of its own; on
both, `InsertNewEntry(0, 2)` stops at an assert although row `0` is in range and stores no
column `2`. -/
theorem InsertNewEntry_refuses_linked_witness :
    exampleMatrix.InsertNewEntry (fun _ => 0) 0 2 = .error .assertion ∧
      superExample.InsertNewEntry (fun h => if h = 1 then 2 else 0) 0 2 = .error .assertion ∧
      ∃ M1, exampleMatrix.InsertNewEntryState (fun _ => 0) 0 2 = (M1, .error .assertion) ∧
        M1.rows = exampleMatrix.rows.set 0
          (([(0, 2), (1, 1)] : Row).take (lowerBound 2 [(0, 2), (1, 1)]) ++
            (2, 0) :: ([(0, 2), (1, 1)] : Row).drop (lowerBound 2 [(0, 2), (1, 1)])) :=
  ⟨((InsertNewEntry_refuses_linked exampleMatrix (fun _ => 0) (Or.inl (by decide))).2 0 2
      [(0, 2), (1, 1)] rfl (by decide)).1,
    ((InsertNewEntry_refuses_linked superExample (fun h => if h = 1 then 2 else 0)
      (Or.inr ⟨exampleLinkage, by decide, by decide⟩)).2 0 2 [(0, 1)] rfl (by decide)).1,
    ((InsertNewEntry_refuses_linked exampleMatrix (fun _ => 0) (Or.inl (by decide))).2 0 2
      [(0, 2), (1, 1)] rfl (by decide)).2⟩

/-! ### Detaching leaves the parent reference -/

/-- What a returning `AttachSuperMatrix` leaves at the super-matrix: its child list is the
old one, which held no linkage to the receiver, followed by the linkage returned. -/
theorem AttachSuperMatrix_ok_super (matrices matrices1 : List SparseMatrix) (t s : Nat)
    (offset : Int) (link : SparseSubMatrixLinkage)
    (h : AttachSuperMatrix matrices t s offset = (matrices1, .ok link)) :
    ∃ S0 S1, matrices[s]? = some S0 ∧ matrices1[s]? = some S1 ∧
      S1.subMatrixLinkages = S0.subMatrixLinkages ++ [link] ∧
      (∀ l ∈ S0.subMatrixLinkages, l.subMatrix ≠ t) ∧ link.subMatrix = t := by
  cases hT : matrices[t]? with
  | none => simp [AttachSuperMatrix, hT] at h
  | some T =>
    by_cases hnone : T.superMatrixLinkage = none
    · cases hS : matrices[s]? with
      | none => simp [AttachSuperMatrix, hT, hnone, hS] at h
      | some S =>
        rcases hA : S.AttachSubMatrix s t offset with ⟨S1, l0 | link0⟩
        · simp [AttachSuperMatrix, hT, hnone, hS, hA] at h
        · simp only [AttachSuperMatrix, hT, hnone, if_true, hS, hA, Prod.mk.injEq,
            Except.ok.injEq] at h
          obtain ⟨h1, h2⟩ := h
          subst h2
          obtain ⟨g1, g2, g3⟩ := AttachSubMatrix_ok S S1 s t offset link0 hA
          have hslt : s < matrices.length := by
            by_contra hn
            rw [List.getElem?_eq_none (by omega)] at hS
            exact Option.noConfusion hS
          have hsetS : (matrices.set s S1)[s]? = some S1 := by simp [hslt]
          have hsub : link0.subMatrix = t := by rw [g2]; rfl
          by_cases hts : t = s
          · subst hts
            obtain ⟨k1, -⟩ := setSuperMatrixLinkage_getElem? (matrices.set t S1) t link0 S1 hsetS
            rw [h1] at k1
            exact ⟨S, _, rfl, k1, by rw [g3], g1, hsub⟩
          · have hT0 : (matrices.set s S1)[t]? = some T := by
              rw [List.getElem?_set, if_neg (fun e => hts e.symm)]; exact hT
            obtain ⟨-, k2⟩ := setSuperMatrixLinkage_getElem? (matrices.set s S1) t link0 T hT0
            rw [h1] at k2
            exact ⟨S, S1, rfl, by rw [k2 s (fun e => hts e.symm)]; exact hsetS, by rw [g3], g1,
              hsub⟩
    · simp [AttachSuperMatrix, hT, hnone] at h

/-- C33: detaching does not clear the parent reference of the sub-matrix. After a
`T.AttachSuperMatrix(S)` that returned the linkage `link` (handles `t` and `s`),
`S.DetachSubMatrix(T)` returns and leaves `S` with the child list it had before the attach,
which holds no linkage to `T`; the parent-linkage field of `T` still holds `link`; and every
later `T.AttachSuperMatrix(S')` stops at the assert `superMatrixLinkage == nullptr`, leaving
the matrices as they are. -/
theorem DetachSubMatrix_keeps_parent_reference (matrices matrices1 : List SparseMatrix)
    (t s : Nat) (offset : Int) (link : SparseSubMatrixLinkage)
    (hattach : AttachSuperMatrix matrices t s offset = (matrices1, .ok link)) :
    ∃ S0 S1 S2 T2,
      matrices[s]? = some S0 ∧ matrices1[s]? = some S1 ∧
      S1.subMatrixLinkages = S0.subMatrixLinkages ++ [link] ∧
      S1.DetachSubMatrix t = (S2, .ok ()) ∧
      S2.subMatrixLinkages = S0.subMatrixLinkages ∧
      (∀ l ∈ S2.subMatrixLinkages, l.subMatrix ≠ t) ∧
      S2.GetExistingSubMatrixLinkage t = none ∧
      (matrices1.set s S2)[t]? = some T2 ∧ T2.superMatrixLinkage = some link ∧
      ∀ (s1 : Nat) (offset1 : Int),
        AttachSuperMatrix (matrices1.set s S2) t s1 offset1 =
          (matrices1.set s S2, .error .assertion) := by
  obtain ⟨S0, S1, hS0, hS1, hlinks, hnone, hsub⟩ :=
    AttachSuperMatrix_ok_super matrices matrices1 t s offset link hattach
  obtain ⟨-, -, -, ⟨T1, hT1, hT1link⟩, -⟩ :=
    AttachSuperMatrix_ok matrices matrices1 t s offset link hattach
  have hex : S1.GetExistingSubMatrixLinkage t = some link := by
    simp only [SparseMatrix.GetExistingSubMatrixLinkage, hlinks]
    exact existingLinkageLoop_append t _ _ hnone hsub
  have hnot : link ∉ S0.subMatrixLinkages := fun hm => hnone link hm hsub
  have herase : S1.subMatrixLinkages.erase link = S0.subMatrixLinkages := by
    rw [hlinks, List.erase_append_right _ hnot]
    simp
  have hslt : s < matrices1.length := by
    by_contra hn
    rw [List.getElem?_eq_none (by omega)] at hS1
    exact Option.noConfusion hS1
  have hT2 : ∃ T2, (matrices1.set s { S1 with subMatrixLinkages := S0.subMatrixLinkages })[t]? =
      some T2 ∧ T2.superMatrixLinkage = some link := by
    by_cases hts : t = s
    · subst hts
      refine ⟨{ S1 with subMatrixLinkages := S0.subMatrixLinkages }, by simp [hslt], ?_⟩
      rw [hS1] at hT1
      rw [Option.some.inj hT1]
      exact hT1link
    · exact ⟨T1, by rw [List.getElem?_set, if_neg (fun e => hts e.symm)]; exact hT1, hT1link⟩
  obtain ⟨T2, hT2a, hT2b⟩ := hT2
  refine ⟨S0, S1, { S1 with subMatrixLinkages := S0.subMatrixLinkages }, T2, hS0, hS1, hlinks,
    by simp only [SparseMatrix.DetachSubMatrix, hex, herase], rfl, hnone,
    (existingLinkageLoop_none t _).2 hnone, hT2a, hT2b, fun s1 offset1 => ?_⟩
  simp only [AttachSuperMatrix, hT2a, hT2b]
  rfl

/-- Witness for C33 on the two matrices of `unlinkedPair`: the matrix with handle `1` attaches
itself to the one with handle `0`, is detached, and can then attach itself neither to the
matrix with handle `0` nor to itself. -/
theorem DetachSubMatrix_keeps_parent_reference_witness :
    ∃ matrices1 link S2 T2,
      AttachSuperMatrix unlinkedPair 1 0 0 = (matrices1, .ok link) ∧
      S2.subMatrixLinkages = [] ∧
      (matrices1.set 0 S2)[1]? = some T2 ∧ T2.superMatrixLinkage = some link ∧
      AttachSuperMatrix (matrices1.set 0 S2) 1 0 0 = (matrices1.set 0 S2, .error .assertion) ∧
      AttachSuperMatrix (matrices1.set 0 S2) 1 1 5 = (matrices1.set 0 S2, .error .assertion) := by
  obtain ⟨S0, S1, S2, T2, h1, -, -, -, h5, -, -, h8, h9, h10⟩ :=
    DetachSubMatrix_keeps_parent_reference unlinkedPair _ 1 0 0 _ rfl
  have hS0 : S0 = identityExample := (Option.some.inj h1).symm
  rw [hS0] at h5
  exact ⟨_, _, S2, T2, rfl, h5, h8, h9, h10 0 0, h10 1 5⟩

/-! ### Relaxation sweep -/

theorem multiplyRow_inv (x : List ℚ) (row : Row) (acc r : ℚ)
    (h : multiplyRow x row acc = .ok r) :
    (∀ e ∈ row, e.1 < x.length) ∧ r = acc + rowSum x row := by
  induction row generalizing acc with
  | nil =>
    simp only [multiplyRow, Except.ok.injEq] at h
    exact ⟨fun e he => by simp at he, by simp [rowSum, h]⟩
  | cons e rest ih =>
    obtain ⟨c, a⟩ := e
    cases hc : x[c]? with
    | none => simp [multiplyRow, hc] at h
    | some v =>
      simp only [multiplyRow, hc] at h
      obtain ⟨h1, h2⟩ := ih _ h
      have hlt : c < x.length := by
        by_contra hn
        rw [List.getElem?_eq_none (by omega)] at hc
        exact Option.noConfusion hc
      refine ⟨fun e he => ?_, ?_⟩
      · rcases List.mem_cons.1 he with rfl | he
        · exact hlt
        · exact h1 e he
      · rw [h2, rowSum, List.getD_eq_getElem?_getD, hc]
        simp only [Option.getD_some]
        ring

theorem multiplyRows_inv (x : List ℚ) (rows : List Row) (b : List ℚ)
    (h : multiplyRows x rows = .ok b) :
    ∀ (k : Nat) (row : Row), rows[k]? = some row →
      (∀ e ∈ row, e.1 < x.length) ∧ b[k]? = some (rowSum x row) := by
  induction rows generalizing b with
  | nil => intro k row hk; simp at hk
  | cons r rest ih =>
    cases h1 : multiplyRow x r 0 with
    | error f => simp [multiplyRows, h1] at h
    | ok v =>
      cases h2 : multiplyRows x rest with
      | error f => simp [multiplyRows, h1, h2] at h
      | ok vs =>
        simp only [multiplyRows, h1, h2, Except.ok.injEq] at h
        subst h
        obtain ⟨g1, g2⟩ := multiplyRow_inv x r 0 v h1
        intro k row hk
        cases k with
        | zero =>
          simp only [List.getElem?_cons_zero, Option.some.injEq] at hk
          subst hk
          exact ⟨g1, by simp [g2]⟩
        | succ k =>
          simp only [List.getElem?_cons_succ] at hk ⊢
          exact ih vs h2 k row hk

theorem offDiagonalSum_absent (x : List ℚ) (i : Nat) (row : Row) (h : i ∉ row.map Prod.fst) :
    offDiagonalSum x i row = rowSum x row := by
  induction row with
  | nil => rfl
  | cons e rest ih =>
    obtain ⟨c, a⟩ := e
    simp only [List.map_cons, List.mem_cons, not_or] at h
    have hc : ¬ c = i := fun e => h.1 e.symm
    simp only [offDiagonalSum, rowSum, if_neg hc, ih h.2]

theorem rowSum_split (x : List ℚ) (i : Nat) (a : ℚ) (row : Row) (hs : RowSorted row)
    (h : (i, a) ∈ row) : rowSum x row = x.getD i 0 * a + offDiagonalSum x i row := by
  induction row with
  | nil => simp at h
  | cons e rest ih =>
    obtain ⟨c, a0⟩ := e
    unfold RowSorted at hs
    rw [List.pairwise_cons] at hs
    by_cases hc : c = i
    · subst hc
      have hnot : c ∉ rest.map Prod.fst := by
        intro hm
        obtain ⟨e, he, hce⟩ := List.mem_map.1 hm
        have := hs.1 e he
        simp only at this
        omega
      have ha : a0 = a := by
        rcases List.mem_cons.1 h with e | hm
        · exact (Prod.mk.inj e).2.symm
        · exact absurd (List.mem_map.2 ⟨(c, a), hm, rfl⟩) hnot
      subst ha
      simp only [rowSum, offDiagonalSum, if_true, offDiagonalSum_absent x c rest hnot]
      ring
    · have hm : (i, a) ∈ rest := by
        rcases List.mem_cons.1 h with e | hm
        · exact absurd (Prod.mk.inj e).1.symm hc
        · exact hm
      simp only [rowSum, offDiagonalSum, if_neg hc, ih hs.2 hm]
      ring

theorem gaussSeidelRow_absent (i : Nat) (x : List ℚ) (j : Nat) (row : Row) (buffer : ℚ)
    (diagIndex : Int) (hcol : ∀ e ∈ row, e.1 < x.length) (h : i ∉ row.map Prod.fst) :
    gaussSeidelRow i x j row buffer diagIndex =
      .ok (buffer - offDiagonalSum x i row, diagIndex) := by
  induction row generalizing j buffer with
  | nil => simp [gaussSeidelRow, offDiagonalSum]
  | cons e rest ih =>
    obtain ⟨c, a⟩ := e
    simp only [List.map_cons, List.mem_cons, not_or] at h
    have hc : ¬ c = i := fun e => h.1 e.symm
    have hlt : c < x.length := hcol (c, a) (List.mem_cons_self _ _)
    simp only [gaussSeidelRow, ne_eq, hc, not_false_eq_true, if_true,
      List.getElem?_eq_getElem hlt, offDiagonalSum, if_false]
    rw [ih (j + 1) _ (fun e he => hcol e (List.mem_cons_of_mem _ he)) h.2,
      List.getD_eq_getElem _ _ hlt]
    congr 2
    ring

theorem gaussSeidelRow_present (i : Nat) (x : List ℚ) (j p : Nat) (a : ℚ) (row : Row)
    (buffer : ℚ) (diagIndex : Int) (hcol : ∀ e ∈ row, e.1 < x.length) (hs : RowSorted row)
    (hp : row[p]? = some (i, a)) :
    gaussSeidelRow i x j row buffer diagIndex =
      .ok (buffer - offDiagonalSum x i row, ((j + p : Nat) : Int)) := by
  induction row generalizing j p buffer diagIndex with
  | nil => simp at hp
  | cons e rest ih =>
    obtain ⟨c, a0⟩ := e
    unfold RowSorted at hs
    rw [List.pairwise_cons] at hs
    have hrest : ∀ e ∈ rest, e.1 < x.length := fun e he => hcol e (List.mem_cons_of_mem _ he)
    by_cases hc : c = i
    · subst hc
      have hnot : c ∉ rest.map Prod.fst := by
        intro hm
        obtain ⟨e, he, hce⟩ := List.mem_map.1 hm
        have := hs.1 e he
        simp only at this
        omega
      cases p with
      | zero =>
        simp only [gaussSeidelRow, ne_eq, not_true_eq_false, if_false, offDiagonalSum, if_true,
          zero_add, Nat.add_zero]
        exact gaussSeidelRow_absent c x (j + 1) rest buffer j hrest hnot
      | succ p =>
        simp only [List.getElem?_cons_succ] at hp
        exact absurd (List.mem_map.2 ⟨(c, a), List.getElem?_mem hp, rfl⟩) hnot
    · cases p with
      | zero =>
        simp only [List.getElem?_cons_zero, Option.some.injEq, Prod.mk.injEq] at hp
        exact absurd hp.1 hc
      | succ p =>
        simp only [List.getElem?_cons_succ] at hp
        have hlt : c < x.length := hcol (c, a0) (List.mem_cons_self _ _)
        simp only [gaussSeidelRow, ne_eq, hc, not_false_eq_true, if_true,
          List.getElem?_eq_getElem hlt, offDiagonalSum, if_false]
        rw [ih (j + 1) p _ diagIndex hrest hs.2 hp, List.getD_eq_getElem _ _ hlt]
        congr 2
        · ring
        · congr 1; omega

theorem gaussSeidelStep_fixed (b x : List ℚ) (i : Nat) (a : ℚ) (row : Row)
    (hb : b[i]? = some (rowSum x row)) (hcol : ∀ e ∈ row, e.1 < x.length)
    (hs : RowSorted row) (hmem : (i, a) ∈ row) (ha : a ≠ 0) :
    gaussSeidelStep b i row x = .ok x := by
  obtain ⟨p, hp⟩ := List.getElem?_of_mem hmem
  have hi : i < x.length := hcol (i, a) hmem
  have hrow := gaussSeidelRow_present i x 0 p a row (rowSum x row) (-1) hcol hs hp
  have hval : (rowSum x row - offDiagonalSum x i row) / a = x[i] := by
    rw [rowSum_split x i a row hs hmem, List.getD_eq_getElem _ _ hi]
    field_simp
  simp only [gaussSeidelStep, hb, hrow, Nat.zero_add, Int.toNat_ofNat, hp, ha, if_false, hi,
    if_true, hval]
  rw [if_neg (by omega)]
  congr 1
  exact set_getElem?_self x i x[i] (List.getElem?_eq_getElem hi)

theorem gaussSeidelRows_fixed (b x : List ℚ) (i : Nat) (rows : List Row)
    (h : ∀ (k : Nat) (row : Row), rows[k]? = some row →
      b[i + k]? = some (rowSum x row) ∧ (∀ e ∈ row, e.1 < x.length) ∧ RowSorted row ∧
        ∃ a, (i + k, a) ∈ row ∧ a ≠ 0) :
    gaussSeidelRows b i rows x = .ok x := by
  induction rows generalizing i with
  | nil => rfl
  | cons row rest ih =>
    obtain ⟨h1, h2, h3, a, h4, h5⟩ := h 0 row (by simp)
    simp only [Nat.add_zero] at h1 h4
    simp only [gaussSeidelRows, gaussSeidelStep_fixed b x i a row h1 h2 h3 h4 h5]
    apply ih
    intro k r hk
    have := h (k + 1) r (by simpa using hk)
    rw [show i + (k + 1) = i + 1 + k by omega] at this
    exact this

/-- C34: an exact solution is a fixed point of the relaxation sweep. For every matrix with
strictly increasing rows in which every row stores a diagonal entry other than `0`, and all
vectors `x`, `b` for which `MultiplyVector(x)` returns `b` (so every stored column is a
position of `x`; for a square matrix, `x` has one entry per row), the sweep
`DoOneGaussSeidelIteration(x, b)` returns and leaves `x` as it was. -/
theorem exact_solution_is_fixed_point (m : SparseMatrix) (x b : List ℚ)
    (hs : SortedRows m.rows) (hd : m.HasNonZeroDiagonal)
    (hMx : m.MultiplyVector x = .ok b) :
    m.DoOneGaussSeidelIteration x b = .ok x := by
  have hinv := multiplyRows_inv x m.rows b hMx
  apply gaussSeidelRows_fixed
  intro k row hk
  obtain ⟨h1, h2⟩ := hinv k row hk
  rw [Nat.zero_add]
  exact ⟨h2, h1, hs row (List.getElem?_mem hk), hd k row hk⟩

/-- Witness for C34 on `relaxationExample` with `x = [1, 2]`, for which `Mx = [4, 7]`. -/
theorem exact_solution_is_fixed_point_witness :
    relaxationExample.MultiplyVector [1, 2] = .ok [4, 7] ∧
      relaxationExample.DoOneGaussSeidelIteration [1, 2] [4, 7] = .ok [1, 2] := by
  have hM : relaxationExample.MultiplyVector [1, 2] = .ok [4, 7] := by
    simp only [SparseMatrix.MultiplyVector, relaxationExample, multiplyRows, multiplyRow,
      List.getElem?_cons_zero, List.getElem?_cons_succ]
    norm_num
  have hd : relaxationExample.HasNonZeroDiagonal := by
    intro i row hrow
    rcases i with _ | _ | i
    · simp only [relaxationExample, List.getElem?_cons_zero, Option.some.injEq] at hrow
      exact ⟨2, by rw [← hrow]; simp, by norm_num⟩
    · simp only [relaxationExample, List.getElem?_cons_succ, List.getElem?_cons_zero,
        Option.some.injEq] at hrow
      exact ⟨3, by rw [← hrow]; simp, by norm_num⟩
    · simp [relaxationExample] at hrow
  exact ⟨hM, exact_solution_is_fixed_point relaxationExample [1, 2] [4, 7]
    (by simp [SortedRows, RowSorted, relaxationExample]) hd hM⟩

/-! ### Explicit transpose -/

theorem transposeAddRow_accumulates (i : Nat) (row : Row) (o : SparseMatrixOutline)
    (h : ∀ e ∈ row, e.1 < o.columnEntries.length) :
    ∃ o1, transposeAddRow i row o = .ok o1 ∧
      Accumulates o o1 (fun K L => if L = i then rowEntrySum row K else 0)
        (fun K L => L = i ∧ K ∈ row.map Prod.fst) := by
  induction row generalizing o with
  | nil =>
    exact ⟨o, rfl, accumulates_congr _ _ _ _ _ _ (accumulates_refl o)
      (by simp [rowEntrySum]) (by simp)⟩
  | cons e rest ih =>
    obtain ⟨c, a⟩ := e
    obtain ⟨o1, h1, hacc1⟩ := AddEntry_accumulates o c i a (h (c, a) (List.mem_cons_self _ _))
    obtain ⟨o2, h2, hacc2⟩ := ih o1 (fun e he => by
      rw [hacc1.1]; exact h e (List.mem_cons_of_mem _ he))
    refine ⟨o2, by simp only [transposeAddRow, h1, h2], ?_⟩
    refine accumulates_congr _ _ _ _ _ _ (accumulates_trans _ _ _ _ _ _ _ hacc1 hacc2)
      (fun K L => ?_) (fun K L => ?_)
    · by_cases hL : L = i
      · subst hL
        by_cases hK : c = K
        · simp [hK, rowEntrySum]
        · simp [hK, rowEntrySum]
      · have hL1 : ¬ i = L := fun e => hL e.symm
        simp [hL, hL1]
    · simp only [List.map_cons, List.mem_cons]
      constructor
      · rintro (⟨h1, h2⟩ | ⟨h1, h2⟩)
        · exact ⟨h2.symm, Or.inl h1.symm⟩
        · exact ⟨h1, Or.inr h2⟩
      · rintro ⟨h1, h2 | h2⟩
        · exact Or.inl ⟨h2.symm, h1.symm⟩
        · exact Or.inr ⟨h1, h2⟩

theorem transposeAddRows_accumulates (i : Nat) (rows : List Row) (o : SparseMatrixOutline)
    (h : ColumnsBelow o.columnEntries.length rows) :
    ∃ o1, transposeAddRows i rows o = .ok o1 ∧
      Accumulates o o1 (transposedValue i rows)
        (fun K L => ∃ k row, rows[k]? = some row ∧ L = i + k ∧ K ∈ row.map Prod.fst) := by
  induction rows generalizing i o with
  | nil =>
    exact ⟨o, rfl, accumulates_congr _ _ _ _ _ _ (accumulates_refl o)
      (by simp [transposedValue]) (by simp)⟩
  | cons row rest ih =>
    obtain ⟨o1, h1, hacc1⟩ := transposeAddRow_accumulates i row o
      (h row (List.mem_cons_self _ _))
    obtain ⟨o2, h2, hacc2⟩ := ih (i + 1) o1 (fun r hr => by
      rw [hacc1.1]; exact h r (List.mem_cons_of_mem _ hr))
    refine ⟨o2, by simp only [transposeAddRows, h1, h2], ?_⟩
    refine accumulates_congr _ _ _ _ _ _ (accumulates_trans _ _ _ _ _ _ _ hacc1 hacc2)
      (fun K L => by simp only [transposedValue]) (fun K L => ?_)
    constructor
    · rintro (⟨h1, h2⟩ | ⟨k, r, h1, h2, h3⟩)
      · exact ⟨0, row, by simp, by omega, h2⟩
      · exact ⟨k + 1, r, by simpa using h1, by omega, h3⟩
    · rintro ⟨k, r, h1, h2, h3⟩
      cases k with
      | zero =>
        simp only [List.getElem?_cons_zero, Option.some.injEq] at h1
        subst h1
        exact Or.inl ⟨by omega, h3⟩
      | succ k =>
        simp only [List.getElem?_cons_succ] at h1
        exact Or.inr ⟨k, r, h1, by omega, h3⟩

theorem transposedValue_eq (i : Nat) (rows : List Row) (K L : Nat) :
    transposedValue i rows K L =
      if i ≤ L then rowEntrySum (rows.getD (L - i) []) K else 0 := by
  induction rows generalizing i with
  | nil =>
    simp only [transposedValue, List.getD_nil, rowEntrySum]
    split_ifs <;> rfl
  | cons row rest ih =>
    simp only [transposedValue, ih]
    by_cases hL : L = i
    · subst hL
      simp
    · by_cases hle : i ≤ L
      · have h1 : i + 1 ≤ L := by omega
        obtain ⟨d, hd⟩ : ∃ d, L - i = d + 1 := ⟨L - i - 1, by omega⟩
        rw [if_neg hL, if_pos h1, if_pos hle, hd, show L - (i + 1) = d by omega]
        simp
      · have h1 : ¬ i + 1 ≤ L := by omega
        rw [if_neg hL, if_neg h1, if_neg hle]
        simp

theorem transposeMultiplyRow_pointwise (v : List ℚ) (i : Nat) (hi : i < v.length) (row : Row)
    (result : List ℚ) (h : ∀ e ∈ row, e.1 < result.length) :
    ∃ result1, transposeMultiplyRow v i row result = .ok result1 ∧
      result1.length = result.length ∧
      ∀ K, result1.getD K 0 = result.getD K 0 + v.getD i 0 * rowEntrySum row K := by
  induction row generalizing result with
  | nil => exact ⟨result, rfl, rfl, fun K => by simp [rowEntrySum]⟩
  | cons e rest ih =>
    obtain ⟨c, a⟩ := e
    have hc : c < result.length := h (c, a) (List.mem_cons_self _ _)
    obtain ⟨r1, hr1, hl1, hd1⟩ := ih (result.set c (result[c] + v[i] * a))
      (fun e he => by rw [List.length_set]; exact h e (List.mem_cons_of_mem _ he))
    refine ⟨r1, ?_, by rw [hl1, List.length_set], fun K => ?_⟩
    · simp only [transposeMultiplyRow, List.getElem?_eq_getElem hi,
        List.getElem?_eq_getElem hc, hr1]
    · rw [hd1 K, List.getD_eq_getElem?_getD, List.getElem?_set, List.getD_eq_getElem _ _ hi]
      by_cases hK : c = K
      · subst hK
        rw [if_pos rfl, if_pos hc, List.getD_eq_getElem _ _ hc]
        simp only [Option.getD_some, rowEntrySum, if_true]
        ring
      · rw [if_neg hK, ← List.getD_eq_getElem?_getD]
        simp only [rowEntrySum, if_neg hK]
        ring

theorem transposeMultiplyRows_pointwise (v : List ℚ) (rows : List Row) (i : Nat)
    (hv : i + rows.length ≤ v.length) (result : List ℚ)
    (h : ColumnsBelow result.length rows) :
    ∃ result1, transposeMultiplyRows v i rows result = .ok result1 ∧
      result1.length = result.length ∧
      ∀ K, result1.getD K 0 = result.getD K 0 + columnSum v K i rows := by
  induction rows generalizing i result with
  | nil => exact ⟨result, rfl, rfl, fun K => by simp [columnSum]⟩
  | cons row rows ih =>
    simp only [List.length_cons] at hv
    obtain ⟨r1, hr1, hl1, hd1⟩ := transposeMultiplyRow_pointwise v i (by omega) row result
      (h row (List.mem_cons_self _ _))
    obtain ⟨r2, hr2, hl2, hd2⟩ := ih (i + 1) (by omega) r1
      (fun r hr => by rw [hl1]; exact h r (List.mem_cons_of_mem _ hr))
    refine ⟨r2, by simp only [transposeMultiplyRows, hr1, hr2], hl2.trans hl1, fun K => ?_⟩
    rw [hd2 K, hd1 K, columnSum]
    ring

theorem columnSum_eq_sum (v : List ℚ) (K i : Nat) (rows : List Row) :
    columnSum v K i rows =
      ∑ k ∈ Finset.range rows.length, rowEntrySum (rows.getD k []) K * v.getD (i + k) 0 := by
  induction rows generalizing i with
  | nil => simp [columnSum]
  | cons row rows ih =>
    rw [columnSum, ih, List.length_cons, Finset.sum_range_succ']
    simp only [List.getD_cons_succ, List.getD_cons_zero, Nat.add_zero]
    rw [add_comm]
    congr 1
    · apply Finset.sum_congr rfl
      intro k _
      rw [show i + 1 + k = i + (k + 1) by omega]
    · ring

/-- On a row with strictly increasing columns, the pair `(j, a)` is stored exactly when the
row has the column `j` and the value stored there is `a`. -/
theorem mem_sorted_iff (row : Row) (j : Nat) (a : ℚ) (hs : RowSorted row) :
    (j, a) ∈ row ↔ j ∈ row.map Prod.fst ∧ rowEntrySum row j = a := by
  constructor
  · intro h
    exact ⟨List.mem_map.2 ⟨(j, a), h, rfl⟩, by
      rw [← rowEntry_eq_rowEntrySum row j hs]; exact (getElem?_lowerBound j a row hs h).2⟩
  · rintro ⟨h1, h2⟩
    obtain ⟨a1, ha1⟩ := (mem_map_fst_iff row j).1 h1
    have := (getElem?_lowerBound j a1 row hs ha1).2
    rw [rowEntry_eq_rowEntrySum row j hs, h2] at this
    rw [this]
    exact ha1

/-- The outline that `Transpose` fills, and the matrix built from it. -/
theorem Transpose_spec (M : SparseMatrix) (n : Nat) (hn : M.GetNumColumns ≤ n) :
    ∃ T, M.Transpose (n : Int) = .ok T ∧ T.rows.length = n ∧ SortedRows T.rows ∧
      (∀ K L, rowEntrySum (T.rows.getD K []) L = rowEntrySum (M.rows.getD L []) K) ∧
      ∀ K L, L ∈ (T.rows.getD K []).map Prod.fst ↔ K ∈ (M.rows.getD L []).map Prod.fst := by
  have hcols : ColumnsBelow (SparseMatrixOutline.create n).columnEntries.length M.rows := by
    intro row hrow e he
    have := column_lt_GetNumColumns M row hrow e he
    simp only [SparseMatrixOutline.create, List.length_replicate]
    omega
  obtain ⟨o1, h1, hlen, hsorted, hacc⟩ :=
    transposeAddRows_accumulates 0 M.rows (SparseMatrixOutline.create n) hcols
  have hs0 : SortedRows (SparseMatrixOutline.create n).columnEntries := by
    intro row hrow
    simp only [SparseMatrixOutline.create] at hrow
    rw [List.eq_of_mem_replicate hrow]
    exact List.Pairwise.nil
  refine ⟨(SparseMatrix.InitFromOutline o1).1, ?_, ?_, ?_, fun K L => ?_, fun K L => ?_⟩
  · have hneg : ¬ ((n : Int) < 0) := by omega
    simp only [SparseMatrix.Transpose, hneg, if_false, Int.toNat_ofNat, h1]
  · rw [InitFromOutline_rows, hlen]
    simp [SparseMatrixOutline.create]
  · rw [InitFromOutline_rows]
    exact hsorted hs0
  · have := (hacc K L).1
    simp only [SparseMatrixOutline.value, SparseMatrixOutline.create, getD_replicate_nil,
      rowEntrySum, zero_add, transposedValue_eq, Nat.zero_le, if_true, Nat.sub_zero] at this
    rw [InitFromOutline_rows]
    exact this
  · have := (hacc K L).2
    simp only [SparseMatrixOutline.HasKey, SparseMatrixOutline.create, getD_replicate_nil,
      List.map_nil, List.not_mem_nil, false_or, Nat.zero_add] at this
    rw [InitFromOutline_rows, this]
    constructor
    · rintro ⟨k, row, hk, rfl, hmem⟩
      rw [List.getD_eq_getElem?_getD, hk]
      exact hmem
    · intro hmem
      cases hL : M.rows[L]? with
      | none =>
        rw [List.getD_eq_getElem?_getD, hL] at hmem
        simp at hmem
      | some row =>
        rw [List.getD_eq_getElem?_getD, hL] at hmem
        exact ⟨L, row, hL, rfl, hmem⟩

/-- C35: `TransposeMultiplyVector` agrees with the explicit transpose. For every matrix `M`
with strictly increasing rows, every `n ≥ GetNumColumns()` and every vector `v` with one
entry per row of `M`: `Transpose(n)` returns a matrix `T` with `n` rows and strictly
increasing rows, which stores `a` at `(c, i)` exactly when `M` stores `a` at `(i, c)`;
`TransposeMultiplyVector(v, n)` and `T.MultiplyVector(v)` both return, and return the same
vector. -/
theorem TransposeMultiplyVector_agrees_with_Transpose (M : SparseMatrix) (n : Nat)
    (v : List ℚ) (hs : SortedRows M.rows) (hn : M.GetNumColumns ≤ n)
    (hv : v.length = M.GetNumRows) :
    ∃ T y, M.Transpose (n : Int) = .ok T ∧ T.GetNumRows = n ∧ SortedRows T.rows ∧
      (∀ (i c : Nat) (a : ℚ), (c, a) ∈ M.rows.getD i [] ↔ (i, a) ∈ T.rows.getD c []) ∧
      M.TransposeMultiplyVector v n = .ok y ∧ T.MultiplyVector v = .ok y ∧ y.length = n := by
  obtain ⟨T, hT, hlen, hsorted, hval, hkey⟩ := Transpose_spec M n hn
  have hvl : v.length = M.rows.length := hv
  have hcolsM : ColumnsBelow (List.replicate n (0 : ℚ)).length M.rows := by
    intro row hrow e he
    have := column_lt_GetNumColumns M row hrow e he
    rw [List.length_replicate]
    omega
  obtain ⟨y, hy, hyl, hyv⟩ := transposeMultiplyRows_pointwise v M.rows 0 (by omega)
    (List.replicate n 0) hcolsM
  rw [List.length_replicate] at hyl
  have hkeyBound : ∀ (K L : Nat), L ∈ (T.rows.getD K []).map Prod.fst → L < M.rows.length := by
    intro K L hL
    have hmem := (hkey K L).1 hL
    by_contra hlt
    rw [List.getD_eq_getElem?_getD, List.getElem?_eq_none (by omega)] at hmem
    simp at hmem
  have hcolsT : ColumnsBelow v.length T.rows := by
    intro row hrow e he
    obtain ⟨K, hK, hrowK⟩ := List.getElem_of_mem hrow
    rw [hvl]
    apply hkeyBound K e.1
    rw [List.getD_eq_getElem _ _ hK, hrowK]
    exact List.mem_map.2 ⟨e, he, rfl⟩
  have hTy : T.rows.map (rowSum v) = y := by
    apply List.ext_getElem
    · rw [List.length_map, hlen, hyl]
    · intro K h1 h2
      rw [List.getElem_map]
      have hKT : K < T.rows.length := by simpa using h1
      have hrow : ∀ e ∈ T.rows[K], e.1 < M.rows.length := fun e he => by
        apply hkeyBound K e.1
        rw [List.getD_eq_getElem _ _ hKT]
        exact List.mem_map.2 ⟨e, he, rfl⟩
      rw [rowSum_eq_sum M.rows.length v T.rows[K] hrow, ← List.getD_eq_getElem y 0 h2, hyv K,
        columnSum_eq_sum]
      have hz : (List.replicate n (0 : ℚ)).getD K 0 = 0 := by
        rw [List.getD_eq_getElem?_getD, List.getElem?_replicate]
        split_ifs <;> rfl
      rw [hz, zero_add]
      apply Finset.sum_congr rfl
      intro k _
      rw [← hval K k, List.getD_eq_getElem _ _ hKT, Nat.zero_add]
  refine ⟨T, y, hT, hlen, hsorted, fun i c a => ?_, ?_, ?_, hyl⟩
  · rw [mem_sorted_iff _ c a (sortedRows_getD M.rows hs i),
      mem_sorted_iff _ i a (sortedRows_getD T.rows hsorted c), hkey c i, hval c i]
  · simp only [SparseMatrix.TransposeMultiplyVector, hy]
  · simp only [SparseMatrix.MultiplyVector, multiplyRows_ok v T.rows hcolsT, hTy]

/-- Witness for C35 on the 3-row example matrix with `n = 4` and `v = [1, 2, 3]`: the
transpose has the rows `[(0,2),(1,1)], [(0,1),(1,3)], [(2,5)], []`, and both products are
`[4, 7, 15, 0]`. -/
theorem TransposeMultiplyVector_agrees_with_Transpose_witness :
    ∃ T y, unlinkedExample.Transpose 4 = .ok T ∧
      T.rows = [[(0, 2), (1, 1)], [(0, 1), (1, 3)], [(2, 5)], []] ∧
      unlinkedExample.TransposeMultiplyVector [1, 2, 3] 4 = .ok y ∧
      T.MultiplyVector [1, 2, 3] = .ok y ∧ y = [4, 7, 15, 0] := by
  obtain ⟨T, y, h1, -, -, -, h5, h6, -⟩ :=
    TransposeMultiplyVector_agrees_with_Transpose unlinkedExample 4 [1, 2, 3]
      (by simp [SortedRows, RowSorted, unlinkedExample]) (by decide) rfl
  have hT : unlinkedExample.Transpose ((4 : Nat) : Int) =
      .ok { rows := [[(0, 2), (1, 1)], [(0, 1), (1, 3)], [(2, 5)], []] } := rfl
  have hy : unlinkedExample.TransposeMultiplyVector [1, 2, 3] 4 = .ok [4, 7, 15, 0] := by
    simp only [SparseMatrix.TransposeMultiplyVector, unlinkedExample, transposeMultiplyRows,
      transposeMultiplyRow, List.replicate, List.getElem?_cons_zero, List.getElem?_cons_succ,
      List.set_cons_zero, List.set_cons_succ]
    norm_num
  rw [hT] at h1
  rw [hy] at h5
  refine ⟨T, y, ?_, ?_, ?_, h6, (Except.ok.inj h5).symm⟩
  · rw [← Except.ok.inj h1]; exact hT
  · rw [← Except.ok.inj h1]
  · rw [← Except.ok.inj h5]; exact hy

/-! ### Construction from an outline -/

theorem initRowFromOutline_no_warning (m : List (Nat × ℚ)) (prev : Int) (hs : RowSorted m)
    (hprev : ∀ e ∈ m, prev < (e.1 : Int)) : (initRowFromOutline m prev).2 = 0 := by
  induction m generalizing prev with
  | nil => rfl
  | cons e rest ih =>
    obtain ⟨c, a⟩ := e
    unfold RowSorted at hs
    rw [List.pairwise_cons] at hs
    have hc : ¬ ((c : Int) ≤ prev) := by
      have := hprev (c, a) (List.mem_cons_self _ _)
      simp only at this
      omega
    have hrest := ih (c : Int) hs.2 (fun e he => by
      have := hs.1 e he
      simp only at this
      omega)
    simp only [initRowFromOutline, hc, if_false, hrest]

/-- Every outline built from `SparseMatrixOutline(numRows)` by `AddEntry` calls keeps each of
its maps in strictly increasing key order. -/
theorem addEntries_sorted (calls : List (Nat × Nat × ℚ)) (o o1 : SparseMatrixOutline)
    (hs : SortedRows o.columnEntries) (h : addEntries calls o = .ok o1) :
    SortedRows o1.columnEntries := by
  induction calls generalizing o with
  | nil =>
    simp only [addEntries, Except.ok.injEq] at h
    rw [← h]; exact hs
  | cons call rest ih =>
    obtain ⟨i, j, value⟩ := call
    cases hadd : o.AddEntry i j value with
    | error f => simp [addEntries, hadd] at h
    | ok o2 =>
      simp only [addEntries, hadd] at h
      refine ih o2 ?_ h
      cases hrow : o.columnEntries[i]? with
      | none => simp [SparseMatrixOutline.AddEntry, hrow] at hadd
      | some row =>
        simp only [SparseMatrixOutline.AddEntry, hrow, Except.ok.injEq] at hadd
        rw [← hadd]
        intro r hr
        rcases List.mem_or_eq_of_mem_set hr with hr | rfl
        · exact hs r hr
        · exact sorted_mapAddEntry _ _ _ (hs _ (List.getElem?_mem hrow))

/-- C36: construction from an outline yields sorted rows. For every outline whose maps are
ordered (strictly increasing keys, which are natural numbers), `InitFromOutline` gives a
matrix with the row count of the outline, in which row `i` lists exactly the `(column,
value)` pairs of map `i`, in key order; every row has strictly increasing column indices,
and the warning "entries not sorted" is printed `0` times. -/
theorem InitFromOutline_sorted_rows (o : SparseMatrixOutline)
    (hs : SortedRows o.columnEntries) :
    (SparseMatrix.InitFromOutline o).1.GetNumRows = o.GetNumRows ∧
      (SparseMatrix.InitFromOutline o).1.rows = o.columnEntries ∧
      SortedRows (SparseMatrix.InitFromOutline o).1.rows ∧
      (SparseMatrix.InitFromOutline o).2 = 0 := by
  have hrows := InitFromOutline_rows o
  refine ⟨by rw [SparseMatrix.GetNumRows, hrows]; rfl, hrows, by rw [hrows]; exact hs, ?_⟩
  simp only [SparseMatrix.InitFromOutline]
  apply List.sum_eq_zero
  intro w hw
  obtain ⟨m, hm, rfl⟩ := List.mem_map.1 hw
  exact initRowFromOutline_no_warning m (-1) (hs m hm) (fun e _ => by omega)

/-- Witness for C36: the outline with 3 rows filled by `AddEntry(1, 2, 5)`, `AddEntry(1, 0,
3)`, `AddEntry(0, 1, 1)` and `AddEntry(1, 2, 1)` has ordered maps, and the matrix built
from it has the rows `[(1, 1)], [(0, 3), (2, 6)], []`, without a warning. -/
theorem InitFromOutline_sorted_rows_witness :
    ∃ o, addEntries [(1, 2, 5), (1, 0, 3), (0, 1, 1), (1, 2, 1)]
        (SparseMatrixOutline.create 3) = .ok o ∧
      SortedRows o.columnEntries ∧
      (SparseMatrix.InitFromOutline o).1.GetNumRows = 3 ∧
      (SparseMatrix.InitFromOutline o).1.rows = [[(1, 1)], [(0, 3), (2, 5 + 1)], []] ∧
      SortedRows (SparseMatrix.InitFromOutline o).1.rows ∧
      (SparseMatrix.InitFromOutline o).2 = 0 := by
  have h0 : addEntries [(1, 2, 5), (1, 0, 3), (0, 1, 1), (1, 2, 1)]
      (SparseMatrixOutline.create 3) =
      .ok { columnEntries := [[(1, 1)], [(0, 3), (2, 5 + 1)], []] } := rfl
  have hs : SortedRows
      ({ columnEntries := [[(1, 1)], [(0, 3), (2, 5 + 1)], []] } :
        SparseMatrixOutline).columnEntries := by
    simp [SortedRows, RowSorted]
  have h := InitFromOutline_sorted_rows { columnEntries := [[(1, 1)], [(0, 3), (2, 5 + 1)], []] }
    hs
  exact ⟨_, h0, hs, h.1, h.2.1, h.2.2.1, h.2.2.2⟩

/-! ### The sorted-row invariant with column indices of either sign -/

theorem shiftBack_spec_signed (pre rest : SignedRow) (x : Int × ℚ) :
    Signed.shiftBack rest.length pre.length (pre ++ x :: rest) =
      .ok (pre ++ (rest ++ (x :: rest).drop rest.length)) := by
  induction rest generalizing pre x with
  | nil => simp [Signed.shiftBack]
  | cons y ys ih =>
    have h1 : (pre ++ x :: y :: ys)[pre.length + 1]? = some y := by
      rw [List.getElem?_append_right (by omega)]
      simp
    have h2 : pre.length < (pre ++ x :: y :: ys).length := by simp
    have h3 : (pre ++ x :: y :: ys).set pre.length y = (pre ++ [y]) ++ y :: ys := by
      rw [List.set_append_right _ _ (le_refl _)]
      simp
    have h4 := ih (pre ++ [y]) y
    simp only [List.length_append, List.length_singleton] at h4
    simp only [List.length_cons, Signed.shiftBack, h1, h2, if_true, h3, h4]
    simp

theorem shiftSeekLoop_noMatch_signed (index : Int) (n j cached : Nat) (row : SignedRow)
    (h : ∀ p, j ≤ p → p < cached → ∃ e, row[p]? = some e ∧ e.1 ≠ index) :
    Signed.shiftSeekLoop index n j cached row = .ok (row, cached) := by
  induction n generalizing j with
  | zero => rfl
  | succ n ih =>
    unfold Signed.shiftSeekLoop
    by_cases hj : j < cached
    · obtain ⟨e, he1, he2⟩ := h j (le_refl _) hj
      obtain ⟨c, a⟩ := e
      rw [if_pos hj, he1]
      simp only []
      rw [if_neg he2]
      exact ih (j + 1) (fun p hp1 hp2 => h p (by omega) hp2)
    · rw [if_neg hj]

theorem shiftSeekLoop_spec_signed (index : Int) (n : Nat) (pre suf : SignedRow)
    (hs : SignedRowSorted suf) (hn : suf.length ≤ n) :
    Signed.shiftSeekLoop index n pre.length (pre ++ suf).length (pre ++ suf) =
      .ok (pre ++ Signed.shiftOut index suf,
        (pre ++ suf).length - (if index ∈ suf.map Prod.fst then 1 else 0)) := by
  induction suf generalizing pre n with
  | nil =>
    cases n with
    | zero => simp [Signed.shiftSeekLoop, Signed.shiftOut]
    | succ n => simp [Signed.shiftSeekLoop, Signed.shiftOut]
  | cons e rest ih =>
    obtain ⟨c, a⟩ := e
    unfold SignedRowSorted at hs
    rw [List.pairwise_cons] at hs
    cases n with
    | zero => simp at hn
    | succ n =>
      have hj : pre.length < (pre ++ (c, a) :: rest).length := by simp
      have hget : (pre ++ (c, a) :: rest)[pre.length]? = some (c, a) := by
        rw [List.getElem?_append_right (le_refl _)]
        simp
      unfold Signed.shiftSeekLoop
      rw [if_pos hj, hget]
      simp only []
      by_cases hc : c = index
      · have hlen : (pre ++ (c, a) :: rest).length - 1 - pre.length = rest.length := by
          simp only [List.length_append, List.length_cons]; omega
        rw [if_pos hc, hlen, shiftBack_spec_signed pre rest (c, a)]
        simp only []
        rw [shiftSeekLoop_noMatch_signed]
        · simp only [Signed.shiftOut, hc, if_true, List.map_cons, List.mem_cons, true_or]
        · intro p hp1 hp2
          simp only [List.length_append, List.length_cons] at hp2
          have hp3 : p - pre.length < rest.length := by omega
          refine ⟨rest[p - pre.length], ?_, ?_⟩
          · rw [List.getElem?_append_right (by omega),
              List.getElem?_append_left (by omega), List.getElem?_eq_getElem hp3]
          · have := hs.1 _ (List.getElem_mem hp3)
            simp only at this
            omega
      · rw [if_neg hc]
        have h1 := ih n (pre ++ [(c, a)]) hs.2 (by simpa using hn)
        simp only [List.length_append, List.length_singleton, List.append_assoc,
          List.singleton_append] at h1
        simp only [List.length_append, List.length_cons] at h1 ⊢
        rw [h1]
        have hiff : index ∈ ((c, a) :: rest).map Prod.fst ↔ index ∈ rest.map Prod.fst := by
          rw [List.map_cons, List.mem_cons]
          exact ⟨fun h => h.resolve_left (fun e => hc e.symm), Or.inr⟩
        simp only [Signed.shiftOut, hc, if_false]
        by_cases hm : index ∈ rest.map Prod.fst
        · rw [if_pos hm, if_pos (hiff.2 hm)]
        · rw [if_neg hm, if_neg (fun h => hm (hiff.1 h))]

theorem decrementAbove_prefix_signed (index : Int) (l1 l2 : SignedRow) :
    Signed.decrementAbove index l1.length (l1 ++ l2) = .ok (Signed.lowered index l1 ++ l2) := by
  induction l1 with
  | nil =>
    cases l2 <;> rfl
  | cons e rest ih =>
    obtain ⟨c, a⟩ := e
    unfold Signed.lowered at ih ⊢
    simp only [List.length_cons, List.cons_append, Signed.decrementAbove, List.append_eq, ih,
      List.map_cons]

theorem shiftOut_not_mem_signed (index : Int) (row : SignedRow)
    (h : index ∉ row.map Prod.fst) : Signed.shiftOut index row = row := by
  induction row with
  | nil => rfl
  | cons e rest ih =>
    obtain ⟨c, a⟩ := e
    simp only [List.map_cons, List.mem_cons, not_or] at h
    have hc : ¬ c = index := fun e => h.1 e.symm
    simp only [Signed.shiftOut, hc, if_false, ih h.2]

theorem shiftOut_split_signed (index : Int) (v : ℚ) (s1 s2 : SignedRow)
    (h : ∀ e ∈ s1, e.1 ≠ index) :
    Signed.shiftOut index (s1 ++ (index, v) :: s2) =
      s1 ++ (s2 ++ ((index, v) :: s2).drop s2.length) := by
  induction s1 with
  | nil => simp [Signed.shiftOut]
  | cons e rest ih =>
    obtain ⟨c, a⟩ := e
    have hc : ¬ c = index := h (c, a) (List.mem_cons_self _ _)
    simp only [List.cons_append, Signed.shiftOut, hc, if_false, List.append_eq,
      ih (fun e he => h e (List.mem_cons_of_mem _ he))]

theorem last_is_largest_signed (l : SignedRow) (x : Int × ℚ) (hs : SignedRowSorted (x :: l)) :
    ∀ b ∈ (x :: l).drop l.length, ∀ a ∈ x :: l, a.1 ≤ b.1 := by
  induction l generalizing x with
  | nil =>
    intro b hb a ha
    simp only [List.length_nil, List.drop_zero, List.mem_singleton] at hb ha
    rw [hb, ha]
  | cons y ys ih =>
    unfold SignedRowSorted at hs
    rw [List.pairwise_cons] at hs
    intro b hb a ha
    simp only [List.length_cons, List.drop_succ_cons] at hb
    rcases List.mem_cons.1 ha with ha | ha
    · rw [ha]
      exact le_of_lt (hs.1 b (List.mem_of_mem_drop hb))
    · exact ih y hs.2 b hb a ha

/-- Lowering the columns above `index` keeps a row strictly increasing when `index` itself is
not stored in it. -/
theorem lowered_sorted (index : Int) (row : SignedRow) (hs : SignedRowSorted row)
    (h : index ∉ row.map Prod.fst) : SignedRowSorted (Signed.lowered index row) := by
  unfold SignedRowSorted Signed.lowered at *
  rw [List.pairwise_map]
  refine List.Pairwise.imp_of_mem (fun {a b} ha hb hab => ?_) hs
  have ha1 : a.1 ≠ index := fun e => h (List.mem_map.2 ⟨a, ha, e⟩)
  have hb1 : b.1 ≠ index := fun e => h (List.mem_map.2 ⟨b, hb, e⟩)
  by_cases h1 : index < a.1 <;> by_cases h2 : index < b.1 <;>
    simp only [h1, h2, if_true, if_false] <;> omega

/-- On a row with strictly increasing columns the body of the row loop of `RemoveColumn`
returns a row with strictly increasing columns, for an index of either sign: the row without
the removed column and with the columns above it lowered, followed, when the column was
stored, by the last entry of the old row (the row vectors are not shortened). -/
theorem removeColumnFromRowShifting_sorted_signed (index : Int) (row : SignedRow)
    (hs : SignedRowSorted row) :
    ∃ row1, Signed.removeColumnFromRowShifting index row = .ok row1 ∧ SignedRowSorted row1 ∧
      row1 = Signed.lowered index (row.filter (fun e => decide (e.1 ≠ index))) ++
        (if index ∈ row.map Prod.fst then row.drop (row.length - 1) else []) := by
  have hseek := shiftSeekLoop_spec_signed index row.length [] row hs (le_refl _)
  simp only [List.nil_append, List.length_nil] at hseek
  by_cases hm : index ∈ row.map Prod.fst
  · obtain ⟨e, he, hei⟩ := List.mem_map.1 hm
    obtain ⟨s1, s2, hsplit⟩ := List.append_of_mem he
    obtain ⟨c, v⟩ := e
    simp only at hei
    subst hei
    subst hsplit
    unfold SignedRowSorted at hs
    rw [List.pairwise_append, List.pairwise_cons] at hs
    obtain ⟨hs1, ⟨hs2a, hs2⟩, hs12⟩ := hs
    have h1 : ∀ e ∈ s1, e.1 ≠ c := fun e he => by
      have := hs12 e he (c, v) (List.mem_cons_self _ _)
      simp only at this
      omega
    have h2 : ∀ e ∈ s2, e.1 ≠ c := fun e he => by
      have := hs2a e he
      simp only at this
      omega
    have hnot : c ∉ (s1 ++ s2).map Prod.fst := by
      intro hcon
      obtain ⟨e, he, hec⟩ := List.mem_map.1 hcon
      rcases List.mem_append.1 he with he | he
      · exact h1 e he hec
      · exact h2 e he hec
    have hsort12 : SignedRowSorted (s1 ++ s2) := by
      unfold SignedRowSorted
      rw [List.pairwise_append]
      exact ⟨hs1, hs2, fun a ha b hb => hs12 a ha b (List.mem_cons_of_mem _ hb)⟩
    have hfilter : (s1 ++ (c, v) :: s2).filter (fun e => decide (e.1 ≠ c)) = s1 ++ s2 := by
      rw [List.filter_append, List.filter_cons]
      simp only [ne_eq, not_true_eq_false, decide_False, Bool.false_eq_true, if_false]
      rw [List.filter_eq_self.2 (fun e he => by simpa using h1 e he),
        List.filter_eq_self.2 (fun e he => by simpa using h2 e he)]
    have hlen : (s1 ++ (c, v) :: s2).length - 1 = (s1 ++ s2).length := by
      simp only [List.length_append, List.length_cons]; omega
    have hdrop : (s1 ++ (c, v) :: s2).drop ((s1 ++ (c, v) :: s2).length - 1) =
        ((c, v) :: s2).drop s2.length := by
      have : (s1 ++ (c, v) :: s2).length - 1 = s1.length + s2.length := by
        simp only [List.length_append, List.length_cons]; omega
      rw [this, List.drop_append]
    have hlargest := last_is_largest_signed s2 (c, v) (by
      unfold SignedRowSorted; rw [List.pairwise_cons]; exact ⟨hs2a, hs2⟩)
    have hsorted : SignedRowSorted
        (Signed.lowered c (s1 ++ s2) ++ ((c, v) :: s2).drop s2.length) := by
      have hlow := lowered_sorted c (s1 ++ s2) hsort12 hnot
      unfold SignedRowSorted at hlow ⊢
      rw [List.pairwise_append]
      refine ⟨hlow, ?_, ?_⟩
      · exact List.Pairwise.sublist (List.drop_sublist _ _)
          (List.pairwise_cons.2 ⟨hs2a, hs2⟩)
      · intro a ha b hb
        unfold Signed.lowered at ha
        obtain ⟨e, he, rfl⟩ := List.mem_map.1 ha
        have hcb : c ≤ b.1 := hlargest b hb (c, v) (List.mem_cons_self _ _)
        rcases List.mem_append.1 he with he | he
        · have hlt := hs12 e he (c, v) (List.mem_cons_self _ _)
          simp only at hlt
          rw [if_neg (by omega)]
          simp only
          omega
        · have hlt := hs2a e he
          have hle := hlargest b hb e (List.mem_cons_of_mem _ he)
          simp only at hlt
          rw [if_pos hlt]
          simp only
          omega
    have hdec := decrementAbove_prefix_signed c (s1 ++ s2) (((c, v) :: s2).drop s2.length)
    rw [if_pos hm, shiftOut_split_signed c v s1 s2 h1, ← List.append_assoc, hlen] at hseek
    refine ⟨_, by simp only [Signed.removeColumnFromRowShifting, hseek, hdec], hsorted, ?_⟩
    rw [if_pos hm, hdrop, hfilter]
  · rw [if_neg hm] at hseek ⊢
    rw [shiftOut_not_mem_signed index row hm] at hseek
    have hdec := decrementAbove_prefix_signed index row []
    simp only [List.append_nil] at hdec
    have hfilter : row.filter (fun e => decide (e.1 ≠ index)) = row :=
      List.filter_eq_self.2 (fun e he => by
        simp only [ne_eq, decide_eq_true_eq]
        exact fun hcon => hm (List.mem_map.2 ⟨e, he, hcon⟩))
    refine ⟨Signed.lowered index row, ?_, lowered_sorted index row hs hm, by
      rw [hfilter, List.append_nil]⟩
    simp only [Signed.removeColumnFromRowShifting, hseek, Nat.sub_zero, hdec]

theorem forEachRow_spec_signed (body : SignedRow → Except Fault SignedRow)
    (f : SignedRow → SignedRow) (rows : List SignedRow)
    (h : ∀ row ∈ rows, body row = .ok (f row)) :
    Signed.forEachRow body rows = .ok (rows.map f) := by
  induction rows with
  | nil => rfl
  | cons row rows ih =>
    simp only [Signed.forEachRow, h row (List.mem_cons_self _ _),
      ih (fun r hr => h r (List.mem_cons_of_mem _ hr)), List.map_cons]

theorem notifySuper_rows_signed (m : SignedMatrix) (call : RemapperCall) (m1 : SignedMatrix)
    (h : m.notifySuper call = .ok m1) : m1.rows = m.rows := by
  unfold SignedMatrix.notifySuper at h
  cases hl : m.superMatrixLinkage with
  | none => rw [hl] at h; exact Except.noConfusion h
  | some l =>
    rw [hl] at h
    have hM := Except.ok.inj h
    rw [← hM]

theorem RemoveColumn_body_signed (index : Int) (rows : List SignedRow)
    (hs : SignedSortedRows rows) :
    Signed.forEachRow (Signed.removeColumnFromRowShifting index) rows =
      .ok (rows.map (Signed.removedColumnRow index)) := by
  apply forEachRow_spec_signed
  intro row hrow
  obtain ⟨row1, h1, -, h3⟩ := removeColumnFromRowShifting_sorted_signed index row (hs row hrow)
  rw [h1, h3]
  rfl

theorem RemoveColumn_sorted_signed (S : SignedMatrix) (index : Int) (S1 : SignedMatrix)
    (hs : SignedSortedRows S.rows) (h : S.RemoveColumn index = .ok S1) :
    SignedSortedRows S1.rows := by
  unfold SignedMatrix.RemoveColumn at h
  rw [RemoveColumn_body_signed index S.rows hs] at h
  rw [notifySuper_rows_signed _ _ S1 h]
  intro r hr
  obtain ⟨r0, hr0, rfl⟩ := List.mem_map.1 hr
  obtain ⟨row1, -, h2, h3⟩ := removeColumnFromRowShifting_sorted_signed index r0 (hs r0 hr0)
  unfold Signed.removedColumnRow
  rw [← h3]
  exact h2

theorem RemoveColumn_returns_signed (S : SignedMatrix) (L : SparseSubMatrixLinkage)
    (index : Int) (hs : SignedSortedRows S.rows) (hl : S.superMatrixLinkage = some L) :
    ∃ S1, S.RemoveColumn index = .ok S1 ∧
      S1.rows = S.rows.map (Signed.removedColumnRow index) ∧
      ∃ L1, S1.superMatrixLinkage = some L1 := by
  refine ⟨_, by
    simp only [SignedMatrix.RemoveColumn, RemoveColumn_body_signed index S.rows hs,
      SignedMatrix.notifySuper, hl]
    rfl, rfl, _, rfl⟩

/-- On a matrix with a super-matrix linkage and strictly increasing rows, `RemoveColumnsSlow`
returns for every list, indices whose adjusted value is below zero included, and leaves
strictly increasing rows. -/
theorem removeColumnsSlowLoop_returns_signed (oneIndexed : Int) (i : Nat) (columns : List Int)
    (S : SignedMatrix) (L : SparseSubMatrixLinkage) (hs : SignedSortedRows S.rows)
    (hl : S.superMatrixLinkage = some L) :
    ∃ S1, Signed.removeColumnsSlowLoop oneIndexed i columns S = .ok S1 ∧
      SignedSortedRows S1.rows := by
  induction columns generalizing i S L with
  | nil => exact ⟨S, rfl, hs⟩
  | cons c rest ih =>
    obtain ⟨S2, h2, -, L2, hl2⟩ :=
      RemoveColumn_returns_signed S L (c - (i : Int) - oneIndexed) hs hl
    obtain ⟨S1, h1, hs1⟩ := ih (i + 1) S2 L2
      (RemoveColumn_sorted_signed S _ S2 hs h2) hl2
    exact ⟨S1, by simp only [Signed.removeColumnsSlowLoop, h2, h1], hs1⟩

/-! ### The models with non-negative columns are restrictions of the signed ones -/

theorem shiftBack_signedRow (n k : Nat) (r : Row) :
    Signed.shiftBack n k (signedRow r) = Except.map signedRow (shiftBack n k r) := by
  induction n generalizing k r with
  | zero => rfl
  | succ n ih =>
    unfold Signed.shiftBack shiftBack
    have hget : (signedRow r)[k + 1]? = (r[k + 1]?).map (fun e => ((e.1 : Int), e.2)) := by
      simp [signedRow]
    rw [hget]
    cases he : r[k + 1]? with
    | none => rfl
    | some e =>
      simp only [Option.map_some']
      have hlen : (signedRow r).length = r.length := by simp [signedRow]
      rw [hlen]
      by_cases hk : k < r.length
      · rw [if_pos hk, if_pos hk]
        have hset : (signedRow r).set k ((e.1 : Int), e.2) = signedRow (r.set k e) := by
          simp [signedRow, List.map_set]
        rw [hset, ih]
      · rw [if_neg hk, if_neg hk]; rfl

theorem shiftSeekLoop_signedRow (index n j cached : Nat) (r : Row) :
    Signed.shiftSeekLoop (index : Int) n j cached (signedRow r) =
      Except.map (fun p => (signedRow p.1, p.2)) (shiftSeekLoop index n j cached r) := by
  induction n generalizing j cached r with
  | zero => rfl
  | succ n ih =>
    unfold Signed.shiftSeekLoop shiftSeekLoop
    by_cases hj : j < cached
    · rw [if_pos hj, if_pos hj]
      have hget : (signedRow r)[j]? = (r[j]?).map (fun e => ((e.1 : Int), e.2)) := by
        simp [signedRow]
      rw [hget]
      cases he : r[j]? with
      | none => rfl
      | some e =>
        obtain ⟨c, a⟩ := e
        simp only [Option.map_some', Nat.cast_inj]
        by_cases hc : c = index
        · rw [if_pos hc, if_pos hc, shiftBack_signedRow]
          cases hsb : shiftBack (cached - 1 - j) j r with
          | error f => rfl
          | ok row1 =>
            simp only [Except.map]
            rw [ih]
            rfl
        · rw [if_neg hc, if_neg hc, ih]
    · rw [if_neg hj, if_neg hj]; rfl

theorem decrementAbove_signedRow (index k : Nat) (r : Row) :
    Signed.decrementAbove (index : Int) k (signedRow r) =
      Except.map signedRow (decrementAbove index k r) := by
  induction r generalizing k with
  | nil => cases k <;> rfl
  | cons e rest ih =>
    obtain ⟨c, a⟩ := e
    cases k with
    | zero => rfl
    | succ k =>
      have h := ih k
      unfold signedRow at h ⊢
      simp only [List.map_cons, Signed.decrementAbove, decrementAbove, h, Nat.cast_lt]
      cases hd : decrementAbove index k rest with
      | error f => rfl
      | ok rest1 =>
        simp only [Except.map, List.map_cons]
        by_cases hlt : index < c
        · simp only [hlt, if_true]
          rw [Nat.cast_sub (by omega)]
          rfl
        · simp only [hlt, if_false]

theorem removeColumnFromRowShifting_signedRow (index : Nat) (r : Row) :
    Signed.removeColumnFromRowShifting (index : Int) (signedRow r) =
      Except.map signedRow (removeColumnFromRowShifting index r) := by
  unfold Signed.removeColumnFromRowShifting removeColumnFromRowShifting
  have hlen : (signedRow r).length = r.length := by simp [signedRow]
  rw [hlen, shiftSeekLoop_signedRow]
  cases hseek : shiftSeekLoop index r.length 0 r.length r with
  | error f => rfl
  | ok p =>
    obtain ⟨row1, cached⟩ := p
    simp only [Except.map]
    exact decrementAbove_signedRow index cached row1

theorem forEachRow_signedRow (bodyS : SignedRow → Except Fault SignedRow)
    (body : Row → Except Fault Row) (rows : List Row)
    (h : ∀ r, bodyS (signedRow r) = Except.map signedRow (body r)) :
    Signed.forEachRow bodyS (rows.map signedRow) =
      Except.map (fun rs => rs.map signedRow) (forEachRow body rows) := by
  induction rows with
  | nil => rfl
  | cons r rest ih =>
    simp only [List.map_cons, Signed.forEachRow, forEachRow, h r, ih]
    cases hb : body r with
    | error f => rfl
    | ok r1 =>
      simp only [Except.map]
      cases hf : forEachRow body rest with
      | error f => rfl
      | ok rest1 => rfl

/-- On a matrix of the data model and a non-negative index, `RemoveColumn` with `int`
columns does what the model with non-negative columns does. -/
theorem RemoveColumn_signed (M : SparseMatrix) (index : Nat) :
    M.signed.RemoveColumn (index : Int) =
      Except.map SparseMatrix.signed (M.RemoveColumn index) := by
  unfold SignedMatrix.RemoveColumn SparseMatrix.RemoveColumn
  have hrows : M.signed.rows = M.rows.map signedRow := rfl
  rw [hrows, forEachRow_signedRow _ _ M.rows (removeColumnFromRowShifting_signedRow index)]
  cases hf : forEachRow (removeColumnFromRowShifting index) M.rows with
  | error f => rfl
  | ok rows1 =>
    simp only [Except.map, SignedMatrix.notifySuper, SparseMatrix.notifySuper,
      SparseMatrix.signed]
    cases hl : M.superMatrixLinkage with
    | none => rfl
    | some l => rfl

/-- Where the loop of `RemoveColumnsSlow` with non-negative columns returns, the loop with
`int` columns returns the same matrix. -/
theorem removeColumnsSlowLoop_signed (oneIndexed : Int) (i : Nat) (columns : List Int)
    (M M1 : SparseMatrix) (h : removeColumnsSlowLoop oneIndexed i columns M = .ok M1) :
    Signed.removeColumnsSlowLoop oneIndexed i columns M.signed = .ok M1.signed := by
  induction columns generalizing i M with
  | nil =>
    have hM := Except.ok.inj h
    rw [← hM]
    rfl
  | cons c rest ih =>
    unfold removeColumnsSlowLoop at h
    unfold Signed.removeColumnsSlowLoop
    cases hidx : c - (i : Int) - oneIndexed with
    | negSucc k => rw [hidx] at h; exact Except.noConfusion h
    | ofNat index =>
      rw [hidx] at h
      simp only [] at h
      simp only [Int.ofNat_eq_coe]
      rw [RemoveColumn_signed]
      cases hrc : M.RemoveColumn index with
      | error f => rw [hrc] at h; exact Except.noConfusion h
      | ok M2 =>
        rw [hrc] at h
        simp only [Except.map]
        exact ih (i + 1) M2 h

theorem RemoveColumnsSlow_signed (M M1 : SparseMatrix) (columns : List Int) (oneIndexed : Int)
    (h : M.RemoveColumnsSlow columns oneIndexed = .ok M1) :
    M.signed.RemoveColumnsSlow columns oneIndexed = .ok M1.signed :=
  removeColumnsSlowLoop_signed oneIndexed 0 columns M M1 h


/-! ### Growing and filling a matrix with columns of either sign -/

end VegaFEM
